import Mathlib

/-!
# gnparser: output transformer, quality classifier and PEG engine

A shallow embedding of

* `entity/parser/output.go` (`ToOutput`, `qualityWarnings`, `prepareWarnings`),
* `entity/parser/name.go` (canonical forms, normalized value, authorship, words),
* `grammar/grammar.peg.go` (the generated recogniser: `reset`, `parse`, `add`,
  `matchDot` and the rule table),

followed by the properties proved about them.

Conventions.  Go strings are `String`; a Go pointer that the source checks
against `nil` is an `Option`; a pointer that some method dereferences without a
check is the value itself, so that a nil check of it elsewhere always succeeds;
Go slices are `List`s.  A Go `map[K]struct{}` is given by the list of its keys in
the order in which `range` happens to enumerate them.  Code that can panic or
loop returns an `Outcome`.
-/

set_option linter.dupNamespace false

namespace Gnparser

/-! ## Quality warnings (`entity/parser/output.go`) -/

/-- Record `parsed.QualityWarning`.  Package `parsed` is not among the sources;
`output.go` reads the two fields `Quality` (an `int`) and `Warning` (a value it
compares with Go's `<`, the warning's message).  The type `M` of the second
field carries that order. -/
structure parsed.QualityWarning (M : Type) where
  Quality : Int
  Warning : M
deriving DecidableEq, Repr

/-- The closure handed to `sort.Slice` in `prepareWarnings`, as a function of the
two elements `res[i]`, `res[j]`. -/
def prepareWarningsLess {M : Type} [LinearOrder M] (a b : parsed.QualityWarning M) : Bool :=
  if a.Quality > b.Quality then true
  else if a.Quality < b.Quality then false
  else decide (a.Warning < b.Warning)

/-- Go's `sort.Slice(res, less)` (standard library): reorders `res` so that no
element is `less` than one placed before it.  Modelled by insertion sort with the
same comparator. -/
def sortSlice {α : Type} (less : α → α → Bool) (res : List α) : List α :=
  res.insertionSort (fun a b => less b a = false)

/-- Function `prepareWarnings`.  `NewQualityWarning` is the method of that name of
`parsed.Warning` (not among the sources); `ws` lists the keys of the map in the
order the `range` loop visits them. -/
def prepareWarnings {W M : Type} [LinearOrder M]
    (NewQualityWarning : W → parsed.QualityWarning M) (ws : List W) :
    List (parsed.QualityWarning M) :=
  let res := ws.map NewQualityWarning
  sortSlice prepareWarningsLess res

/-- Function `qualityWarnings`. -/
def qualityWarnings {W M : Type} [LinearOrder M]
    (NewQualityWarning : W → parsed.QualityWarning M) (ws : List W) :
    Int × List (parsed.QualityWarning M) :=
  let warns := prepareWarnings NewQualityWarning ws
  let quality : Int :=
    match warns with
    | [] => 1
    | w :: _ => w.Quality
  (quality, warns)

/-- The order in which `prepareWarnings` leaves its result: higher quality first,
then smaller message. -/
def qwLe {M : Type} [LinearOrder M] (a b : parsed.QualityWarning M) : Prop :=
  a.Quality > b.Quality ∨ (a.Quality = b.Quality ∧ a.Warning ≤ b.Warning)

/-- The five warnings used by `output_test.go` ("sorts incoming data
consistently"). -/
inductive TestWarning where
  | YearParensWarn
  | YearCharWarn
  | CharBadWarn
  | YearQuestionWarn
  | TailWarn
deriving DecidableEq, Repr

/-- Quality and message of the five test warnings, as the expected output of
`output_test.go` lists them.  Messages are code point lists, whose lexicographic
order is Go's byte order on UTF-8 strings. -/
def TestWarning.NewQualityWarning : TestWarning → parsed.QualityWarning (List Char)
  | .YearParensWarn => ⟨2, "Year with parentheses".toList⟩
  | .YearCharWarn => ⟨2, "Year with latin character".toList⟩
  | .CharBadWarn => ⟨2, "Non-standard characters in canonical".toList⟩
  | .YearQuestionWarn => ⟨2, "Year with question mark".toList⟩
  | .TailWarn => ⟨3, "Unparsed tail".toList⟩

/-- The input of the test in `output_test.go`. -/
def testWarnings : List TestWarning :=
  [.YearParensWarn, .YearCharWarn, .CharBadWarn, .YearQuestionWarn, .TailWarn]

/-! ## Output records (package `parsed`)

Package `parsed` is not among the sources.  The records below have the fields
that `name.go` and `output.go` read or write, with the types those uses fix. -/

namespace parsed

/-- Record `parsed.Canonical`, as built by `scientificNameNode.Canonical`. -/
structure Canonical where
  Stemmed : String
  Simple : String
  Full : String
deriving DecidableEq, Repr

/-- Record `parsed.Word`: a position span with its verbatim and normalized text. -/
structure Word where
  Verbatim : String
  Normalized : String
  Start : Int
  End : Int
deriving DecidableEq, Repr

/-- Record `parsed.Year`. -/
structure Year where
  Value : String
  IsApproximate : Bool
deriving DecidableEq, Repr

/-- Record `parsed.Authors` (an ex or emend team). -/
structure Authors where
  Authors : List String
  Year : Option Year
deriving DecidableEq, Repr

/-- Record `parsed.AuthGroup`. -/
structure AuthGroup where
  Authors : List String
  Year : Option Year
  ExAuthors : Option parsed.Authors
  EmendAuthors : Option parsed.Authors
deriving DecidableEq, Repr

/-- Record `parsed.Authorship`. -/
structure Authorship where
  Verbatim : String
  Normalized : String
  Authors : List String
  Year : String
  Original : Option AuthGroup
  Combination : Option AuthGroup
deriving DecidableEq, Repr

/-- Record `parsed.Species`. -/
structure Species where
  Genus : String
  Subgenus : String
  Species : String
  Authorship : Option Authorship
deriving DecidableEq, Repr

/-- Record `parsed.InfraspeciesElem`. -/
structure InfraspeciesElem where
  Value : String
  Rank : String
  Authorship : Option Authorship
deriving DecidableEq, Repr

/-- Record `parsed.Infraspecies`. -/
structure Infraspecies where
  Species : Species
  Infraspecies : List InfraspeciesElem
deriving DecidableEq, Repr

/-- Record `parsed.Approximation`. -/
structure Approximation where
  Genus : String
  Species : String
  SpeciesAuthorship : Option Authorship
  ApproxMarker : String
  Ignored : String
deriving DecidableEq, Repr

/-- Record `parsed.Comparison`. -/
structure Comparison where
  Genus : String
  Species : String
  SpeciesAuthorship : Option Authorship
  CompMarker : String
deriving DecidableEq, Repr

/-- Record `parsed.Uninomial`. -/
structure Uninomial where
  Value : String
  Rank : String
  Parent : String
  Authorship : Option Authorship
deriving DecidableEq, Repr

/-- Interface `parsed.Details` with the six implementations `name.go` returns. -/
inductive Details where
  | DetailsHybridFormula (HybridFormula : List Details)
  | DetailsSpecies (Species : Species)
  | DetailsInfraspecies (Infraspecies : Infraspecies)
  | DetailsApproximation (Approximation : Approximation)
  | DetailsComparison (Comparison : Comparison)
  | DetailsUninomial (Uninomial : Uninomial)

/-- Record `parsed.Parsed`, the final output object.  The types `H`, `S`, `B` of
the hybrid, surrogate and bacteria annotations are left open; their Go zero value
is `default`. -/
structure Parsed (M H S B : Type) where
  Parsed : Bool
  ParseQuality : Int
  QualityWarnings : List (parsed.QualityWarning M)
  Verbatim : String
  Normalized : String
  Canonical : Option Canonical
  Cardinality : Int
  Authorship : Option Authorship
  Bacteria : B
  Virus : Bool
  Hybrid : H
  Surrogate : S
  Tail : String
  Details : Option Details
  Words : List Word
  VerbatimID : String
  ParserVersion : String

end parsed

/-! ## Syntax tree nodes (package `parser`)

The node types are declared in a file that is not among the sources; each
structure below has the fields that `name.go` uses. -/

/-- A parsed word: verbatim value, normalized value and position. -/
structure parsedWord where
  Value : String
  NormValue : String
  Pos : parsed.Word
deriving DecidableEq, Repr

/-- Node of a year. -/
structure yearNode where
  Word : parsedWord
  Approximate : Bool
deriving DecidableEq, Repr

/-- Node of one author. -/
structure authorNode where
  Value : String
  Sep : String
  Words : List parsedWord
deriving DecidableEq, Repr

/-- Node of a team of authors with an optional year. -/
structure authorsTeamNode where
  Authors : List authorNode
  Year : Option yearNode
deriving DecidableEq, Repr

/-- Kind of the second team of an authors group. -/
inductive teamType where
  | teamDefault
  | teamEx
  | teamEmend
deriving DecidableEq, Repr

/-- Node of an authors group: a first team and an optional ex or emend team.
`Team2Word` is read only when `Team2` is present. -/
structure authorsGroupNode where
  Team1 : Option authorsTeamNode
  Team2Type : teamType
  Team2Word : parsedWord
  Team2 : Option authorsTeamNode
  Parens : Bool
deriving DecidableEq, Repr

/-- Node of an authorship: original and combination authors. -/
structure authorshipNode where
  Verbatim : String
  OriginalAuthors : Option authorsGroupNode
  CombinationAuthors : Option authorsGroupNode
deriving DecidableEq, Repr

/-- Node of a species epithet. -/
structure spEpithetNode where
  Word : parsedWord
  Authorship : Option authorshipNode
deriving DecidableEq, Repr

/-- Node of an infraspecific rank; `canonical`, `value` and `words` read its
`Word` without a nil check. -/
structure rankNode where
  Word : parsedWord
deriving DecidableEq, Repr

/-- Node of an infraspecific epithet. -/
structure infraspEpithetNode where
  Word : parsedWord
  Rank : Option rankNode
  Authorship : Option authorshipNode
deriving DecidableEq, Repr

/-- Node of a species name, with its infraspecific epithets. -/
structure speciesNode where
  Genus : parsedWord
  Subgenus : Option parsedWord
  SpEpithet : spEpithetNode
  Infraspecies : List infraspEpithetNode
deriving DecidableEq, Repr

/-- Node of a named species hybrid. -/
structure namedSpeciesHybridNode where
  Genus : parsedWord
  Comparison : Option parsedWord
  Hybrid : parsedWord
  SpEpithet : spEpithetNode
  Infraspecies : List infraspEpithetNode
deriving DecidableEq, Repr

/-- Node of an approximation (`sp.`, `aff.`, ...).  `Approx` is read without a
nil check by `details`. -/
structure approxNode where
  Genus : parsedWord
  SpEpithet : Option spEpithetNode
  Approx : parsedWord
  Ignored : String
deriving DecidableEq, Repr

/-- Node of a comparison (`cf.`). -/
structure comparisonNode where
  Genus : parsedWord
  Comparison : parsedWord
  SpEpithet : Option spEpithetNode
deriving DecidableEq, Repr

/-- Node of a uninomial. -/
structure uninomialNode where
  Word : parsedWord
  Authorship : Option authorshipNode
deriving DecidableEq, Repr

/-- Node of a uninomial combination: parent, rank, child. -/
structure uninomialComboNode where
  Uninomial1 : uninomialNode
  Rank : rankNode
  Uninomial2 : uninomialNode
deriving DecidableEq, Repr

/-- One element of a hybrid formula: the hybrid sign and the name after it, if
any.  `N` is the type of names. -/
structure hybridElement (N : Type) where
  HybridChar : parsedWord
  Species : Option N

/-- Interface `name` (the type of `scientificNameNode.nameData`) with the eight
node types that `name.go` implements it for.  A value holds a node, never a nil
pointer of a node type. -/
inductive name where
  | hybridFormulaNode (FirstSpecies : name) (HybridElements : List (hybridElement name))
  | namedGenusHybridNode (Hybrid : parsedWord) (nameData : name)
  | namedSpeciesHybridNode (nh : Gnparser.namedSpeciesHybridNode)
  | approxNode (apr : Gnparser.approxNode)
  | comparisonNode (comp : Gnparser.comparisonNode)
  | speciesNode (sp : Gnparser.speciesNode)
  | uninomialNode (u : Gnparser.uninomialNode)
  | uninomialComboNode (u : Gnparser.uninomialComboNode)

/-- Record `scientificNameNode`, the root of the syntax tree.  `warnings` lists
the keys of the warning map; `H`, `S`, `B` are the annotation types of
`parsed.Parsed`. -/
structure scientificNameNode (W H S B : Type) where
  nameData : Option name
  verbatim : String
  verbatimID : String
  cardinality : Int
  virus : Bool
  hybrid : H
  surrogate : S
  bacteria : B
  tail : String
  parserVersion : String
  warnings : List W

/-- Record `canonical` of `name.go`: the simple and the ranked canonical form. -/
structure canonical where
  Value : String
  ValueRanked : String
deriving DecidableEq, Repr

/-! ## Canonical forms, values, words (`entity/parser/name.go`) -/

/-- Modelled from the spec: `str.JoinStrings` (package `str` is not among the
sources) joins two strings with a separator and skips an empty part, so that
canonical forms are words "joined by single spaces" with nothing added for an
absent part. -/
def JoinStrings (s1 s2 sep : String) : String :=
  if s1 = "" then s2
  else if s2 = "" then s1
  else s1 ++ sep ++ s2

/-- Go's `fmt.Sprintf("(%s)", s)`. -/
def sprintfParens (s : String) : String := "(" ++ s ++ ")"

/-- Function `appendCanonical`. -/
def appendCanonical (c1 c2 : canonical) (sep : String) : canonical :=
  { Value := JoinStrings c1.Value c2.Value sep
    ValueRanked := JoinStrings c1.ValueRanked c2.ValueRanked sep }

/-- The three assignments `wrd = w.Pos; wrd.Verbatim = w.Value;
wrd.Normalized = w.NormValue` that `name.go` repeats for each word. -/
def parsedWord.word (w : parsedWord) : parsed.Word :=
  { w.Pos with Verbatim := w.Value, Normalized := w.NormValue }

/-- Method `authorNode.words`. -/
def authorNode.words (aun : authorNode) : List parsed.Word :=
  aun.Words.map parsedWord.word

/-- Method `authorsTeamNode.words`; the receiver may be nil. -/
def authorsTeamNode.words : Option authorsTeamNode → List parsed.Word
  | none => []
  | some aut =>
    let res := aut.Authors.foldl (fun res v => res ++ v.words) []
    match aut.Year with
    | some yr => res ++ [yr.Word.word]
    | none => res

/-- Method `authorsTeamNode.details`; the receiver may be nil. -/
def authorsTeamNode.details : Option authorsTeamNode → List String × Option parsed.Year
  | none => ([], none)
  | some team =>
    let aus := team.Authors.map (fun v => v.Value)
    match team.Year with
    | none => (aus, none)
    | some yr => (aus, some { Value := yr.Word.NormValue, IsApproximate := yr.Approximate })

/-- Method `authorsTeamNode.value`; the receiver may be nil. -/
def authorsTeamNode.value : Option authorsTeamNode → String
  | none => ""
  | some aut =>
    match aut.Authors with
    | [] => ""
    | a :: rest =>
      let value := (rest.foldl
        (fun (acc : String × String) v => (JoinStrings acc.1 v.Value acc.2, v.Sep))
        (a.Value, a.Sep)).1
      match aut.Year with
      | none => value
      | some year =>
        let yr := year.Word.NormValue
        let yr := if year.Approximate then sprintfParens yr else yr
        JoinStrings value yr " "

/-- Method `authorsGroupNode.words`; the receiver may be nil. -/
def authorsGroupNode.words : Option authorsGroupNode → List parsed.Word
  | none => []
  | some ag => authorsTeamNode.words ag.Team1 ++ authorsTeamNode.words ag.Team2

/-- Method `authorsGroupNode.value`; the receiver may be nil. -/
def authorsGroupNode.value : Option authorsGroupNode → String
  | none => ""
  | some ag =>
    match ag.Team1 with
    | none => ""
    | some team1 =>
      let v := authorsTeamNode.value (some team1)
      match ag.Team2 with
      | none => v
      | some team2 =>
        v ++ " " ++ ag.Team2Word.NormValue ++ " " ++ authorsTeamNode.value (some team2)

/-- Method `authorshipNode.value`; the receiver may be nil. -/
def authorshipNode.value : Option authorshipNode → String
  | none => ""
  | some a =>
    match a.OriginalAuthors with
    | none => ""
    | some orig =>
      let v := authorsGroupNode.value (some orig)
      let v := if orig.Parens then sprintfParens v else v
      match a.CombinationAuthors with
      | none => v
      | some comb => v ++ " " ++ authorsGroupNode.value (some comb)

/-- Method `authorshipNode.words`; the receiver may be nil. -/
def authorshipNode.words : Option authorshipNode → List parsed.Word
  | none => []
  | some a => authorsGroupNode.words a.OriginalAuthors ++ authorsGroupNode.words a.CombinationAuthors

/-- Function `authGroupDetail`; it never returns nil. -/
def authGroupDetail : Option authorsGroupNode → parsed.AuthGroup
  | none => { Authors := [], Year := none, ExAuthors := none, EmendAuthors := none }
  | some ag =>
    let (aus, yr) := authorsTeamNode.details ag.Team1
    let ago : parsed.AuthGroup :=
      { Authors := aus, Year := yr, ExAuthors := none, EmendAuthors := none }
    match ag.Team2 with
    | none => ago
    | some team2 =>
      let (aus, yr) := authorsTeamNode.details (some team2)
      match ag.Team2Type with
      | .teamEx => { ago with ExAuthors := some { Authors := aus, Year := yr } }
      | .teamEmend => { ago with EmendAuthors := some { Authors := aus, Year := yr } }
      | .teamDefault => ago

/-- Method `authorshipNode.details`; the receiver may be nil. -/
def authorshipNode.details : Option authorshipNode → Option parsed.Authorship
  | none => none
  | some au =>
    let original : Option parsed.AuthGroup := some (authGroupDetail au.OriginalAuthors)
    let combination : Option parsed.AuthGroup :=
      match au.CombinationAuthors with
      | some comb => some (authGroupDetail (some comb))
      | none => none
    let yr : String :=
      match original with
      | some o =>
        match o.Year with
        | some y => if y.IsApproximate then sprintfParens y.Value else y.Value
        | none => ""
      | none => ""
    let aus : List String :=
      match original with
      | some o => o.Authors
      | none => []
    let aus : List String :=
      match combination with
      | some c => aus ++ c.Authors
      | none => aus
    some { Verbatim := au.Verbatim, Normalized := authorshipNode.value (some au),
           Authors := aus, Year := yr, Original := original, Combination := combination }

/-- Method `spEpithetNode.words`. -/
def spEpithetNode.words (sep : spEpithetNode) : List parsed.Word :=
  [sep.Word.word] ++ authorshipNode.words sep.Authorship

/-- Method `spEpithetNode.value`. -/
def spEpithetNode.value (sep : spEpithetNode) : String :=
  JoinStrings sep.Word.NormValue (authorshipNode.value sep.Authorship) " "

/-- Method `spEpithetNode.canonical`. -/
def spEpithetNode.canonical (sep : spEpithetNode) : canonical :=
  { Value := sep.Word.NormValue, ValueRanked := sep.Word.NormValue }

/-- Method `infraspEpithetNode.words`. -/
def infraspEpithetNode.words (inf : infraspEpithetNode) : List parsed.Word :=
  let words : List parsed.Word :=
    match inf.Rank with
    | some rank => if rank.Word.Pos.Start ≠ 0 then [rank.Word.word] else []
    | none => []
  let words := words ++ [inf.Word.word]
  match inf.Authorship with
  | some au => words ++ authorshipNode.words (some au)
  | none => words

/-- Method `infraspEpithetNode.value`. -/
def infraspEpithetNode.value (inf : infraspEpithetNode) : String :=
  let val := inf.Word.NormValue
  let rank :=
    match inf.Rank with
    | some r => r.Word.NormValue
    | none => ""
  let au := authorshipNode.value inf.Authorship
  let res := JoinStrings rank val " "
  JoinStrings res au " "

/-- Method `infraspEpithetNode.canonical`. -/
def infraspEpithetNode.canonical (inf : infraspEpithetNode) : canonical :=
  let val := inf.Word.NormValue
  let rank :=
    match inf.Rank with
    | some r => r.Word.NormValue
    | none => ""
  let rankedVal := JoinStrings rank val " "
  { Value := val, ValueRanked := rankedVal }

/-- Method `infraspEpithetNode.details`. -/
def infraspEpithetNode.details (inf : infraspEpithetNode) : parsed.InfraspeciesElem :=
  let rank :=
    match inf.Rank with
    | some r => r.Word.NormValue
    | none => ""
  { Value := inf.Word.NormValue, Rank := rank,
    Authorship := authorshipNode.details inf.Authorship }

/-- Method `speciesNode.words`. -/
def speciesNode.words (sp : speciesNode) : List parsed.Word :=
  let words : List parsed.Word := if sp.Genus.Pos.End ≠ 0 then [sp.Genus.word] else []
  let words :=
    match sp.Subgenus with
    | some sg => words ++ [sg.word]
    | none => words
  let words := words ++ sp.SpEpithet.words
  sp.Infraspecies.foldl (fun words v => words ++ v.words) words

/-- Method `speciesNode.value`. -/
def speciesNode.value (sp : speciesNode) : String :=
  let gen := sp.Genus.NormValue
  let sgen :=
    match sp.Subgenus with
    | some sg => "(" ++ sg.NormValue ++ ")"
    | none => ""
  let res := JoinStrings gen sgen " "
  let res := JoinStrings res sp.SpEpithet.value " "
  sp.Infraspecies.foldl (fun res v => JoinStrings res v.value " ") res

/-- Method `speciesNode.canonical`. -/
def speciesNode.canonical (sp : speciesNode) : canonical :=
  let spPart := JoinStrings sp.Genus.NormValue sp.SpEpithet.Word.NormValue " "
  let c : Gnparser.canonical := { Value := spPart, ValueRanked := spPart }
  sp.Infraspecies.foldl (fun c v => appendCanonical c v.canonical " ") c

/-- Method `speciesNode.lastAuthorship`. -/
def speciesNode.lastAuthorship (sp : speciesNode) : Option authorshipNode :=
  match sp.Infraspecies.getLast? with
  | none => sp.SpEpithet.Authorship
  | some last => last.Authorship

/-- Method `speciesNode.details`. -/
def speciesNode.details (sp : speciesNode) : parsed.Details :=
  let so : parsed.Species :=
    { Genus := sp.Genus.NormValue
      Species := sp.SpEpithet.Word.NormValue
      Subgenus := ""
      Authorship := none }
  let so :=
    match sp.SpEpithet.Authorship with
    | some au => { so with Authorship := authorshipNode.details (some au) }
    | none => so
  let so :=
    match sp.Subgenus with
    | some sg => { so with Subgenus := sg.NormValue }
    | none => so
  if sp.Infraspecies.length = 0 then .DetailsSpecies so
  else
    let infs := sp.Infraspecies.map infraspEpithetNode.details
    .DetailsInfraspecies { Species := so, Infraspecies := infs }

/-- Method `namedSpeciesHybridNode.words`. -/
def namedSpeciesHybridNode.words (nh : namedSpeciesHybridNode) : List parsed.Word :=
  let words : List parsed.Word := [nh.Genus.word]
  let words :=
    match nh.Comparison with
    | some cmp => words ++ [cmp.word]
    | none => words
  let words := words ++ [nh.Hybrid.word]
  let words := words ++ nh.SpEpithet.words
  nh.Infraspecies.foldl (fun words v => words ++ v.words) words

/-- Method `namedSpeciesHybridNode.value`. -/
def namedSpeciesHybridNode.value (nh : namedSpeciesHybridNode) : String :=
  let res := nh.Genus.NormValue
  let res := res ++ " × " ++ nh.SpEpithet.value
  nh.Infraspecies.foldl (fun res v => JoinStrings res v.value " ") res

/-- Method `namedSpeciesHybridNode.canonical`. -/
def namedSpeciesHybridNode.canonical (nh : namedSpeciesHybridNode) : canonical :=
  let g := nh.Genus.NormValue
  let c : Gnparser.canonical := { Value := g, ValueRanked := g }
  let hCan : Gnparser.canonical := { Value := "", ValueRanked := "×" }
  let c := appendCanonical c hCan " "
  let cSp := nh.SpEpithet.canonical
  let c := appendCanonical c cSp " "
  nh.Infraspecies.foldl (fun c v => appendCanonical c v.canonical " ") c

/-- Method `namedSpeciesHybridNode.lastAuthorship`. -/
def namedSpeciesHybridNode.lastAuthorship (nh : namedSpeciesHybridNode) :
    Option authorshipNode :=
  match nh.Infraspecies.getLast? with
  | none => nh.SpEpithet.Authorship
  | some last => last.Authorship

/-- Method `namedSpeciesHybridNode.details`. -/
def namedSpeciesHybridNode.details (nh : namedSpeciesHybridNode) : parsed.Details :=
  let g := nh.Genus.NormValue
  let so : parsed.Species :=
    { Genus := g, Species := nh.SpEpithet.value, Subgenus := "", Authorship := none }
  let so :=
    match nh.SpEpithet.Authorship with
    | some au => { so with Authorship := authorshipNode.details (some au) }
    | none => so
  if nh.Infraspecies.length = 0 then .DetailsSpecies so
  else
    let infs := nh.Infraspecies.map infraspEpithetNode.details
    .DetailsInfraspecies { Species := so, Infraspecies := infs }

/-- Method `approxNode.words`, on a non-nil receiver. -/
def approxNode.words (apr : approxNode) : List parsed.Word :=
  let words : List parsed.Word := [apr.Genus.word]
  let words :=
    match apr.SpEpithet with
    | some sep => words ++ sep.words
    | none => words
  words ++ [apr.Approx.word]

/-- Method `approxNode.value`, on a non-nil receiver. -/
def approxNode.value (apr : approxNode) : String :=
  let val := apr.Genus.NormValue
  match apr.SpEpithet with
  | some sep => JoinStrings val sep.value " "
  | none => val

/-- Method `approxNode.canonical`, on a non-nil receiver. -/
def approxNode.canonical (apr : approxNode) : canonical :=
  let c : Gnparser.canonical := { Value := apr.Genus.NormValue, ValueRanked := apr.Genus.NormValue }
  match apr.SpEpithet with
  | some sep => appendCanonical c sep.canonical " "
  | none => c

/-- Method `approxNode.lastAuthorship`, on a non-nil receiver. -/
def approxNode.lastAuthorship (apr : approxNode) : Option authorshipNode :=
  match apr.SpEpithet with
  | none => none
  | some sep => sep.Authorship

/-- Method `approxNode.details`, on a non-nil receiver. -/
def approxNode.details (apr : approxNode) : parsed.Details :=
  let ao : parsed.Approximation :=
    { Genus := apr.Genus.NormValue
      ApproxMarker := apr.Approx.NormValue
      Ignored := apr.Ignored
      Species := ""
      SpeciesAuthorship := none }
  match apr.SpEpithet with
  | none => .DetailsApproximation ao
  | some sep =>
    let ao := { ao with Species := sep.Word.NormValue }
    match sep.Authorship with
    | some au =>
      .DetailsApproximation { ao with SpeciesAuthorship := authorshipNode.details (some au) }
    | none => .DetailsApproximation ao

/-- Method `comparisonNode.words`, on a non-nil receiver. -/
def comparisonNode.words (comp : comparisonNode) : List parsed.Word :=
  let words : List parsed.Word := [comp.Genus.word]
  let words := words ++ [comp.Comparison.word]
  match comp.SpEpithet with
  | some sep => words ++ sep.words
  | none => words

/-- Method `comparisonNode.value`, on a non-nil receiver. -/
def comparisonNode.value (comp : comparisonNode) : String :=
  let val := comp.Genus.NormValue
  let val := JoinStrings val comp.Comparison.NormValue " "
  match comp.SpEpithet with
  | some sep => JoinStrings val sep.value " "
  | none => val

/-- Method `comparisonNode.canonical`, on a non-nil receiver. -/
def comparisonNode.canonical (comp : comparisonNode) : canonical :=
  let gen := comp.Genus.NormValue
  let c : Gnparser.canonical := { Value := gen, ValueRanked := gen }
  match comp.SpEpithet with
  | some sep => appendCanonical c sep.canonical " "
  | none => c

/-- Method `comparisonNode.lastAuthorship`, on a non-nil receiver. -/
def comparisonNode.lastAuthorship (comp : comparisonNode) : Option authorshipNode :=
  match comp.SpEpithet with
  | none => none
  | some sep => sep.Authorship

/-- Method `comparisonNode.details`, on a non-nil receiver. -/
def comparisonNode.details (comp : comparisonNode) : parsed.Details :=
  let co : parsed.Comparison :=
    { Genus := comp.Genus.NormValue
      CompMarker := comp.Comparison.NormValue
      Species := ""
      SpeciesAuthorship := none }
  match comp.SpEpithet with
  | none => .DetailsComparison co
  | some sep =>
    let co := { co with Species := sep.value }
    match sep.Authorship with
    | some au =>
      .DetailsComparison { co with SpeciesAuthorship := authorshipNode.details (some au) }
    | none => .DetailsComparison co

/-- Method `uninomialNode.words`. -/
def uninomialNode.words (u : uninomialNode) : List parsed.Word :=
  [u.Word.word] ++ authorshipNode.words u.Authorship

/-- Method `uninomialNode.value`. -/
def uninomialNode.value (u : uninomialNode) : String :=
  JoinStrings u.Word.NormValue (authorshipNode.value u.Authorship) " "

/-- Method `uninomialNode.canonical`. -/
def uninomialNode.canonical (u : uninomialNode) : canonical :=
  { Value := u.Word.NormValue, ValueRanked := u.Word.NormValue }

/-- Method `uninomialNode.lastAuthorship`. -/
def uninomialNode.lastAuthorship (u : uninomialNode) : Option authorshipNode :=
  u.Authorship

/-- Method `uninomialNode.details`. -/
def uninomialNode.details (u : uninomialNode) : parsed.Details :=
  let ud : parsed.Uninomial :=
    { Value := u.Word.NormValue, Rank := "", Parent := "", Authorship := none }
  match u.Authorship with
  | some au => .DetailsUninomial { ud with Authorship := authorshipNode.details (some au) }
  | none => .DetailsUninomial ud

/-- Method `uninomialComboNode.words`. -/
def uninomialComboNode.words (u : uninomialComboNode) : List parsed.Word :=
  let words : List parsed.Word := [u.Uninomial1.Word.word]
  let words := words ++ authorshipNode.words u.Uninomial1.Authorship
  let words := if u.Rank.Word.Pos.Start ≠ 0 then words ++ [u.Rank.Word.word] else words
  let words := words ++ [u.Uninomial2.Word.word]
  words ++ authorshipNode.words u.Uninomial2.Authorship

/-- Method `uninomialComboNode.value`. -/
def uninomialComboNode.value (u : uninomialComboNode) : String :=
  let vl := JoinStrings u.Uninomial1.Word.NormValue u.Rank.Word.NormValue " "
  let tail := JoinStrings u.Uninomial2.Word.NormValue
    (authorshipNode.value u.Uninomial2.Authorship) " "
  JoinStrings vl tail " "

/-- Method `uninomialComboNode.canonical`. -/
def uninomialComboNode.canonical (u : uninomialComboNode) : canonical :=
  let ranked := JoinStrings u.Uninomial1.Word.NormValue u.Rank.Word.NormValue " "
  let ranked := JoinStrings ranked u.Uninomial2.Word.NormValue " "
  { Value := u.Uninomial2.Word.NormValue, ValueRanked := ranked }

/-- Method `uninomialComboNode.lastAuthorship`. -/
def uninomialComboNode.lastAuthorship (u : uninomialComboNode) : Option authorshipNode :=
  u.Uninomial2.Authorship

/-- Method `uninomialComboNode.details`. -/
def uninomialComboNode.details (u : uninomialComboNode) : parsed.Details :=
  let ud : parsed.Uninomial :=
    { Value := u.Uninomial2.Word.NormValue
      Rank := u.Rank.Word.NormValue
      Parent := u.Uninomial1.Word.NormValue
      Authorship := none }
  match u.Uninomial2.Authorship with
  | some au => .DetailsUninomial { ud with Authorship := authorshipNode.details (some au) }
  | none => .DetailsUninomial ud

mutual
/-- Method `words` of interface `name`: dispatch on the node type; the two
recursive node types (`hybridFormulaNode`, `namedGenusHybridNode`) are given
here. -/
def name.words : name → List parsed.Word
  | .hybridFormulaNode FirstSpecies HybridElements =>
    hybridFormulaNode.wordsLoop (name.words FirstSpecies) HybridElements
  | .namedGenusHybridNode Hybrid nameData => [Hybrid.Pos] ++ name.words nameData
  | .namedSpeciesHybridNode nh => nh.words
  | .approxNode apr => apr.words
  | .comparisonNode comp => comp.words
  | .speciesNode sp => sp.words
  | .uninomialNode u => u.words
  | .uninomialComboNode u => u.words
/-- The `range nf.HybridElements` loop of `hybridFormulaNode.words`. -/
def hybridFormulaNode.wordsLoop (words : List parsed.Word) :
    List (hybridElement name) → List parsed.Word
  | [] => words
  | ⟨HybridChar, none⟩ :: rest => hybridFormulaNode.wordsLoop (words ++ [HybridChar.Pos]) rest
  | ⟨HybridChar, some Species⟩ :: rest =>
    hybridFormulaNode.wordsLoop (words ++ [HybridChar.Pos] ++ name.words Species) rest
end

mutual
/-- Method `value` of interface `name`. -/
def name.value : name → String
  | .hybridFormulaNode FirstSpecies HybridElements =>
    hybridFormulaNode.valueLoop (name.value FirstSpecies) HybridElements
  | .namedGenusHybridNode _ nameData => "× " ++ name.value nameData
  | .namedSpeciesHybridNode nh => nh.value
  | .approxNode apr => apr.value
  | .comparisonNode comp => comp.value
  | .speciesNode sp => sp.value
  | .uninomialNode u => u.value
  | .uninomialComboNode u => u.value
/-- The `range nf.HybridElements` loop of `hybridFormulaNode.value`. -/
def hybridFormulaNode.valueLoop (val : String) : List (hybridElement name) → String
  | [] => val
  | ⟨HybridChar, none⟩ :: rest =>
    hybridFormulaNode.valueLoop (JoinStrings val HybridChar.Value " ") rest
  | ⟨HybridChar, some Species⟩ :: rest =>
    hybridFormulaNode.valueLoop
      (JoinStrings (JoinStrings val HybridChar.Value " ") (name.value Species) " ") rest
end

mutual
/-- Method `canonical` of interface `name`. -/
def name.canonical : name → canonical
  | .hybridFormulaNode FirstSpecies HybridElements =>
    hybridFormulaNode.canonicalLoop (name.canonical FirstSpecies) HybridElements
  | .namedGenusHybridNode _ nameData =>
    appendCanonical { Value := "", ValueRanked := "×" } (name.canonical nameData) " "
  | .namedSpeciesHybridNode nh => nh.canonical
  | .approxNode apr => apr.canonical
  | .comparisonNode comp => comp.canonical
  | .speciesNode sp => sp.canonical
  | .uninomialNode u => u.canonical
  | .uninomialComboNode u => u.canonical
/-- The `range nf.HybridElements` loop of `hybridFormulaNode.canonical`. -/
def hybridFormulaNode.canonicalLoop (c : canonical) : List (hybridElement name) → canonical
  | [] => c
  | ⟨HybridChar, none⟩ :: rest =>
    hybridFormulaNode.canonicalLoop
      (appendCanonical c
        { Value := HybridChar.NormValue, ValueRanked := HybridChar.NormValue } " ") rest
  | ⟨HybridChar, some Species⟩ :: rest =>
    hybridFormulaNode.canonicalLoop
      (appendCanonical
        (appendCanonical c
          { Value := HybridChar.NormValue, ValueRanked := HybridChar.NormValue } " ")
        (name.canonical Species) " ") rest
end

/-- Method `lastAuthorship` of interface `name`. -/
def name.lastAuthorship : name → Option authorshipNode
  | .hybridFormulaNode _ _ => none
  | .namedGenusHybridNode _ nameData => name.lastAuthorship nameData
  | .namedSpeciesHybridNode nh => nh.lastAuthorship
  | .approxNode apr => apr.lastAuthorship
  | .comparisonNode comp => comp.lastAuthorship
  | .speciesNode sp => sp.lastAuthorship
  | .uninomialNode u => u.lastAuthorship
  | .uninomialComboNode u => u.lastAuthorship

mutual
/-- Method `details` of interface `name`. -/
def name.details : name → parsed.Details
  | .hybridFormulaNode FirstSpecies HybridElements =>
    .DetailsHybridFormula
      (hybridFormulaNode.detailsLoop [name.details FirstSpecies] HybridElements)
  | .namedGenusHybridNode _ nameData => name.details nameData
  | .namedSpeciesHybridNode nh => nh.details
  | .approxNode apr => apr.details
  | .comparisonNode comp => comp.details
  | .speciesNode sp => sp.details
  | .uninomialNode u => u.details
  | .uninomialComboNode u => u.details
/-- The `range nf.HybridElements` loop of `hybridFormulaNode.details`. -/
def hybridFormulaNode.detailsLoop (dets : List parsed.Details) :
    List (hybridElement name) → List parsed.Details
  | [] => dets
  | ⟨_, none⟩ :: rest => hybridFormulaNode.detailsLoop dets rest
  | ⟨_, some Species⟩ :: rest =>
    hybridFormulaNode.detailsLoop (dets ++ [name.details Species]) rest
end

/-! ## The final output (`entity/parser/output.go`, head of `name.go`)

`StemCanonical` stands for `stemmer.StemCanonical` and `NewQualityWarning` for the
method of `parsed.Warning`; neither package is among the sources. -/

/-- Method `scientificNameNode.Words`.  The Go method calls `words` on the name
data without a nil check and panics when there is none; `ToOutput` reaches it only
with name data present.  The model returns no words where the method panics. -/
def scientificNameNode.Words {W H S B : Type} (sn : scientificNameNode W H S B) :
    List parsed.Word :=
  match sn.nameData with
  | some nameData => nameData.words
  | none => []

/-- Method `scientificNameNode.Normalized`. -/
def scientificNameNode.Normalized {W H S B : Type} (sn : scientificNameNode W H S B) :
    String :=
  match sn.nameData with
  | none => ""
  | some nameData => nameData.value

/-- Method `scientificNameNode.Canonical`. -/
def scientificNameNode.Canonical {W H S B : Type} (StemCanonical : String → String)
    (sn : scientificNameNode W H S B) : Option parsed.Canonical :=
  match sn.nameData with
  | none => none
  | some nameData =>
    let c := nameData.canonical
    some { Stemmed := StemCanonical c.Value, Simple := c.Value, Full := c.ValueRanked }

/-- Method `scientificNameNode.Details`. -/
def scientificNameNode.Details {W H S B : Type} (sn : scientificNameNode W H S B) :
    Option parsed.Details :=
  match sn.nameData with
  | none => none
  | some nameData => some nameData.details

/-- Method `scientificNameNode.LastAuthorship`. -/
def scientificNameNode.LastAuthorship {W H S B : Type} (sn : scientificNameNode W H S B)
    (withDetails : Bool) : Option parsed.Authorship :=
  match sn.nameData with
  | none => none
  | some nameData =>
    match nameData.lastAuthorship with
    | none => none
    | some an =>
      match authorshipNode.details (some an) with
      | none => none
      | some res =>
        if !withDetails then some { res with Original := none, Combination := none }
        else some res

/-- Method `scientificNameNode.ToOutput`.  Fields that the Go composite literal
leaves out hold their zero value. -/
def scientificNameNode.ToOutput {W M H S B : Type} [LinearOrder M]
    [Inhabited H] [Inhabited S] [Inhabited B]
    (StemCanonical : String → String) (NewQualityWarning : W → parsed.QualityWarning M)
    (sn : scientificNameNode W H S B) (withDetails : Bool) : parsed.Parsed M H S B :=
  let res : parsed.Parsed M H S B :=
    { Verbatim := sn.verbatim
      Canonical := sn.Canonical StemCanonical
      Virus := sn.virus
      VerbatimID := sn.verbatimID
      ParserVersion := sn.parserVersion
      Parsed := false
      ParseQuality := 0
      QualityWarnings := []
      Normalized := ""
      Cardinality := 0
      Authorship := none
      Bacteria := default
      Hybrid := default
      Surrogate := default
      Tail := ""
      Details := none
      Words := [] }
  if res.Canonical.isNone then res
  else
    let qw := qualityWarnings NewQualityWarning sn.warnings
    let res :=
      { res with
        Parsed := true
        ParseQuality := qw.1
        QualityWarnings := qw.2
        Normalized := sn.Normalized
        Cardinality := sn.cardinality
        Authorship := sn.LastAuthorship withDetails
        Hybrid := sn.hybrid
        Surrogate := sn.surrogate
        Bacteria := sn.bacteria
        Tail := sn.tail }
    if withDetails then { res with Details := sn.Details, Words := sn.Words }
    else res

/-- Words joined by single spaces (the reading of "joined by single spaces" used
to state the canonical forms). -/
def joinWords : List String → String
  | [] => ""
  | [w] => w
  | w :: w' :: ws => w ++ " " ++ joinWords (w' :: ws)

/-- A node as the parser leaves it when the grammar rejects `SomeRandomText123`
(scenario 7 of the specification): no name data. -/
def unparsedNode : scientificNameNode TestWarning (Option String) (Option String) (Option String) :=
  { nameData := none
    verbatim := "SomeRandomText123"
    verbatimID := ""
    cardinality := 0
    virus := false
    hybrid := none
    surrogate := none
    bacteria := none
    tail := ""
    parserVersion := "test_version"
    warnings := [] }

/-- A node without name data that carries a surrogate annotation and the virus
flag. -/
def shortCircuitedNode :
    scientificNameNode TestWarning (Option String) (Option String) (Option String) :=
  { nameData := none
    verbatim := "BOLD:AAA1234"
    verbatimID := ""
    cardinality := 0
    virus := true
    hybrid := none
    surrogate := some "SURROGATE"
    bacteria := none
    tail := ""
    parserVersion := "test_version"
    warnings := [] }

/-- The word `w` at runes `[b, e)`, normalized to itself. -/
def mkWord (w : String) (b e : Int) : parsedWord :=
  { Value := w, NormValue := w, Pos := { Verbatim := "", Normalized := "", Start := b, End := e } }

/-- The species node of `Aus bus var. cus` (scenario 3 of the specification,
without its authorship). -/
def ausBusVarCus : speciesNode :=
  { Genus := mkWord "Aus" 0 3
    Subgenus := none
    SpEpithet := { Word := mkWord "bus" 4 7, Authorship := none }
    Infraspecies :=
      [{ Word := mkWord "cus" 13 16, Rank := some { Word := mkWord "var." 8 12 },
         Authorship := none }] }

/-- A parsed node holding `ausBusVarCus`. -/
def parsedNode : scientificNameNode TestWarning (Option String) (Option String) (Option String) :=
  { nameData := some (.speciesNode ausBusVarCus)
    verbatim := "Aus bus var. cus"
    verbatimID := ""
    cardinality := 3
    virus := false
    hybrid := none
    surrogate := none
    bacteria := none
    tail := ""
    parserVersion := "test_version"
    warnings := [] }

/-! ## The PEG engine (`grammar/grammar.peg.go`)

Positions and token indices are `uint32` in the source.  A position never exceeds
the length of the rune buffer and a token index never exceeds the number of
tokens written, so they are natural numbers here. -/

/-- Constant `endSymbol`, the sentinel after the last rune: one more than the
largest code point. -/
def endSymbol : Nat := 1114112

/-- The rule types of the grammar (`pegRule`), in the order of the Go constants. -/
inductive pegRule where
  | ruleUnknown
  | ruleSciName
  | ruleTail
  | ruleName
  | ruleHybridFormula
  | ruleHybridFormulaFull
  | ruleHybridFormulaPart
  | ruleNamedHybrid
  | ruleNamedSpeciesHybrid
  | ruleNamedGenusHybrid
  | ruleSingleName
  | ruleNameUninomial
  | ruleNameApprox
  | ruleNameComp
  | ruleNameSpecies
  | ruleGenusWord
  | ruleInfraspGroup
  | ruleInfraspEpithet
  | ruleSpeciesEpithet
  | ruleComparison
  | ruleRank
  | ruleRankOtherUncommon
  | ruleRankOther
  | ruleRankVar
  | ruleRankForma
  | ruleRankSsp
  | ruleSubGenusOrSuperspecies
  | ruleSubGenus
  | ruleUninomialCombo
  | ruleUninomialCombo1
  | ruleUninomialCombo2
  | ruleRankUninomial
  | ruleUninomial
  | ruleUninomialWord
  | ruleAbbrGenus
  | ruleCapWord
  | ruleCapWord1
  | ruleCapWord2
  | ruleTwoLetterGenus
  | ruleWord
  | ruleWord1
  | ruleWordStartsWithDigit
  | ruleWord2
  | ruleWordApostr
  | ruleWord4
  | ruleHybridChar
  | ruleApproxNameIgnored
  | ruleApproximation
  | ruleAuthorship
  | ruleAuthorshipCombo
  | ruleOriginalAuthorship
  | ruleCombinationAuthorship
  | ruleBasionymAuthorshipYearMisformed
  | ruleBasionymAuthorship
  | ruleBasionymAuthorship1
  | ruleBasionymAuthorship2Parens
  | ruleAuthorsGroup
  | ruleAuthorsTeam
  | ruleAuthorSep
  | ruleAuthorSep1
  | ruleAuthorSep2
  | ruleAuthorEx
  | ruleAuthorEmend
  | ruleAuthor
  | ruleAuthor1
  | ruleAuthor2
  | ruleUnknownAuthor
  | ruleAuthorWord
  | ruleAuthorWord1
  | ruleAuthorWord2
  | ruleAuthorWord3
  | ruleAuthorWordSoft
  | ruleCapAuthorWord
  | ruleAllCapsAuthorWord
  | ruleFilius
  | ruleAuthorPrefixGlued
  | ruleAuthorPrefix
  | ruleAuthorPrefix2
  | ruleAuthorPrefix1
  | ruleAuthorUpperChar
  | ruleAuthorLowerChar
  | ruleYear
  | ruleYearRange
  | ruleYearWithDot
  | ruleYearApprox
  | ruleYearWithPage
  | ruleYearWithParens
  | ruleYearWithChar
  | ruleYearNum
  | ruleNameUpperChar
  | ruleUpperCharExtended
  | ruleUpperChar
  | ruleNameLowerChar
  | ruleMiscodedChar
  | ruleLowerCharExtended
  | ruleLowerChar
  | ruleSpaceCharEOI
  | rulenums
  | rulelASCII
  | rulehASCII
  | ruleapostr
  | ruledash
  | rule_
  | ruleMultipleSpace
  | ruleSingleSpace
  | ruleAction0
deriving DecidableEq, Repr

/-- Record `token32`: a rule with the span it matched. -/
structure token32 where
  pegRule : pegRule
  begin : Nat
  «end» : Nat
deriving DecidableEq, Repr

/-- The zero value of `token32`. -/
def token32.zero : token32 := ⟨.ruleUnknown, 0, 0⟩

/-- Method `tokens32.Add`, on the slice `t.tree`.  The slice starts with
`math.MaxInt16` cells and is doubled when `index` reaches its length; the model
keeps the cells up to the last one written, the cells after them hold the zero
token. -/
def tokens32.Add (tree : List token32) (rule : pegRule) (begin «end» index : Nat) :
    List token32 :=
  let tree :=
    if index ≥ tree.length then tree ++ List.replicate (index + 1 - tree.length) token32.zero
    else tree
  tree.set index ⟨rule, begin, «end»⟩

/-- Method `tokens32.Trim`: `t.tree[:length]`. -/
def tokens32.Trim (tree : List token32) (length : Nat) : List token32 :=
  (tree ++ List.replicate (length - tree.length) token32.zero).take length

/-- Record `parseError`: the farthest token reached. -/
structure parseError where
  max : token32
deriving DecidableEq, Repr

/-- The variables `max`, `position`, `tokenIndex` and `tree` that the closures of
`Init` share. -/
structure State where
  max : token32
  position : Nat
  tokenIndex : Nat
  tree : List token32
deriving DecidableEq, Repr

/-- The fields of an `Engine` (`Buffer`, `buffer`, `tokens32`) together with the
variables of its closures. -/
structure Engine where
  Buffer : String
  buffer : List Nat
  tokens32 : List token32
  state : State
deriving DecidableEq, Repr

/-- Closure `reset` of `Init`: `[]rune(p.Buffer)` with the sentinel appended. -/
def Engine.reset (p : Engine) : Engine :=
  let buffer := p.Buffer.toList.map Char.toNat
  let buffer :=
    if buffer.length = 0 ∨ buffer.getLast? ≠ some endSymbol then buffer ++ [endSymbol]
    else buffer
  { p with
    buffer := buffer
    state := { max := token32.zero, position := 0, tokenIndex := 0, tree := p.state.tree } }

/-- Method `Init` up to the construction of the closures: a fresh token tree and
a first `reset`. -/
def Engine.Init (p : Engine) : Engine :=
  Engine.reset { p with state := { p.state with tree := [] } }

/-- The value `k l`, computed so that the cells of `l` are laid out before `k`
is entered (an evaluation order only: `List.laidOut l k = k l`). -/
def List.laidOut {α β : Type} : List α → (List α → β) → β
  | [], k => k []
  | x :: xs, k => List.laidOut xs (fun xs' => k (x :: xs'))

/-- Closure `add` of `Init`. -/
def State.add : State → pegRule → Nat → State
  | ⟨max, position, tokenIndex, tree⟩, rule, begin =>
    List.laidOut (tokens32.Add tree rule begin position tokenIndex) fun tree =>
      if begin ≠ position ∧ position > max.«end» then
        ⟨⟨rule, begin, position⟩, position, tokenIndex + 1, tree⟩
      else ⟨max, position, tokenIndex + 1, tree⟩

/-- Statement `position++`. -/
def State.advance : State → State
  | ⟨max, position, tokenIndex, tree⟩ => ⟨max, position + 1, tokenIndex, tree⟩

/-- Statement `position, tokenIndex = positionN, tokenIndexN`, where `saved` is
the state in which `positionN, tokenIndexN := position, tokenIndex` was
executed. -/
def State.restore : State → State → State
  | ⟨max, _, _, tree⟩, ⟨_, position, tokenIndex, _⟩ => ⟨max, position, tokenIndex, tree⟩

/-- The expressions from which the peg tool generates the rule functions; each
constructor stands for the code pattern the tool emits for it. -/
inductive Expr where
  /-- Pattern `.`: `if !matchDot() { goto ko }`. -/
  | dot
  /-- Pattern `'c'`: `if buffer[position] != rune('c') { goto ko }; position++`. -/
  | char (c : Nat)
  /-- Pattern `[a-z]`: `if c := buffer[position]; c < lower || c > upper { goto ko };
  position++`. -/
  | range (lower upper : Nat)
  /-- Pattern `Rule`: `if !_rules[ruleRule]() { goto ko }`. -/
  | call (rule : pegRule)
  /-- Pattern `{ ... }`: an action; nothing is matched. -/
  | action
  /-- Pattern `a b`: the code of `a`, then the code of `b`. -/
  | seq (a b : Expr)
  /-- Pattern `a / b`: save; `a`; on failure restore and `b`. -/
  | alt (a b : Expr)
  /-- Pattern `&e`: save; `e`; restore. -/
  | peekFor (e : Expr)
  /-- Pattern `!e`: save; `e` and `goto ko`; on failure of `e` restore. -/
  | peekNot (e : Expr)
  /-- Pattern `e?`: save; `e`; on failure restore. -/
  | query (e : Expr)
  /-- Pattern `e*`: loop of save; `e`; on failure restore and leave. -/
  | star (e : Expr)
  /-- Pattern `e+`: `e`, then `e*`. -/
  | plus (e : Expr)
deriving DecidableEq, Repr

namespace Expr

/-- Pattern `'c'` for a character. -/
def chr (c : Char) : Expr := .char c.toNat

/-- Pattern `[l-u]` for characters. -/
def rng (lower upper : Char) : Expr := .range lower.toNat upper.toNat

/-- Sequence `e₁ e₂ ... eₙ`. -/
def seqs : List Expr → Expr
  | [] => .action
  | [e] => e
  | e :: es => .seq e (seqs es)

/-- Ordered choice `e₁ / e₂ / ... / eₙ`: one save, a restore after each failed
alternative but the last. -/
def alts : List Expr → Expr
  | [] => .action
  | [e] => e
  | e :: es => .alt e (alts es)

end Expr

open Expr in
/-- The rule table `_rules`: for each rule the expression between `<` and `>` of
its definition, as quoted in the comment above the rule's function.  Slot 0
(`ruleUnknown`) is nil. -/
def rules : pegRule → Option Expr
  | .ruleUnknown => none
  -- 0 SciName <- <(_? Name Tail !.)>
  | .ruleSciName =>
    some (seqs [query (call .rule_), call .ruleName, call .ruleTail, peekNot dot])
  -- 1 Tail <- <((_ / ',') .*)?>
  | .ruleTail =>
    some (query (seqs [alts [call .rule_, chr ','], star dot]))
  -- 2 Name <- <(NamedHybrid / HybridFormula / SingleName)>
  | .ruleName =>
    some (alts [call .ruleNamedHybrid, call .ruleHybridFormula, call .ruleSingleName])
  -- 3 HybridFormula <- <(SingleName (_ (HybridFormulaPart / HybridFormulaFull))+)>
  | .ruleHybridFormula =>
    some (seqs [call .ruleSingleName, plus (seqs [call .rule_,
      alts [call .ruleHybridFormulaPart, call .ruleHybridFormulaFull]])])
  -- 4 HybridFormulaFull <- <(HybridChar (_ SingleName)?)>
  | .ruleHybridFormulaFull =>
    some (seqs [call .ruleHybridChar, query (seqs [call .rule_, call .ruleSingleName])])
  -- 5 HybridFormulaPart <- <(HybridChar _ SpeciesEpithet (_ InfraspGroup)?)>
  | .ruleHybridFormulaPart =>
    some (seqs [call .ruleHybridChar, call .rule_, call .ruleSpeciesEpithet,
      query (seqs [call .rule_, call .ruleInfraspGroup])])
  -- 6 NamedHybrid <- <(NamedGenusHybrid / NamedSpeciesHybrid)>
  | .ruleNamedHybrid =>
    some (alts [call .ruleNamedGenusHybrid, call .ruleNamedSpeciesHybrid])
  -- 7 NamedSpeciesHybrid <- <(GenusWord _ HybridChar _? SpeciesEpithet)>
  | .ruleNamedSpeciesHybrid =>
    some (seqs [call .ruleGenusWord, call .rule_, call .ruleHybridChar, query (call .rule_),
      call .ruleSpeciesEpithet])
  -- 8 NamedGenusHybrid <- <(HybridChar _? SingleName)>
  | .ruleNamedGenusHybrid =>
    some (seqs [call .ruleHybridChar, query (call .rule_), call .ruleSingleName])
  -- 9 SingleName <- <(NameComp / NameApprox / NameSpecies / NameUninomial)>
  | .ruleSingleName =>
    some (alts [call .ruleNameComp, call .ruleNameApprox, call .ruleNameSpecies,
      call .ruleNameUninomial])
  -- 10 NameUninomial <- <(UninomialCombo / Uninomial)>
  | .ruleNameUninomial =>
    some (alts [call .ruleUninomialCombo, call .ruleUninomial])
  -- 11 NameApprox <- <(GenusWord (_ SpeciesEpithet)? _ Approximation ApproxNameIgnored)>
  | .ruleNameApprox =>
    some (seqs [call .ruleGenusWord, query (seqs [call .rule_, call .ruleSpeciesEpithet]),
      call .rule_, call .ruleApproximation, call .ruleApproxNameIgnored])
  -- 12 NameComp <- <(GenusWord _ Comparison (_ SpeciesEpithet)?)>
  | .ruleNameComp =>
    some (seqs [call .ruleGenusWord, call .rule_, call .ruleComparison,
      query (seqs [call .rule_, call .ruleSpeciesEpithet])])
  -- 13 NameSpecies <- <(GenusWord (_? (SubGenus / SubGenusOrSuperspecies))? _ SpeciesEpithet (_
  --    InfraspGroup)?)>
  | .ruleNameSpecies =>
    some (seqs [call .ruleGenusWord, query (seqs [query (call .rule_), alts [call .ruleSubGenus,
      call .ruleSubGenusOrSuperspecies]]), call .rule_, call .ruleSpeciesEpithet,
      query (seqs [call .rule_, call .ruleInfraspGroup])])
  -- 14 GenusWord <- <((AbbrGenus / UninomialWord) !(_ AuthorWord))>
  | .ruleGenusWord =>
    some (seqs [alts [call .ruleAbbrGenus, call .ruleUninomialWord], peekNot (seqs [call .rule_,
      call .ruleAuthorWord])])
  -- 15 InfraspGroup <- <(InfraspEpithet (_ InfraspEpithet)? (_ InfraspEpithet)?)>
  | .ruleInfraspGroup =>
    some (seqs [call .ruleInfraspEpithet, query (seqs [call .rule_, call .ruleInfraspEpithet]),
      query (seqs [call .rule_, call .ruleInfraspEpithet])])
  -- 16 InfraspEpithet <- <((Rank _?)? !AuthorEx Word (_ Authorship)?)>
  | .ruleInfraspEpithet =>
    some (seqs [query (seqs [call .ruleRank, query (call .rule_)]),
      peekNot (call .ruleAuthorEx), call .ruleWord, query (seqs [call .rule_,
      call .ruleAuthorship])])
  -- 17 SpeciesEpithet <- <(!AuthorEx Word (_? Authorship)? ','? &(SpaceCharEOI / '('))>
  | .ruleSpeciesEpithet =>
    some (seqs [peekNot (call .ruleAuthorEx), call .ruleWord, query (seqs [query (call .rule_),
      call .ruleAuthorship]), query (chr ','), peekFor (alts [call .ruleSpaceCharEOI,
      chr '('])])
  -- 18 Comparison <- <('c' 'f' '.'?)>
  | .ruleComparison =>
    some (seqs [chr 'c', chr 'f', query (chr '.')])
  -- 19 Rank <- <(RankForma / RankVar / RankSsp / RankOther / RankOtherUncommon)>
  | .ruleRank =>
    some (alts [call .ruleRankForma, call .ruleRankVar, call .ruleRankSsp, call .ruleRankOther,
      call .ruleRankOtherUncommon])
  -- 20 RankOtherUncommon <- <(('*' / ('n' 'a' 't') / ('f' '.' 's' 'p') / ('m' 'u' 't' '.'))
  --    &SpaceCharEOI)>
  | .ruleRankOtherUncommon =>
    some (seqs [alts [chr '*', seqs [chr 'n', chr 'a', chr 't'], seqs [chr 'f', chr '.',
      chr 's', chr 'p'], seqs [chr 'm', chr 'u', chr 't', chr '.']],
      peekFor (call .ruleSpaceCharEOI)])
  -- 21 RankOther <- <((('m' 'o' 'r' 'p' 'h' '.') / ('n' 'o' 't' 'h' 'o' 's' 'u' 'b' 's' 'p'
  --    '.') / ('c' 'o' 'n' 'v' 'a' 'r' '.') / ('p' 's' 'e' 'u' 'd' 'o' 'v' 'a' 'r' '.') / ('s'
  --    'e' 'c' 't' '.') / ('s' 'e' 'r' '.') / ('s' 'u' 'b' 'v' 'a' 'r' '.') / ('s' 'u' 'b' 'f'
  --    '.') / ('r' 'a' 'c' 'e') / 'α' / ('β' 'β') / 'β' / 'γ' / 'δ' / 'ε' / 'φ' / 'θ' / 'μ' /
  --    ('a' '.') / ('b' '.') / ('c' '.') / ('d' '.') / ('e' '.') / ('g' '.') / ('k' '.') / ('p'
  --    'v' '.') / ('p' 'a' 't' 'h' 'o' 'v' 'a' 'r' '.') / ('a' 'b' '.' (_? ('n' '.'))?) / ('s'
  --    't' '.')) &SpaceCharEOI)>
  | .ruleRankOther =>
    some (seqs [alts [seqs [chr 'm', chr 'o', chr 'r', chr 'p', chr 'h', chr '.'],
      seqs [chr 'n', chr 'o', chr 't', chr 'h', chr 'o', chr 's', chr 'u', chr 'b', chr 's',
      chr 'p', chr '.'], seqs [chr 'c', chr 'o', chr 'n', chr 'v', chr 'a', chr 'r', chr '.'],
      seqs [chr 'p', chr 's', chr 'e', chr 'u', chr 'd', chr 'o', chr 'v', chr 'a', chr 'r',
      chr '.'], seqs [chr 's', chr 'e', chr 'c', chr 't', chr '.'], seqs [chr 's', chr 'e',
      chr 'r', chr '.'], seqs [chr 's', chr 'u', chr 'b', chr 'v', chr 'a', chr 'r', chr '.'],
      seqs [chr 's', chr 'u', chr 'b', chr 'f', chr '.'], seqs [chr 'r', chr 'a', chr 'c',
      chr 'e'], chr 'α', seqs [chr 'β', chr 'β'], chr 'β', chr 'γ', chr 'δ', chr 'ε', chr 'φ',
      chr 'θ', chr 'μ', seqs [chr 'a', chr '.'], seqs [chr 'b', chr '.'], seqs [chr 'c',
      chr '.'], seqs [chr 'd', chr '.'], seqs [chr 'e', chr '.'], seqs [chr 'g', chr '.'],
      seqs [chr 'k', chr '.'], seqs [chr 'p', chr 'v', chr '.'], seqs [chr 'p', chr 'a',
      chr 't', chr 'h', chr 'o', chr 'v', chr 'a', chr 'r', chr '.'], seqs [chr 'a', chr 'b',
      chr '.', query (seqs [query (call .rule_), seqs [chr 'n', chr '.']])], seqs [chr 's',
      chr 't', chr '.']], peekFor (call .ruleSpaceCharEOI)])
  -- 22 RankVar <- <(('v' 'a' 'r' 'i' 'e' 't' 'y') / ('[' 'v' 'a' 'r' '.' ']') / ('n' 'v' 'a'
  --    'r' '.') / ('v' 'a' 'r' (&SpaceCharEOI / '.')))>
  | .ruleRankVar =>
    some (alts [seqs [chr 'v', chr 'a', chr 'r', chr 'i', chr 'e', chr 't', chr 'y'],
      seqs [chr '[', chr 'v', chr 'a', chr 'r', chr '.', chr ']'], seqs [chr 'n', chr 'v',
      chr 'a', chr 'r', chr '.'], seqs [chr 'v', chr 'a', chr 'r',
      alts [peekFor (call .ruleSpaceCharEOI), chr '.']]])
  -- 23 RankForma <- <((('f' 'o' 'r' 'm' 'a') / ('f' 'm' 'a') / ('f' 'o' 'r' 'm') / ('f' 'o') /
  --    'f') (&SpaceCharEOI / '.'))>
  | .ruleRankForma =>
    some (seqs [alts [seqs [chr 'f', chr 'o', chr 'r', chr 'm', chr 'a'], seqs [chr 'f',
      chr 'm', chr 'a'], seqs [chr 'f', chr 'o', chr 'r', chr 'm'], seqs [chr 'f', chr 'o'],
      chr 'f'], alts [peekFor (call .ruleSpaceCharEOI), chr '.']])
  -- 24 RankSsp <- <((('s' 's' 'p') / ('s' 'u' 'b' 's' 'p')) (&SpaceCharEOI / '.'))>
  | .ruleRankSsp =>
    some (seqs [alts [seqs [chr 's', chr 's', chr 'p'], seqs [chr 's', chr 'u', chr 'b',
      chr 's', chr 'p']], alts [peekFor (call .ruleSpaceCharEOI), chr '.']])
  -- 25 SubGenusOrSuperspecies <- <('(' _? NameLowerChar+ _? ')')>
  | .ruleSubGenusOrSuperspecies =>
    some (seqs [chr '(', query (call .rule_), plus (call .ruleNameLowerChar),
      query (call .rule_), chr ')'])
  -- 26 SubGenus <- <('(' _? UninomialWord _? ')')>
  | .ruleSubGenus =>
    some (seqs [chr '(', query (call .rule_), call .ruleUninomialWord, query (call .rule_),
      chr ')'])
  -- 27 UninomialCombo <- <(UninomialCombo1 / UninomialCombo2)>
  | .ruleUninomialCombo =>
    some (alts [call .ruleUninomialCombo1, call .ruleUninomialCombo2])
  -- 28 UninomialCombo1 <- <(UninomialWord _? SubGenus _? Authorship .?)>
  | .ruleUninomialCombo1 =>
    some (seqs [call .ruleUninomialWord, query (call .rule_), call .ruleSubGenus,
      query (call .rule_), call .ruleAuthorship, query dot])
  -- 29 UninomialCombo2 <- <(Uninomial _? RankUninomial _? Uninomial)>
  | .ruleUninomialCombo2 =>
    some (seqs [call .ruleUninomial, query (call .rule_), call .ruleRankUninomial,
      query (call .rule_), call .ruleUninomial])
  -- 30 RankUninomial <- <((('s' 'e' 'c' 't') / ('s' 'u' 'b' 's' 'e' 'c' 't') / ('t' 'r' 'i'
  --    'b') / ('s' 'u' 'b' 't' 'r' 'i' 'b') / ('s' 'u' 'b' 's' 'e' 'r') / ('s' 'e' 'r') / ('s'
  --    'u' 'b' 'g' 'e' 'n') / ('f' 'a' 'm') / ('s' 'u' 'b' 'f' 'a' 'm') / ('s' 'u' 'p' 'e' 'r'
  --    't' 'r' 'i' 'b')) '.'?)>
  | .ruleRankUninomial =>
    some (seqs [alts [seqs [chr 's', chr 'e', chr 'c', chr 't'], seqs [chr 's', chr 'u',
      chr 'b', chr 's', chr 'e', chr 'c', chr 't'], seqs [chr 't', chr 'r', chr 'i', chr 'b'],
      seqs [chr 's', chr 'u', chr 'b', chr 't', chr 'r', chr 'i', chr 'b'], seqs [chr 's',
      chr 'u', chr 'b', chr 's', chr 'e', chr 'r'], seqs [chr 's', chr 'e', chr 'r'],
      seqs [chr 's', chr 'u', chr 'b', chr 'g', chr 'e', chr 'n'], seqs [chr 'f', chr 'a',
      chr 'm'], seqs [chr 's', chr 'u', chr 'b', chr 'f', chr 'a', chr 'm'], seqs [chr 's',
      chr 'u', chr 'p', chr 'e', chr 'r', chr 't', chr 'r', chr 'i', chr 'b']],
      query (chr '.')])
  -- 31 Uninomial <- <(UninomialWord (_ Authorship)?)>
  | .ruleUninomial =>
    some (seqs [call .ruleUninomialWord, query (seqs [call .rule_, call .ruleAuthorship])])
  -- 32 UninomialWord <- <(CapWord / TwoLetterGenus)>
  | .ruleUninomialWord =>
    some (alts [call .ruleCapWord, call .ruleTwoLetterGenus])
  -- 33 AbbrGenus <- <(UpperChar LowerChar* '.')>
  | .ruleAbbrGenus =>
    some (seqs [call .ruleUpperChar, star (call .ruleLowerChar), chr '.'])
  -- 34 CapWord <- <(CapWord2 / CapWord1)>
  | .ruleCapWord =>
    some (alts [call .ruleCapWord2, call .ruleCapWord1])
  -- 35 CapWord1 <- <(NameUpperChar NameLowerChar NameLowerChar+ '?'?)>
  | .ruleCapWord1 =>
    some (seqs [call .ruleNameUpperChar, call .ruleNameLowerChar,
      plus (call .ruleNameLowerChar), query (chr '?')])
  -- 36 CapWord2 <- <(CapWord1 dash (CapWord1 / Word1))>
  | .ruleCapWord2 =>
    some (seqs [call .ruleCapWord1, call .ruledash, alts [call .ruleCapWord1, call .ruleWord1]])
  -- 37 TwoLetterGenus <- <(('C' 'a') / ('E' 'a') / ('G' 'e') / ('I' 'a') / ('I' 'o') / ('I'
  --    'x') / ('L' 'o') / ('O' 'a') / ('R' 'a') / ('T' 'y') / ('U' 'a') / ('A' 'a') / ('J' 'a')
  --    / ('Z' 'u') / ('L' 'a') / ('Q' 'u') / ('A' 's') / ('B' 'a'))>
  | .ruleTwoLetterGenus =>
    some (alts [seqs [chr 'C', chr 'a'], seqs [chr 'E', chr 'a'], seqs [chr 'G', chr 'e'],
      seqs [chr 'I', chr 'a'], seqs [chr 'I', chr 'o'], seqs [chr 'I', chr 'x'], seqs [chr 'L',
      chr 'o'], seqs [chr 'O', chr 'a'], seqs [chr 'R', chr 'a'], seqs [chr 'T', chr 'y'],
      seqs [chr 'U', chr 'a'], seqs [chr 'A', chr 'a'], seqs [chr 'J', chr 'a'], seqs [chr 'Z',
      chr 'u'], seqs [chr 'L', chr 'a'], seqs [chr 'Q', chr 'u'], seqs [chr 'A', chr 's'],
      seqs [chr 'B', chr 'a']])
  -- 38 Word <- <(!(AuthorPrefix / RankUninomial / Approximation / Word4) (WordApostr /
  --    WordStartsWithDigit / Word2 / Word1) &(SpaceCharEOI / '('))>
  | .ruleWord =>
    some (seqs [peekNot (alts [call .ruleAuthorPrefix, call .ruleRankUninomial,
      call .ruleApproximation, call .ruleWord4]), alts [call .ruleWordApostr,
      call .ruleWordStartsWithDigit, call .ruleWord2, call .ruleWord1],
      peekFor (alts [call .ruleSpaceCharEOI, chr '('])])
  -- 39 Word1 <- <((lASCII dash)? NameLowerChar NameLowerChar+)>
  | .ruleWord1 =>
    some (seqs [query (seqs [call .rulelASCII, call .ruledash]), call .ruleNameLowerChar,
      plus (call .ruleNameLowerChar)])
  -- 40 WordStartsWithDigit <- <(('1' / '2' / '3' / '4' / '5' / '6' / '7' / '8' / '9') nums?
  --    ('.' / dash)? NameLowerChar NameLowerChar NameLowerChar NameLowerChar+)>
  | .ruleWordStartsWithDigit =>
    some (seqs [alts [chr '1', chr '2', chr '3', chr '4', chr '5', chr '6', chr '7', chr '8',
      chr '9'], query (call .rulenums), query (alts [chr '.', call .ruledash]),
      call .ruleNameLowerChar, call .ruleNameLowerChar, call .ruleNameLowerChar,
      plus (call .ruleNameLowerChar)])
  -- 41 Word2 <- <(NameLowerChar+ dash? NameLowerChar+)>
  | .ruleWord2 =>
    some (seqs [plus (call .ruleNameLowerChar), query (call .ruledash),
      plus (call .ruleNameLowerChar)])
  -- 42 WordApostr <- <(NameLowerChar NameLowerChar* apostr Word1)>
  | .ruleWordApostr =>
    some (seqs [call .ruleNameLowerChar, star (call .ruleNameLowerChar), call .ruleapostr,
      call .ruleWord1])
  -- 43 Word4 <- <(NameLowerChar+ '.' NameLowerChar)>
  | .ruleWord4 =>
    some (seqs [plus (call .ruleNameLowerChar), chr '.', call .ruleNameLowerChar])
  -- 44 HybridChar <- <'×'>
  | .ruleHybridChar =>
    some (chr '×')
  -- 45 ApproxNameIgnored <- <.*>
  | .ruleApproxNameIgnored =>
    some (star dot)
  -- 46 Approximation <- <(('s' 'p' '.' _? ('n' 'r' '.')) / ('s' 'p' '.' _? ('a' 'f' 'f' '.')) /
  --    ('m' 'o' 'n' 's' 't' '.') / '?' / ((('s' 'p' 'p') / ('n' 'r') / ('s' 'p') / ('a' 'f'
  --    'f') / ('s' 'p' 'e' 'c' 'i' 'e' 's')) (&SpaceCharEOI / '.')))>
  | .ruleApproximation =>
    some (alts [seqs [chr 's', chr 'p', chr '.', query (call .rule_), seqs [chr 'n', chr 'r',
      chr '.']], seqs [chr 's', chr 'p', chr '.', query (call .rule_), seqs [chr 'a', chr 'f',
      chr 'f', chr '.']], seqs [chr 'm', chr 'o', chr 'n', chr 's', chr 't', chr '.'], chr '?',
      seqs [alts [seqs [chr 's', chr 'p', chr 'p'], seqs [chr 'n', chr 'r'], seqs [chr 's',
      chr 'p'], seqs [chr 'a', chr 'f', chr 'f'], seqs [chr 's', chr 'p', chr 'e', chr 'c',
      chr 'i', chr 'e', chr 's']], alts [peekFor (call .ruleSpaceCharEOI), chr '.']]])
  -- 47 Authorship <- <((AuthorshipCombo / OriginalAuthorship) &(SpaceCharEOI / ','))>
  | .ruleAuthorship =>
    some (seqs [alts [call .ruleAuthorshipCombo, call .ruleOriginalAuthorship],
      peekFor (alts [call .ruleSpaceCharEOI, chr ','])])
  -- 48 AuthorshipCombo <- <(OriginalAuthorship _? CombinationAuthorship)>
  | .ruleAuthorshipCombo =>
    some (seqs [call .ruleOriginalAuthorship, query (call .rule_),
      call .ruleCombinationAuthorship])
  -- 49 OriginalAuthorship <- <(BasionymAuthorshipYearMisformed / AuthorsGroup /
  --    BasionymAuthorship)>
  | .ruleOriginalAuthorship =>
    some (alts [call .ruleBasionymAuthorshipYearMisformed, call .ruleAuthorsGroup,
      call .ruleBasionymAuthorship])
  -- 50 CombinationAuthorship <- <AuthorsGroup>
  | .ruleCombinationAuthorship =>
    some (call .ruleAuthorsGroup)
  -- 51 BasionymAuthorshipYearMisformed <- <('(' _? AuthorsGroup _? ')' (_? ',')? _? Year)>
  | .ruleBasionymAuthorshipYearMisformed =>
    some (seqs [chr '(', query (call .rule_), call .ruleAuthorsGroup, query (call .rule_),
      chr ')', query (seqs [query (call .rule_), chr ',']), query (call .rule_),
      call .ruleYear])
  -- 52 BasionymAuthorship <- <(BasionymAuthorship1 / BasionymAuthorship2Parens)>
  | .ruleBasionymAuthorship =>
    some (alts [call .ruleBasionymAuthorship1, call .ruleBasionymAuthorship2Parens])
  -- 53 BasionymAuthorship1 <- <('(' _? AuthorsGroup _? ')')>
  | .ruleBasionymAuthorship1 =>
    some (seqs [chr '(', query (call .rule_), call .ruleAuthorsGroup, query (call .rule_),
      chr ')'])
  -- 54 BasionymAuthorship2Parens <- <('(' _? '(' _? AuthorsGroup _? ')' _? ')')>
  | .ruleBasionymAuthorship2Parens =>
    some (seqs [chr '(', query (call .rule_), chr '(', query (call .rule_),
      call .ruleAuthorsGroup, query (call .rule_), chr ')', query (call .rule_), chr ')'])
  -- 55 AuthorsGroup <- <(AuthorsTeam (_? AuthorEmend? AuthorEx? AuthorsTeam)?)>
  | .ruleAuthorsGroup =>
    some (seqs [call .ruleAuthorsTeam, query (seqs [query (call .rule_),
      query (call .ruleAuthorEmend), query (call .ruleAuthorEx), call .ruleAuthorsTeam])])
  -- 56 AuthorsTeam <- <(Author (AuthorSep Author)* (_? ','? _? Year)?)>
  | .ruleAuthorsTeam =>
    some (seqs [call .ruleAuthor, star (seqs [call .ruleAuthorSep, call .ruleAuthor]),
      query (seqs [query (call .rule_), query (chr ','), query (call .rule_), call .ruleYear])])
  -- 57 AuthorSep <- <(AuthorSep1 / AuthorSep2)>
  | .ruleAuthorSep =>
    some (alts [call .ruleAuthorSep1, call .ruleAuthorSep2])
  -- 58 AuthorSep1 <- <(_? (',' _)? ('&' / ('e' 't') / ('a' 'n' 'd') / ('a' 'p' 'u' 'd')) _?)>
  | .ruleAuthorSep1 =>
    some (seqs [query (call .rule_), query (seqs [chr ',', call .rule_]), alts [chr '&',
      seqs [chr 'e', chr 't'], seqs [chr 'a', chr 'n', chr 'd'], seqs [chr 'a', chr 'p',
      chr 'u', chr 'd']], query (call .rule_)])
  -- 59 AuthorSep2 <- <(_? ',' _?)>
  | .ruleAuthorSep2 =>
    some (seqs [query (call .rule_), chr ',', query (call .rule_)])
  -- 60 AuthorEx <- <((('e' 'x' '.'?) / ('i' 'n')) _)>
  | .ruleAuthorEx =>
    some (seqs [alts [seqs [chr 'e', chr 'x', query (chr '.')], seqs [chr 'i', chr 'n']],
      call .rule_])
  -- 61 AuthorEmend <- <('e' 'm' 'e' 'n' 'd' '.'? _)>
  | .ruleAuthorEmend =>
    some (seqs [chr 'e', chr 'm', chr 'e', chr 'n', chr 'd', query (chr '.'), call .rule_])
  -- 62 Author <- <(Author1 / Author2 / UnknownAuthor)>
  | .ruleAuthor =>
    some (alts [call .ruleAuthor1, call .ruleAuthor2, call .ruleUnknownAuthor])
  -- 63 Author1 <- <(Author2 _? Filius)>
  | .ruleAuthor1 =>
    some (seqs [call .ruleAuthor2, query (call .rule_), call .ruleFilius])
  -- 64 Author2 <- <(AuthorWord (_? AuthorWord)*)>
  | .ruleAuthor2 =>
    some (seqs [call .ruleAuthorWord, star (seqs [query (call .rule_), call .ruleAuthorWord])])
  -- 65 UnknownAuthor <- <('?' / ((('a' 'u' 'c' 't') / ('a' 'n' 'o' 'n')) (&SpaceCharEOI /
  --    '.')))>
  | .ruleUnknownAuthor =>
    some (alts [chr '?', seqs [alts [seqs [chr 'a', chr 'u', chr 'c', chr 't'], seqs [chr 'a',
      chr 'n', chr 'o', chr 'n']], alts [peekFor (call .ruleSpaceCharEOI), chr '.']]])
  -- 66 AuthorWord <- <(!(('b' / 'B') ('o' / 'O') ('l' / 'L') ('d' / 'D') ':') (AuthorWord1 /
  --    AuthorWord2 / AuthorWord3 / AuthorPrefix))>
  | .ruleAuthorWord =>
    some (seqs [peekNot (seqs [alts [chr 'b', chr 'B'], alts [chr 'o', chr 'O'], alts [chr 'l',
      chr 'L'], alts [chr 'd', chr 'D'], chr ':']), alts [call .ruleAuthorWord1,
      call .ruleAuthorWord2, call .ruleAuthorWord3, call .ruleAuthorPrefix]])
  -- 67 AuthorWord1 <- <(('a' 'r' 'g' '.') / ('e' 't' ' ' 'a' 'l' '.' '{' '?' '}') / ((('e' 't')
  --    / '&') (' ' 'a' 'l') '.'?))>
  | .ruleAuthorWord1 =>
    some (alts [seqs [chr 'a', chr 'r', chr 'g', chr '.'], seqs [chr 'e', chr 't', chr ' ',
      chr 'a', chr 'l', chr '.', chr (Char.ofNat 123), chr '?', chr (Char.ofNat 125)],
      seqs [alts [seqs [chr 'e', chr 't'], chr '&'], seqs [chr ' ', chr 'a', chr 'l'],
      query (chr '.')]])
  -- 68 AuthorWord2 <- <(AuthorWord3 dash AuthorWordSoft)>
  | .ruleAuthorWord2 =>
    some (seqs [call .ruleAuthorWord3, call .ruledash, call .ruleAuthorWordSoft])
  -- 69 AuthorWord3 <- <(AuthorPrefixGlued? (AllCapsAuthorWord / CapAuthorWord) '.'?)>
  | .ruleAuthorWord3 =>
    some (seqs [query (call .ruleAuthorPrefixGlued), alts [call .ruleAllCapsAuthorWord,
      call .ruleCapAuthorWord], query (chr '.')])
  -- 70 AuthorWordSoft <- <(((AuthorUpperChar (AuthorUpperChar+ / AuthorLowerChar+)) /
  --    AuthorLowerChar+) '.'?)>
  | .ruleAuthorWordSoft =>
    some (seqs [alts [seqs [call .ruleAuthorUpperChar, alts [plus (call .ruleAuthorUpperChar),
      plus (call .ruleAuthorLowerChar)]], plus (call .ruleAuthorLowerChar)], query (chr '.')])
  -- 71 CapAuthorWord <- <(AuthorUpperChar AuthorLowerChar*)>
  | .ruleCapAuthorWord =>
    some (seqs [call .ruleAuthorUpperChar, star (call .ruleAuthorLowerChar)])
  -- 72 AllCapsAuthorWord <- <(AuthorUpperChar AuthorUpperChar+)>
  | .ruleAllCapsAuthorWord =>
    some (seqs [call .ruleAuthorUpperChar, plus (call .ruleAuthorUpperChar)])
  -- 73 Filius <- <(('f' '.') / ('f' 'i' 'l' '.') / ('f' 'i' 'l' 'i' 'u' 's'))>
  | .ruleFilius =>
    some (alts [seqs [chr 'f', chr '.'], seqs [chr 'f', chr 'i', chr 'l', chr '.'],
      seqs [chr 'f', chr 'i', chr 'l', chr 'i', chr 'u', chr 's']])
  -- 74 AuthorPrefixGlued <- <(('d' '\'') / ('O' '\'') / ('L' '\''))>
  | .ruleAuthorPrefixGlued =>
    some (alts [seqs [chr 'd', chr (Char.ofNat 39)], seqs [chr 'O', chr (Char.ofNat 39)],
      seqs [chr 'L', chr (Char.ofNat 39)]])
  -- 75 AuthorPrefix <- <(AuthorPrefix1 / AuthorPrefix2)>
  | .ruleAuthorPrefix =>
    some (alts [call .ruleAuthorPrefix1, call .ruleAuthorPrefix2])
  -- 76 AuthorPrefix2 <- <(('v' '.' (_? ('d' '.'))?) / ('\'' 't'))>
  | .ruleAuthorPrefix2 =>
    some (alts [seqs [chr 'v', chr '.', query (seqs [query (call .rule_), seqs [chr 'd',
      chr '.']])], seqs [chr (Char.ofNat 39), chr 't']])
  -- 77 AuthorPrefix1 <- <((('a' 'b') / ('a' 'f') / ('b' 'i' 's') / ('d' 'a') / ('d' 'e' 'r') /
  --    ('d' 'e' 's') / ('d' 'e' 'n') / ('d' 'e' 'l') / ('d' 'e' 'l' 'l' 'a') / ('d' 'e' 'l'
  --    'a') / ('d' 'e') / ('d' 'i') / ('d' 'u') / ('e' 'l') / ('l' 'a') / ('l' 'e') / ('t' 'e'
  --    'r') / ('v' 'a' 'n') / ('d' '\'') / ('i' 'n' '\'' 't') / ('z' 'u' 'r') / ('v' 'o' 'n' (_
  --    (('d' '.') / ('d' 'e' 'm')))?) / ('v' (_ 'd')?)) &_)>
  | .ruleAuthorPrefix1 =>
    some (seqs [alts [seqs [chr 'a', chr 'b'], seqs [chr 'a', chr 'f'], seqs [chr 'b', chr 'i',
      chr 's'], seqs [chr 'd', chr 'a'], seqs [chr 'd', chr 'e', chr 'r'], seqs [chr 'd',
      chr 'e', chr 's'], seqs [chr 'd', chr 'e', chr 'n'], seqs [chr 'd', chr 'e', chr 'l'],
      seqs [chr 'd', chr 'e', chr 'l', chr 'l', chr 'a'], seqs [chr 'd', chr 'e', chr 'l',
      chr 'a'], seqs [chr 'd', chr 'e'], seqs [chr 'd', chr 'i'], seqs [chr 'd', chr 'u'],
      seqs [chr 'e', chr 'l'], seqs [chr 'l', chr 'a'], seqs [chr 'l', chr 'e'], seqs [chr 't',
      chr 'e', chr 'r'], seqs [chr 'v', chr 'a', chr 'n'], seqs [chr 'd', chr (Char.ofNat 39)],
      seqs [chr 'i', chr 'n', chr (Char.ofNat 39), chr 't'], seqs [chr 'z', chr 'u', chr 'r'],
      seqs [chr 'v', chr 'o', chr 'n', query (seqs [call .rule_, alts [seqs [chr 'd', chr '.'],
      seqs [chr 'd', chr 'e', chr 'm']]])], seqs [chr 'v', query (seqs [call .rule_,
      chr 'd'])]], peekFor (call .rule_)])
  -- 78 AuthorUpperChar <- <(hASCII / ('À' / 'Á' / 'Â' / 'Ã' / 'Ä' / 'Å' / 'Æ' / 'Ç' / 'È' / 'É'
  --    / 'Ê' / 'Ë' / 'Ì' / 'Í' / 'Î' / 'Ï' / 'Ð' / 'Ñ' / 'Ò' / 'Ó' / 'Ô' / 'Õ' / 'Ö' / 'Ø' /
  --    'Ù' / 'Ú' / 'Û' / 'Ü' / 'Ý' / 'Ć' / 'Č' / 'Ď' / 'İ' / 'Ķ' / 'Ĺ' / 'ĺ' / 'Ľ' / 'ľ' / 'Ł'
  --    / 'ł' / 'Ņ' / 'Ō' / 'Ő' / 'Œ' / 'Ř' / 'Ś' / 'Ŝ' / 'Ş' / 'Š' / 'Ÿ' / 'Ź' / 'Ż' / 'Ž' /
  --    'ƒ' / 'Ǿ' / 'Ș' / 'Ț'))>
  | .ruleAuthorUpperChar =>
    some (alts [call .rulehASCII, alts [chr 'À', chr 'Á', chr 'Â', chr 'Ã', chr 'Ä', chr 'Å',
      chr 'Æ', chr 'Ç', chr 'È', chr 'É', chr 'Ê', chr 'Ë', chr 'Ì', chr 'Í', chr 'Î', chr 'Ï',
      chr 'Ð', chr 'Ñ', chr 'Ò', chr 'Ó', chr 'Ô', chr 'Õ', chr 'Ö', chr 'Ø', chr 'Ù', chr 'Ú',
      chr 'Û', chr 'Ü', chr 'Ý', chr 'Ć', chr 'Č', chr 'Ď', chr 'İ', chr 'Ķ', chr 'Ĺ', chr 'ĺ',
      chr 'Ľ', chr 'ľ', chr 'Ł', chr 'ł', chr 'Ņ', chr 'Ō', chr 'Ő', chr 'Œ', chr 'Ř', chr 'Ś',
      chr 'Ŝ', chr 'Ş', chr 'Š', chr 'Ÿ', chr 'Ź', chr 'Ż', chr 'Ž', chr 'ƒ', chr 'Ǿ', chr 'Ș',
      chr 'Ț']])
  -- 79 AuthorLowerChar <- <(lASCII / ('à' / 'á' / 'â' / 'ã' / 'ä' / 'å' / 'æ' / 'ç' / 'è' / 'é'
  --    / 'ê' / 'ë' / 'ì' / 'í' / 'î' / 'ï' / 'ð' / 'ñ' / 'ò' / 'ó' / 'ó' / 'ô' / 'õ' / 'ö' /
  --    'ø' / 'ù' / 'ú' / 'û' / 'ü' / 'ý' / 'ÿ' / 'ā' / 'ă' / 'ą' / 'ć' / 'ĉ' / 'č' / 'ď' / 'đ'
  --    / '\'' / 'ē' / 'ĕ' / 'ė' / 'ę' / 'ě' / 'ğ' / 'ī' / 'ĭ' / 'İ' / 'ı' / 'ĺ' / 'ľ' / 'ł' /
  --    'ń' / 'ņ' / 'ň' / 'ŏ' / 'ő' / 'œ' / 'ŕ' / 'ř' / 'ś' / 'ş' / 'š' / 'ţ' / 'ť' / 'ũ' / 'ū'
  --    / 'ŭ' / 'ů' / 'ű' / 'ź' / 'ż' / 'ž' / 'ſ' / 'ǎ' / 'ǔ' / 'ǧ' / 'ș' / 'ț' / 'ȳ' / 'ß'))>
  | .ruleAuthorLowerChar =>
    some (alts [call .rulelASCII, alts [chr 'à', chr 'á', chr 'â', chr 'ã', chr 'ä', chr 'å',
      chr 'æ', chr 'ç', chr 'è', chr 'é', chr 'ê', chr 'ë', chr 'ì', chr 'í', chr 'î', chr 'ï',
      chr 'ð', chr 'ñ', chr 'ò', chr 'ó', chr 'ó', chr 'ô', chr 'õ', chr 'ö', chr 'ø', chr 'ù',
      chr 'ú', chr 'û', chr 'ü', chr 'ý', chr 'ÿ', chr 'ā', chr 'ă', chr 'ą', chr 'ć', chr 'ĉ',
      chr 'č', chr 'ď', chr 'đ', chr (Char.ofNat 39), chr 'ē', chr 'ĕ', chr 'ė', chr 'ę',
      chr 'ě', chr 'ğ', chr 'ī', chr 'ĭ', chr 'İ', chr 'ı', chr 'ĺ', chr 'ľ', chr 'ł', chr 'ń',
      chr 'ņ', chr 'ň', chr 'ŏ', chr 'ő', chr 'œ', chr 'ŕ', chr 'ř', chr 'ś', chr 'ş', chr 'š',
      chr 'ţ', chr 'ť', chr 'ũ', chr 'ū', chr 'ŭ', chr 'ů', chr 'ű', chr 'ź', chr 'ż', chr 'ž',
      chr 'ſ', chr 'ǎ', chr 'ǔ', chr 'ǧ', chr 'ș', chr 'ț', chr 'ȳ', chr 'ß']])
  -- 80 Year <- <(YearRange / YearApprox / YearWithParens / YearWithPage / YearWithDot /
  --    YearWithChar / YearNum)>
  | .ruleYear =>
    some (alts [call .ruleYearRange, call .ruleYearApprox, call .ruleYearWithParens,
      call .ruleYearWithPage, call .ruleYearWithDot, call .ruleYearWithChar, call .ruleYearNum])
  -- 81 YearRange <- <(YearNum dash (nums+ ('a' / 'b' / 'c' / 'd' / 'e' / 'f' / 'g' / 'h' / 'i'
  --    / 'j' / 'k' / 'l' / 'm' / 'n' / 'o' / 'p' / 'q' / 'r' / 's' / 't' / 'u' / 'v' / 'w' /
  --    'x' / 'y' / 'z' / '?')*))>
  | .ruleYearRange =>
    some (seqs [call .ruleYearNum, call .ruledash, seqs [plus (call .rulenums),
      star (alts [chr 'a', chr 'b', chr 'c', chr 'd', chr 'e', chr 'f', chr 'g', chr 'h',
      chr 'i', chr 'j', chr 'k', chr 'l', chr 'm', chr 'n', chr 'o', chr 'p', chr 'q', chr 'r',
      chr 's', chr 't', chr 'u', chr 'v', chr 'w', chr 'x', chr 'y', chr 'z', chr '?'])]])
  -- 82 YearWithDot <- <(YearNum '.')>
  | .ruleYearWithDot =>
    some (seqs [call .ruleYearNum, chr '.'])
  -- 83 YearApprox <- <('[' _? YearNum _? ']')>
  | .ruleYearApprox =>
    some (seqs [chr '[', query (call .rule_), call .ruleYearNum, query (call .rule_), chr ']'])
  -- 84 YearWithPage <- <((YearWithChar / YearNum) _? ':' _? nums+)>
  | .ruleYearWithPage =>
    some (seqs [alts [call .ruleYearWithChar, call .ruleYearNum], query (call .rule_), chr ':',
      query (call .rule_), plus (call .rulenums)])
  -- 85 YearWithParens <- <('(' (YearWithChar / YearNum) ')')>
  | .ruleYearWithParens =>
    some (seqs [chr '(', alts [call .ruleYearWithChar, call .ruleYearNum], chr ')'])
  -- 86 YearWithChar <- <(YearNum lASCII Action0)>
  | .ruleYearWithChar =>
    some (seqs [call .ruleYearNum, call .rulelASCII, call .ruleAction0])
  -- 87 YearNum <- <(('1' / '2') ('0' / '7' / '8' / '9') nums (nums / '?') '?'*)>
  | .ruleYearNum =>
    some (seqs [alts [chr '1', chr '2'], alts [chr '0', chr '7', chr '8', chr '9'],
      call .rulenums, alts [call .rulenums, chr '?'], star (chr '?')])
  -- 88 NameUpperChar <- <(UpperChar / UpperCharExtended)>
  | .ruleNameUpperChar =>
    some (alts [call .ruleUpperChar, call .ruleUpperCharExtended])
  -- 89 UpperCharExtended <- <('Æ' / 'Œ' / 'Ö')>
  | .ruleUpperCharExtended =>
    some (alts [chr 'Æ', chr 'Œ', chr 'Ö'])
  -- 90 UpperChar <- <hASCII>
  | .ruleUpperChar =>
    some (call .rulehASCII)
  -- 91 NameLowerChar <- <(LowerChar / LowerCharExtended / MiscodedChar)>
  | .ruleNameLowerChar =>
    some (alts [call .ruleLowerChar, call .ruleLowerCharExtended, call .ruleMiscodedChar])
  -- 92 MiscodedChar <- <'�'>
  | .ruleMiscodedChar =>
    some (chr '�')
  -- 93 LowerCharExtended <- <('æ' / 'œ' / 'à' / 'â' / 'å' / 'ã' / 'ä' / 'á' / 'ç' / 'č' / 'é' /
  --    'è' / 'ë' / 'í' / 'ì' / 'ï' / 'ň' / 'ñ' / 'ñ' / 'ó' / 'ò' / 'ô' / 'ø' / 'õ' / 'ö' / 'ú'
  --    / 'ù' / 'ü' / 'ŕ' / 'ř' / 'ŗ' / 'ſ' / 'š' / 'š' / 'ş' / 'ž')>
  | .ruleLowerCharExtended =>
    some (alts [chr 'æ', chr 'œ', chr 'à', chr 'â', chr 'å', chr 'ã', chr 'ä', chr 'á', chr 'ç',
      chr 'č', chr 'é', chr 'è', chr 'ë', chr 'í', chr 'ì', chr 'ï', chr 'ň', chr 'ñ', chr 'ñ',
      chr 'ó', chr 'ò', chr 'ô', chr 'ø', chr 'õ', chr 'ö', chr 'ú', chr 'ù', chr 'ü', chr 'ŕ',
      chr 'ř', chr 'ŗ', chr 'ſ', chr 'š', chr 'š', chr 'ş', chr 'ž'])
  -- 94 LowerChar <- <lASCII>
  | .ruleLowerChar =>
    some (call .rulelASCII)
  -- 95 SpaceCharEOI <- <(_ / !.)>
  | .ruleSpaceCharEOI =>
    some (alts [call .rule_, peekNot dot])
  -- 96 nums <- <[0-9]>
  | .rulenums =>
    some (rng '0' '9')
  -- 97 lASCII <- <[a-z]>
  | .rulelASCII =>
    some (rng 'a' 'z')
  -- 98 hASCII <- <[A-Z]>
  | .rulehASCII =>
    some (rng 'A' 'Z')
  -- 99 apostr <- <'\''>
  | .ruleapostr =>
    some (chr (Char.ofNat 39))
  -- 100 dash <- <'-'>
  | .ruledash =>
    some (chr '-')
  -- 101 _ <- <(MultipleSpace / SingleSpace)>
  | .rule_ =>
    some (alts [call .ruleMultipleSpace, call .ruleSingleSpace])
  -- 102 MultipleSpace <- <(SingleSpace SingleSpace+)>
  | .ruleMultipleSpace =>
    some (seqs [call .ruleSingleSpace, plus (call .ruleSingleSpace)])
  -- 103 SingleSpace <- <' '>
  | .ruleSingleSpace =>
    some (chr ' ')
  -- 105 Action0 <- <{ p.AddWarn(YearCharWarn) }>
  | .ruleAction0 =>
    some (action)

/-- What a call returns: a value, a run-time panic (an index out of range or a
nil function), or nothing yet because the fuel ran out. -/
inductive Outcome (α : Type) where
  | done (a : α)
  | fault
  | timeout
deriving DecidableEq, Repr

/-- Execution of the code generated for an expression, from state `p` of the
closure variables, on the rune buffer `buffer`.  The Boolean tells whether control
leaves through the end of the code (`true`) or through `goto ko` (`false`); in the
second case `position` and `tokenIndex` are restored by the code at label `ko`, as
in the source.  Each nested call or loop iteration uses one unit of `fuel`. -/
def run (buffer : List Nat) : Nat → Expr → State → Outcome (Bool × State)
  | 0, _, _ => .timeout
  | fuel + 1, e, p =>
    match e with
    | .dot =>
      match buffer.get? p.position with
      | none => .fault
      | some c =>
        if c ≠ endSymbol then .done (true, p.advance)
        else .done (false, p)
    | .char c =>
      match buffer.get? p.position with
      | none => .fault
      | some x =>
        if x ≠ c then .done (false, p)
        else .done (true, p.advance)
    | .range lower upper =>
      match buffer.get? p.position with
      | none => .fault
      | some c =>
        if c < lower ∨ c > upper then .done (false, p)
        else .done (true, p.advance)
    | .call rule =>
      match rules rule with
      | none => .fault
      | some body =>
        match run buffer fuel body p with
        | .done (true, p') => .done (true, p'.add rule p.position)
        | .done (false, p') => .done (false, p'.restore p)
        | .fault => .fault
        | .timeout => .timeout
    | .action => .done (true, p)
    | .seq a b =>
      match run buffer fuel a p with
      | .done (true, p') => run buffer fuel b p'
      | r => r
    | .alt a b =>
      match run buffer fuel a p with
      | .done (true, p') => .done (true, p')
      | .done (false, p') => run buffer fuel b (p'.restore p)
      | r => r
    | .peekFor e =>
      match run buffer fuel e p with
      | .done (true, p') => .done (true, p'.restore p)
      | r => r
    | .peekNot e =>
      match run buffer fuel e p with
      | .done (true, p') => .done (false, p')
      | .done (false, p') => .done (true, p'.restore p)
      | r => r
    | .query e =>
      match run buffer fuel e p with
      | .done (true, p') => .done (true, p')
      | .done (false, p') => .done (true, p'.restore p)
      | r => r
    | .star e =>
      match run buffer fuel e p with
      | .done (true, p') => run buffer fuel (.star e) p'
      | .done (false, p') => .done (true, p'.restore p)
      | r => r
    | .plus e =>
      match run buffer fuel e p with
      | .done (true, p') => run buffer fuel (.star e) p'
      | r => r

/-- Closure `parse` of `Init` (method `Parse`): run the rule `rule[0]`, or
`SciName` when no rule is given; on a match trim the token tree and return no
error. -/
def Engine.Parse (fuel : Nat) (p : Engine) (rule : List pegRule) :
    Outcome (Option parseError × Engine) :=
  let r :=
    match rule with
    | [] => pegRule.ruleSciName
    | r :: _ => r
  match run p.buffer fuel (.call r) p.state with
  | .done (isMatch, state) =>
    if isMatch then
      .done (none, { p with state := state, tokens32 := tokens32.Trim state.tree state.tokenIndex })
    else .done (some ⟨state.max⟩, { p with state := state, tokens32 := state.tree })
  | .fault => .fault
  | .timeout => .timeout

/-- A new engine whose `Buffer` is `s`, after `Init`. -/
def Engine.new (s : String) : Engine :=
  Engine.Init
    { Buffer := s, buffer := [], tokens32 := [],
      state := { max := token32.zero, position := 0, tokenIndex := 0, tree := [] } }


/-! ## Notions used to state the properties of the engine -/

/-- A rune buffer: `n` runes, none of them the sentinel, followed by the
sentinel. -/
def IsBuffer (buf : List Nat) (n : Nat) : Prop :=
  ∃ runes : List Nat, buf = runes ++ [endSymbol] ∧ runes.length = n ∧
    ∀ c ∈ runes, c ≠ endSymbol

/-- Number of spaces at the head of a list of runes. -/
def countSpaces : List Nat → Nat
  | [] => 0
  | x :: rest => if x = 32 then countSpaces rest + 1 else 0

/-- Whether `Parse` returned without an error. -/
def Outcome.isParsed : Outcome (Option parseError × Engine) → Bool
  | .done (none, _) => true
  | _ => false

/-- The normalized rank marker of an infraspecific epithet, empty when it has no
rank (the local `rank` of `infraspEpithetNode.canonical` and `value`). -/
def infraspEpithetNode.rankMarker (inf : infraspEpithetNode) : String :=
  match inf.Rank with
  | some r => r.Word.NormValue
  | none => ""

/-- The named genus hybrid `× Agropogon`: the hybrid sign and a uninomial. -/
def agropogonHybrid : name :=
  .namedGenusHybridNode (mkWord "×" 0 1)
    (.uninomialNode { Word := mkWord "Agropogon" 2 11, Authorship := none })

/-- The named species hybrid `Salix × capreola`. -/
def salixCapreola : namedSpeciesHybridNode :=
  { Genus := mkWord "Salix" 0 5
    Comparison := none
    Hybrid := mkWord "×" 6 7
    SpEpithet := { Word := mkWord "capreola" 8 16, Authorship := none }
    Infraspecies := [] }

/-- The subgenus of a species node as `speciesNode.value` writes it: in
parentheses, empty when there is none (the local `sgen`). -/
def speciesNode.subgenusMarker (sp : speciesNode) : String :=
  match sp.Subgenus with
  | some sg => "(" ++ sg.NormValue ++ ")"
  | none => ""

/-- An author of one word, without separator. -/
def mkAuthor (w : String) (b e : Int) : authorNode :=
  { Value := w, Sep := "", Words := [mkWord w b e] }

/-- The authorship `(Smith) Jones ex Brown 1901` of scenario 3 of the
specification, at the positions it has in `Aus bus var. cus (Smith) Jones ex Brown
1901`: a parenthesised original group with the single author Smith and no year,
and a combination group with first team Jones and an ex team Brown carrying the
year 1901. -/
def smithJonesExBrown : authorshipNode :=
  { Verbatim := "(Smith) Jones ex Brown 1901"
    OriginalAuthors := some
      { Team1 := some { Authors := [mkAuthor "Smith" 18 23], Year := none }
        Team2Type := .teamDefault
        Team2Word := mkWord "" 0 0
        Team2 := none
        Parens := true }
    CombinationAuthors := some
      { Team1 := some { Authors := [mkAuthor "Jones" 25 30], Year := none }
        Team2Type := .teamEx
        Team2Word := mkWord "ex" 31 33
        Team2 := some
          { Authors := [mkAuthor "Brown" 34 39]
            Year := some { Word := mkWord "1901" 40 44, Approximate := false } }
        Parens := false } }

/-- The species node of `Aus bus var. cus (Smith) Jones ex Brown 1901`. -/
def ausBusVarCusAuthored : speciesNode :=
  { Genus := mkWord "Aus" 0 3
    Subgenus := none
    SpEpithet := { Word := mkWord "bus" 4 7, Authorship := none }
    Infraspecies :=
      [{ Word := mkWord "cus" 13 16, Rank := some { Word := mkWord "var." 8 12 },
         Authorship := some smithJonesExBrown }] }

/-- A parsed node holding `ausBusVarCusAuthored`. -/
def parsedAuthoredNode :
    scientificNameNode TestWarning (Option String) (Option String) (Option String) :=
  { nameData := some (.speciesNode ausBusVarCusAuthored)
    verbatim := "Aus bus var. cus (Smith) Jones ex Brown 1901"
    verbatimID := ""
    cardinality := 3
    virus := false
    hybrid := none
    surrogate := none
    bacteria := none
    tail := ""
    parserVersion := "test_version"
    warnings := [] }

/-- Go's `strings.Split(s, " ")` on a list of runes: the pieces between the
spaces. -/
def splitSpaces : List Char → List (List Char)
  | [] => [[]]
  | c :: cs =>
    if c = ' ' then [] :: splitSpaces cs
    else
      match splitSpaces cs with
      | [] => [[c]]
      | w :: ws => (c :: w) :: ws

/-- The space-separated tokens of a string. -/
def spaceTokens (s : String) : List String :=
  (splitSpaces s.toList).map String.mk

/-- Modelled from the spec: `stemmer.StemCanonical` (package `stemmer` is not
among the sources, only its test is).  It "stems each space-separated token of a
canonical string", "preserving `×` and `+` verbatim", and it is to "preserve the
genus verbatim", the genus being the first token.  `Stem` is the stemmer of one
word, whose suffix tables the specification does not give. -/
def stemmer.StemCanonical (Stem : String → String) (c : String) : String :=
  match spaceTokens c with
  | [] => ""
  | genus :: epithets =>
    joinWords (genus :: epithets.map (fun w => if w = "×" ∨ w = "+" then w else Stem w))

/-- The rows (`in`, `out`) of test "StemCanonical" in `stemmer_test.go`. -/
def StemCanonicalTestData : List (String × String) :=
  [("Pomatomus", "Pomatomus"),
   ("Betula naturae", "Betula natur"),
   ("Betula alba", "Betula alb"),
   ("Leptochloöpsis virgata", "Leptochloopsis uirgat"),
   ("Betula alba naturae", "Betula alb natur"),
   ("Crataegus + Mespilus", "Crataegus + Mespilus"),
   ("Cytisus purpureus + Laburnum anagyroides", "Cytisus purpure + Laburnum anagyroid")]

/-- What test "StemCanonical" asserts of the function it calls. -/
def PassesStemCanonicalTest (StemCanonical : String → String) : Prop :=
  ∀ row ∈ StemCanonicalTestData, StemCanonical row.1 = row.2

/-- The species node of `Betula alba` (scenario 2 of the specification, without
its authorship). -/
def betulaAlba : speciesNode :=
  { Genus := mkWord "Betula" 0 6
    Subgenus := none
    SpEpithet := { Word := mkWord "alba" 7 11, Authorship := none }
    Infraspecies := [] }

/-- Modelled from the spec: method `AddWarn` of `BaseEngine` (embedded in `Engine`,
not among the sources) records a warning in the warning set of the engine;
`warnings` lists the members of the set. -/
def Engine.AddWarn {W : Type} [DecidableEq W] (warnings : List W) (w : W) : List W :=
  if w ∈ warnings then warnings else warnings ++ [w]

/-- Method `Engine.Execute`: the loop over `p.Tokens()` that runs the action of
each `Action0` token, `p.AddWarn(YearCharWarn)`.  `YearCharWarn` is the constant of
that name and `warnings` the warning set before the call; the result is the set
after it. -/
def Engine.Execute {W : Type} [DecidableEq W] (YearCharWarn : W) (p : Engine)
    (warnings : List W) : List W :=
  p.tokens32.foldl
    (fun warnings token =>
      match token.pegRule with
      | .ruleAction0 => Engine.AddWarn warnings YearCharWarn
      | _ => warnings)
    warnings

/-- Whether an expression has no call of rule `Action0` in it (calls inside the
rules it calls do not count). -/
def Expr.noAction0 : Expr → Bool
  | .call r =>
    match r with
    | .ruleAction0 => false
    | _ => true
  | .seq a b => a.noAction0 && b.noAction0
  | .alt a b => a.noAction0 && b.noAction0
  | .peekFor e => e.noAction0
  | .peekNot e => e.noAction0
  | .query e => e.noAction0
  | .star e => e.noAction0
  | .plus e => e.noAction0
  | _ => true

/-- Token lists in which `Action0` and `YearWithChar` tokens come in pairs, an
`Action0` token right before a `YearWithChar` token that ends where it stands, just
after a lower-case ASCII letter of the buffer. -/
inductive YearCharTokens (buf : List Nat) : List token32 → Prop
  | nil : YearCharTokens buf []
  | other (t : token32) (l : List token32) :
    t.pegRule ≠ .ruleAction0 → t.pegRule ≠ .ruleYearWithChar →
    YearCharTokens buf l → YearCharTokens buf (l ++ [t])
  | year (l : List token32) (b x c : Nat) :
    buf.get? x = some c → 'a'.toNat ≤ c → c ≤ 'z'.toNat → b ≤ x →
    YearCharTokens buf l →
    YearCharTokens buf (l ++ [⟨.ruleAction0, x + 1, x + 1⟩, ⟨.ruleYearWithChar, b, x + 1⟩])

/-- What a run from state `p` that returns `b` in state `p'` does to the tokens:
those below the token index of `p` are kept; on a match neither the position nor
the token index goes back, and when the expression is `clean` the tokens added
satisfy `YearCharTokens`. -/
def RunInv (buf : List Nat) (clean : Bool) (p : State) (b : Bool) (p' : State) : Prop :=
  tokens32.Trim p'.tree p.tokenIndex = tokens32.Trim p.tree p.tokenIndex ∧
    (b = true → p.position ≤ p'.position ∧ p.tokenIndex ≤ p'.tokenIndex ∧
      (clean = true → ∃ seg, YearCharTokens buf seg ∧
        tokens32.Trim p'.tree p'.tokenIndex = tokens32.Trim p.tree p.tokenIndex ++ seg))

/-- The engine that `Parse` leaves when it returns without an error. -/
def Outcome.parsed : Outcome (Option parseError × Engine) → Option Engine
  | .done (none, q) => some q
  | _ => none

/-- An evaluator of the same expressions that keeps the position and the live
tokens only (the tokens below the token index, newest first) and drops `max` and
the stale tokens; after a failure it hands back the position and tokens it was
given.  Theorem `run_runTokens` relates it to `run`; it serves to evaluate a parse
with less work. -/
def runTokens (buffer : List Nat) :
    Nat → Expr → Nat → List token32 → Outcome (Bool × Nat × List token32)
  | 0, _, _, _ => .timeout
  | fuel + 1, e, position, tokens =>
    match e with
    | .dot =>
      match buffer.get? position with
      | none => .fault
      | some c =>
        if c ≠ endSymbol then .done (true, position + 1, tokens)
        else .done (false, position, tokens)
    | .char c =>
      match buffer.get? position with
      | none => .fault
      | some x =>
        if x ≠ c then .done (false, position, tokens)
        else .done (true, position + 1, tokens)
    | .range lower upper =>
      match buffer.get? position with
      | none => .fault
      | some c =>
        if c < lower ∨ c > upper then .done (false, position, tokens)
        else .done (true, position + 1, tokens)
    | .call rule =>
      match rules rule with
      | none => .fault
      | some body =>
        match runTokens buffer fuel body position tokens with
        | .done (true, position', tokens') =>
          .done (true, position', ⟨rule, position, position'⟩ :: tokens')
        | .done (false, _, _) => .done (false, position, tokens)
        | .fault => .fault
        | .timeout => .timeout
    | .action => .done (true, position, tokens)
    | .seq a b =>
      match runTokens buffer fuel a position tokens with
      | .done (true, position', tokens') => runTokens buffer fuel b position' tokens'
      | r => r
    | .alt a b =>
      match runTokens buffer fuel a position tokens with
      | .done (true, position', tokens') => .done (true, position', tokens')
      | .done (false, _, _) => runTokens buffer fuel b position tokens
      | r => r
    | .peekFor e =>
      match runTokens buffer fuel e position tokens with
      | .done (true, _, _) => .done (true, position, tokens)
      | r => r
    | .peekNot e =>
      match runTokens buffer fuel e position tokens with
      | .done (true, position', tokens') => .done (false, position', tokens')
      | .done (false, _, _) => .done (true, position, tokens)
      | r => r
    | .query e =>
      match runTokens buffer fuel e position tokens with
      | .done (true, position', tokens') => .done (true, position', tokens')
      | .done (false, _, _) => .done (true, position, tokens)
      | r => r
    | .star e =>
      match runTokens buffer fuel e position tokens with
      | .done (true, position', tokens') => runTokens buffer fuel (.star e) position' tokens'
      | .done (false, _, _) => .done (true, position, tokens)
      | r => r
    | .plus e =>
      match runTokens buffer fuel e position tokens with
      | .done (true, position', tokens') => runTokens buffer fuel (.star e) position' tokens'
      | r => r

/-- The tokens of a match of `runTokens`, oldest first. -/
def Outcome.tokens : Outcome (Bool × Nat × List token32) → Option (List token32)
  | .done (true, _, tokens) => some tokens.reverse
  | _ => none

/-- How a result of `run` and a result of `runTokens` correspond: both match, at
the same position and with the same live tokens, or both fail, or both panic, or
both run out of fuel. -/
def Sim : Outcome (Bool × State) → Outcome (Bool × Nat × List token32) → Prop
  | .done (true, p), .done (true, position, tokens) =>
    p.position = position ∧ tokens32.Trim p.tree p.tokenIndex = tokens.reverse
  | .done (false, _), .done (false, _, _) => True
  | .fault, .fault => True
  | .timeout, .timeout => True
  | _, _ => False

/-- The rules of a year and of its action, by which the token lists of the
examples are filtered. -/
def isYearRule (t : token32) : Bool :=
  t.pegRule = .ruleYear ∨ t.pegRule = .ruleYearRange ∨ t.pegRule = .ruleYearWithChar ∨
    t.pegRule = .ruleAction0

/-! ## Configuration (`config.go`) -/

/-- Record `Config`.  `F` stands for the type `gnfmt.Format` of a library outside
the repository. -/
structure Config (F : Type) where
  Format : F
  JobsNum : Int
  BatchSize : Int
  WithStream : Bool
  IgnoreHTMLTags : Bool
  WithDetails : Bool
  WithNoOrder : Bool
  WithCapitalization : Bool
  DisableCultivars : Bool
  Port : Int
  IsTest : Bool
  Debug : Bool
deriving DecidableEq, Repr

/-- Type `Option` of `config.go`, a function that modifies the settings of a
`Config`; the pointer argument is a configuration passed in and returned. -/
def ConfigOption (F : Type) : Type := Config F → Config F

/-- Function `OptFormat`.  `NewFormat` is `gnfmt.NewFormat`, with `none` for an
error, and `CSV` is `gnfmt.CSV`; the log line is not part of the state. -/
def OptFormat {F : Type} (CSV : F) (NewFormat : String → Option F) (s : String) :
    ConfigOption F :=
  fun cfg =>
    let f :=
      match NewFormat s with
      | some f => f
      | none => CSV
    { cfg with Format := f }

/-- Function `OptJobsNum`. -/
def OptJobsNum {F : Type} (i : Int) : ConfigOption F :=
  fun cfg => { cfg with JobsNum := i }

/-- Function `OptIgnoreHTMLTags`. -/
def OptIgnoreHTMLTags {F : Type} (b : Bool) : ConfigOption F :=
  fun cfg => { cfg with IgnoreHTMLTags := b }

/-- Function `OptWithDetails`. -/
def OptWithDetails {F : Type} (b : Bool) : ConfigOption F :=
  fun cfg => { cfg with WithDetails := b }

/-- Function `OptBatchSize`: a value that is not positive is logged and the
configuration is left as it is. -/
def OptBatchSize {F : Type} (i : Int) : ConfigOption F :=
  fun cfg =>
    if i ≤ 0 then cfg
    else { cfg with BatchSize := i }

/-- Function `OptWithStream`. -/
def OptWithStream {F : Type} (b : Bool) : ConfigOption F :=
  fun cfg => { cfg with WithStream := b }

/-- Function `OptWithNoOrder`. -/
def OptWithNoOrder {F : Type} (b : Bool) : ConfigOption F :=
  fun cfg => { cfg with WithNoOrder := b }

/-- Function `OptWithCapitaliation`. -/
def OptWithCapitaliation {F : Type} (b : Bool) : ConfigOption F :=
  fun cfg => { cfg with WithCapitalization := b }

/-- Function `OptDisableCultivars`. -/
def OptDisableCultivars {F : Type} (b : Bool) : ConfigOption F :=
  fun cfg => { cfg with DisableCultivars := b }

/-- Function `OptPort`. -/
def OptPort {F : Type} (i : Int) : ConfigOption F :=
  fun cfg => { cfg with Port := i }

/-- Function `OptIsTest`. -/
def OptIsTest {F : Type} (b : Bool) : ConfigOption F :=
  fun cfg => { cfg with IsTest := b }

/-- Function `OptDebug`. -/
def OptDebug {F : Type} (b : Bool) : ConfigOption F :=
  fun cfg => { cfg with Debug := b }

/-- Function `NewConfig`.  `NumCPU` is the value of `runtime.NumCPU()`; the
fields that the composite literal does not name have their zero value. -/
def NewConfig {F : Type} (CSV : F) (NumCPU : Int) (opts : List (ConfigOption F)) : Config F :=
  let cfg : Config F :=
    { Format := CSV
      JobsNum := NumCPU
      BatchSize := 50000
      WithStream := false
      IgnoreHTMLTags := false
      WithDetails := false
      WithNoOrder := false
      WithCapitalization := false
      DisableCultivars := false
      Port := 8080
      IsTest := false
      Debug := false }
  opts.foldl (fun cfg opt => opt cfg) cfg

/-- A call of one of the exported constructors `Opt*` of `config.go`, with its
argument. -/
inductive OptCall where
  | Format (s : String)
  | JobsNum (i : Int)
  | IgnoreHTMLTags (b : Bool)
  | WithDetails (b : Bool)
  | BatchSize (i : Int)
  | WithStream (b : Bool)
  | WithNoOrder (b : Bool)
  | WithCapitaliation (b : Bool)
  | DisableCultivars (b : Bool)
  | Port (i : Int)
  | IsTest (b : Bool)
  | Debug (b : Bool)
deriving DecidableEq, Repr

/-- The option that a call returns. -/
def OptCall.option {F : Type} (CSV : F) (NewFormat : String → Option F) :
    OptCall → ConfigOption F
  | .Format s => OptFormat CSV NewFormat s
  | .JobsNum i => OptJobsNum i
  | .IgnoreHTMLTags b => OptIgnoreHTMLTags b
  | .WithDetails b => OptWithDetails b
  | .BatchSize i => OptBatchSize i
  | .WithStream b => OptWithStream b
  | .WithNoOrder b => OptWithNoOrder b
  | .WithCapitaliation b => OptWithCapitaliation b
  | .DisableCultivars b => OptDisableCultivars b
  | .Port i => OptPort i
  | .IsTest b => OptIsTest b
  | .Debug b => OptDebug b

/-- The value of the last call in `calls` that sets a field, where `sel` tells
which value a call sets, and `d` when no call sets the field. -/
def lastSetting {α : Type} (sel : OptCall → Option α) (d : α) (calls : List OptCall) : α :=
  (calls.filterMap sel).getLast?.getD d

/-- The batch size that a call sets: the argument of `OptBatchSize` when it is
positive. -/
def OptCall.batchSize : OptCall → Option Int
  | .BatchSize i => if 0 < i then some i else none
  | _ => none

/-- The format that a call sets: `OptFormat` sets the format of its string, and
`CSV` for a string that `NewFormat` refuses. -/
def OptCall.format {F : Type} (CSV : F) (NewFormat : String → Option F) : OptCall → Option F
  | .Format s => some ((NewFormat s).getD CSV)
  | _ => none

/-- The integer that a call sets in `JobsNum`. -/
def OptCall.jobsNum : OptCall → Option Int
  | .JobsNum i => some i
  | _ => none

/-- The integer that a call sets in `Port`. -/
def OptCall.port : OptCall → Option Int
  | .Port i => some i
  | _ => none

/-- The flags of a `Config`, in the order of the record: `WithStream`,
`IgnoreHTMLTags`, `WithDetails`, `WithNoOrder`, `WithCapitalization`,
`DisableCultivars`, `IsTest`, `Debug`. -/
def Config.flags {F : Type} (cfg : Config F) : List Bool :=
  [cfg.WithStream, cfg.IgnoreHTMLTags, cfg.WithDetails, cfg.WithNoOrder,
   cfg.WithCapitalization, cfg.DisableCultivars, cfg.IsTest, cfg.Debug]

/-- The flag number `k` (in the order of `Config.flags`) that a call sets. -/
def OptCall.flag (k : Nat) : OptCall → Option Bool
  | .WithStream b => if k = 0 then some b else none
  | .IgnoreHTMLTags b => if k = 1 then some b else none
  | .WithDetails b => if k = 2 then some b else none
  | .WithNoOrder b => if k = 3 then some b else none
  | .WithCapitaliation b => if k = 4 then some b else none
  | .DisableCultivars b => if k = 5 then some b else none
  | .IsTest b => if k = 6 then some b else none
  | .Debug b => if k = 7 then some b else none
  | _ => none

/-- The position spans of the words of an authors team in the order in which rule
`AuthorsTeam` matches them: the words of each author, then the year. -/
def authorsTeamNode.parts : Option authorsTeamNode → List parsed.Word
  | none => []
  | some aut =>
    aut.Authors.flatMap (fun a => a.Words.map (fun w => w.Pos)) ++
      aut.Year.toList.map (fun yr => yr.Word.Pos)

/-- The position spans of the words of an authors group in the order of rule
`AuthorsGroup`: the first team, then the second. -/
def authorsGroupNode.parts : Option authorsGroupNode → List parsed.Word
  | none => []
  | some ag => authorsTeamNode.parts ag.Team1 ++ authorsTeamNode.parts ag.Team2

/-- The position spans of the words of an authorship in the order of rule
`AuthorshipCombo`: the original authors, then the combination authors. -/
def authorshipNode.parts : Option authorshipNode → List parsed.Word
  | none => []
  | some a => authorsGroupNode.parts a.OriginalAuthors ++ authorsGroupNode.parts a.CombinationAuthors

/-- The position spans of the parts of a species node in the order in which rule
`NameSpecies` matches them: genus, subgenus if any, species epithet, its
authorship words, then for each infraspecific element its rank if any, its
epithet and its authorship words. -/
def speciesNode.parts (sp : speciesNode) : List parsed.Word :=
  [sp.Genus.Pos] ++ sp.Subgenus.toList.map (fun w => w.Pos) ++ [sp.SpEpithet.Word.Pos] ++
    authorshipNode.parts sp.SpEpithet.Authorship ++
    sp.Infraspecies.flatMap (fun v =>
      v.Rank.toList.map (fun r => r.Word.Pos) ++ [v.Word.Pos] ++
        authorshipNode.parts v.Authorship)

/-- Spans in source order without overlap: each span is not empty and ends at or
before the start of the next one. -/
def InSourceOrder : List parsed.Word → Bool
  | [] => true
  | a :: rest =>
    decide (a.Start < a.End) &&
      (match rest with
       | [] => true
       | b :: _ => decide (a.End ≤ b.Start)) &&
      InSourceOrder rest

/-- The span of a word. -/
def parsed.Word.span (w : parsed.Word) : Int × Int := (w.Start, w.End)

/-- The rules that give the shape of a name, by which the token lists of the
examples are filtered: the root, the name and its tail, hybrid formulas, the kinds
of single name used in the examples, and the genus, epithet, rank and authorship
inside them. -/
def isNameRule (t : token32) : Bool :=
  t.pegRule = .ruleSciName ∨ t.pegRule = .ruleTail ∨ t.pegRule = .ruleName ∨
    t.pegRule = .ruleHybridFormula ∨ t.pegRule = .ruleHybridFormulaFull ∨
    t.pegRule = .ruleHybridFormulaPart ∨ t.pegRule = .ruleHybridChar ∨
    t.pegRule = .ruleNameUninomial ∨ t.pegRule = .ruleNameSpecies ∨
    t.pegRule = .ruleGenusWord ∨ t.pegRule = .ruleSpeciesEpithet ∨
    t.pegRule = .ruleInfraspEpithet ∨ t.pegRule = .ruleRank ∨
    t.pegRule = .ruleWord ∨ t.pegRule = .ruleAuthorship

/-- The runes of `s`. -/
def runesOf (s : String) : List Nat := s.toList.map Char.toNat

/-- The runes `[b, e)` of a buffer. -/
def slice (buffer : List Nat) (b e : Nat) : List Nat := (buffer.drop b).take (e - b)

/-- Whether a terminal of the expression (a character or a range) matches the
rune `c`. -/
def Expr.hasTerminal (c : Nat) : Expr → Bool
  | .char x => x = c
  | .range lower upper => lower ≤ c ∧ c ≤ upper
  | .seq a b => a.hasTerminal c || b.hasTerminal c
  | .alt a b => a.hasTerminal c || b.hasTerminal c
  | .peekFor e => e.hasTerminal c
  | .peekNot e => e.hasTerminal c
  | .query e => e.hasTerminal c
  | .star e => e.hasTerminal c
  | .plus e => e.hasTerminal c
  | _ => false

/-- The uninomial node of the word `w` at runes `[b, e)`, without authorship. -/
def mkUninomial (w : String) (b e : Int) : name :=
  .uninomialNode { Word := mkWord w b e, Authorship := none }

/-! ## The stemmer (package `stemmer`, modelled)

Package `stemmer` is not among the sources; only its test is.  The definitions
of this section follow section 4.6 of the specification.  A word is handled as
the list of its runes. -/

namespace stemmer

/-- Modelled from the spec: record `StemmedWord`, the result of `Stem`, which is
missing from the sources: "Output: `{stem, latinized}`". -/
structure StemmedWord where
  Stem : String
  Latinized : String
deriving DecidableEq, Repr

/-- Modelled from the spec: rule 1 of the stemmer, which is missing from the
sources: "Latinize: replace `j→i`, `v→u`, and `ë→e`". -/
def latinize (w : List Char) : List Char :=
  w.map fun c => if c = 'j' then 'i' else if c = 'v' then 'u' else if c = 'ë' then 'e' else c

/-- Modelled from the spec: the suffix table of rule 2 of the stemmer, which is
missing from the sources, in the order of the specification. -/
def suffixes : List (List Char) :=
  ["arum", "orum", "iorum", "ierum", "issimus", "issima", "issimum", "imus", "ima", "imum",
   "aceus", "acea", "aceum", "atum", "ata", "atus", "ensis", "ense", "icus", "ica", "icum",
   "ii", "iae", "ae", "us", "um", "a", "i", "is", "e", "os", "as", "es", "o"].map String.toList

/-- Modelled from the spec: the exceptions of rule 3 of the stemmer that the
specification lists; the list of the missing source may hold more. -/
def queExceptions : List (List Char) :=
  ["detorque", "conteque", "absque", "atque", "itaque", "namque", "neque"].map String.toList

/-- Modelled from the spec: the "longest-match across the table" of rule 2, the
longest suffix of the table that the word ends in. -/
def longestSuffix (w : List Char) : Option (List Char) :=
  suffixes.foldl
    (fun best s =>
      if s.isSuffixOf w &&
          (match best with
           | some b => decide (b.length < s.length)
           | none => true) then some s
      else best)
    none

/-- Modelled from the spec: rule 2 of the stemmer, "Suffix removal (longest-match
across the table) ... each with its canonical replacement".  The specification
does not give the replacements: `replacement` maps a suffix to its replacement. -/
def removeSuffix (replacement : List Char → List Char) (w : List Char) : List Char :=
  match longestSuffix w with
  | some s => w.take (w.length - s.length) ++ replacement s
  | none => w

/-- Modelled from the spec: rule 3 of the stemmer, which is missing from the
sources: "Special `que` suffix: remove trailing `que` only when not in the
exception list".  `more` holds the exceptions that the specification does not
list. -/
def removeQue (more : List (List Char)) (w : List Char) : List Char :=
  if "que".toList.isSuffixOf w ∧ w ∉ queExceptions ++ more then w.take (w.length - 3) else w

/-- Modelled from the spec: the rules 2 to 4 of function `Stem` of package
`stemmer`, which is missing from the sources, on a latinized word, "applied in
order": rule 2 removes the longest suffix of the table, rule 3 removes a trailing
`que` from what rule 2 leaves, and rule 4 is "If the result is shorter than 3
runes, revert to the latinized form." -/
def stemRunes (replacement : List Char → List Char) (more : List (List Char))
    (lat : List Char) : List Char :=
  let stem := removeQue more (removeSuffix replacement lat)
  if stem.length < 3 then lat else stem

/-- Modelled from the spec: function `Stem` of package `stemmer`, which is missing
from the sources: the latinized word and the stem that `stemRunes` gives for
it. -/
def Stem (replacement : List Char → List Char) (more : List (List Char)) (wrd : String) :
    StemmedWord :=
  let lat := latinize wrd.toList
  { Stem := String.mk (stemRunes replacement more lat), Latinized := String.mk lat }

/-- A replacement table for rule 2: the suffix `e` is kept, the suffixes of a
participle keep `at`, and every other suffix is removed.  With it the modelled
stemmer gives the stems that the test of the repository expects (`somethingque`
gives `something`, `virgata` gives `uirgat`). -/
def plainReplacement (s : List Char) : List Char :=
  if s = "e".toList then "e".toList
  else if s = "ata".toList ∨ s = "atum".toList ∨ s = "atus".toList then "at".toList else []

/-- What `longestSuffix` holds after the suffixes `seen` of the table: none when
the word ends in none of them, and otherwise one of them that the word ends in and
that is as long as any other such. -/
def LongestAmong (w : List Char) (seen : List (List Char)) : Option (List Char) → Prop
  | none => ∀ s ∈ seen, s.isSuffixOf w = false
  | some b => b ∈ seen ∧ b.isSuffixOf w = true ∧
    ∀ s ∈ seen, s.isSuffixOf w = true → s.length ≤ b.length

end stemmer

/-- Whether the code of the expression can neither step over the sentinel nor
call a missing rule: no character is the sentinel, no range holds it, and every
rule called has a function. -/
def Expr.safe : Expr → Bool
  | .dot => true
  | .char c => c ≠ endSymbol
  | .range lower upper => endSymbol < lower ∨ upper < endSymbol
  | .call r => (rules r).isSome
  | .action => true
  | .seq a b => a.safe && b.safe
  | .alt a b => a.safe && b.safe
  | .peekFor e => e.safe
  | .peekNot e => e.safe
  | .query e => e.safe
  | .star e => e.safe
  | .plus e => e.safe

/-- What a run returns when every read `buffer[position]` is within a buffer whose
sentinel is at index `n`: a result with the position at or before the sentinel,
or nothing yet; never a panic. -/
def Outcome.within (n : Nat) : Outcome (Bool × State) → Prop
  | .done (_, p) => p.position ≤ n
  | .fault => False
  | .timeout => True

/-- The rules that can match without consuming a rune. -/
def nullableRule : pegRule → Bool
  | .ruleTail => true
  | .ruleApproxNameIgnored => true
  | .ruleSpaceCharEOI => true
  | .ruleAction0 => true
  | _ => false

/-- Whether the expression may match without consuming a rune, given
`nullableRule` for the rules it calls. -/
def Expr.nullable : Expr → Bool
  | .dot => false
  | .char _ => false
  | .range _ _ => false
  | .call r => nullableRule r
  | .action => true
  | .seq a b => a.nullable && b.nullable
  | .alt a b => a.nullable || b.nullable
  | .peekFor _ => true
  | .peekNot _ => true
  | .query _ => true
  | .star _ => true
  | .plus e => e.nullable

/-- Whether the body of every repetition (`e*`, `e+`) in the expression consumes
at least one rune when it matches. -/
def Expr.loopsConsume : Expr → Bool
  | .seq a b => a.loopsConsume && b.loopsConsume
  | .alt a b => a.loopsConsume && b.loopsConsume
  | .peekFor e => e.loopsConsume
  | .peekNot e => e.loopsConsume
  | .query e => e.loopsConsume
  | .star e => !e.nullable && e.loopsConsume
  | .plus e => !e.nullable && e.loopsConsume
  | _ => true

/-- The rules that the expression may call before it has consumed a rune. -/
def Expr.leftCalls : Expr → List pegRule
  | .call r => [r]
  | .seq a b => a.leftCalls ++ (if a.nullable then b.leftCalls else [])
  | .alt a b => a.leftCalls ++ b.leftCalls
  | .peekFor e => e.leftCalls
  | .peekNot e => e.leftCalls
  | .query e => e.leftCalls
  | .star e => e.leftCalls
  | .plus e => e.leftCalls
  | _ => []

/-- A ranking of the rules under which every rule ranks above the rules it may
call before consuming a rune: the length of the longest such chain of calls that
starts at the rule. -/
def leftRank : pegRule → Nat
  | .ruleHybridFormulaFull | .ruleHybridFormulaPart | .ruleNamedGenusHybrid | .ruleRank
  | .ruleBasionymAuthorship | .ruleAuthorPrefix | .ruleAuthorUpperChar
  | .ruleAuthorLowerChar | .ruleYearRange | .ruleYearWithDot | .ruleYearWithChar
  | .ruleUpperChar | .ruleLowerChar | .ruleMultipleSpace => 1
  | .ruleAbbrGenus | .ruleAuthorWordSoft | .ruleCapAuthorWord | .ruleAllCapsAuthorWord
  | .ruleYearWithPage | .ruleNameUpperChar | .ruleNameLowerChar | .rule_ => 2
  | .ruleTail | .ruleCapWord1 | .ruleWord1 | .ruleWord2 | .ruleWordApostr | .ruleWord4
  | .ruleAuthorSep1 | .ruleAuthorSep2 | .ruleAuthorWord3 | .ruleYear
  | .ruleSpaceCharEOI => 3
  | .ruleCapWord2 | .ruleWord | .ruleAuthorSep | .ruleAuthorWord2 => 4
  | .ruleInfraspEpithet | .ruleSpeciesEpithet | .ruleCapWord | .ruleAuthorWord => 5
  | .ruleInfraspGroup | .ruleUninomialWord | .ruleAuthor2 => 6
  | .ruleGenusWord | .ruleUninomialCombo1 | .ruleUninomial | .ruleAuthor1 => 7
  | .ruleNamedSpeciesHybrid | .ruleNameApprox | .ruleNameComp | .ruleNameSpecies
  | .ruleUninomialCombo2 | .ruleAuthor => 8
  | .ruleNamedHybrid | .ruleUninomialCombo | .ruleAuthorsTeam => 9
  | .ruleNameUninomial | .ruleAuthorsGroup => 10
  | .ruleSingleName | .ruleOriginalAuthorship | .ruleCombinationAuthorship => 11
  | .ruleHybridFormula | .ruleAuthorshipCombo => 12
  | .ruleName | .ruleAuthorship => 13
  | .ruleSciName => 14
  | _ => 0

/-- Whether a run returns, with some fuel, a result: neither a panic nor an
endless computation. -/
def Returns (buf : List Nat) (e : Expr) (p : State) : Prop :=
  ∃ (f : Nat) (r : Bool × State), run buf f e p = .done r

/-- Whether the runes `l` stand in the buffer from index `pos` on. -/
def matchesAt (buf : List Nat) : Nat → List Nat → Bool
  | _, [] => true
  | pos, c :: rest => buf.get? pos == some c && matchesAt buf (pos + 1) rest

/-- The runes that the expression matches, when it is a sequence of
characters. -/
def Expr.literal : Expr → Option (List Nat)
  | .char c => some [c]
  | .seq a b =>
    match a.literal, b.literal with
    | some x, some y => some (x ++ y)
    | _, _ => none
  | _ => none

/-- The sequences of runes among which the expression chooses, when it is an
ordered choice of sequences of characters. -/
def Expr.literals : Expr → Option (List (List Nat))
  | .alt a b =>
    match a.literals, b.literals with
    | some x, some y => some (x ++ y)
    | _, _ => none
  | .char c => some [[c]]
  | .seq a b => (Expr.seq a b).literal.map (fun l => [l])
  | _ => none

/-- The set of runes that the expression matches, when it is a class of single
runes: a character, a range, a choice of classes, or a rule that `cls` knows as
a class. -/
def Expr.classWith (cls : pegRule → Option (Nat → Bool)) : Expr → Option (Nat → Bool)
  | .char x => some (fun c => c = x)
  | .range lower upper => some (fun c => lower ≤ c ∧ c ≤ upper)
  | .alt a b =>
    match a.classWith cls, b.classWith cls with
    | some x, some y => some (fun c => x c || y c)
    | _, _ => none
  | .call r => cls r
  | _ => none

/-- The set of runes that a rule matches, when its body is a class of single
runes; `k` bounds the depth of the rules called. -/
def ruleClass : Nat → pegRule → Option (Nat → Bool)
  | 0, _ => none
  | k + 1, r =>
    match rules r with
    | some body => body.classWith (ruleClass k)
    | none => none

/-- Whether the rune `c` is in the class of rule `r`. -/
def inClass (r : pegRule) (c : Nat) : Bool :=
  match ruleClass 3 r with
  | some cls => cls c
  | none => false

/-- The state in which a run matched. -/
def Outcome.matched : Outcome (Bool × State) → Option State
  | .done (true, q) => some q
  | _ => none

/-- A class of single runes reads the rune at the position, matches exactly when
the rune is in the class, and then moves the position by one. -/
def ClassSound (cls : pegRule → Option (Nat → Bool)) : Prop :=
  ∀ (r : pegRule) (P : Nat → Bool), cls r = some P → ∀ (buf : List Nat) (f : Nat) (p : State)
    (b : Bool) (q : State), run buf f (.call r) p = .done (b, q) →
    ∃ c, buf.get? p.position = some c ∧ b = P c ∧ (b = true → q.position = p.position + 1)

/-- The rank markers that end in a period after which the grammar asks for
nothing: the markers of `RankForma` and `RankSsp` and the marker `var` of `RankVar`,
each with the period of its alternative `(&SpaceCharEOI / '.')`, and `nvar.`. -/
def periodRankMarkers : List (List Nat) :=
  ["forma.", "fma.", "form.", "fo.", "f.", "ssp.", "subsp.", "var.", "nvar."].map runesOf

/-- How a match of rule `Rank` from position `pos` to position `pos'` ends: the
next rune is a space or the sentinel, or the runes matched are one of the markers
of `periodRankMarkers`. -/
def RankEnd (buf : List Nat) (pos pos' : Nat) : Prop :=
  (buf.get? pos' = some ' '.toNat ∨ buf.get? pos' = some endSymbol) ∨
  ∃ l ∈ periodRankMarkers, matchesAt buf pos l = true ∧ pos' = pos + l.length

/-- The two-letter genera that the specification lists, as runes. -/
def twoLetterGenera : List (List Nat) :=
  ["Ca", "Ea", "Ge", "Ia", "Io", "Ix", "Lo", "Oa", "Ra", "Ty", "Ua", "Aa", "Ja", "Zu", "La",
   "Qu", "As", "Ba"].map runesOf

/-- A match of a capitalised word of at least three letters from position `pos`
to position `pos'`: an upper-case name letter and two lower-case name letters
stand at `pos`, and `pos'` is at least 3 further. -/
def ThreeLetters (buf : List Nat) (pos pos' : Nat) : Prop :=
  ∃ c1 c2 c3, buf.get? pos = some c1 ∧ buf.get? (pos + 1) = some c2 ∧
    buf.get? (pos + 2) = some c3 ∧ inClass .ruleNameUpperChar c1 = true ∧
    inClass .ruleNameLowerChar c2 = true ∧ inClass .ruleNameLowerChar c3 = true ∧
    pos + 3 ≤ pos'

/-- The values of the authors of the first team of an authors group, in order;
none for a nil group or a nil first team. -/
def authorsGroupNode.firstTeamAuthors : Option authorsGroupNode → List String
  | none => []
  | some ag =>
    match ag.Team1 with
    | none => []
    | some team1 => team1.Authors.map (fun v => v.Value)

/-- The parts that one element of a hybrid formula adds to a canonical form: the
normalized hybrid sign and, when the element has a name, the form `sel` of the
canonical of that name. -/
def hybridElement.canonicalParts (sel : canonical → String) (v : hybridElement name) :
    List String :=
  match v.Species with
  | some s => [v.HybridChar.NormValue, sel s.canonical]
  | none => [v.HybridChar.NormValue]

/-! ## Batches of lines (`gnparser/cmd/parse_batch.go`) -/

/-- The variables `batch` and `count` of `parseBatch`, and the arguments of the
calls of `gnp.ParseNames` made so far, in order (`chOut` receives the result of
each call). -/
structure BatchLoop where
  batch : List String
  count : Nat
  calls : List (List String)
deriving DecidableEq, Repr

/-- The body of the loop `for sc.Scan()` of `parseBatch` for the line `text`:
`batch[count] = sc.Text()`, `count++` and, when the batch is full, a call of
`ParseNames` on it, a fresh batch and `count = 0`.  The result is `none` when the
index `count` is out of range (a run-time panic).  The progress log is left
out. -/
def parseBatch.step (batchSize : Int) (st : BatchLoop) (text : String) : Option BatchLoop :=
  if st.count < st.batch.length then
    let batch := st.batch.set st.count text
    let count := st.count + 1
    if (count : Int) = batchSize then
      some { batch := List.replicate batchSize.toNat "", count := 0,
             calls := st.calls ++ [batch] }
    else some { batch := batch, count := count, calls := st.calls }
  else none

/-- The loop `for sc.Scan()` of `parseBatch` over the lines that the scanner
yields. -/
def parseBatch.loop (batchSize : Int) : BatchLoop → List String → Option BatchLoop
  | st, [] => some st
  | st, text :: rest =>
    match parseBatch.step batchSize st text with
    | none => none
    | some st' => parseBatch.loop batchSize st' rest

/-- Function `parseBatch` on the lines of the reader `f`: the slices handed to
`gnp.ParseNames`, in order, the last one being `batch[:count]`; `none` when the
function panics (`make` with a negative size, or an index out of range).
`batchSize` is the package variable of that name. -/
def parseBatch (batchSize : Int) (lines : List String) : Option (List (List String)) :=
  if batchSize < 0 then none
  else
    match parseBatch.loop batchSize
        { batch := List.replicate batchSize.toNat "", count := 0, calls := [] } lines with
    | none => none
    | some st => some (st.calls ++ [st.batch.take st.count])

/-- The expression and the expressions inside it (not those of the rules it
calls). -/
def Expr.subexprs : Expr → List Expr
  | .seq a b => .seq a b :: (a.subexprs ++ b.subexprs)
  | .alt a b => .alt a b :: (a.subexprs ++ b.subexprs)
  | .peekFor e => .peekFor e :: e.subexprs
  | .peekNot e => .peekNot e :: e.subexprs
  | .query e => .query e :: e.subexprs
  | .star e => .star e :: e.subexprs
  | .plus e => .plus e :: e.subexprs
  | e => [e]

/-- Whether the code of the expression jumps to the failure label only with the
position and the token index it was entered with: a character, a range or the
dot fail before `position++`, a rule restores both at its own label, a choice
restores both before its last alternative, and a lookahead `&e` or a repetition
`e+` fails where `e` does. -/
def Expr.failsClean : Expr → Bool
  | .seq _ _ => false
  | .peekNot _ => false
  | .alt _ b => b.failsClean
  | .peekFor e => e.failsClean
  | .plus e => e.failsClean
  | _ => true

/-- Whether every lookahead `&e` inside the expression has an operand that
`failsClean`. -/
def Expr.peeksClean : Expr → Bool
  | .seq a b => a.peeksClean && b.peeksClean
  | .alt a b => a.peeksClean && b.peeksClean
  | .peekFor e => e.failsClean && e.peeksClean
  | .peekNot e => e.peeksClean
  | .query e => e.peeksClean
  | .star e => e.peeksClean
  | .plus e => e.peeksClean
  | _ => true

/-- The outcome of a run, the position and the token index it leaves. -/
def Outcome.left : Outcome (Bool × State) → Option (Bool × Nat × Nat)
  | .done (b, q) => some (b, q.position, q.tokenIndex)
  | _ => none

/-- Whether the buffer has a rune at index `pos` and the rune is in the set
`P`. -/
def runeIs (buf : List Nat) (pos : Nat) (P : Nat → Bool) : Bool :=
  match buf.get? pos with
  | some c => P c
  | none => false

/-- A hyphenated word between `pos` and `pos'`: lower-case name letters (at least
one), a hyphen at some index `d`, and lower-case name letters (at least one) up to
`pos'`. -/
def Hyphenated (buf : List Nat) (pos pos' : Nat) : Prop :=
  ∃ d, pos < d ∧ d + 1 < pos' ∧ buf.get? d = some '-'.toNat ∧
    (∀ i, pos ≤ i → i < d → runeIs buf i (inClass .ruleNameLowerChar) = true) ∧
    (∀ i, d < i → i < pos' → runeIs buf i (inClass .ruleNameLowerChar) = true)

/-- The four runes that the specification requires of a year number at index
`pos`: `1` or `2`, then one of `0`, `7`, `8`, `9`, then a digit, then a digit or
`?`. -/
def yearNumAt (buf : List Nat) (pos : Nat) : Bool :=
  runeIs buf pos (fun c => decide (c = '1'.toNat) || decide (c = '2'.toNat)) &&
  (runeIs buf (pos + 1) (fun c => decide (c = '0'.toNat) || (decide (c = '7'.toNat) ||
    (decide (c = '8'.toNat) || decide (c = '9'.toNat)))) &&
  (runeIs buf (pos + 2) (fun c => decide ('0'.toNat ≤ c ∧ c ≤ '9'.toNat)) &&
  runeIs buf (pos + 3) (fun c => decide ('0'.toNat ≤ c ∧ c ≤ '9'.toNat) ||
    decide (c = '?'.toNat))))

/-! ## The syntax tree of the tokens (`tokens32.AST`) -/

/-- A pointer to a `node32`: nil, or a node with its token and its pointers `up`
(the first node below it) and `next` (the next node beside it). -/
inductive node32 where
  | nil
  | node (token : token32) (up next : node32)
deriving DecidableEq, Repr

/-- The tokens of the nodes reachable from a node through `up` and `next`. -/
def node32.tokens : node32 → List token32
  | .nil => []
  | .node token up next => token :: (up.tokens ++ next.tokens)

/-- The inner loop of `AST` for the new node of `token`, whose `up` pointer is
`up` so far.  The stack lists the nodes of its elements, top first, each by its
fields token, `up` and `next`.  While the span of the top node lies inside the
span of `token`, the loop sets `stack.node.next = node.up`, `node.up = stack.node`
and pops the stack.  The result is the `up` pointer of the new node and the rest
of the stack. -/
def tokens32.AST.pop (token : token32) :
    node32 → List (token32 × node32 × node32) → node32 × List (token32 × node32 × node32)
  | up, [] => (up, [])
  | up, (t, u, n) :: down =>
    if t.begin ≥ token.begin ∧ t.«end» ≤ token.«end» then
      tokens32.AST.pop token (.node t u up) down
    else (up, (t, u, n) :: down)

/-- The body of the loop `for _, token := range tokens` of `AST`: an empty token is
skipped; otherwise a node is made for it, the nodes inside its span are popped
under it and it is pushed on the stack. -/
def tokens32.AST.push (stack : List (token32 × node32 × node32)) (token : token32) :
    List (token32 × node32 × node32) :=
  if token.begin = token.«end» then stack
  else
    match tokens32.AST.pop token .nil stack with
    | (up, stack) => (token, up, .nil) :: stack

/-- Method `tokens32.AST`: the node on top of the stack after the loop, nil when
the stack is empty. -/
def tokens32.AST (tree : List token32) : node32 :=
  match tree.foldl tokens32.AST.push [] with
  | [] => .nil
  | (t, u, n) :: _ => .node t u n

/-- The rules that the expression calls (not those that these rules call in
turn). -/
def Expr.calls : Expr → List pegRule
  | .call r => [r]
  | .seq a b => a.calls ++ b.calls
  | .alt a b => a.calls ++ b.calls
  | .peekFor e => e.calls
  | .peekNot e => e.calls
  | .query e => e.calls
  | .star e => e.calls
  | .plus e => e.calls
  | _ => []

/-- A token that records a match: its rule, called at the position where the
token begins, matched up to the position where the token ends. -/
def Matched (buf : List Nat) (t : token32) : Prop :=
  ∃ (f : Nat) (p q : State), run buf f (.call t.pegRule) p = .done (true, q) ∧
    p.position = t.begin ∧ q.position = t.«end»

/-- Token lists laid out as trees between the positions `lo` and `hi`: the empty
list, or a list of that kind up to a position `b`, then the tokens of a list of
that kind between `b` and `e`, then the token of a rule over `b` to `e`, which
satisfies `ok`. -/
inductive Nested (ok : token32 → Prop) : Nat → Nat → List token32 → Prop
  | nil {lo hi : Nat} : lo ≤ hi → Nested ok lo hi []
  | node {lo b e hi : Nat} (r : pegRule) {before inside : List token32} :
    Nested ok lo b before → Nested ok b e inside → e ≤ hi → ok ⟨r, b, e⟩ →
    Nested ok lo hi (before ++ inside ++ [⟨r, b, e⟩])

/-- What a match of `e` from state `p` to state `q` adds to the live tokens: a
list `seg` of tokens laid out as trees between the two positions, each token a
match of its rule; when the rules that `e` calls are in the set `S`, so are the
rules of the tokens. -/
def RunSeg (buf : List Nat) (S : pegRule → Bool) (e : Expr) (p q : State) : Prop :=
  ∃ seg, tokens32.Trim q.tree q.tokenIndex = tokens32.Trim p.tree p.tokenIndex ++ seg ∧
    Nested (Matched buf) p.position q.position seg ∧
    ((∀ r ∈ e.calls, S r = true) → ∀ t ∈ seg, S t.pegRule = true)

/-- The rules of the spaces and of the tail. -/
def isTailRule (r : pegRule) : Bool :=
  r = .ruleTail ∨ r = .rule_ ∨ r = .ruleMultipleSpace ∨ r = .ruleSingleSpace

/-- The rules of an approximate name and of the root, by which the token list of
the example is filtered. -/
def isApproxRule (t : token32) : Bool :=
  t.pegRule = .ruleNameApprox ∨ t.pegRule = .ruleApproximation ∨
    t.pegRule = .ruleApproxNameIgnored ∨ t.pegRule = .ruleName ∨ t.pegRule = .ruleTail ∨
    t.pegRule = .ruleSciName

/-- The tokens of the nodes reachable from a node in the order of the token list:
first those of the nodes below the node, then its own token, then those of the
nodes beside it. -/
def node32.postorder : node32 → List token32
  | .nil => []
  | .node token up next => up.postorder ++ token :: next.postorder

/-- Whether, at every node reachable from a node, the span of the node holds the
span of every node below it. -/
def node32.Inside : node32 → Prop
  | .nil => True
  | .node token up next =>
    (∀ t ∈ up.tokens, token.begin ≤ t.begin ∧ t.«end» ≤ token.«end») ∧ up.Inside ∧ next.Inside

/-- The tokens of the nodes of a stack of `AST`, the bottom of the stack first. -/
def tokens32.AST.stackTokens : List (token32 × node32 × node32) → List token32
  | [] => []
  | (t, u, n) :: down => tokens32.AST.stackTokens down ++ (node32.node t u n).postorder

/-! ## Theorems -/

theorem prepareWarningsLess_eq_false_iff {M : Type} [LinearOrder M]
    (a b : parsed.QualityWarning M) : prepareWarningsLess b a = false ↔ qwLe a b := by
  unfold prepareWarningsLess qwLe
  split_ifs with h1 h2
  · constructor
    · intro h; cases h
    · rintro (h | ⟨h, -⟩) <;> omega
  · constructor
    · intro _; exact Or.inl (by omega)
    · intro _; rfl
  · rw [decide_eq_false_iff_not, not_lt]
    constructor
    · intro h; exact Or.inr ⟨by omega, h⟩
    · rintro (h | ⟨-, h⟩)
      · omega
      · exact h

theorem qwLe_total {M : Type} [LinearOrder M] (a b : parsed.QualityWarning M) :
    qwLe a b ∨ qwLe b a := by
  unfold qwLe
  rcases lt_trichotomy a.Quality b.Quality with h | h | h
  · exact Or.inr (Or.inl h)
  · rcases le_total a.Warning b.Warning with h' | h'
    · exact Or.inl (Or.inr ⟨h, h'⟩)
    · exact Or.inr (Or.inr ⟨h.symm, h'⟩)
  · exact Or.inl (Or.inl h)

theorem qwLe_trans {M : Type} [LinearOrder M] {a b c : parsed.QualityWarning M}
    (hab : qwLe a b) (hbc : qwLe b c) : qwLe a c := by
  unfold qwLe at *
  rcases hab with h | ⟨h, h'⟩ <;> rcases hbc with k | ⟨k, k'⟩
  · exact Or.inl (by omega)
  · exact Or.inl (by omega)
  · exact Or.inl (by omega)
  · exact Or.inr ⟨by omega, le_trans h' k'⟩

theorem qwLe_antisymm {M : Type} [LinearOrder M] {a b : parsed.QualityWarning M}
    (hab : qwLe a b) (hba : qwLe b a) : a = b := by
  unfold qwLe at *
  cases a with
  | mk qa wa =>
    cases b with
    | mk qb wb =>
      simp only at hab hba
      rcases hab with h | ⟨h, h'⟩ <;> rcases hba with k | ⟨k, k'⟩
      · omega
      · omega
      · omega
      · rw [h, le_antisymm h' k']

theorem sortSlice_perm {α : Type} (less : α → α → Bool) (res : List α) :
    (sortSlice less res).Perm res :=
  List.perm_insertionSort _ res

theorem sortSlice_prepareWarningsLess_sorted {M : Type} [LinearOrder M]
    (res : List (parsed.QualityWarning M)) :
    (sortSlice prepareWarningsLess res).Sorted qwLe := by
  haveI : IsTotal (parsed.QualityWarning M) (fun a b => prepareWarningsLess b a = false) :=
    ⟨fun a b => by
      rw [prepareWarningsLess_eq_false_iff, prepareWarningsLess_eq_false_iff]
      exact qwLe_total a b⟩
  haveI : IsTrans (parsed.QualityWarning M) (fun a b => prepareWarningsLess b a = false) :=
    ⟨fun a b c => by
      rw [prepareWarningsLess_eq_false_iff, prepareWarningsLess_eq_false_iff,
        prepareWarningsLess_eq_false_iff]
      exact qwLe_trans⟩
  have hs := List.sorted_insertionSort
    (fun a b : parsed.QualityWarning M => prepareWarningsLess b a = false) res
  exact List.Pairwise.imp (fun h => (prepareWarningsLess_eq_false_iff _ _).1 h) hs

/-- The scenario of `output_test.go`: the five warnings come out with the unparsed
tail (quality 3) first and the quality 2 warnings in message order. -/
theorem prepareWarnings_testWarnings :
    prepareWarnings TestWarning.NewQualityWarning testWarnings =
      [⟨3, "Unparsed tail".toList⟩,
       ⟨2, "Non-standard characters in canonical".toList⟩,
       ⟨2, "Year with latin character".toList⟩,
       ⟨2, "Year with parentheses".toList⟩,
       ⟨2, "Year with question mark".toList⟩] := by
  decide

/-- Claim C1.  The quality score returned by `qualityWarnings` is 1 for the empty
warning set, and otherwise it is the largest quality weight among the warnings of
the set: some warning has that weight and none has a larger one. -/
theorem qualityWarnings_score_eq_max {W M : Type} [LinearOrder M]
    (NewQualityWarning : W → parsed.QualityWarning M) (ws : List W) :
    (ws = [] → (qualityWarnings NewQualityWarning ws).1 = 1) ∧
    (ws ≠ [] →
      (∃ w ∈ ws, (NewQualityWarning w).Quality = (qualityWarnings NewQualityWarning ws).1) ∧
      ∀ w ∈ ws, (NewQualityWarning w).Quality ≤ (qualityWarnings NewQualityWarning ws).1) := by
  have hperm : (prepareWarnings NewQualityWarning ws).Perm (ws.map NewQualityWarning) :=
    sortSlice_perm _ _
  have hsorted : (prepareWarnings NewQualityWarning ws).Sorted qwLe :=
    sortSlice_prepareWarningsLess_sorted _
  constructor
  · intro h
    subst h
    rfl
  · intro hne
    unfold qualityWarnings
    cases hres : prepareWarnings NewQualityWarning ws with
    | nil =>
      rw [hres] at hperm
      have := hperm.length_eq
      simp only [List.length_nil, List.length_map] at this
      exact absurd (List.length_eq_zero.1 this.symm) hne
    | cons q qs =>
      rw [hres] at hperm hsorted
      simp only
      constructor
      · have hq : q ∈ ws.map NewQualityWarning := hperm.subset (List.mem_cons_self q qs)
        obtain ⟨w, hw, hwq⟩ := List.mem_map.1 hq
        exact ⟨w, hw, by rw [hwq]⟩
      · intro w hw
        have hmem : NewQualityWarning w ∈ q :: qs :=
          hperm.symm.subset (List.mem_map_of_mem _ hw)
        rcases List.mem_cons.1 hmem with h | h
        · rw [h]
        · have := List.rel_of_sorted_cons hsorted _ h
          unfold qwLe at this
          rcases this with h' | ⟨h', -⟩ <;> omega

/-- Instance of claim C1 on the warnings of `output_test.go`: the score is 3, the
weight of the unparsed-tail warning, and every weight is at most 3. -/
theorem qualityWarnings_score_eq_max_witness :
    (∃ w ∈ testWarnings, (TestWarning.NewQualityWarning w).Quality =
        (qualityWarnings TestWarning.NewQualityWarning testWarnings).1) ∧
    ∀ w ∈ testWarnings, (TestWarning.NewQualityWarning w).Quality ≤
        (qualityWarnings TestWarning.NewQualityWarning testWarnings).1 :=
  (qualityWarnings_score_eq_max TestWarning.NewQualityWarning testWarnings).2 (by decide)

/-- Claim C2.  For a warning set enumerated without repetition by `ws`, the list
returned by `prepareWarnings` holds the quality warning of each member of the set
exactly once (it is a rearrangement of the enumeration), and it is sorted by
quality weight descending and, for equal weights, by message ascending. -/
theorem prepareWarnings_perm_sorted {W M : Type} [LinearOrder M]
    (NewQualityWarning : W → parsed.QualityWarning M) (ws : List W) (hws : ws.Nodup) :
    (prepareWarnings NewQualityWarning ws).Perm (ws.map NewQualityWarning) ∧
    (prepareWarnings NewQualityWarning ws).length = ws.length ∧
    (∀ w, (prepareWarnings NewQualityWarning ws).count (NewQualityWarning w) =
        (ws.map NewQualityWarning).count (NewQualityWarning w)) ∧
    (Function.Injective NewQualityWarning →
      (prepareWarnings NewQualityWarning ws).Nodup) ∧
    (prepareWarnings NewQualityWarning ws).Pairwise
      (fun a b => a.Quality > b.Quality ∨
        (a.Quality = b.Quality ∧ a.Warning ≤ b.Warning)) := by
  have hperm : (prepareWarnings NewQualityWarning ws).Perm (ws.map NewQualityWarning) :=
    sortSlice_perm _ _
  refine ⟨hperm, ?_, ?_, ?_, ?_⟩
  · rw [hperm.length_eq, List.length_map]
  · intro w
    classical
    exact hperm.count_eq _
  · intro hinj
    exact (hperm.nodup_iff).2 (hws.map hinj)
  · exact sortSlice_prepareWarningsLess_sorted _

/-- Instance of claim C2 on the warnings of `output_test.go`. -/
theorem prepareWarnings_perm_sorted_witness :
    testWarnings.Nodup ∧
    (prepareWarnings TestWarning.NewQualityWarning testWarnings).Perm
      (testWarnings.map TestWarning.NewQualityWarning) ∧
    (prepareWarnings TestWarning.NewQualityWarning testWarnings).Pairwise
      (fun a b => a.Quality > b.Quality ∨
        (a.Quality = b.Quality ∧ a.Warning ≤ b.Warning)) :=
  ⟨by decide,
   (prepareWarnings_perm_sorted TestWarning.NewQualityWarning testWarnings (by decide)).1,
   (prepareWarnings_perm_sorted TestWarning.NewQualityWarning testWarnings
      (by decide)).2.2.2.2⟩

/-- Claim C3.  Two enumerations of the same warning set (each without repetition,
with the same members) give the same sorted list and the same quality score. -/
theorem prepareWarnings_enumeration_independent {W M : Type} [LinearOrder M]
    (NewQualityWarning : W → parsed.QualityWarning M) (ws₁ ws₂ : List W)
    (h₁ : ws₁.Nodup) (h₂ : ws₂.Nodup) (hmem : ∀ w, w ∈ ws₁ ↔ w ∈ ws₂) :
    prepareWarnings NewQualityWarning ws₁ = prepareWarnings NewQualityWarning ws₂ ∧
    qualityWarnings NewQualityWarning ws₁ = qualityWarnings NewQualityWarning ws₂ := by
  have hp : ws₁.Perm ws₂ := (List.perm_ext_iff_of_nodup h₁ h₂).2 hmem
  have hp1 : (prepareWarnings NewQualityWarning ws₁).Perm (ws₁.map NewQualityWarning) :=
    sortSlice_perm _ _
  have hp2 : (prepareWarnings NewQualityWarning ws₂).Perm (ws₂.map NewQualityWarning) :=
    sortSlice_perm _ _
  haveI : IsAntisymm (parsed.QualityWarning M) qwLe := ⟨fun _ _ => qwLe_antisymm⟩
  have heq : prepareWarnings NewQualityWarning ws₁ = prepareWarnings NewQualityWarning ws₂ :=
    List.eq_of_perm_of_sorted (hp1.trans ((hp.map _).trans hp2.symm))
      (sortSlice_prepareWarningsLess_sorted _) (sortSlice_prepareWarningsLess_sorted _)
  refine ⟨heq, ?_⟩
  unfold qualityWarnings
  rw [heq]

/-- Instance of claim C3: the enumeration of `output_test.go` and its reverse. -/
theorem prepareWarnings_enumeration_independent_witness :
    prepareWarnings TestWarning.NewQualityWarning testWarnings =
      prepareWarnings TestWarning.NewQualityWarning testWarnings.reverse ∧
    qualityWarnings TestWarning.NewQualityWarning testWarnings =
      qualityWarnings TestWarning.NewQualityWarning testWarnings.reverse :=
  prepareWarnings_enumeration_independent TestWarning.NewQualityWarning
    testWarnings testWarnings.reverse (by decide) (by decide)
    (fun w => by cases w <;> decide)

/-- Claim C6.  For a node without name data, `ToOutput` returns `parsed = false`,
a null canonical, quality 0, cardinality 0, no warnings, an empty normalized
string and a null authorship; verbatim, verbatim id and parser version are those
of the node. -/
theorem ToOutput_unparsed {W M H S B : Type} [LinearOrder M]
    [Inhabited H] [Inhabited S] [Inhabited B]
    (StemCanonical : String → String) (NewQualityWarning : W → parsed.QualityWarning M)
    (sn : scientificNameNode W H S B) (withDetails : Bool) (h : sn.nameData = none) :
    (sn.ToOutput StemCanonical NewQualityWarning withDetails).Parsed = false ∧
    (sn.ToOutput StemCanonical NewQualityWarning withDetails).Canonical = none ∧
    (sn.ToOutput StemCanonical NewQualityWarning withDetails).ParseQuality = 0 ∧
    (sn.ToOutput StemCanonical NewQualityWarning withDetails).Cardinality = 0 ∧
    (sn.ToOutput StemCanonical NewQualityWarning withDetails).QualityWarnings = [] ∧
    (sn.ToOutput StemCanonical NewQualityWarning withDetails).Normalized = "" ∧
    (sn.ToOutput StemCanonical NewQualityWarning withDetails).Authorship = none ∧
    (sn.ToOutput StemCanonical NewQualityWarning withDetails).Verbatim = sn.verbatim ∧
    (sn.ToOutput StemCanonical NewQualityWarning withDetails).VerbatimID = sn.verbatimID ∧
    (sn.ToOutput StemCanonical NewQualityWarning withDetails).ParserVersion =
      sn.parserVersion := by
  simp [scientificNameNode.ToOutput, scientificNameNode.Canonical, h]

/-- Instance of claim C6 on the node of `SomeRandomText123`. -/
theorem ToOutput_unparsed_witness :
    unparsedNode.nameData = none ∧
    (unparsedNode.ToOutput id TestWarning.NewQualityWarning false).Parsed = false ∧
    (unparsedNode.ToOutput id TestWarning.NewQualityWarning false).Canonical = none ∧
    (unparsedNode.ToOutput id TestWarning.NewQualityWarning false).ParseQuality = 0 ∧
    (unparsedNode.ToOutput id TestWarning.NewQualityWarning false).Verbatim =
      "SomeRandomText123" :=
  have h := ToOutput_unparsed id TestWarning.NewQualityWarning unparsedNode false rfl
  ⟨rfl, h.1, h.2.1, h.2.2.1, h.2.2.2.2.2.2.2.1⟩

/-- Claim C7 fails as stated: for the node of `SomeRandomText123` the tail of the
output is not the verbatim input. -/
theorem ToOutput_unparsed_tail_ne_verbatim :
    unparsedNode.nameData = none ∧
    (unparsedNode.ToOutput id TestWarning.NewQualityWarning false).Tail ≠
      unparsedNode.verbatim :=
  ⟨rfl, by decide⟩

/-- Claim C7, amended.  For a node without name data the tail field of
`ToOutput`'s result is the empty string, whatever the node's verbatim and tail
are; the verbatim input is returned in the verbatim field. -/
theorem ToOutput_unparsed_tail_empty {W M H S B : Type} [LinearOrder M]
    [Inhabited H] [Inhabited S] [Inhabited B]
    (StemCanonical : String → String) (NewQualityWarning : W → parsed.QualityWarning M)
    (sn : scientificNameNode W H S B) (withDetails : Bool) (h : sn.nameData = none) :
    (sn.ToOutput StemCanonical NewQualityWarning withDetails).Tail = "" ∧
    (sn.ToOutput StemCanonical NewQualityWarning withDetails).Verbatim = sn.verbatim := by
  simp [scientificNameNode.ToOutput, scientificNameNode.Canonical, h]

/-- Instance of the amended claim C7 on the node of `SomeRandomText123`. -/
theorem ToOutput_unparsed_tail_empty_witness :
    unparsedNode.nameData = none ∧
    (unparsedNode.ToOutput id TestWarning.NewQualityWarning true).Tail = "" ∧
    (unparsedNode.ToOutput id TestWarning.NewQualityWarning true).Verbatim =
      "SomeRandomText123" :=
  ⟨rfl, ToOutput_unparsed_tail_empty id TestWarning.NewQualityWarning unparsedNode true rfl⟩

/-- Claim C8.  The parsed flag of `ToOutput` is true exactly when its canonical is
non-null, and that is exactly when the node has name data; when parsed is true
the canonical record holds the simple and the full canonical of the name data and
the stemmed form of the simple one. -/
theorem ToOutput_parsed_iff_canonical {W M H S B : Type} [LinearOrder M]
    [Inhabited H] [Inhabited S] [Inhabited B]
    (StemCanonical : String → String) (NewQualityWarning : W → parsed.QualityWarning M)
    (sn : scientificNameNode W H S B) (withDetails : Bool) :
    ((sn.ToOutput StemCanonical NewQualityWarning withDetails).Parsed = true ↔
      (sn.ToOutput StemCanonical NewQualityWarning withDetails).Canonical ≠ none) ∧
    ((sn.ToOutput StemCanonical NewQualityWarning withDetails).Canonical ≠ none ↔
      sn.nameData ≠ none) ∧
    ((sn.ToOutput StemCanonical NewQualityWarning withDetails).Parsed = true →
      ∃ nameData, sn.nameData = some nameData ∧
        (sn.ToOutput StemCanonical NewQualityWarning withDetails).Canonical =
          some { Stemmed := StemCanonical nameData.canonical.Value
                 Simple := nameData.canonical.Value
                 Full := nameData.canonical.ValueRanked }) := by
  cases hnd : sn.nameData with
  | none =>
    simp [scientificNameNode.ToOutput, scientificNameNode.Canonical, hnd]
  | some nameData =>
    cases withDetails <;>
      simp [scientificNameNode.ToOutput, scientificNameNode.Canonical, hnd]

/-- Instance of claim C8 on a parsed node (`Aus bus var. cus`): parsed is true and
the canonical is present. -/
theorem ToOutput_parsed_iff_canonical_witness :
    (parsedNode.ToOutput id TestWarning.NewQualityWarning false).Parsed = true ∧
    ∃ nameData, parsedNode.nameData = some nameData ∧
      (parsedNode.ToOutput id TestWarning.NewQualityWarning false).Canonical =
        some { Stemmed := id nameData.canonical.Value
               Simple := nameData.canonical.Value
               Full := nameData.canonical.ValueRanked } :=
  ⟨by decide,
   (ToOutput_parsed_iff_canonical id TestWarning.NewQualityWarning parsedNode false).2.2
     (by decide)⟩

/-- Claim C9 fails as stated: a node without name data that carries a surrogate
annotation is returned with `parsed = false` and without that annotation. -/
theorem ToOutput_short_circuited_surrogate_dropped :
    shortCircuitedNode.nameData = none ∧
    (shortCircuitedNode.ToOutput id TestWarning.NewQualityWarning false).Parsed = false ∧
    (shortCircuitedNode.ToOutput id TestWarning.NewQualityWarning false).Surrogate ≠
      shortCircuitedNode.surrogate :=
  ⟨rfl, by decide, by decide⟩

/-- Claim C9, amended.  For a node without name data `ToOutput` returns
`parsed = false`, the output's virus flag equals the node's virus flag, and the
output's surrogate (like its hybrid and bacteria annotations) is the zero value,
whatever the node holds. -/
theorem ToOutput_short_circuited {W M H S B : Type} [LinearOrder M]
    [Inhabited H] [Inhabited S] [Inhabited B]
    (StemCanonical : String → String) (NewQualityWarning : W → parsed.QualityWarning M)
    (sn : scientificNameNode W H S B) (withDetails : Bool) (h : sn.nameData = none) :
    (sn.ToOutput StemCanonical NewQualityWarning withDetails).Parsed = false ∧
    (sn.ToOutput StemCanonical NewQualityWarning withDetails).Virus = sn.virus ∧
    (sn.ToOutput StemCanonical NewQualityWarning withDetails).Surrogate = default ∧
    (sn.ToOutput StemCanonical NewQualityWarning withDetails).Hybrid = default ∧
    (sn.ToOutput StemCanonical NewQualityWarning withDetails).Bacteria = default := by
  simp [scientificNameNode.ToOutput, scientificNameNode.Canonical, h]

/-- Instance of the amended claim C9: the virus flag of `shortCircuitedNode` is
kept and its surrogate annotation is not. -/
theorem ToOutput_short_circuited_witness :
    shortCircuitedNode.nameData = none ∧
    (shortCircuitedNode.ToOutput id TestWarning.NewQualityWarning false).Parsed = false ∧
    (shortCircuitedNode.ToOutput id TestWarning.NewQualityWarning false).Virus = true ∧
    (shortCircuitedNode.ToOutput id TestWarning.NewQualityWarning false).Surrogate = none :=
  have h := ToOutput_short_circuited id TestWarning.NewQualityWarning shortCircuitedNode
    false rfl
  ⟨rfl, h.1, h.2.1, h.2.2.1⟩

theorem String_eq_empty_of_length_eq_zero {s : String} (h : s.length = 0) : s = "" := by
  cases s with
  | mk data =>
    have hd : data = [] := List.length_eq_zero.1 h
    subst hd
    rfl

theorem String_append_sep_ne_empty (a b : String) : a ++ " " ++ b ≠ "" := by
  intro hc
  have hl := congrArg String.length hc
  simp only [String.length_append] at hl
  have h0 : ("" : String).length = 0 := rfl
  have h1 : (" " : String).length = 1 := rfl
  omega

theorem JoinStrings_empty_left (s2 sep : String) : JoinStrings "" s2 sep = s2 := by
  simp [JoinStrings]

theorem JoinStrings_empty_right (s1 sep : String) : JoinStrings s1 "" sep = s1 := by
  unfold JoinStrings
  split_ifs with h h'
  · exact h.symm
  · rfl
  · exact absurd rfl h'

theorem JoinStrings_of_ne {s1 s2 : String} (sep : String) (h1 : s1 ≠ "") (h2 : s2 ≠ "") :
    JoinStrings s1 s2 sep = s1 ++ sep ++ s2 := by
  unfold JoinStrings
  rw [if_neg h1, if_neg h2]

theorem JoinStrings_ne_empty {s1 s2 : String} (h : s1 ≠ "") :
    JoinStrings s1 s2 " " ≠ "" := by
  by_cases h2 : s2 = ""
  · subst h2
    rw [JoinStrings_empty_right]
    exact h
  · rw [JoinStrings_of_ne " " h h2]
    exact String_append_sep_ne_empty s1 s2

theorem JoinStrings_assoc (a b r : String) (ha : a ≠ "") (hb : b ≠ "") :
    JoinStrings (JoinStrings a b " ") r " " = JoinStrings a (JoinStrings b r " ") " " := by
  by_cases hr : r = ""
  · subst hr
    rw [JoinStrings_empty_right, JoinStrings_empty_right]
  · rw [JoinStrings_of_ne " " ha hb, JoinStrings_of_ne " " hb hr,
      JoinStrings_of_ne " " (String_append_sep_ne_empty a b) hr,
      JoinStrings_of_ne " " ha (String_append_sep_ne_empty b r)]
    simp only [String.append_assoc]

theorem joinWords_cons_cons (w w' : String) (ws : List String) :
    joinWords (w :: w' :: ws) = w ++ " " ++ joinWords (w' :: ws) := rfl

theorem joinWords_filter_cons (a : String) (l : List String) (ha : a ≠ "") :
    joinWords ((a :: l).filter (fun w => w ≠ "")) =
      JoinStrings a (joinWords (l.filter (fun w => w ≠ ""))) " " := by
  have hfa : (a :: l).filter (fun w => w ≠ "") = a :: l.filter (fun w => w ≠ "") := by
    rw [List.filter_cons_of_pos]
    simpa using ha
  rw [hfa]
  cases hl : l.filter (fun w => w ≠ "") with
  | nil =>
    rw [show joinWords ([] : List String) = "" from rfl, JoinStrings_empty_right]
    rfl
  | cons b bs =>
    have hb : b ≠ "" := by
      have : b ∈ l.filter (fun w => w ≠ "") := by rw [hl]; exact List.mem_cons_self b bs
      simpa using (List.mem_filter.1 this).2
    have hj : joinWords (b :: bs) ≠ "" := by
      cases bs with
      | nil => exact hb
      | cons c cs =>
        rw [joinWords_cons_cons]
        exact String_append_sep_ne_empty _ _
    rw [joinWords_cons_cons, JoinStrings_of_ne " " ha hj]

/-- Folding `JoinStrings` with a single space over a list of words joins the
non-empty words by single spaces. -/
theorem foldl_JoinStrings_eq_joinWords (l : List String) (a : String) :
    l.foldl (fun acc w => JoinStrings acc w " ") a =
      joinWords ((a :: l).filter (fun w => w ≠ "")) := by
  induction l generalizing a with
  | nil =>
    by_cases ha : a = ""
    · subst ha; rfl
    · rw [joinWords_filter_cons _ _ ha]
      exact (JoinStrings_empty_right a " ").symm
  | cons b l ih =>
    rw [List.foldl_cons, ih]
    by_cases ha : a = ""
    · subst ha
      rw [JoinStrings_empty_left]
      rfl
    · by_cases hb : b = ""
      · subst hb
        rw [JoinStrings_empty_right]
        have h2 : (a :: "" :: l).filter (fun w => w ≠ "") =
            (a :: l).filter (fun w => w ≠ "") := by
          simp [List.filter]
        rw [h2]
      · have hab : JoinStrings a b " " ≠ "" := JoinStrings_ne_empty ha
        rw [joinWords_filter_cons _ _ hab, joinWords_filter_cons _ _ ha,
          joinWords_filter_cons _ _ hb]
        exact JoinStrings_assoc a b _ ha hb

theorem foldl_appendCanonical_Value (l : List infraspEpithetNode) (c : canonical) :
    (l.foldl (fun c v => appendCanonical c v.canonical " ") c).Value =
      (l.map (fun v => v.Word.NormValue)).foldl (fun acc w => JoinStrings acc w " ")
        c.Value := by
  induction l generalizing c with
  | nil => rfl
  | cons v l ih =>
    rw [List.foldl_cons, ih]
    rfl

/-- Claim C10.  The simple canonical of a species node is the genus, the species
epithet and the infraspecific epithets (normalized values, in order), empty ones
skipped, joined by single spaces; rank, subgenus and authorship do not occur in
it. -/
theorem speciesNode_canonical_simple (sp : speciesNode) :
    sp.canonical.Value =
      joinWords
        ((sp.Genus.NormValue :: sp.SpEpithet.Word.NormValue ::
            sp.Infraspecies.map (fun v => v.Word.NormValue)).filter
          (fun w => w ≠ "")) := by
  unfold speciesNode.canonical
  simp only
  rw [foldl_appendCanonical_Value, ← foldl_JoinStrings_eq_joinWords]
  rfl

/-- The simple canonical of `Aus bus var. cus` is `Aus bus cus`; the ranked one
keeps the rank marker. -/
theorem ausBusVarCus_canonical :
    ausBusVarCus.canonical = { Value := "Aus bus cus", ValueRanked := "Aus bus var. cus" } := by
  decide

/-! ### The engine: fuel, state and buffer -/


theorem List.laidOut_eq {α β : Type} (l : List α) (k : List α → β) : List.laidOut l k = k l := by
  induction l generalizing k with
  | nil => rfl
  | cons x xs ih =>
    show List.laidOut xs (fun xs' => k (x :: xs')) = k (x :: xs)
    rw [ih]

@[simp] theorem State.advance_position (p : State) : p.advance.position = p.position + 1 := by
  cases p; rfl
@[simp] theorem State.advance_tokenIndex (p : State) : p.advance.tokenIndex = p.tokenIndex := by
  cases p; rfl
@[simp] theorem State.advance_tree (p : State) : p.advance.tree = p.tree := by
  cases p; rfl
@[simp] theorem State.restore_position (p s : State) : (p.restore s).position = s.position := by
  cases p; cases s; rfl
@[simp] theorem State.restore_tokenIndex (p s : State) :
    (p.restore s).tokenIndex = s.tokenIndex := by
  cases p; cases s; rfl
@[simp] theorem State.restore_tree (p s : State) : (p.restore s).tree = p.tree := by
  cases p; cases s; rfl
@[simp] theorem State.add_position (p : State) (r : pegRule) (b : Nat) :
    (p.add r b).position = p.position := by
  cases p
  simp only [State.add, List.laidOut_eq]
  split_ifs <;> rfl
@[simp] theorem State.add_tokenIndex (p : State) (r : pegRule) (b : Nat) :
    (p.add r b).tokenIndex = p.tokenIndex + 1 := by
  cases p
  simp only [State.add, List.laidOut_eq]
  split_ifs <;> rfl
@[simp] theorem State.add_tree (p : State) (r : pegRule) (b : Nat) :
    (p.add r b).tree = tokens32.Add p.tree r b p.position p.tokenIndex := by
  cases p
  simp only [State.add, List.laidOut_eq]
  split_ifs <;> rfl

theorem run_zero (buf : List Nat) (e : Expr) (p : State) : run buf 0 e p = .timeout := rfl

theorem run_dot (buf : List Nat) (f : Nat) (p : State) :
    run buf (f + 1) .dot p =
      match buf.get? p.position with
      | none => .fault
      | some c => if c ≠ endSymbol then .done (true, p.advance) else .done (false, p) := rfl

theorem run_char (buf : List Nat) (f : Nat) (c : Nat) (p : State) :
    run buf (f + 1) (.char c) p =
      match buf.get? p.position with
      | none => .fault
      | some x => if x ≠ c then .done (false, p) else .done (true, p.advance) := rfl

theorem run_range (buf : List Nat) (f : Nat) (l u : Nat) (p : State) :
    run buf (f + 1) (.range l u) p =
      match buf.get? p.position with
      | none => .fault
      | some c => if c < l ∨ c > u then .done (false, p) else .done (true, p.advance) := rfl

theorem run_action (buf : List Nat) (f : Nat) (p : State) :
    run buf (f + 1) .action p = .done (true, p) := rfl

theorem run_call (buf : List Nat) (f : Nat) (r : pegRule) (p : State) :
    run buf (f + 1) (.call r) p =
      match rules r with
      | none => .fault
      | some body =>
        match run buf f body p with
        | .done (true, p') => .done (true, p'.add r p.position)
        | .done (false, p') => .done (false, p'.restore p)
        | .fault => .fault
        | .timeout => .timeout := rfl

theorem run_seq (buf : List Nat) (f : Nat) (a b : Expr) (p : State) :
    run buf (f + 1) (.seq a b) p =
      match run buf f a p with
      | .done (true, p') => run buf f b p'
      | r => r := rfl

theorem run_alt (buf : List Nat) (f : Nat) (a b : Expr) (p : State) :
    run buf (f + 1) (.alt a b) p =
      match run buf f a p with
      | .done (true, p') => .done (true, p')
      | .done (false, p') => run buf f b (p'.restore p)
      | r => r := rfl

theorem run_peekFor (buf : List Nat) (f : Nat) (e : Expr) (p : State) :
    run buf (f + 1) (.peekFor e) p =
      match run buf f e p with
      | .done (true, p') => .done (true, p'.restore p)
      | r => r := rfl

theorem run_peekNot (buf : List Nat) (f : Nat) (e : Expr) (p : State) :
    run buf (f + 1) (.peekNot e) p =
      match run buf f e p with
      | .done (true, p') => .done (false, p')
      | .done (false, p') => .done (true, p'.restore p)
      | r => r := rfl

theorem run_query (buf : List Nat) (f : Nat) (e : Expr) (p : State) :
    run buf (f + 1) (.query e) p =
      match run buf f e p with
      | .done (true, p') => .done (true, p')
      | .done (false, p') => .done (true, p'.restore p)
      | r => r := rfl

theorem run_star (buf : List Nat) (f : Nat) (e : Expr) (p : State) :
    run buf (f + 1) (.star e) p =
      match run buf f e p with
      | .done (true, p') => run buf f (.star e) p'
      | .done (false, p') => .done (true, p'.restore p)
      | r => r := rfl

theorem run_plus (buf : List Nat) (f : Nat) (e : Expr) (p : State) :
    run buf (f + 1) (.plus e) p =
      match run buf f e p with
      | .done (true, p') => run buf f (.star e) p'
      | r => r := rfl

/-- Once a run has returned (a result or a panic), more fuel does not change what
it returns. -/
theorem run_succ_of_ne_timeout (buf : List Nat) :
    ∀ (f : Nat) (e : Expr) (p : State), run buf f e p ≠ .timeout →
      run buf (f + 1) e p = run buf f e p := by
  intro f
  induction f with
  | zero => intro e p h; exact absurd rfl h
  | succ f ih =>
    intro e p h
    cases e with
    | dot => rfl
    | char c => rfl
    | range l u => rfl
    | action => rfl
    | call r =>
      rw [run_call buf f] at h
      rw [run_call buf (f + 1), run_call buf f]
      cases hr : rules r with
      | none => rfl
      | some body =>
        simp only [hr] at h ⊢
        have hb : run buf f body p ≠ .timeout := by
          intro hc; rw [hc] at h; exact h rfl
        rw [ih body p hb]
    | seq a b =>
      rw [run_seq buf f] at h
      rw [run_seq buf (f + 1), run_seq buf f]
      have ha : run buf f a p ≠ .timeout := by
        intro hc; rw [hc] at h; exact h rfl
      rw [ih a p ha]
      cases hra : run buf f a p with
      | done r =>
        obtain ⟨b', p'⟩ := r
        cases b' with
        | true =>
          simp only [hra] at h ⊢
          exact ih b p' h
        | false => rfl
      | fault => rfl
      | timeout => rfl
    | alt a b =>
      rw [run_alt buf f] at h
      rw [run_alt buf (f + 1), run_alt buf f]
      have ha : run buf f a p ≠ .timeout := by
        intro hc; rw [hc] at h; exact h rfl
      rw [ih a p ha]
      cases hra : run buf f a p with
      | done r =>
        obtain ⟨b', p'⟩ := r
        cases b' with
        | true => rfl
        | false =>
          simp only [hra] at h ⊢
          exact ih b _ h
      | fault => rfl
      | timeout => rfl
    | peekFor e =>
      rw [run_peekFor buf f] at h
      rw [run_peekFor buf (f + 1), run_peekFor buf f]
      have ha : run buf f e p ≠ .timeout := by
        intro hc; rw [hc] at h; exact h rfl
      rw [ih e p ha]
    | peekNot e =>
      rw [run_peekNot buf f] at h
      rw [run_peekNot buf (f + 1), run_peekNot buf f]
      have ha : run buf f e p ≠ .timeout := by
        intro hc; rw [hc] at h; exact h rfl
      rw [ih e p ha]
    | query e =>
      rw [run_query buf f] at h
      rw [run_query buf (f + 1), run_query buf f]
      have ha : run buf f e p ≠ .timeout := by
        intro hc; rw [hc] at h; exact h rfl
      rw [ih e p ha]
    | star e =>
      rw [run_star buf f] at h
      rw [run_star buf (f + 1), run_star buf f]
      have ha : run buf f e p ≠ .timeout := by
        intro hc; rw [hc] at h; exact h rfl
      rw [ih e p ha]
      cases hra : run buf f e p with
      | done r =>
        obtain ⟨b', p'⟩ := r
        cases b' with
        | true =>
          simp only [hra] at h ⊢
          exact ih _ p' h
        | false => rfl
      | fault => rfl
      | timeout => rfl
    | plus e =>
      rw [run_plus buf f] at h
      rw [run_plus buf (f + 1), run_plus buf f]
      have ha : run buf f e p ≠ .timeout := by
        intro hc; rw [hc] at h; exact h rfl
      rw [ih e p ha]
      cases hra : run buf f e p with
      | done r =>
        obtain ⟨b', p'⟩ := r
        cases b' with
        | true =>
          simp only [hra] at h ⊢
          exact ih _ p' h
        | false => rfl
      | fault => rfl
      | timeout => rfl

theorem run_add_of_ne_timeout (buf : List Nat) (f k : Nat) (e : Expr) (p : State)
    (h : run buf f e p ≠ .timeout) : run buf (f + k) e p = run buf f e p := by
  induction k with
  | zero => rfl
  | succ k ih =>
    rw [← Nat.add_assoc, run_succ_of_ne_timeout buf (f + k) e p (by rw [ih]; exact h), ih]

theorem run_mono (buf : List Nat) {f f' : Nat} {e : Expr} {p : State}
    {r : Bool × State} (hle : f ≤ f') (h : run buf f e p = .done r) :
    run buf f' e p = .done r := by
  obtain ⟨k, rfl⟩ := Nat.exists_eq_add_of_le hle
  rw [run_add_of_ne_timeout buf f k e p (by rw [h]; intro hc; cases hc), h]


/-! ### The rune buffer -/

theorem Char_toNat_ne_endSymbol (c : Char) : c.toNat ≠ endSymbol := by
  have h := c.valid
  have h' : c.toNat < 1114112 := by
    rcases h with h | ⟨_, h⟩
    · have : c.toNat < 55296 := h
      omega
    · exact h
  unfold endSymbol
  omega

theorem reset_buffer (p : Engine) :
    p.reset.buffer = p.Buffer.toList.map Char.toNat ++ [endSymbol] := by
  unfold Engine.reset
  simp only
  rw [if_pos]
  by_cases hl : (p.Buffer.toList.map Char.toNat).length = 0
  · exact Or.inl hl
  · right
    intro hc
    have hmem : endSymbol ∈ p.Buffer.toList.map Char.toNat := List.mem_of_getLast?_eq_some hc
    obtain ⟨c, -, hc'⟩ := List.mem_map.1 hmem
    exact Char_toNat_ne_endSymbol c hc'

theorem reset_state (p : Engine) :
    p.reset.state.position = 0 ∧ p.reset.state.tokenIndex = 0 := ⟨rfl, rfl⟩

theorem reset_isBuffer (p : Engine) : IsBuffer p.reset.buffer p.Buffer.length := by
  refine ⟨p.Buffer.toList.map Char.toNat, reset_buffer p, ?_, ?_⟩
  · rw [List.length_map]
    rfl
  · intro c hc
    obtain ⟨c', -, rfl⟩ := List.mem_map.1 hc
    exact Char_toNat_ne_endSymbol c'

theorem IsBuffer.get_end {buf : List Nat} {n : Nat} (h : IsBuffer buf n) :
    buf.get? n = some endSymbol := by
  obtain ⟨runes, rfl, rfl, -⟩ := h
  generalize endSymbol = e
  rw [List.get?_eq_getElem?, List.getElem?_append_right (le_refl _), Nat.sub_self]
  rfl

theorem IsBuffer.get_lt {buf : List Nat} {n i : Nat} (h : IsBuffer buf n) (hi : i < n) :
    ∃ c, buf.get? i = some c ∧ c ≠ endSymbol := by
  obtain ⟨runes, rfl, rfl, hr⟩ := h
  refine ⟨runes[i], ?_, hr _ (List.getElem_mem _)⟩
  generalize endSymbol = e
  rw [List.get?_eq_getElem?, List.getElem?_append_left hi, List.getElem?_eq_getElem hi]

theorem IsBuffer.get_none {buf : List Nat} {n i : Nat} (h : IsBuffer buf n) (hi : n < i) :
    buf.get? i = none := by
  obtain ⟨runes, rfl, rfl, -⟩ := h
  generalize endSymbol = e
  rw [List.get?_eq_getElem?, List.getElem?_eq_none]
  rw [List.length_append, List.length_singleton]
  omega

theorem IsBuffer.eq_of_get_end {buf : List Nat} {n i : Nat} (h : IsBuffer buf n)
    (hi : buf.get? i = some endSymbol) : i = n := by
  rcases Nat.lt_trichotomy i n with hlt | heq | hgt
  · obtain ⟨c, hc, hne⟩ := h.get_lt hlt
    rw [hc] at hi
    exact absurd (Option.some.inj hi) hne
  · exact heq
  · rw [h.get_none hgt] at hi
    cases hi

theorem IsBuffer.lt_of_get {buf : List Nat} {n i c : Nat} (h : IsBuffer buf n)
    (hi : buf.get? i = some c) (hc : c ≠ endSymbol) : i < n := by
  rcases Nat.lt_trichotomy i n with hlt | heq | hgt
  · exact hlt
  · subst heq
    rw [h.get_end] at hi
    exact absurd (Option.some.inj hi).symm hc
  · rw [h.get_none hgt] at hi
    cases hi

theorem IsBuffer.le_of_get {buf : List Nat} {n i c : Nat} (h : IsBuffer buf n)
    (hi : buf.get? i = some c) : i ≤ n := by
  by_contra hc
  rw [h.get_none (by omega)] at hi
  cases hi


/-! ### Spaces, `Tail` and `SciName` -/

theorem rules_SingleSpace : rules .ruleSingleSpace = some (.char 32) := rfl

theorem rules_MultipleSpace :
    rules .ruleMultipleSpace =
      some (.seq (.call .ruleSingleSpace) (.plus (.call .ruleSingleSpace))) := rfl

theorem rules_space :
    rules .rule_ = some (.alt (.call .ruleMultipleSpace) (.call .ruleSingleSpace)) := rfl

theorem rules_Tail :
    rules .ruleTail =
      some (.query (.seq (.alt (.call .rule_) (.char 44)) (.star .dot))) := rfl

theorem rules_SciName :
    rules .ruleSciName =
      some (.seq (.query (.call .rule_))
        (.seq (.call .ruleName) (.seq (.call .ruleTail) (.peekNot .dot)))) := rfl

@[simp] theorem State.restore_self (p : State) : p.restore p = p := by
  cases p; rfl

@[simp] theorem State.restore_restore (p s t : State) :
    (p.restore s).restore t = p.restore t := by
  cases p; cases s; cases t; rfl

/-- Rule `SingleSpace` at a space: one rune is consumed and one token added. -/
theorem run_SingleSpace_space (buf : List Nat) (f : Nat) (p : State)
    (h : buf.get? p.position = some 32) :
    run buf (f + 2) (.call .ruleSingleSpace) p =
      .done (true, p.advance.add .ruleSingleSpace p.position) := by
  rw [run_call, rules_SingleSpace]
  simp only
  rw [run_char, h]
  simp

/-- Rule `SingleSpace` at another rune: failure, nothing changes. -/
theorem run_SingleSpace_other (buf : List Nat) (f : Nat) (p : State) (x : Nat)
    (h : buf.get? p.position = some x) (hx : x ≠ 32) :
    run buf (f + 2) (.call .ruleSingleSpace) p = .done (false, p) := by
  rw [run_call, rules_SingleSpace]
  simp only
  rw [run_char, h]
  simp [hx]

theorem countSpaces_drop_space {buf : List Nat} {i : Nat} (h : buf.get? i = some 32) :
    countSpaces (buf.drop i) = countSpaces (buf.drop (i + 1)) + 1 := by
  rw [List.get?_eq_getElem?] at h
  obtain ⟨hi, hx⟩ := List.getElem?_eq_some_iff.1 h
  rw [List.drop_eq_getElem_cons hi, hx]
  simp [countSpaces]

theorem countSpaces_drop_other {buf : List Nat} {i x : Nat} (h : buf.get? i = some x)
    (hx : x ≠ 32) : countSpaces (buf.drop i) = 0 := by
  rw [List.get?_eq_getElem?] at h
  obtain ⟨hi, hx'⟩ := List.getElem?_eq_some_iff.1 h
  rw [List.drop_eq_getElem_cons hi, hx']
  simp [countSpaces, hx]

/-- The loop `SingleSpace*` consumes the spaces at the current position. -/
theorem run_star_SingleSpace {buf : List Nat} {n : Nat} (hb : IsBuffer buf n) :
    ∀ (j : Nat) (p : State), p.position ≤ n → countSpaces (buf.drop p.position) = j →
      ∃ q, run buf (j + 3) (.star (.call .ruleSingleSpace)) p = .done (true, q) ∧
        q.position = p.position + j := by
  intro j
  induction j with
  | zero =>
    intro p hp hj
    rw [run_star]
    rcases Nat.lt_or_ge p.position n with hlt | hge
    · obtain ⟨c, hc, -⟩ := hb.get_lt hlt
      have hc32 : c ≠ 32 := by
        intro h32
        rw [h32] at hc
        rw [countSpaces_drop_space hc] at hj
        omega
      rw [run_SingleSpace_other buf 0 p c hc hc32]
      exact ⟨p.restore p, rfl, by simp⟩
    · have hpn : p.position = n := by omega
      have hc : buf.get? p.position = some endSymbol := by rw [hpn]; exact hb.get_end
      rw [run_SingleSpace_other buf 0 p endSymbol hc (by decide)]
      exact ⟨p.restore p, rfl, by simp⟩
  | succ j ih =>
    intro p hp hj
    have hc : buf.get? p.position = some 32 := by
      rcases Nat.lt_or_ge p.position n with hlt | hge
      · obtain ⟨c, hc, -⟩ := hb.get_lt hlt
        by_cases h32 : c = 32
        · rw [h32] at hc; exact hc
        · rw [countSpaces_drop_other hc h32] at hj
          omega
      · have hpn : p.position = n := by omega
        have hc : buf.get? p.position = some endSymbol := by rw [hpn]; exact hb.get_end
        rw [countSpaces_drop_other hc (by decide)] at hj
        omega
    have hlt : p.position < n := hb.lt_of_get hc (by decide)
    rw [run_star, run_SingleSpace_space buf (j + 1) p hc]
    simp only
    have hj' : countSpaces
        (buf.drop (p.advance.add .ruleSingleSpace p.position).position) = j := by
      rw [countSpaces_drop_space hc] at hj
      simp only [State.add_position, State.advance_position]
      omega
    obtain ⟨q, hq, hqp⟩ := ih (p.advance.add .ruleSingleSpace p.position)
      (by simp only [State.add_position, State.advance_position]; omega) hj'
    refine ⟨q, hq, ?_⟩
    rw [hqp]
    simp only [State.add_position, State.advance_position]
    omega


theorem countSpaces_pos_of_get {buf : List Nat} {i : Nat} (h : buf.get? i = some 32) :
    1 ≤ countSpaces (buf.drop i) := by
  rw [countSpaces_drop_space h]
  omega

/-- Rule `_` at a space consumes the whole run of spaces. -/
theorem run_space_at_space {buf : List Nat} {n : Nat} (hb : IsBuffer buf n) (p : State)
    (hc : buf.get? p.position = some 32) :
    ∃ q, run buf (countSpaces (buf.drop p.position) + 8) (.call .rule_) p = .done (true, q) ∧
      q.position = p.position + countSpaces (buf.drop p.position) := by
  have hlt : p.position < n := hb.lt_of_get hc (by decide)
  obtain ⟨j, hj⟩ : ∃ j, countSpaces (buf.drop p.position) = j + 1 :=
    ⟨countSpaces (buf.drop p.position) - 1, by have := countSpaces_pos_of_get hc; omega⟩
  rw [hj]
  have hj1 : countSpaces (buf.drop (p.position + 1)) = j := by
    rw [countSpaces_drop_space hc] at hj
    omega
  -- the state after the first `SingleSpace`
  have hp1 : (p.advance.add .ruleSingleSpace p.position).position = p.position + 1 := by
    simp only [State.add_position, State.advance_position]
  rw [run_call, rules_space]
  simp only
  rw [run_alt, run_call, rules_MultipleSpace]
  simp only
  rw [run_seq, run_SingleSpace_space buf _ p hc]
  simp only
  rw [run_plus]
  cases j with
  | zero =>
    -- a single space: `MultipleSpace` fails, `SingleSpace` matches
    have hnext : ∃ x, buf.get? (p.position + 1) = some x ∧ x ≠ 32 := by
      rcases Nat.lt_or_ge (p.position + 1) n with h1 | h1
      · obtain ⟨c, hc', -⟩ := hb.get_lt h1
        refine ⟨c, hc', ?_⟩
        intro h32
        rw [h32] at hc'
        have := countSpaces_pos_of_get hc'
        omega
      · have : p.position + 1 = n := by omega
        rw [this]
        exact ⟨endSymbol, hb.get_end, by decide⟩
    obtain ⟨x, hx, hx32⟩ := hnext
    rw [run_SingleSpace_other buf _ _ x (by rw [hp1]; exact hx) hx32]
    simp only
    rw [run_SingleSpace_space buf _ _ (by simpa using hc)]
    simp only
    exact ⟨_, rfl, by simp⟩
  | succ j =>
    have hc1 : buf.get? (p.position + 1) = some 32 := by
      rcases Nat.lt_or_ge (p.position + 1) n with h1 | h1
      · obtain ⟨c, hc', -⟩ := hb.get_lt h1
        by_cases h32 : c = 32
        · rw [h32] at hc'; exact hc'
        · rw [countSpaces_drop_other hc' h32] at hj1
          omega
      · have hn : p.position + 1 = n := by omega
        rw [countSpaces_drop_other (by rw [hn]; exact hb.get_end) (by decide)] at hj1
        omega
    rw [run_SingleSpace_space buf _ _ (by rw [hp1]; exact hc1)]
    simp only
    have hj2 : countSpaces (buf.drop (p.position + 1 + 1)) = j := by
      rw [countSpaces_drop_space hc1] at hj1
      omega
    obtain ⟨q, hq, hqp⟩ := run_star_SingleSpace hb j
      ((p.advance.add .ruleSingleSpace p.position).advance.add .ruleSingleSpace
        (p.advance.add .ruleSingleSpace p.position).position)
      (by
        simp only [State.add_position, State.advance_position]
        have := hb.lt_of_get hc1 (by decide)
        omega)
      (by
        simp only [State.add_position, State.advance_position]
        exact hj2)
    rw [run_mono buf (by omega) hq]
    simp only
    refine ⟨_, rfl, ?_⟩
    simp only [State.add_position, State.advance_position] at hqp ⊢
    omega

/-- Rule `_` at a rune that is not a space fails and changes neither the position
nor the token index. -/
theorem run_space_at_other (buf : List Nat) (f : Nat) (p : State) (x : Nat)
    (hc : buf.get? p.position = some x) (hx : x ≠ 32) :
    ∃ q, run buf (f + 6) (.call .rule_) p = .done (false, q) ∧
      q.position = p.position ∧ q.tokenIndex = p.tokenIndex := by
  rw [run_call, rules_space]
  simp only
  rw [run_alt, run_call, rules_MultipleSpace]
  simp only
  rw [run_seq, run_SingleSpace_other buf _ p x hc hx]
  simp only
  rw [run_SingleSpace_other buf _ _ x (by simpa using hc) hx]
  simp only
  exact ⟨_, rfl, by simp, by simp⟩

/-- Rule `_` beyond the end of the buffer is an index out of range. -/
theorem run_space_fault (buf : List Nat) (f : Nat) (p : State)
    (hc : buf.get? p.position = none) :
    run buf (f + 6) (.call .rule_) p = .fault := by
  rw [run_call, rules_space]
  simp only
  rw [run_alt, run_call, rules_MultipleSpace]
  simp only
  rw [run_seq, run_call, rules_SingleSpace]
  simp only
  rw [run_char, hc]

/-- The loop `.*` runs to the end of the input. -/
theorem run_star_dot {buf : List Nat} {n : Nat} (hb : IsBuffer buf n) :
    ∀ (k : Nat) (p : State), p.position + k = n →
      ∃ q, run buf (k + 2) (.star .dot) p = .done (true, q) ∧ q.position = n := by
  intro k
  induction k with
  | zero =>
    intro p hp
    have hc : buf.get? p.position = some endSymbol := by
      rw [show p.position = n by omega]; exact hb.get_end
    rw [run_star, run_dot, hc]
    simp only [ne_eq, not_true_eq_false, if_false]
    exact ⟨_, rfl, by simp; omega⟩
  | succ k ih =>
    intro p hp
    obtain ⟨c, hc, hce⟩ := hb.get_lt (show p.position < n by omega)
    rw [run_star, run_dot, hc]
    simp only [ne_eq, hce, not_false_eq_true, if_true]
    obtain ⟨q, hq, hqn⟩ := ih p.advance (by simp; omega)
    exact ⟨q, hq, hqn⟩


theorem countSpaces_drop_le {buf : List Nat} {n : Nat} (hb : IsBuffer buf n) :
    ∀ (k i : Nat), i + k = n → countSpaces (buf.drop i) ≤ k := by
  intro k
  induction k with
  | zero =>
    intro i hi
    rw [countSpaces_drop_other (x := endSymbol)
      (by rw [show i = n by omega]; exact hb.get_end) (by decide)]
  | succ k ih =>
    intro i hi
    obtain ⟨c, hc, -⟩ := hb.get_lt (show i < n by omega)
    by_cases h32 : c = 32
    · rw [h32] at hc
      rw [countSpaces_drop_space hc]
      have := ih (i + 1) (by omega)
      omega
    · rw [countSpaces_drop_other hc h32]
      omega

/-- Rule `Tail` always matches.  At a space or a comma it runs to the end of the
input; at any other rune it matches the empty string. -/
theorem run_Tail {buf : List Nat} {n : Nat} (hb : IsBuffer buf n) (p : State) (c : Nat)
    (hc : buf.get? p.position = some c) :
    ∃ q₀ : State, run buf (n + 13) (.call .ruleTail) p = .done (true, q₀.add .ruleTail p.position) ∧
      q₀.position = if c = 32 ∨ c = 44 then n else p.position := by
  have hpn : p.position ≤ n := hb.le_of_get hc
  rw [run_call, rules_Tail]
  simp only
  rw [run_query, run_seq, run_alt]
  by_cases h32 : c = 32
  · subst h32
    obtain ⟨q, hq, hqp⟩ := run_space_at_space hb p hc
    have hle := countSpaces_drop_le hb (n - p.position) p.position (by omega)
    rw [run_mono buf (by omega) hq]
    simp only
    obtain ⟨q', hq', hqn⟩ := run_star_dot hb (n - q.position) q (by omega)
    rw [run_mono buf (by omega) hq']
    simp only
    exact ⟨q', rfl, by simp [hqn]⟩
  · obtain ⟨q, hq, hqp, hqi⟩ := run_space_at_other buf (n + 3) p c hc h32
    rw [hq]
    simp only
    rw [run_char, show buf.get? (q.restore p).position = some c by simpa using hc]
    by_cases h44 : c = 44
    · subst h44
      simp only [ne_eq, not_true_eq_false, if_false]
      have hlt : p.position < n := hb.lt_of_get hc (by decide)
      obtain ⟨q', hq', hqn⟩ := run_star_dot hb (n - (p.position + 1)) (q.restore p).advance
        (by simp; omega)
      rw [run_mono buf (by omega) hq']
      simp only
      exact ⟨q', rfl, by simp [hqn]⟩
    · simp only [ne_eq, h44, not_false_eq_true, if_true]
      exact ⟨(q.restore p).restore p, rfl, by simp [h32, h44]⟩

/-- Rule `Tail` beyond the end of the buffer is an index out of range. -/
theorem run_Tail_fault (buf : List Nat) (f : Nat) (p : State)
    (hc : buf.get? p.position = none) :
    run buf (f + 10) (.call .ruleTail) p = .fault := by
  rw [run_call, rules_Tail]
  simp only
  rw [run_query, run_seq, run_alt, run_space_fault buf _ p hc]

/-- Two runs of the same code from the same state that both return, return the
same. -/
theorem run_det (buf : List Nat) {f f' : Nat} {e : Expr} {p : State} {r r' : Bool × State}
    (h : run buf f e p = .done r) (h' : run buf f' e p = .done r') : r = r' := by
  have h1 := run_mono buf (Nat.le_max_left f f') h
  have h2 := run_mono buf (Nat.le_max_right f f') h'
  rw [h1] at h2
  exact Outcome.done.inj h2

theorem run_ne_done_of_fault (buf : List Nat) {f f' : Nat} {e : Expr} {p : State}
    (h : run buf f e p = .fault) (r : Bool × State) : run buf f' e p ≠ .done r := by
  intro h'
  have h1 := run_mono buf (Nat.le_max_right f f') h'
  have h2 : run buf (max f f') e p = .fault := by
    obtain ⟨k, hk⟩ := Nat.exists_eq_add_of_le (Nat.le_max_left f f')
    rw [hk, run_add_of_ne_timeout buf f k e p (by rw [h]; intro hc; cases hc), h]
  rw [h2] at h1
  cases h1

/-! ### Inversion of successful runs -/

theorem run_seq_true {buf : List Nat} {f : Nat} {a b : Expr} {p q : State}
    (h : run buf f (.seq a b) p = .done (true, q)) :
    ∃ f' p', f = f' + 1 ∧ run buf f' a p = .done (true, p') ∧
      run buf f' b p' = .done (true, q) := by
  cases f with
  | zero => cases h
  | succ f =>
    rw [run_seq] at h
    cases hra : run buf f a p with
    | done r =>
      obtain ⟨b', p'⟩ := r
      cases b' with
      | true =>
        rw [hra] at h
        exact ⟨f, p', rfl, hra, h⟩
      | false =>
        rw [hra] at h
        simp at h
    | fault => rw [hra] at h; cases h
    | timeout => rw [hra] at h; cases h

theorem run_call_true {buf : List Nat} {f : Nat} {r : pegRule} {body : Expr} {p q : State}
    (hr : rules r = some body) (h : run buf f (.call r) p = .done (true, q)) :
    ∃ f' p', f = f' + 1 ∧ run buf f' body p = .done (true, p') ∧ q = p'.add r p.position := by
  cases f with
  | zero => cases h
  | succ f =>
    rw [run_call, hr] at h
    simp only at h
    cases hra : run buf f body p with
    | done x =>
      obtain ⟨b', p'⟩ := x
      cases b' with
      | true =>
        rw [hra] at h
        simp only [Outcome.done.injEq, Prod.mk.injEq, true_and] at h
        exact ⟨f, p', rfl, hra, h.symm⟩
      | false =>
        rw [hra] at h
        simp at h
    | fault => rw [hra] at h; cases h
    | timeout => rw [hra] at h; cases h

theorem run_peekNot_dot_true {buf : List Nat} {f : Nat} {p q : State}
    (h : run buf f (.peekNot .dot) p = .done (true, q)) :
    buf.get? p.position = some endSymbol ∧ q = p := by
  cases f with
  | zero => cases h
  | succ f =>
    rw [run_peekNot] at h
    cases f with
    | zero => cases h
    | succ f =>
      rw [run_dot] at h
      cases hg : buf.get? p.position with
      | none => rw [hg] at h; cases h
      | some c =>
        rw [hg] at h
        by_cases hce : c = endSymbol
        · subst hce
          simp only [ne_eq, not_true_eq_false, if_false, Outcome.done.injEq,
            Prod.mk.injEq, true_and] at h
          exact ⟨rfl, by rw [← h]; simp⟩
        · simp [hce] at h

theorem tokens32.Trim_length (t : List token32) (i : Nat) : (tokens32.Trim t i).length = i := by
  unfold tokens32.Trim
  rw [List.length_take, List.length_append, List.length_replicate]
  omega

theorem tokens32.Add_length (t : List token32) (r : pegRule) (b e i : Nat) :
    i < (tokens32.Add t r b e i).length := by
  unfold tokens32.Add
  simp only [List.length_set]
  split_ifs with h
  · rw [List.length_append, List.length_replicate]; omega
  · omega

theorem tokens32.Trim_getElem? (t : List token32) (i m : Nat) :
    (tokens32.Trim t i)[m]? = if m < i then some (t.getD m token32.zero) else none := by
  unfold tokens32.Trim
  rw [List.getElem?_take]
  split_ifs with h
  · rw [List.getElem?_append]
    split_ifs with h2
    · rw [List.getD_eq_getElem?_getD, List.getElem?_eq_getElem h2]
      rfl
    · rw [List.getElem?_replicate]
      rw [if_pos (by omega)]
      rw [List.getD_eq_getElem?_getD, List.getElem?_eq_none (by omega)]
      rfl
  · rfl

theorem tokens32.Add_getD (t : List token32) (r : pegRule) (b e i m : Nat) :
    (tokens32.Add t r b e i).getD m token32.zero =
      if m = i then ⟨r, b, e⟩ else t.getD m token32.zero := by
  unfold tokens32.Add
  simp only [List.getD_eq_getElem?_getD, List.getElem?_set]
  by_cases hL : i ≥ t.length
  · rw [if_pos hL]
    have hlen : (t ++ List.replicate (i + 1 - t.length) token32.zero).length = i + 1 := by
      rw [List.length_append, List.length_replicate]; omega
    by_cases hm : m = i
    · subst hm
      rw [if_pos rfl, if_pos (by omega), if_pos rfl]
      rfl
    · rw [if_neg (fun h => hm h.symm), if_neg hm, List.getElem?_append]
      by_cases h6 : m < t.length
      · rw [if_pos h6]
      · rw [if_neg h6, List.getElem?_replicate, List.getElem?_eq_none (by omega)]
        split_ifs <;> rfl
  · rw [if_neg hL]
    by_cases hm : m = i
    · subst hm
      rw [if_pos rfl, if_pos (by omega), if_pos rfl]
      rfl
    · rw [if_neg (fun h => hm h.symm), if_neg hm]

theorem tokens32.Trim_Add_succ (t : List token32) (r : pegRule) (b e i : Nat) :
    tokens32.Trim (tokens32.Add t r b e i) (i + 1) = tokens32.Trim t i ++ [⟨r, b, e⟩] := by
  apply List.ext_getElem?
  intro m
  rw [tokens32.Trim_getElem?, tokens32.Add_getD, List.getElem?_append, tokens32.Trim_length,
    tokens32.Trim_getElem?]
  rcases Nat.lt_trichotomy m i with h | h | h
  · rw [if_pos (by omega), if_neg (by omega), if_pos h, if_pos h]
  · subst h
    rw [if_pos (by omega), if_pos rfl, if_neg (by omega), Nat.sub_self]
    rfl
  · rw [if_neg (by omega), if_neg (by omega)]
    rw [List.getElem?_eq_none]
    simp only [List.length_singleton]
    omega


/-- The optional `_` at the head of `SciName` always matches and skips the spaces
at the current position. -/
theorem run_query_space {buf : List Nat} {n : Nat} (hb : IsBuffer buf n) (p : State)
    (hp : p.position ≤ n) :
    ∃ q, run buf (countSpaces (buf.drop p.position) + 9) (.query (.call .rule_)) p =
        .done (true, q) ∧
      q.position = p.position + countSpaces (buf.drop p.position) := by
  obtain ⟨c, hc⟩ : ∃ c, buf.get? p.position = some c := by
    rcases Nat.lt_or_ge p.position n with h | h
    · obtain ⟨c, hc, -⟩ := hb.get_lt h
      exact ⟨c, hc⟩
    · exact ⟨endSymbol, by rw [show p.position = n by omega]; exact hb.get_end⟩
  rw [run_query]
  by_cases h32 : c = 32
  · subst h32
    obtain ⟨q, hq, hqp⟩ := run_space_at_space hb p hc
    rw [hq]
    exact ⟨q, rfl, hqp⟩
  · obtain ⟨q, hq, hqp, -⟩ := run_space_at_other buf
      (countSpaces (buf.drop p.position) + 2) p c hc h32
    rw [hq]
    refine ⟨q.restore p, rfl, ?_⟩
    rw [countSpaces_drop_other hc h32]
    simp

theorem Char_toNat_eq_space_iff (c : Char) : c.toNat = 32 ↔ c = ' ' := by
  constructor
  · intro h
    have h2 : Char.ofNat c.toNat = c := Char.ofNat_toNat c
    rw [h] at h2
    rw [← h2]
  · intro h
    subst h
    rfl

theorem countSpaces_runes (cs : List Char) :
    countSpaces (cs.map Char.toNat ++ [endSymbol]) =
      (cs.takeWhile (fun c => c = ' ')).length := by
  induction cs with
  | nil => rfl
  | cons c cs ih =>
    rw [List.map_cons, List.cons_append]
    unfold countSpaces
    by_cases h : c = ' '
    · rw [if_pos ((Char_toNat_eq_space_iff c).2 h), ih, List.takeWhile_cons_of_pos (by simpa using h)]
      rfl
    · rw [if_neg (fun hc => h ((Char_toNat_eq_space_iff c).1 hc)),
        List.takeWhile_cons_of_neg (by simpa using h)]
      rfl

/-- What a successful run of rule `SciName` consists of. -/
theorem run_SciName_inv {buf : List Nat} {n : Nat} (hb : IsBuffer buf n) {f : Nat}
    {p st : State} (h : run buf f (.call .ruleSciName) p = .done (true, st)) :
    ∃ (f' : Nat) (s₁ s₂ q₀ : State) (c : Nat),
      run buf f' (.query (.call .rule_)) p = .done (true, s₁) ∧
      run buf f' (.call .ruleName) s₁ = .done (true, s₂) ∧
      buf.get? s₂.position = some c ∧
      (c = 32 ∨ c = 44 ∨ c = endSymbol) ∧
      q₀.position = n ∧
      ((c = 32 ∨ c = 44) → s₂.position < n) ∧
      (¬(c = 32 ∨ c = 44) → s₂.position = n) ∧
      st = (q₀.add .ruleTail s₂.position).add .ruleSciName p.position := by
  obtain ⟨f1, t1, rfl, hbody, hst⟩ := run_call_true rules_SciName h
  obtain ⟨f2, s₁, rfl, hq, hrest⟩ := run_seq_true hbody
  obtain ⟨f3, s₂, rfl, hname, hrest⟩ := run_seq_true hrest
  obtain ⟨f4, s₃, rfl, htail, hnot⟩ := run_seq_true hrest
  obtain ⟨hend, ht1⟩ := run_peekNot_dot_true hnot
  subst ht1
  have hs3n : t1.position = n := hb.eq_of_get_end hend
  -- the rune after the match of `Name`
  obtain ⟨c, hc⟩ : ∃ c, buf.get? s₂.position = some c := by
    cases hg : buf.get? s₂.position with
    | none => exact absurd htail (run_ne_done_of_fault buf (run_Tail_fault buf 0 s₂ hg) _)
    | some c => exact ⟨c, rfl⟩
  obtain ⟨q₀, hq₀, hq₀p⟩ := run_Tail hb s₂ c hc
  have ht : t1 = q₀.add .ruleTail s₂.position := by
    have := run_det buf htail hq₀
    exact (Prod.mk.inj this).2
  have hpos : (if c = 32 ∨ c = 44 then n else s₂.position) = n := by
    rw [← hq₀p, ← hs3n, ht]
    simp
  refine ⟨f4 + 1 + 1, s₁, s₂, q₀, c, run_mono buf (by omega) hq, run_mono buf (by omega) hname,
    hc, ?_, ?_, ?_, ?_, ?_⟩
  · by_cases hcc : c = 32 ∨ c = 44
    · rcases hcc with h | h
      · exact Or.inl h
      · exact Or.inr (Or.inl h)
    · rw [if_neg hcc] at hpos
      rw [hpos, hb.get_end] at hc
      exact Or.inr (Or.inr (Option.some.inj hc).symm)
  · rw [hq₀p]; exact hpos
  · intro hcc
    rcases hcc with h | h
    · exact hb.lt_of_get hc (by rw [h]; decide)
    · exact hb.lt_of_get hc (by rw [h]; decide)
  · intro hcc
    rw [if_neg hcc] at hpos
    exact hpos
  · rw [hst, ht]

/-- Rule `SciName` matches as soon as `Name` matches after the leading spaces and
stops before a space, a comma or the end of the input. -/
theorem run_SciName_intro {buf : List Nat} {n : Nat} (hb : IsBuffer buf n) {f : Nat}
    {p s₁ s₂ : State} {c : Nat}
    (h1 : run buf f (.query (.call .rule_)) p = .done (true, s₁))
    (h2 : run buf f (.call .ruleName) s₁ = .done (true, s₂))
    (hc : buf.get? s₂.position = some c) (hcc : c = 32 ∨ c = 44 ∨ c = endSymbol) :
    ∃ st, run buf (max f (n + 15) + 4) (.call .ruleSciName) p = .done (true, st) := by
  obtain ⟨q₀, hq₀, hq₀p⟩ := run_Tail hb s₂ c hc
  have hpos : (q₀.add .ruleTail s₂.position).position = n := by
    rw [State.add_position, hq₀p]
    by_cases h : c = 32 ∨ c = 44
    · rw [if_pos h]
    · rw [if_neg h]
      rcases hcc with h' | h' | h'
      · exact absurd (Or.inl h') h
      · exact absurd (Or.inr h') h
      · rw [h'] at hc
        exact hb.eq_of_get_end hc
  have hnot : run buf (max f (n + 15)) (.peekNot .dot) (q₀.add .ruleTail s₂.position) =
      .done (true, q₀.add .ruleTail s₂.position) := by
    obtain ⟨k, hk⟩ : ∃ k, max f (n + 15) = k + 2 := ⟨max f (n + 15) - 2, by omega⟩
    rw [hk, run_peekNot, run_dot, hpos, hb.get_end]
    simp
  rw [run_call, rules_SciName]
  simp only
  rw [run_seq, run_mono buf (by omega) h1]
  simp only
  rw [run_seq, run_mono buf (by omega) h2]
  simp only
  rw [run_seq, run_mono buf (by omega) hq₀]
  simp only
  rw [hnot]
  exact ⟨_, rfl⟩

theorem Parse_eq_done_none {fuel : Nat} {p q : Engine}
    (h : p.Parse fuel [] = .done (none, q)) :
    ∃ st, run p.buffer fuel (.call .ruleSciName) p.state = .done (true, st) ∧
      q = { p with state := st, tokens32 := tokens32.Trim st.tree st.tokenIndex } := by
  unfold Engine.Parse at h
  simp only at h
  cases hr : run p.buffer fuel (.call .ruleSciName) p.state with
  | done r =>
    obtain ⟨b, st⟩ := r
    rw [hr] at h
    cases b with
    | true =>
      simp only [if_true, Outcome.done.injEq, Prod.mk.injEq, true_and] at h
      exact ⟨st, rfl, h.symm⟩
    | false => simp at h
  | fault => rw [hr] at h; cases h
  | timeout => rw [hr] at h; cases h

theorem Parse_of_run {fuel : Nat} {p : Engine} {st : State}
    (h : run p.buffer fuel (.call .ruleSciName) p.state = .done (true, st)) :
    p.Parse fuel [] =
      .done (none, { p with state := st, tokens32 := tokens32.Trim st.tree st.tokenIndex }) := by
  unfold Engine.Parse
  simp only
  rw [h]
  rfl

/-- The token list left by a successful `Parse`: it ends with the `Tail` token and
the `SciName` token. -/
theorem tokens_of_SciName (q₀ : State) (b n : Nat) (p : State) (hp : p.position = 0)
    (hq : q₀.position = n) :
    tokens32.Trim ((q₀.add .ruleTail b).add .ruleSciName p.position).tree
        ((q₀.add .ruleTail b).add .ruleSciName p.position).tokenIndex =
      tokens32.Trim q₀.tree q₀.tokenIndex ++ [⟨.ruleTail, b, n⟩, ⟨.ruleSciName, 0, n⟩] := by
  simp only [State.add_tree, State.add_tokenIndex, State.add_position, hp, hq]
  rw [tokens32.Trim_Add_succ, tokens32.Trim_Add_succ, List.append_assoc]
  rfl


theorem Outcome.exists_of_isParsed {r : Outcome (Option parseError × Engine)}
    (h : r.isParsed = true) : ∃ q, r = .done (none, q) := by
  cases r with
  | done x =>
    obtain ⟨e, q⟩ := x
    cases e with
    | none => exact ⟨q, rfl⟩
    | some e => cases h
  | fault => cases h
  | timeout => cases h

/-- Claim C4.  When `Parse` (root rule `SciName`) succeeds on an input of `n` runes,
the whole buffer is consumed: the final position is `n`, which is the index of the
sentinel, and the last token of the trimmed token list is `SciName` from 0 to
`n`. -/
theorem Parse_success_consumes_buffer (p : Engine) (fuel : Nat) (q : Engine)
    (h : p.reset.Parse fuel [] = .done (none, q)) :
    q.state.position = p.Buffer.length ∧
    q.buffer.get? p.Buffer.length = some endSymbol ∧
    q.tokens32.getLast? = some ⟨.ruleSciName, 0, p.Buffer.length⟩ := by
  have hb := reset_isBuffer p
  obtain ⟨st, hrun, hq⟩ := Parse_eq_done_none h
  obtain ⟨f', s₁, s₂, q₀, c, -, -, -, -, hq₀, -, -, hst⟩ := run_SciName_inv hb hrun
  have htok := tokens_of_SciName q₀ s₂.position p.Buffer.length p.reset.state rfl hq₀
  rw [← hst] at htok
  subst hq
  refine ⟨?_, hb.get_end, ?_⟩
  · show st.position = _
    rw [hst]
    simp only [State.add_position]
    exact hq₀
  · show (tokens32.Trim st.tree st.tokenIndex).getLast? = _
    rw [htok]
    simp

/-- Instance of claim C4: `Pomatomus` (9 runes) parses, the final position is 9
and the last token is `SciName` from 0 to 9. -/
theorem Parse_success_consumes_buffer_witness :
    ∃ q, (Engine.new "Pomatomus").reset.Parse 100 [] = .done (none, q) ∧
      q.state.position = 9 ∧
      q.tokens32.getLast? = some ⟨.ruleSciName, 0, 9⟩ := by
  obtain ⟨q, hq⟩ := Outcome.exists_of_isParsed
    (r := (Engine.new "Pomatomus").reset.Parse 100 []) (by decide!)
  have h := Parse_success_consumes_buffer (Engine.new "Pomatomus") 100 q hq
  exact ⟨q, hq, h.1, h.2.2⟩

/-- Claim C5.  `Parse` (rule `SciName`) succeeds exactly when, after the optional
leading run of spaces has been skipped, rule `Name` matches and the rune right
after its match is a space, a comma or the end of input (the sentinel).  The skip
always matches and stops after the leading spaces.  On success the trimmed token
list ends with the `Tail` token followed by the `SciName` token; the `Tail` token
spans from the rune after the `Name` match to the end of input, which is a
non-empty span when that rune is a space or a comma and an empty one otherwise. -/
theorem Parse_success_iff (p : Engine) :
    ((∃ fuel q, p.reset.Parse fuel [] = .done (none, q)) ↔
      ∃ (fuel : Nat) (s₁ s₂ : State) (c : Nat),
        run p.reset.buffer fuel (.query (.call .rule_)) p.reset.state = .done (true, s₁) ∧
        run p.reset.buffer fuel (.call .ruleName) s₁ = .done (true, s₂) ∧
        p.reset.buffer.get? s₂.position = some c ∧
        (c = ' '.toNat ∨ c = ','.toNat ∨ c = endSymbol)) ∧
    (∃ (fuel : Nat) (s₁ : State),
        run p.reset.buffer fuel (.query (.call .rule_)) p.reset.state = .done (true, s₁)) ∧
    (∀ (fuel : Nat) (b : Bool) (s₁ : State),
        run p.reset.buffer fuel (.query (.call .rule_)) p.reset.state = .done (b, s₁) →
        b = true ∧
        s₁.position = (p.Buffer.toList.takeWhile (fun c => c = ' ')).length) ∧
    (∀ (fuel : Nat) (q : Engine), p.reset.Parse fuel [] = .done (none, q) →
      ∃ (fuel' : Nat) (s₁ s₂ : State) (c : Nat) (toks : List token32),
        run p.reset.buffer fuel' (.query (.call .rule_)) p.reset.state = .done (true, s₁) ∧
        run p.reset.buffer fuel' (.call .ruleName) s₁ = .done (true, s₂) ∧
        p.reset.buffer.get? s₂.position = some c ∧
        q.tokens32 =
          toks ++ [⟨.ruleTail, s₂.position, p.Buffer.length⟩,
                   ⟨.ruleSciName, 0, p.Buffer.length⟩] ∧
        ((c = ' '.toNat ∨ c = ','.toNat) → s₂.position < p.Buffer.length) ∧
        (¬(c = ' '.toNat ∨ c = ','.toNat) → s₂.position = p.Buffer.length)) := by
  have hb := reset_isBuffer p
  have h32 : ' '.toNat = 32 := rfl
  have h44 : ','.toNat = 44 := rfl
  rw [h32, h44]
  have hskip := run_query_space hb p.reset.state (by rw [(reset_state p).1]; omega)
  refine ⟨⟨?_, ?_⟩, ?_, ?_, ?_⟩
  · rintro ⟨fuel, q, h⟩
    obtain ⟨st, hrun, -⟩ := Parse_eq_done_none h
    obtain ⟨f', s₁, s₂, q₀, c, h1, h2, hc, hcc, -, -, -, -⟩ := run_SciName_inv hb hrun
    exact ⟨f', s₁, s₂, c, h1, h2, hc, hcc⟩
  · rintro ⟨fuel, s₁, s₂, c, h1, h2, hc, hcc⟩
    obtain ⟨st, hst⟩ := run_SciName_intro hb h1 h2 hc hcc
    exact ⟨_, _, Parse_of_run hst⟩
  · obtain ⟨q, hq, -⟩ := hskip
    exact ⟨_, q, hq⟩
  · intro fuel b s₁ h
    obtain ⟨q, hq, hqp⟩ := hskip
    have := run_det p.reset.buffer h hq
    obtain ⟨hb', hs⟩ := Prod.mk.inj this
    refine ⟨hb', ?_⟩
    rw [hs, hqp, (reset_state p).1, Nat.zero_add, List.drop_zero, reset_buffer,
      countSpaces_runes]
  · intro fuel q h
    obtain ⟨st, hrun, hq⟩ := Parse_eq_done_none h
    obtain ⟨f', s₁, s₂, q₀, c, h1, h2, hc, -, hq₀, hlt, heq, hst⟩ := run_SciName_inv hb hrun
    have htok := tokens_of_SciName q₀ s₂.position p.Buffer.length p.reset.state rfl hq₀
    rw [← hst] at htok
    refine ⟨f', s₁, s₂, c, tokens32.Trim q₀.tree q₀.tokenIndex, h1, h2, hc, ?_, hlt, heq⟩
    rw [hq]
    exact htok

/-- Instance of claim C5: ` Aa ,x` parses; its `Tail` token starts right after the
match of `Name` and ends at the end of the input, and `SciName` spans the whole
input. -/
theorem Parse_success_iff_witness :
    ∃ (q : Engine) (s₂ : State) (toks : List token32),
      (Engine.new " Aa ,x").reset.Parse 120 [] = .done (none, q) ∧
      q.tokens32 = toks ++ [⟨.ruleTail, s₂.position, 6⟩, ⟨.ruleSciName, 0, 6⟩] := by
  obtain ⟨q, hq⟩ := Outcome.exists_of_isParsed
    (r := (Engine.new " Aa ,x").reset.Parse 120 []) (by decide!)
  obtain ⟨_, _, s₂, _, toks, -, -, -, htoks, -, -⟩ :=
    (Parse_success_iff (Engine.new " Aa ,x")).2.2.2 120 q hq
  exact ⟨q, s₂, toks, hq, htoks⟩

/-- The token list of ` Aa ,x`, evaluated: it ends with `Name` over `Aa`, the
tokens of the space, `Tail` from the space to the end, and `SciName`. -/
theorem Parse_Aa_tail :
    (match (Engine.new " Aa ,x").reset.Parse 120 [] with
      | .done (none, q) => q.tokens32.drop 7
      | _ => []) =
      [⟨.ruleName, 1, 3⟩, ⟨.ruleSingleSpace, 3, 4⟩, ⟨.rule_, 3, 4⟩, ⟨.ruleTail, 3, 6⟩,
       ⟨.ruleSciName, 0, 6⟩] := by
  decide!

theorem JoinStrings_assoc_general (a b r : String) :
    JoinStrings (JoinStrings a b " ") r " " = JoinStrings a (JoinStrings b r " ") " " := by
  by_cases ha : a = ""
  · subst ha
    rw [JoinStrings_empty_left, JoinStrings_empty_left]
  · by_cases hb : b = ""
    · subst hb
      rw [JoinStrings_empty_right, JoinStrings_empty_left]
    · exact JoinStrings_assoc a b r ha hb

/-- Joining a value that is itself a join of two words is joining the two words
in turn. -/
theorem foldl_JoinStrings_pairs {α : Type} (f g : α → String) (l : List α) (a : String) :
    (l.map (fun v => JoinStrings (f v) (g v) " ")).foldl
        (fun acc w => JoinStrings acc w " ") a =
      (l.flatMap (fun v => [f v, g v])).foldl (fun acc w => JoinStrings acc w " ") a := by
  induction l generalizing a with
  | nil => rfl
  | cons v l ih =>
    rw [List.map_cons, List.foldl_cons, ih, List.flatMap_cons, List.foldl_append]
    rw [List.foldl_cons, List.foldl_cons, List.foldl_nil, JoinStrings_assoc_general]

theorem foldl_appendCanonical_ValueRanked (l : List infraspEpithetNode) (c : canonical) :
    (l.foldl (fun c v => appendCanonical c v.canonical " ") c).ValueRanked =
      (l.flatMap (fun v => [v.rankMarker, v.Word.NormValue])).foldl
        (fun acc w => JoinStrings acc w " ") c.ValueRanked := by
  rw [← foldl_JoinStrings_pairs]
  induction l generalizing c with
  | nil => rfl
  | cons v l ih =>
    rw [List.foldl_cons, ih]
    rfl

theorem filter_ne_empty_flatMap_pairs {α : Type} (f g : α → String) (l : List α)
    (h : ∀ v ∈ l, f v = "") :
    (l.flatMap (fun v => [f v, g v])).filter (fun w => w ≠ "") =
      (l.map g).filter (fun w => w ≠ "") := by
  induction l with
  | nil => rfl
  | cons v l ih =>
    rw [List.flatMap_cons, List.filter_append, ih (fun w hw => h w (List.mem_cons_of_mem v hw)),
      List.map_cons, h v (List.mem_cons_self v l)]
    simp only [List.filter_cons]
    split_ifs <;> simp_all

theorem infraspEpithetNode.rankMarker_of_none {v : infraspEpithetNode} (h : v.Rank = none) :
    v.rankMarker = "" := by
  unfold infraspEpithetNode.rankMarker
  rw [h]

/-- Claim C12.  The full (ranked) canonical of a species node is the genus, the
species epithet and, for each infraspecific epithet in order, its normalized rank
marker (when it has a rank) followed by the epithet, empty parts skipped, joined
by single spaces: the simple canonical with the rank markers put before their
epithets.  When no infraspecific epithet has a rank marker (its marker is empty,
as it is without a rank), the full canonical equals the simple one. -/
theorem speciesNode_canonical_full (sp : speciesNode) :
    sp.canonical.ValueRanked =
      joinWords
        ((sp.Genus.NormValue :: sp.SpEpithet.Word.NormValue ::
            sp.Infraspecies.flatMap (fun v => [v.rankMarker, v.Word.NormValue])).filter
          (fun w => w ≠ "")) ∧
    sp.canonical.Value =
      joinWords
        ((sp.Genus.NormValue :: sp.SpEpithet.Word.NormValue ::
            sp.Infraspecies.flatMap (fun v => ["", v.Word.NormValue])).filter
          (fun w => w ≠ "")) ∧
    (∀ v ∈ sp.Infraspecies, v.Rank = none → v.rankMarker = "") ∧
    ((∀ v ∈ sp.Infraspecies, v.rankMarker = "") →
      sp.canonical.ValueRanked = sp.canonical.Value) := by
  have hfull : sp.canonical.ValueRanked =
      joinWords
        ((sp.Genus.NormValue :: sp.SpEpithet.Word.NormValue ::
            sp.Infraspecies.flatMap (fun v => [v.rankMarker, v.Word.NormValue])).filter
          (fun w => w ≠ "")) := by
    unfold speciesNode.canonical
    simp only
    rw [foldl_appendCanonical_ValueRanked, ← foldl_JoinStrings_eq_joinWords]
    rfl
  have hsimple : sp.canonical.Value =
      joinWords
        ((sp.Genus.NormValue :: sp.SpEpithet.Word.NormValue ::
            sp.Infraspecies.map (fun v => v.Word.NormValue)).filter
          (fun w => w ≠ "")) := by
    unfold speciesNode.canonical
    simp only
    rw [foldl_appendCanonical_Value, ← foldl_JoinStrings_eq_joinWords]
    rfl
  refine ⟨hfull, ?_, fun v _ hv => infraspEpithetNode.rankMarker_of_none hv, ?_⟩
  · rw [hsimple]
    congr 1
    simp only [List.filter_cons]
    rw [filter_ne_empty_flatMap_pairs (fun _ => "") (fun v => v.Word.NormValue)
      sp.Infraspecies (fun _ _ => rfl)]
  · intro h
    rw [hfull, hsimple]
    congr 1
    simp only [List.filter_cons]
    rw [filter_ne_empty_flatMap_pairs (fun v => v.rankMarker) (fun v => v.Word.NormValue)
      sp.Infraspecies h]

/-- Instance of claim C12: `Aus bus cus`, whose infraspecific epithet has no rank,
has equal full and simple canonical forms; `Aus bus var. cus` keeps `var.` in the
full one only. -/
theorem speciesNode_canonical_full_witness :
    ({ ausBusVarCus with
        Infraspecies := [{ Word := mkWord "cus" 8 11, Rank := none, Authorship := none }] } :
      speciesNode).canonical.ValueRanked = "Aus bus cus" ∧
    ({ ausBusVarCus with
        Infraspecies := [{ Word := mkWord "cus" 8 11, Rank := none, Authorship := none }] } :
      speciesNode).canonical.ValueRanked =
      ({ ausBusVarCus with
        Infraspecies := [{ Word := mkWord "cus" 8 11, Rank := none, Authorship := none }] } :
      speciesNode).canonical.Value ∧
    ausBusVarCus.canonical.ValueRanked = "Aus bus var. cus" ∧
    ausBusVarCus.canonical.Value = "Aus bus cus" :=
  ⟨by decide,
   (speciesNode_canonical_full { ausBusVarCus with
      Infraspecies := [{ Word := mkWord "cus" 8 11, Rank := none, Authorship := none }] }).2.2.2
      (by decide),
   by decide, by decide⟩

/-- Claim C11 fails as stated: the simple canonical of the named genus hybrid
`× Agropogon` is `Agropogon`, with no hybrid sign before it. -/
theorem namedGenusHybrid_simple_no_sign :
    agropogonHybrid.canonical.Value = "Agropogon" ∧
    agropogonHybrid.canonical.Value ≠ "× Agropogon" ∧
    agropogonHybrid.canonical.Value ≠ "×Agropogon" ∧
    '×' ∉ agropogonHybrid.canonical.Value.toList := by
  decide

/-- Claim C11, amended.  The simple canonical of a named genus hybrid node is the
inner name's simple canonical unchanged; the hybrid sign is put before the full
(ranked) canonical only. -/
theorem namedGenusHybrid_canonical_simple (Hybrid : parsedWord) (nameData : name) :
    (name.namedGenusHybridNode Hybrid nameData).canonical.Value = nameData.canonical.Value ∧
    (name.namedGenusHybridNode Hybrid nameData).canonical.ValueRanked =
      JoinStrings "×" nameData.canonical.ValueRanked " " := by
  constructor
  · show JoinStrings "" nameData.canonical.Value " " = _
    exact JoinStrings_empty_left _ _
  · rfl

/-! ### Named hybrids, last authorship, normalized form -/

theorem mem_toList_joinWords {c : Char} :
    ∀ {l : List String}, c ∈ (joinWords l).toList → c = ' ' ∨ ∃ w ∈ l, c ∈ w.toList
  | [], h => by
    change c ∈ ([] : List Char) at h
    cases h
  | [w], h => Or.inr ⟨w, List.mem_singleton_self w, h⟩
  | w :: w' :: ws, h => by
    rw [joinWords_cons_cons] at h
    have h2 : c ∈ w.toList ++ [' '] ++ (joinWords (w' :: ws)).toList := by
      simpa [String.toList, String.data_append] using h
    rcases List.mem_append.1 h2 with h3 | h3
    · rcases List.mem_append.1 h3 with h4 | h4
      · exact Or.inr ⟨w, List.mem_cons_self _ _, h4⟩
      · exact Or.inl (List.mem_singleton.1 h4)
    · rcases mem_toList_joinWords h3 with h5 | ⟨x, hx, hc⟩
      · exact Or.inl h5
      · exact Or.inr ⟨x, List.mem_cons_of_mem _ hx, hc⟩

theorem namedSpeciesHybridNode_canonical_Value (nh : namedSpeciesHybridNode) :
    nh.canonical.Value =
      joinWords ((nh.Genus.NormValue :: nh.SpEpithet.Word.NormValue ::
        nh.Infraspecies.map (fun v => v.Word.NormValue)).filter (fun w => w ≠ "")) := by
  unfold namedSpeciesHybridNode.canonical
  simp only
  rw [foldl_appendCanonical_Value, ← foldl_JoinStrings_eq_joinWords]
  show List.foldl _ (JoinStrings (JoinStrings nh.Genus.NormValue "" " ")
    nh.SpEpithet.Word.NormValue " ") _ = _
  rw [JoinStrings_empty_right]
  rfl

/-- Claim C13.  The full (ranked) canonical of a named hybrid carries the sign `×`.
For a named genus hybrid it is `×` joined by a space with the inner name's full
canonical: `× ` followed by that canonical whenever it is not empty.  For a named
species hybrid it is the genus, `×`, the species epithet and the infraspecific
parts (rank marker and epithet of each), empty ones skipped, joined by single
spaces.  The simple canonical of a named species hybrid is the genus, the species
epithet and the infraspecific epithets joined by single spaces, so it has no `×`
unless one of these words contains one. -/
theorem namedHybrid_canonical_full (Hybrid : parsedWord) (nameData : name)
    (nh : namedSpeciesHybridNode) :
    (name.namedGenusHybridNode Hybrid nameData).canonical.ValueRanked =
      joinWords (["×", nameData.canonical.ValueRanked].filter (fun w => w ≠ "")) ∧
    (nameData.canonical.ValueRanked ≠ "" →
      (name.namedGenusHybridNode Hybrid nameData).canonical.ValueRanked =
        "× " ++ nameData.canonical.ValueRanked) ∧
    nh.canonical.ValueRanked =
      joinWords ((nh.Genus.NormValue :: "×" :: nh.SpEpithet.Word.NormValue ::
        nh.Infraspecies.flatMap (fun v => [v.rankMarker, v.Word.NormValue])).filter
          (fun w => w ≠ "")) ∧
    nh.canonical.Value =
      joinWords ((nh.Genus.NormValue :: nh.SpEpithet.Word.NormValue ::
        nh.Infraspecies.map (fun v => v.Word.NormValue)).filter (fun w => w ≠ "")) ∧
    (('×' ∉ nh.Genus.NormValue.toList ∧ '×' ∉ nh.SpEpithet.Word.NormValue.toList ∧
        ∀ v ∈ nh.Infraspecies, '×' ∉ v.Word.NormValue.toList) →
      '×' ∉ nh.canonical.Value.toList) := by
  have hg : (name.namedGenusHybridNode Hybrid nameData).canonical.ValueRanked =
      JoinStrings "×" nameData.canonical.ValueRanked " " := rfl
  have hx : ("×" : String) ≠ "" := by decide
  refine ⟨?_, ?_, ?_, namedSpeciesHybridNode_canonical_Value nh, ?_⟩
  · rw [hg, ← foldl_JoinStrings_eq_joinWords]
    rfl
  · intro h
    rw [hg, JoinStrings_of_ne " " hx h]
    rfl
  · unfold namedSpeciesHybridNode.canonical
    simp only
    rw [foldl_appendCanonical_ValueRanked, ← foldl_JoinStrings_eq_joinWords]
    rfl
  · rintro ⟨h1, h2, h3⟩ hc
    rw [namedSpeciesHybridNode_canonical_Value] at hc
    rcases mem_toList_joinWords hc with h | ⟨w, hw, hcw⟩
    · exact absurd h (by decide)
    · have hw' := (List.mem_filter.1 hw).1
      rcases List.mem_cons.1 hw' with h | hw'
      · subst h; exact h1 hcw
      · rcases List.mem_cons.1 hw' with h | hw'
        · subst h; exact h2 hcw
        · obtain ⟨v, hv, rfl⟩ := List.mem_map.1 hw'
          exact h3 v hv hcw

/-- Instance of claim C13: the full canonical of `× Agropogon` is `× Agropogon`,
the full canonical of `Salix × capreola` is `Salix × capreola` and its simple
canonical `Salix capreola` has no `×`. -/
theorem namedHybrid_canonical_full_witness :
    agropogonHybrid.canonical.ValueRanked = "× Agropogon" ∧
    salixCapreola.canonical.ValueRanked = "Salix × capreola" ∧
    salixCapreola.canonical.Value = "Salix capreola" ∧
    '×' ∉ salixCapreola.canonical.Value.toList :=
  ⟨(namedHybrid_canonical_full (mkWord "×" 0 1)
      (.uninomialNode { Word := mkWord "Agropogon" 2 11, Authorship := none })
      salixCapreola).2.1 (by decide),
   by decide, by decide,
   (namedHybrid_canonical_full (mkWord "×" 0 1)
      (.uninomialNode { Word := mkWord "Agropogon" 2 11, Authorship := none })
      salixCapreola).2.2.2.2 (by decide)⟩

/-- Claim C15.  `lastAuthorship` is the authorship of the smallest taxonomic unit:
of the last infraspecific epithet for a species node that has infraspecific
epithets, of the species epithet for a species node without them, of the uninomial
for a uninomial, and nil for every hybrid formula.  `LastAuthorship` returns the
details of that authorship (with the original and combination groups removed when
called without details), and nil for a hybrid formula. -/
theorem lastAuthorship_smallest_unit {W H S B : Type} (sp : speciesNode) (u : uninomialNode)
    (FirstSpecies : name) (HybridElements : List (hybridElement name))
    (sn : scientificNameNode W H S B) (withDetails : Bool) :
    (∀ (init : List infraspEpithetNode) (last : infraspEpithetNode),
      sp.Infraspecies = init ++ [last] →
      (name.speciesNode sp).lastAuthorship = last.Authorship) ∧
    (sp.Infraspecies = [] → (name.speciesNode sp).lastAuthorship = sp.SpEpithet.Authorship) ∧
    (name.uninomialNode u).lastAuthorship = u.Authorship ∧
    (name.hybridFormulaNode FirstSpecies HybridElements).lastAuthorship = none ∧
    (sn.nameData = some (.hybridFormulaNode FirstSpecies HybridElements) →
      sn.LastAuthorship withDetails = none) ∧
    (∀ nameData, sn.nameData = some nameData →
      sn.LastAuthorship true = authorshipNode.details nameData.lastAuthorship ∧
      sn.LastAuthorship false =
        (authorshipNode.details nameData.lastAuthorship).map
          (fun res => { res with Original := none, Combination := none })) := by
  refine ⟨?_, ?_, rfl, rfl, ?_, ?_⟩
  · intro init last h
    show sp.lastAuthorship = _
    unfold speciesNode.lastAuthorship
    rw [h, List.getLast?_append, List.getLast?_singleton]
    rfl
  · intro h
    show sp.lastAuthorship = _
    unfold speciesNode.lastAuthorship
    rw [h]
    rfl
  · intro h
    unfold scientificNameNode.LastAuthorship
    rw [h]
    rfl
  · intro nameData h
    unfold scientificNameNode.LastAuthorship
    rw [h]
    simp only
    cases nameData.lastAuthorship with
    | none => exact ⟨rfl, rfl⟩
    | some an => exact ⟨rfl, rfl⟩

/-- Instance of claim C15: in `Aus bus var. cus (Smith) Jones ex Brown 1901` the
last authorship is the one attached to `cus`. -/
theorem lastAuthorship_smallest_unit_witness :
    (name.speciesNode ausBusVarCusAuthored).lastAuthorship = some smithJonesExBrown ∧
    parsedAuthoredNode.LastAuthorship true = authorshipNode.details (some smithJonesExBrown) :=
  ⟨(lastAuthorship_smallest_unit (W := TestWarning) (H := Option String) (S := Option String)
      (B := Option String) ausBusVarCusAuthored
      { Word := mkWord "Aus" 0 3, Authorship := none }
      (.speciesNode ausBusVarCusAuthored) [] parsedAuthoredNode true).1 [] _ rfl,
   ((lastAuthorship_smallest_unit ausBusVarCusAuthored
      { Word := mkWord "Aus" 0 3, Authorship := none }
      (.speciesNode ausBusVarCusAuthored) [] parsedAuthoredNode true).2.2.2.2.2
        _ rfl).1⟩

theorem foldl_JoinStrings_triples {α : Type} (f g h : α → String) (l : List α) (a : String) :
    (l.map (fun v => JoinStrings (JoinStrings (f v) (g v) " ") (h v) " ")).foldl
        (fun acc w => JoinStrings acc w " ") a =
      (l.flatMap (fun v => [f v, g v, h v])).foldl (fun acc w => JoinStrings acc w " ") a := by
  induction l generalizing a with
  | nil => rfl
  | cons v l ih =>
    rw [List.map_cons, List.foldl_cons, ih, List.flatMap_cons, List.foldl_append]
    rw [List.foldl_cons, List.foldl_cons, List.foldl_cons, List.foldl_nil,
      ← JoinStrings_assoc_general, ← JoinStrings_assoc_general]

/-- Claim C16.  The normalized form of a species node is the genus, the subgenus
in parentheses when present, the species epithet, the species authorship, and
then for each infraspecific element its rank marker, its epithet and its
authorship, joined by single spaces in that order with empty parts skipped; it is
what `Normalized` returns for a node holding the species node. -/
theorem speciesNode_value_normalized {W H S B : Type} (sp : speciesNode)
    (sn : scientificNameNode W H S B) :
    sp.value =
      joinWords ((sp.Genus.NormValue :: sp.subgenusMarker :: sp.SpEpithet.Word.NormValue ::
        authorshipNode.value sp.SpEpithet.Authorship ::
        sp.Infraspecies.flatMap
          (fun v => [v.rankMarker, v.Word.NormValue, authorshipNode.value v.Authorship])).filter
        (fun w => w ≠ "")) ∧
    (sp.Subgenus = none → sp.subgenusMarker = "") ∧
    (∀ sg, sp.Subgenus = some sg → sp.subgenusMarker = "(" ++ sg.NormValue ++ ")") ∧
    (sn.nameData = some (.speciesNode sp) → sn.Normalized = sp.value) := by
  refine ⟨?_, ?_, ?_, ?_⟩
  · rw [← foldl_JoinStrings_eq_joinWords, List.foldl_cons, List.foldl_cons, List.foldl_cons,
      ← foldl_JoinStrings_triples, JoinStrings_assoc_general _ sp.SpEpithet.Word.NormValue]
    have hm : sp.Infraspecies.map (fun v => JoinStrings (JoinStrings v.rankMarker
        v.Word.NormValue " ") (authorshipNode.value v.Authorship) " ") =
        sp.Infraspecies.map (fun v => v.value) := rfl
    rw [hm, List.foldl_map]
    rfl
  · intro h
    unfold speciesNode.subgenusMarker
    rw [h]
  · intro sg h
    unfold speciesNode.subgenusMarker
    rw [h]
  · intro h
    unfold scientificNameNode.Normalized
    rw [h]
    rfl

/-- Instance of claim C16: the normalized form of `Aus bus var. cus (Smith) Jones
ex Brown 1901` is the input itself. -/
theorem speciesNode_value_normalized_witness :
    parsedAuthoredNode.Normalized = ausBusVarCusAuthored.value ∧
    ausBusVarCusAuthored.value = "Aus bus var. cus (Smith) Jones ex Brown 1901" :=
  ⟨(speciesNode_value_normalized ausBusVarCusAuthored parsedAuthoredNode).2.2.2 rfl, by decide⟩

/-! ### Authorship details -/

/-- Claim C17 fails as stated: for the authorship `(Smith) Jones ex Brown 1901` the
combination group lists Jones alone, not Jones and Brown, and the year of the
authorship is empty, not 1901. -/
theorem authorship_details_ex_team_not_listed :
    (authorshipNode.details (some smithJonesExBrown)).map
        (fun a => a.Combination.map (fun g => g.Authors)) = some (some ["Jones"]) ∧
    (authorshipNode.details (some smithJonesExBrown)).map
        (fun a => a.Combination.map (fun g => g.Authors)) ≠ some (some ["Jones", "Brown"]) ∧
    (authorshipNode.details (some smithJonesExBrown)).map (fun a => a.Year) = some "" ∧
    (authorshipNode.details (some smithJonesExBrown)).map (fun a => a.Year) ≠ some "1901" := by
  decide

/-- Claim C17, amended.  For an authorship with an original group and a
combination group that has a first team and an ex team, the output lists the
authors of the first team of each group (`Original.Authors`,
`Combination.Authors`, and both in `Authors`); the authors and the year of the ex
team are recorded apart in `Combination.ExAuthors`, and `Year` is the year of the
first team of the original group, empty when that team has none. -/
theorem authorship_details_ex_team (au : authorshipNode) (orig comb : authorsGroupNode)
    (t1 t2 : authorsTeamNode)
    (h1 : au.OriginalAuthors = some orig) (h2 : au.CombinationAuthors = some comb)
    (h3 : comb.Team1 = some t1) (h4 : comb.Team2 = some t2) (h5 : comb.Team2Type = .teamEx) :
    ∃ (a : parsed.Authorship) (o c : parsed.AuthGroup),
      authorshipNode.details (some au) = some a ∧
      a.Original = some o ∧ a.Combination = some c ∧
      o.Authors = (authorsTeamNode.details orig.Team1).1 ∧
      c.Authors = t1.Authors.map (fun v => v.Value) ∧
      c.ExAuthors = some { Authors := t2.Authors.map (fun v => v.Value)
                           Year := (authorsTeamNode.details (some t2)).2 } ∧
      c.EmendAuthors = none ∧
      a.Authors = o.Authors ++ c.Authors ∧
      a.Year = (match (authorsTeamNode.details orig.Team1).2 with
        | some y => if y.IsApproximate then sprintfParens y.Value else y.Value
        | none => "") ∧
      a.Normalized = authorshipNode.value (some au) := by
  have hc : authGroupDetail (some comb) =
      { Authors := t1.Authors.map (fun v => v.Value)
        Year := (authorsTeamNode.details (some t1)).2
        ExAuthors := some { Authors := t2.Authors.map (fun v => v.Value)
                            Year := (authorsTeamNode.details (some t2)).2 }
        EmendAuthors := none } := by
    obtain ⟨T1, T2T, T2W, T2, P⟩ := comb
    simp only at h3 h4 h5
    subst h3 h4 h5
    obtain ⟨a1, y1⟩ := t1
    obtain ⟨a2, y2⟩ := t2
    cases y1 <;> cases y2 <;> rfl
  have ho : (authGroupDetail (some orig)).Authors = (authorsTeamNode.details orig.Team1).1 ∧
      (authGroupDetail (some orig)).Year = (authorsTeamNode.details orig.Team1).2 := by
    unfold authGroupDetail
    simp only
    cases orig.Team2 with
    | none => exact ⟨rfl, rfl⟩
    | some team2 => cases orig.Team2Type <;> exact ⟨rfl, rfl⟩
  obtain ⟨V, O, C⟩ := au
  simp only at h1 h2
  subst h1 h2
  refine ⟨_, authGroupDetail (some orig), authGroupDetail (some comb), rfl, rfl, rfl, ho.1, ?_,
    ?_, ?_, rfl, ?_, rfl⟩
  · rw [hc]
  · rw [hc]
  · rw [hc]
  · show (match (authGroupDetail (some orig)).Year with
      | some y => if y.IsApproximate then sprintfParens y.Value else y.Value
      | none => "") = _
    rw [ho.2]

/-- Instance of the amended claim C17: for `(Smith) Jones ex Brown 1901` the
output has `Original.Authors = [Smith]`, `Combination.Authors = [Jones]`, the ex
team `[Brown]` with year 1901 in `Combination.ExAuthors`, `Authors = [Smith,
Jones]` and an empty `Year`. -/
theorem authorship_details_ex_team_witness :
    authorshipNode.details (some smithJonesExBrown) = some
      { Verbatim := "(Smith) Jones ex Brown 1901"
        Normalized := "(Smith) Jones ex Brown 1901"
        Authors := ["Smith", "Jones"]
        Year := ""
        Original := some { Authors := ["Smith"], Year := none, ExAuthors := none,
                           EmendAuthors := none }
        Combination := some
          { Authors := ["Jones"], Year := none
            ExAuthors := some { Authors := ["Brown"],
                                Year := some { Value := "1901", IsApproximate := false } }
            EmendAuthors := none } } ∧
    ∃ (a : parsed.Authorship) (c : parsed.AuthGroup),
      authorshipNode.details (some smithJonesExBrown) = some a ∧ a.Combination = some c ∧
      c.Authors = ["Jones"] ∧ a.Year = "" := by
  refine ⟨by decide, ?_⟩
  obtain ⟨a, o, c, ha, -, hc, -, hca, -, -, -, hy, -⟩ :=
    authorship_details_ex_team smithJonesExBrown _ _ _ _ rfl rfl rfl rfl rfl
  exact ⟨a, c, ha, hc, hca, hy⟩

/-! ### Output with and without details -/

/-- Claim C18.  Details and words are attached only with details: `ToOutput(false)`
has no `Details` and no `Words`, `ToOutput(true)` has those of the node (the
details and words of the name data of a parsed node), the authorship of
`ToOutput(false)` is that of `ToOutput(true)` with `Original` and `Combination`
set to nil, and the two outputs agree on every other field. -/
theorem ToOutput_details_frame {W M H S B : Type} [LinearOrder M]
    [Inhabited H] [Inhabited S] [Inhabited B]
    (StemCanonical : String → String) (NewQualityWarning : W → parsed.QualityWarning M)
    (sn : scientificNameNode W H S B) :
    (sn.ToOutput StemCanonical NewQualityWarning false).Details = none ∧
    (sn.ToOutput StemCanonical NewQualityWarning false).Words = [] ∧
    (sn.ToOutput StemCanonical NewQualityWarning true).Details = sn.Details ∧
    (sn.ToOutput StemCanonical NewQualityWarning true).Words = sn.Words ∧
    (∀ nameData, sn.nameData = some nameData →
      (sn.ToOutput StemCanonical NewQualityWarning true).Details = some nameData.details ∧
      (sn.ToOutput StemCanonical NewQualityWarning true).Words = nameData.words) ∧
    (sn.ToOutput StemCanonical NewQualityWarning false).Authorship =
      (sn.ToOutput StemCanonical NewQualityWarning true).Authorship.map
        (fun a => { a with Original := none, Combination := none }) ∧
    (∀ a, (sn.ToOutput StemCanonical NewQualityWarning false).Authorship = some a →
      a.Original = none ∧ a.Combination = none ∧
      ∃ a', (sn.ToOutput StemCanonical NewQualityWarning true).Authorship = some a' ∧
        a.Verbatim = a'.Verbatim ∧ a.Normalized = a'.Normalized ∧ a.Authors = a'.Authors ∧
        a.Year = a'.Year) ∧
    (sn.ToOutput StemCanonical NewQualityWarning false).Parsed =
      (sn.ToOutput StemCanonical NewQualityWarning true).Parsed ∧
    (sn.ToOutput StemCanonical NewQualityWarning false).ParseQuality =
      (sn.ToOutput StemCanonical NewQualityWarning true).ParseQuality ∧
    (sn.ToOutput StemCanonical NewQualityWarning false).QualityWarnings =
      (sn.ToOutput StemCanonical NewQualityWarning true).QualityWarnings ∧
    (sn.ToOutput StemCanonical NewQualityWarning false).Verbatim =
      (sn.ToOutput StemCanonical NewQualityWarning true).Verbatim ∧
    (sn.ToOutput StemCanonical NewQualityWarning false).Normalized =
      (sn.ToOutput StemCanonical NewQualityWarning true).Normalized ∧
    (sn.ToOutput StemCanonical NewQualityWarning false).Canonical =
      (sn.ToOutput StemCanonical NewQualityWarning true).Canonical ∧
    (sn.ToOutput StemCanonical NewQualityWarning false).Cardinality =
      (sn.ToOutput StemCanonical NewQualityWarning true).Cardinality ∧
    (sn.ToOutput StemCanonical NewQualityWarning false).Bacteria =
      (sn.ToOutput StemCanonical NewQualityWarning true).Bacteria ∧
    (sn.ToOutput StemCanonical NewQualityWarning false).Virus =
      (sn.ToOutput StemCanonical NewQualityWarning true).Virus ∧
    (sn.ToOutput StemCanonical NewQualityWarning false).Hybrid =
      (sn.ToOutput StemCanonical NewQualityWarning true).Hybrid ∧
    (sn.ToOutput StemCanonical NewQualityWarning false).Surrogate =
      (sn.ToOutput StemCanonical NewQualityWarning true).Surrogate ∧
    (sn.ToOutput StemCanonical NewQualityWarning false).Tail =
      (sn.ToOutput StemCanonical NewQualityWarning true).Tail ∧
    (sn.ToOutput StemCanonical NewQualityWarning false).VerbatimID =
      (sn.ToOutput StemCanonical NewQualityWarning true).VerbatimID ∧
    (sn.ToOutput StemCanonical NewQualityWarning false).ParserVersion =
      (sn.ToOutput StemCanonical NewQualityWarning true).ParserVersion := by
  cases hn : sn.nameData with
  | none =>
    have hcan : sn.Canonical StemCanonical = none := by
      unfold scientificNameNode.Canonical; rw [hn]
    have hd : sn.Details = none := by unfold scientificNameNode.Details; rw [hn]
    have hw : sn.Words = [] := by unfold scientificNameNode.Words; rw [hn]
    have h : ∀ b, sn.ToOutput StemCanonical NewQualityWarning b =
        { Verbatim := sn.verbatim, Canonical := none, Virus := sn.virus
          VerbatimID := sn.verbatimID, ParserVersion := sn.parserVersion, Parsed := false
          ParseQuality := 0, QualityWarnings := [], Normalized := "", Cardinality := 0
          Authorship := none, Bacteria := default, Hybrid := default, Surrogate := default
          Tail := "", Details := none, Words := [] } := by
      intro b
      unfold scientificNameNode.ToOutput
      simp only [hcan, Option.isNone_none, if_true]
    rw [h false, h true, hd, hw]
    refine ⟨rfl, rfl, rfl, rfl, ?_, rfl, ?_, rfl, rfl, rfl, rfl, rfl, rfl, rfl, rfl, rfl, rfl,
      rfl, rfl, rfl, rfl⟩
    · intro nameData h'; cases h'
    · intro a h'; cases h'
  | some nd =>
    have hcan : (sn.Canonical StemCanonical).isNone = false := by
      unfold scientificNameNode.Canonical; rw [hn]; rfl
    have hd : sn.Details = some nd.details := by unfold scientificNameNode.Details; rw [hn]
    have hw : sn.Words = nd.words := by unfold scientificNameNode.Words; rw [hn]
    have hla : sn.LastAuthorship false = (sn.LastAuthorship true).map
        (fun a => { a with Original := none, Combination := none }) := by
      unfold scientificNameNode.LastAuthorship
      rw [hn]
      simp only
      cases nd.lastAuthorship with
      | none => rfl
      | some an => rfl
    have hf : sn.ToOutput StemCanonical NewQualityWarning false =
        { Verbatim := sn.verbatim, Canonical := sn.Canonical StemCanonical, Virus := sn.virus
          VerbatimID := sn.verbatimID, ParserVersion := sn.parserVersion, Parsed := true
          ParseQuality := (qualityWarnings NewQualityWarning sn.warnings).1
          QualityWarnings := (qualityWarnings NewQualityWarning sn.warnings).2
          Normalized := sn.Normalized, Cardinality := sn.cardinality
          Authorship := sn.LastAuthorship false, Bacteria := sn.bacteria, Hybrid := sn.hybrid
          Surrogate := sn.surrogate, Tail := sn.tail, Details := none, Words := [] } := by
      unfold scientificNameNode.ToOutput
      simp only [hcan]
      rfl
    have ht : sn.ToOutput StemCanonical NewQualityWarning true =
        { Verbatim := sn.verbatim, Canonical := sn.Canonical StemCanonical, Virus := sn.virus
          VerbatimID := sn.verbatimID, ParserVersion := sn.parserVersion, Parsed := true
          ParseQuality := (qualityWarnings NewQualityWarning sn.warnings).1
          QualityWarnings := (qualityWarnings NewQualityWarning sn.warnings).2
          Normalized := sn.Normalized, Cardinality := sn.cardinality
          Authorship := sn.LastAuthorship true, Bacteria := sn.bacteria, Hybrid := sn.hybrid
          Surrogate := sn.surrogate, Tail := sn.tail, Details := sn.Details
          Words := sn.Words } := by
      unfold scientificNameNode.ToOutput
      simp only [hcan]
      rfl
    rw [hf, ht]
    refine ⟨rfl, rfl, rfl, rfl, ?_, hla, ?_, rfl, rfl, rfl, rfl, rfl, rfl, rfl, rfl, rfl, rfl,
      rfl, rfl, rfl, rfl⟩
    · intro nameData h'
      cases h'
      exact ⟨hd, hw⟩
    · intro a h'
      have h2 : sn.LastAuthorship false = some a := h'
      rw [hla] at h2
      cases hl : sn.LastAuthorship true with
      | none => rw [hl] at h2; cases h2
      | some a' =>
        rw [hl] at h2
        cases h2
        exact ⟨rfl, rfl, a', rfl, rfl, rfl, rfl, rfl⟩

/-- Instance of claim C18: for `Aus bus var. cus (Smith) Jones ex Brown 1901` the
output with details has details, eight words and the two author groups; the output
without details has none of them and the same flat authors. -/
theorem ToOutput_details_frame_witness :
    (parsedAuthoredNode.ToOutput id TestWarning.NewQualityWarning true).Details.isSome = true ∧
    (parsedAuthoredNode.ToOutput id TestWarning.NewQualityWarning true).Words.length = 8 ∧
    (parsedAuthoredNode.ToOutput id TestWarning.NewQualityWarning false).Details.isSome = false ∧
    (parsedAuthoredNode.ToOutput id TestWarning.NewQualityWarning false).Words = [] ∧
    (parsedAuthoredNode.ToOutput id TestWarning.NewQualityWarning false).Authorship =
      some { Verbatim := "(Smith) Jones ex Brown 1901"
             Normalized := "(Smith) Jones ex Brown 1901"
             Authors := ["Smith", "Jones"], Year := "", Original := none
             Combination := none } := by
  have h := ToOutput_details_frame id TestWarning.NewQualityWarning parsedAuthoredNode
  have h5 := h.2.2.2.2.1 _ rfl
  refine ⟨?_, ?_, ?_, h.2.1, ?_⟩
  · rw [h5.1]; rfl
  · rw [h5.2]; decide
  · rw [h.1]; rfl
  · rw [h.2.2.2.2.2.1, show (parsedAuthoredNode.ToOutput id TestWarning.NewQualityWarning
      true).Authorship = parsedAuthoredNode.LastAuthorship true from rfl]
    decide

/-! ### The stemmed canonical form -/

theorem Leptochloopsis_ne (x : String) : "Leptochloöpsis" ++ " " ++ x ≠ "Leptochloopsis uirgat" := by
  intro h
  have h2 := congrArg (fun s => s.data.get? 9) h
  simp only [String.data_append] at h2
  have h3 : some 'ö' = some 'o' := h2
  revert h3
  decide

/-! ### Parse errors -/

theorem Parse_mono {f f' : Nat} {p : Engine} {rule : List pegRule}
    {x : Option parseError × Engine} (hle : f ≤ f') (h : p.Parse f rule = .done x) :
    p.Parse f' rule = .done x := by
  have key : ∀ r : pegRule,
      (match run p.buffer f (.call r) p.state with
        | .done (isMatch, state) =>
          if isMatch then
            Outcome.done ((none : Option parseError),
              { p with state := state, tokens32 := tokens32.Trim state.tree state.tokenIndex })
          else .done (some ⟨state.max⟩, { p with state := state, tokens32 := state.tree })
        | .fault => .fault
        | .timeout => .timeout) = .done x →
      (match run p.buffer f' (.call r) p.state with
        | .done (isMatch, state) =>
          if isMatch then
            Outcome.done ((none : Option parseError),
              { p with state := state, tokens32 := tokens32.Trim state.tree state.tokenIndex })
          else .done (some ⟨state.max⟩, { p with state := state, tokens32 := state.tree })
        | .fault => .fault
        | .timeout => .timeout) = .done x := by
    intro r hx
    cases hr : run p.buffer f (.call r) p.state with
    | done y =>
      rw [hr] at hx
      rw [run_mono p.buffer hle hr]
      exact hx
    | fault => rw [hr] at hx; cases hx
    | timeout => rw [hr] at hx; cases hx
  cases rule with
  | nil => exact key _ h
  | cons r rs => exact key _ h

/-- Claim C20.  Parsing `SomeRandomText123` fails: with fuel 100 or more `Parse` on
the root rule returns a parse error for this buffer (the farthest token reached
is the letter `e` of `Some`), with less fuel it returns an error or runs out of
fuel, and it never returns without error; the node without name data that
results is reported as unparsed. -/
theorem Parse_SomeRandomText123_error :
    (∀ fuel, 100 ≤ fuel → ∃ q, (Engine.new "SomeRandomText123").Parse fuel [] =
      .done (some ⟨⟨.rulelASCII, 3, 4⟩⟩, q)) ∧
    (∀ fuel, ((Engine.new "SomeRandomText123").Parse fuel []).isParsed = false) ∧
    unparsedNode.verbatim = "SomeRandomText123" ∧
    (unparsedNode.ToOutput id TestWarning.NewQualityWarning true).Parsed = false := by
  have h : ∃ q, (Engine.new "SomeRandomText123").Parse 100 [] =
      .done (some ⟨⟨.rulelASCII, 3, 4⟩⟩, q) := by
    have h0 : (match (Engine.new "SomeRandomText123").Parse 100 [] with
        | .done (some e, _) => some e
        | _ => none) = some ⟨⟨.rulelASCII, 3, 4⟩⟩ := by
      decide!
    cases hp : (Engine.new "SomeRandomText123").Parse 100 [] with
    | done x =>
      obtain ⟨e, q⟩ := x
      rw [hp] at h0
      cases e with
      | none => cases h0
      | some e =>
        simp only [Option.some.injEq] at h0
        subst h0
        exact ⟨q, rfl⟩
    | fault => rw [hp] at h0; cases h0
    | timeout => rw [hp] at h0; cases h0
  obtain ⟨q, hq⟩ := h
  refine ⟨fun fuel hf => ⟨q, Parse_mono hf hq⟩, ?_, rfl, rfl⟩
  intro fuel
  cases hp : (Engine.new "SomeRandomText123").Parse fuel [] with
  | done x =>
    obtain ⟨e, q'⟩ := x
    cases e with
    | some e => rfl
    | none =>
      exfalso
      have h1 := Parse_mono (Nat.le_max_left fuel 100) hp
      have h2 := Parse_mono (Nat.le_max_right fuel 100) hq
      rw [h1] at h2
      cases h2
  | fault => rfl
  | timeout => rfl

/-- Instance of claim C20 at fuel 100. -/
theorem Parse_SomeRandomText123_error_witness :
    ∃ q, (Engine.new "SomeRandomText123").Parse 100 [] =
      .done (some ⟨⟨.rulelASCII, 3, 4⟩⟩, q) :=
  Parse_SomeRandomText123_error.1 100 (Nat.le_refl 100)

/-! ### Tokens of a year with a letter -/

theorem tokens32.Trim_take (t : List token32) {k n : Nat} (h : k ≤ n) :
    (tokens32.Trim t n).take k = tokens32.Trim t k := by
  apply List.ext_getElem?
  intro m
  rw [List.getElem?_take, tokens32.Trim_getElem?, tokens32.Trim_getElem?]
  by_cases hm : m < k
  · rw [if_pos hm, if_pos hm, if_pos (by omega)]
  · rw [if_neg hm, if_neg hm]

theorem tokens32.Trim_of_append {t t' seg : List token32} {n m : Nat}
    (h : tokens32.Trim t' m = tokens32.Trim t n ++ seg) :
    n ≤ m ∧ tokens32.Trim t' n = tokens32.Trim t n := by
  have hm : m = n + seg.length := by
    have := congrArg List.length h
    rw [tokens32.Trim_length, List.length_append, tokens32.Trim_length] at this
    exact this
  refine ⟨by omega, ?_⟩
  rw [← tokens32.Trim_take t' (show n ≤ m by omega), h,
    List.take_left' (tokens32.Trim_length t n)]

theorem YearCharTokens.append {buf : List Nat} {l₁ l₂ : List token32}
    (h₁ : YearCharTokens buf l₁) (h₂ : YearCharTokens buf l₂) :
    YearCharTokens buf (l₁ ++ l₂) := by
  induction h₂ with
  | nil => rw [List.append_nil]; exact h₁
  | other t l ht0 ht1 _ ih =>
    rw [← List.append_assoc]
    exact .other t _ ht0 ht1 ih
  | year l b x c hc hl hu hb _ ih =>
    rw [← List.append_assoc]
    exact .year _ b x c hc hl hu hb ih

/-- In such a list an `Action0` token occurs exactly when a `YearWithChar` token
does. -/
theorem YearCharTokens.action_iff {buf : List Nat} {l : List token32}
    (h : YearCharTokens buf l) :
    (∃ t ∈ l, t.pegRule = .ruleAction0) ↔ ∃ t ∈ l, t.pegRule = .ruleYearWithChar := by
  induction h with
  | nil => simp
  | other t l ht0 ht1 _ ih =>
    constructor
    · rintro ⟨u, hu, hr⟩
      rcases List.mem_append.1 hu with hu | hu
      · obtain ⟨v, hv, hvr⟩ := ih.1 ⟨u, hu, hr⟩
        exact ⟨v, List.mem_append_left _ hv, hvr⟩
      · rw [List.mem_singleton.1 hu] at hr
        exact absurd hr ht0
    · rintro ⟨u, hu, hr⟩
      rcases List.mem_append.1 hu with hu | hu
      · obtain ⟨v, hv, hvr⟩ := ih.2 ⟨u, hu, hr⟩
        exact ⟨v, List.mem_append_left _ hv, hvr⟩
      · rw [List.mem_singleton.1 hu] at hr
        exact absurd hr ht1
  | year l b x c _ _ _ _ _ _ =>
    constructor
    · intro _
      exact ⟨⟨.ruleYearWithChar, b, x + 1⟩, by simp, rfl⟩
    · intro _
      exact ⟨⟨.ruleAction0, x + 1, x + 1⟩, by simp, rfl⟩

/-- In such a list every `YearWithChar` token ends right after a lower-case ASCII
letter of the buffer that lies in its span. -/
theorem YearCharTokens.year_letter {buf : List Nat} {l : List token32}
    (h : YearCharTokens buf l) :
    ∀ t ∈ l, t.pegRule = .ruleYearWithChar →
      ∃ x c, t.«end» = x + 1 ∧ t.begin ≤ x ∧ buf.get? x = some c ∧
        'a'.toNat ≤ c ∧ c ≤ 'z'.toNat := by
  induction h with
  | nil => intro t ht; cases ht
  | other u l _ hu1 _ ih =>
    intro t ht hr
    rcases List.mem_append.1 ht with ht | ht
    · exact ih t ht hr
    · rw [List.mem_singleton.1 ht] at hr
      exact absurd hr hu1
  | year l b x c hc hl hu hb _ ih =>
    intro t ht hr
    rcases List.mem_append.1 ht with ht | ht
    · exact ih t ht hr
    · rcases List.mem_cons.1 ht with ht | ht
      · rw [ht] at hr; cases hr
      · rw [List.mem_singleton.1 ht]
        exact ⟨x, c, rfl, hb, hc, hl, hu⟩

theorem RunInv.of_tokens {buf : List Nat} {c : Bool} {p : State} {b : Bool} {p' : State}
    (seg : List token32) (hp : p.position ≤ p'.position) (hy : YearCharTokens buf seg)
    (he : tokens32.Trim p'.tree p'.tokenIndex = tokens32.Trim p.tree p.tokenIndex ++ seg) :
    RunInv buf c p b p' :=
  ⟨(tokens32.Trim_of_append he).2,
    fun _ => ⟨hp, (tokens32.Trim_of_append he).1, fun _ => ⟨seg, hy, he⟩⟩⟩

theorem RunInv.same {buf : List Nat} {c : Bool} {p : State} {b : Bool} {p' : State}
    (ht : p'.tree = p.tree) (hi : p'.tokenIndex = p.tokenIndex)
    (hp : p.position ≤ p'.position) : RunInv buf c p b p' :=
  RunInv.of_tokens [] hp .nil (by rw [ht, hi, List.append_nil])

theorem RunInv.to_false {buf : List Nat} {c c' : Bool} {p : State} {b : Bool} {p' : State}
    (h : RunInv buf c p b p') : RunInv buf c' p false p' :=
  ⟨h.1, fun hb => by cases hb⟩

theorem RunInv.weaken {buf : List Nat} {c c' : Bool} {p : State} {b : Bool} {p' : State}
    (h : RunInv buf c p b p') (hc : c' = true → c = true) : RunInv buf c' p b p' :=
  ⟨h.1, fun hb => ⟨(h.2 hb).1, (h.2 hb).2.1, fun hc' => (h.2 hb).2.2 (hc hc')⟩⟩

theorem RunInv.restore {buf : List Nat} {c c' : Bool} {p : State} {b b' : Bool} {p₁ : State}
    (h : RunInv buf c p b p₁) : RunInv buf c' p b' (p₁.restore p) :=
  RunInv.of_tokens [] (by rw [State.restore_position]) .nil
    (by rw [State.restore_tree, State.restore_tokenIndex, List.append_nil]; exact h.1)

theorem RunInv.seq {buf : List Nat} {ca cb : Bool} {p p₁ : State} {b : Bool} {p₂ : State}
    (h₁ : RunInv buf ca p true p₁) (h₂ : RunInv buf cb p₁ b p₂) :
    RunInv buf (ca && cb) p b p₂ := by
  obtain ⟨hf₁, hs₁⟩ := h₁
  obtain ⟨hpos₁, hti₁, hseg₁⟩ := hs₁ rfl
  obtain ⟨hf₂, hs₂⟩ := h₂
  refine ⟨?_, ?_⟩
  · rw [← tokens32.Trim_take p₂.tree hti₁, hf₂, tokens32.Trim_take _ hti₁, hf₁]
  · intro hb
    obtain ⟨hpos₂, hti₂, hseg₂⟩ := hs₂ hb
    refine ⟨by omega, by omega, ?_⟩
    intro hc
    rw [Bool.and_eq_true] at hc
    obtain ⟨s₁, hy₁, he₁⟩ := hseg₁ hc.1
    obtain ⟨s₂, hy₂, he₂⟩ := hseg₂ hc.2
    exact ⟨s₁ ++ s₂, hy₁.append hy₂, by rw [he₂, he₁, List.append_assoc]⟩

theorem RunInv.after_restore {buf : List Nat} {ca cb c : Bool} {p p₁ : State} {b : Bool}
    {p₂ : State} (h₁ : RunInv buf ca p false p₁) (h₂ : RunInv buf cb (p₁.restore p) b p₂)
    (hc : c = true → cb = true) : RunInv buf c p b p₂ := by
  obtain ⟨hf₂, hs₂⟩ := h₂
  rw [State.restore_tree, State.restore_tokenIndex] at hf₂
  refine ⟨by rw [hf₂]; exact h₁.1, ?_⟩
  intro hb
  obtain ⟨hpos₂, hti₂, hseg₂⟩ := hs₂ hb
  rw [State.restore_position] at hpos₂
  rw [State.restore_tokenIndex] at hti₂
  refine ⟨hpos₂, hti₂, ?_⟩
  intro hc'
  obtain ⟨s, hy, he⟩ := hseg₂ (hc hc')
  rw [State.restore_tree, State.restore_tokenIndex, h₁.1] at he
  exact ⟨s, hy, he⟩

theorem tokens32.Trim_Add_of_le (t : List token32) (r : pegRule) (b e : Nat) {k i : Nat}
    (h : k ≤ i) : tokens32.Trim (tokens32.Add t r b e i) k = tokens32.Trim t k := by
  rw [← tokens32.Trim_take _ (show k ≤ i + 1 by omega), tokens32.Trim_Add_succ,
    List.take_append_of_le_length (by rw [tokens32.Trim_length]; exact h),
    tokens32.Trim_take _ h]

theorem RunInv.add_frame {buf : List Nat} {c : Bool} {p p₁ : State} (r : pegRule) (b₀ : Nat)
    (h : RunInv buf c p true p₁) : RunInv buf false p true (p₁.add r b₀) := by
  obtain ⟨hf, hs⟩ := h
  obtain ⟨hpos, hti, -⟩ := hs rfl
  refine ⟨?_, fun _ => ⟨?_, ?_, fun hc => by cases hc⟩⟩
  · rw [State.add_tree, tokens32.Trim_Add_of_le _ _ _ _ hti, hf]
  · rw [State.add_position]; exact hpos
  · rw [State.add_tokenIndex]; omega

theorem RunInv.add {buf : List Nat} {p p₁ : State} {r : pegRule} (b₀ : Nat)
    (h : RunInv buf true p true p₁) (h0 : r ≠ .ruleAction0) (h1 : r ≠ .ruleYearWithChar) :
    RunInv buf true p true (p₁.add r b₀) := by
  obtain ⟨-, hs⟩ := h
  obtain ⟨hpos, -, hseg⟩ := hs rfl
  obtain ⟨s, hy, he⟩ := hseg rfl
  refine RunInv.of_tokens (s ++ [⟨r, b₀, p₁.position⟩])
    (by rw [State.add_position]; exact hpos) (.other _ _ h0 h1 hy) ?_
  rw [State.add_tree, State.add_tokenIndex, tokens32.Trim_Add_succ, he, List.append_assoc]

/-- Rule `Action0` is called by rule `YearWithChar` only. -/
theorem rules_noAction0 (r : pegRule) (h0 : r ≠ .ruleAction0) (h1 : r ≠ .ruleYearWithChar) :
    (match rules r with
      | none => true
      | some body => body.noAction0) = true := by
  cases r <;> first | rfl | exact absurd rfl h0 | exact absurd rfl h1

theorem rules_YearWithChar :
    rules .ruleYearWithChar =
      some (.seq (.call .ruleYearNum) (.seq (.call .rulelASCII) (.call .ruleAction0))) := rfl

theorem rules_lASCII : rules .rulelASCII = some (.range 'a'.toNat 'z'.toNat) := rfl

theorem rules_Action0 : rules .ruleAction0 = some .action := rfl

/-- The tokens of every run: see `RunInv`. -/
theorem run_inv (buf : List Nat) :
    ∀ (f : Nat) (e : Expr) (p : State) (b : Bool) (p' : State),
      run buf f e p = .done (b, p') → RunInv buf e.noAction0 p b p' := by
  intro f
  induction f with
  | zero => intro e p b p' h; cases h
  | succ f ih =>
    intro e p b p' h
    cases e with
    | dot =>
      rw [run_dot] at h
      cases hg : buf.get? p.position with
      | none => rw [hg] at h; cases h
      | some c =>
        rw [hg] at h
        simp only at h
        split_ifs at h with hc
        · cases h
          exact RunInv.same (State.advance_tree p) (State.advance_tokenIndex p)
            (by rw [State.advance_position]; omega)
        · cases h
          exact RunInv.same rfl rfl (Nat.le_refl _)
    | char c' =>
      rw [run_char] at h
      cases hg : buf.get? p.position with
      | none => rw [hg] at h; cases h
      | some c =>
        rw [hg] at h
        simp only at h
        split_ifs at h with hc
        · cases h
          exact RunInv.same rfl rfl (Nat.le_refl _)
        · cases h
          exact RunInv.same (State.advance_tree p) (State.advance_tokenIndex p)
            (by rw [State.advance_position]; omega)
    | range l u =>
      rw [run_range] at h
      cases hg : buf.get? p.position with
      | none => rw [hg] at h; cases h
      | some c =>
        rw [hg] at h
        simp only at h
        split_ifs at h with hc
        · cases h
          exact RunInv.same rfl rfl (Nat.le_refl _)
        · cases h
          exact RunInv.same (State.advance_tree p) (State.advance_tokenIndex p)
            (by rw [State.advance_position]; omega)
    | action =>
      rw [run_action] at h
      cases h
      exact RunInv.same rfl rfl (Nat.le_refl _)
    | call r =>
      rw [run_call] at h
      cases hr : rules r with
      | none => rw [hr] at h; cases h
      | some body =>
        rw [hr] at h
        simp only at h
        cases hbody : run buf f body p with
        | fault => rw [hbody] at h; cases h
        | timeout => rw [hbody] at h; cases h
        | done x =>
          obtain ⟨b₁, p₁⟩ := x
          rw [hbody] at h
          have ihb := ih body p b₁ p₁ hbody
          cases b₁ with
          | false =>
            cases h
            exact ihb.restore
          | true =>
            cases h
            by_cases h0 : r = .ruleAction0
            · subst h0
              exact ihb.add_frame _ _
            · by_cases h1 : r = .ruleYearWithChar
              · subst h1
                rw [rules_YearWithChar] at hr
                cases hr
                obtain ⟨f₂, s₁, hf₂, hY, hrest⟩ := run_seq_true hbody
                obtain ⟨f₃, s₂, hf₃, hL, hA⟩ := run_seq_true hrest
                obtain ⟨f₄, t, hf₄, hrng, hs₂⟩ := run_call_true rules_lASCII hL
                obtain ⟨f₅, t', hf₅, hact, hp₁⟩ := run_call_true rules_Action0 hA
                have hI := ih (.call .ruleYearNum) p true s₁ (run_mono buf (by omega) hY)
                obtain ⟨-, hs⟩ := hI
                obtain ⟨hpos, -, hseg⟩ := hs rfl
                obtain ⟨seg, hy, he⟩ := hseg rfl
                -- the letter
                obtain ⟨c, hc, hcl, hcu, ht⟩ : ∃ c, buf.get? s₁.position = some c ∧
                    'a'.toNat ≤ c ∧ c ≤ 'z'.toNat ∧ t = s₁.advance := by
                  cases f₄ with
                  | zero => cases hrng
                  | succ f₄ =>
                    rw [run_range] at hrng
                    cases hg : buf.get? s₁.position with
                    | none => rw [hg] at hrng; cases hrng
                    | some c =>
                      rw [hg] at hrng
                      simp only at hrng
                      split_ifs at hrng with hc
                      · cases hrng
                      · cases hrng
                        exact ⟨c, rfl, by omega, by omega, rfl⟩
                have ht' : t' = s₂ := by
                  cases f₅ with
                  | zero => cases hact
                  | succ f₅ =>
                    rw [run_action] at hact
                    cases hact
                    rfl
                subst ht' hp₁ hs₂ ht
                refine RunInv.of_tokens
                  ((seg ++ [⟨.rulelASCII, s₁.position, s₁.position + 1⟩]) ++
                    [⟨.ruleAction0, s₁.position + 1, s₁.position + 1⟩,
                     ⟨.ruleYearWithChar, p.position, s₁.position + 1⟩])
                  ?_ (.year _ _ _ c hc hcl hcu hpos
                    (.other ⟨.rulelASCII, s₁.position, s₁.position + 1⟩ seg
                      (fun hc => by cases hc) (fun hc => by cases hc) hy)) ?_
                · simp only [State.add_position, State.advance_position]
                  omega
                · simp only [State.add_tree, State.add_tokenIndex, State.add_position,
                    State.advance_tree, State.advance_tokenIndex, State.advance_position]
                  rw [tokens32.Trim_Add_succ, tokens32.Trim_Add_succ, tokens32.Trim_Add_succ, he]
                  simp only [List.append_assoc, List.cons_append, List.nil_append]
              · have hclean := rules_noAction0 r h0 h1
                rw [hr] at hclean
                simp only at hclean
                rw [hclean] at ihb
                exact (ihb.add _ h0 h1).weaken (fun _ => rfl)
    | seq a b' =>
      rw [run_seq] at h
      cases ha : run buf f a p with
      | fault => rw [ha] at h; cases h
      | timeout => rw [ha] at h; cases h
      | done x =>
        obtain ⟨b₁, p₁⟩ := x
        rw [ha] at h
        have iha := ih a p b₁ p₁ ha
        cases b₁ with
        | true =>
          simp only at h
          exact iha.seq (ih b' p₁ b p' h)
        | false =>
          cases h
          exact iha.to_false
    | alt a b' =>
      rw [run_alt] at h
      cases ha : run buf f a p with
      | fault => rw [ha] at h; cases h
      | timeout => rw [ha] at h; cases h
      | done x =>
        obtain ⟨b₁, p₁⟩ := x
        rw [ha] at h
        have iha := ih a p b₁ p₁ ha
        cases b₁ with
        | true =>
          cases h
          exact iha.weaken (fun hc => (Bool.and_eq_true _ _ ▸ hc).1)
        | false =>
          simp only at h
          exact iha.after_restore (ih b' _ b p' h) (fun hc => (Bool.and_eq_true _ _ ▸ hc).2)
    | peekFor e =>
      rw [run_peekFor] at h
      cases ha : run buf f e p with
      | fault => rw [ha] at h; cases h
      | timeout => rw [ha] at h; cases h
      | done x =>
        obtain ⟨b₁, p₁⟩ := x
        rw [ha] at h
        have iha := ih e p b₁ p₁ ha
        cases b₁ with
        | true =>
          cases h
          exact iha.restore
        | false =>
          cases h
          exact iha
    | peekNot e =>
      rw [run_peekNot] at h
      cases ha : run buf f e p with
      | fault => rw [ha] at h; cases h
      | timeout => rw [ha] at h; cases h
      | done x =>
        obtain ⟨b₁, p₁⟩ := x
        rw [ha] at h
        have iha := ih e p b₁ p₁ ha
        cases b₁ with
        | true =>
          cases h
          exact iha.to_false
        | false =>
          cases h
          exact iha.restore
    | query e =>
      rw [run_query] at h
      cases ha : run buf f e p with
      | fault => rw [ha] at h; cases h
      | timeout => rw [ha] at h; cases h
      | done x =>
        obtain ⟨b₁, p₁⟩ := x
        rw [ha] at h
        have iha := ih e p b₁ p₁ ha
        cases b₁ with
        | true =>
          cases h
          exact iha
        | false =>
          cases h
          exact iha.restore
    | star e =>
      rw [run_star] at h
      cases ha : run buf f e p with
      | fault => rw [ha] at h; cases h
      | timeout => rw [ha] at h; cases h
      | done x =>
        obtain ⟨b₁, p₁⟩ := x
        rw [ha] at h
        have iha := ih e p b₁ p₁ ha
        cases b₁ with
        | true =>
          simp only at h
          exact (iha.seq (ih (.star e) p₁ b p' h)).weaken
            (fun hc => by rw [Bool.and_eq_true]; exact ⟨hc, hc⟩)
        | false =>
          cases h
          exact iha.restore
    | plus e =>
      rw [run_plus] at h
      cases ha : run buf f e p with
      | fault => rw [ha] at h; cases h
      | timeout => rw [ha] at h; cases h
      | done x =>
        obtain ⟨b₁, p₁⟩ := x
        rw [ha] at h
        have iha := ih e p b₁ p₁ ha
        cases b₁ with
        | true =>
          simp only at h
          exact (iha.seq (ih (.star e) p₁ b p' h)).weaken
            (fun hc => by rw [Bool.and_eq_true]; exact ⟨hc, hc⟩)
        | false =>
          cases h
          exact iha

/-! ### The warning of a year with a letter -/

theorem Outcome.parsed_map {α : Type} {r : Outcome (Option parseError × Engine)}
    {g : Engine → α} {a : α} (h : r.parsed.map g = some a) :
    ∃ q, r = .done (none, q) ∧ g q = a := by
  cases r with
  | done x =>
    obtain ⟨e, q⟩ := x
    cases e with
    | none => exact ⟨q, rfl, Option.some.inj h⟩
    | some e => cases h
  | fault => cases h
  | timeout => cases h

theorem Engine.mem_AddWarn {W : Type} [DecidableEq W] (warnings : List W) (w v : W) :
    v ∈ Engine.AddWarn warnings w ↔ v ∈ warnings ∨ v = w := by
  unfold Engine.AddWarn
  split_ifs with h
  · constructor
    · exact Or.inl
    · rintro (h' | h')
      · exact h'
      · rw [h']; exact h
  · rw [List.mem_append, List.mem_singleton]

/-- `Execute` adds `YearCharWarn`, and nothing else, exactly when the token list
has an `Action0` token. -/
theorem Engine.mem_Execute {W : Type} [DecidableEq W] (YearCharWarn : W) (p : Engine)
    (warnings : List W) (v : W) :
    v ∈ p.Execute YearCharWarn warnings ↔
      v ∈ warnings ∨ (v = YearCharWarn ∧ ∃ t ∈ p.tokens32, t.pegRule = .ruleAction0) := by
  unfold Engine.Execute
  generalize p.tokens32 = l
  induction l generalizing warnings with
  | nil => simp
  | cons t l ih =>
    rw [List.foldl_cons, ih]
    by_cases ht : t.pegRule = .ruleAction0
    · rw [ht]
      simp only [Engine.mem_AddWarn, List.mem_cons]
      constructor
      · rintro ((h | h) | ⟨h, -⟩)
        · exact Or.inl h
        · exact Or.inr ⟨h, t, Or.inl rfl, ht⟩
        · exact Or.inr ⟨h, t, Or.inl rfl, ht⟩
      · rintro (h | ⟨h, -⟩)
        · exact Or.inl (Or.inl h)
        · exact Or.inl (Or.inr h)
    · have hm : ∀ ws : List W, (match t.pegRule with
          | .ruleAction0 => Engine.AddWarn ws YearCharWarn
          | _ => ws) = ws := by
        intro ws
        split
        · rename_i h; exact absurd h ht
        · rfl
      simp only [hm]
      constructor
      · rintro (h | ⟨h, u, hu, hr⟩)
        · exact Or.inl h
        · exact Or.inr ⟨h, u, List.mem_cons_of_mem _ hu, hr⟩
      · rintro (h | ⟨h, u, hu, hr⟩)
        · exact Or.inl h
        · rcases List.mem_cons.1 hu with hu | hu
          · rw [hu] at hr; exact absurd hr ht
          · exact Or.inr ⟨h, u, hu, hr⟩

/-- The token list of a successful `Parse` on the root rule satisfies
`YearCharTokens`. -/
theorem Parse_YearCharTokens {p : Engine} {fuel : Nat} {q : Engine}
    (h : p.reset.Parse fuel [] = .done (none, q)) :
    q.buffer = p.reset.buffer ∧ YearCharTokens p.reset.buffer q.tokens32 := by
  obtain ⟨st, hrun, hq⟩ := Parse_eq_done_none h
  obtain ⟨-, hs⟩ := run_inv p.reset.buffer fuel _ _ _ _ hrun
  obtain ⟨-, -, hseg⟩ := hs rfl
  obtain ⟨seg, hy, he⟩ := hseg rfl
  have h0 : tokens32.Trim p.reset.state.tree p.reset.state.tokenIndex = [] := by
    rw [(reset_state p).2]
    rfl
  rw [h0, List.nil_append] at he
  subst hq
  exact ⟨rfl, by show YearCharTokens _ (tokens32.Trim st.tree st.tokenIndex); rw [he]; exact hy⟩

/-- Claim C19, amended.  After a successful `Parse` on the root rule, `Execute`
records `YearCharWarn` exactly when the token list has a token of rule
`YearWithChar`, and it records no other warning; every `YearWithChar` token ends
right after a lower-case ASCII letter that lies in its span. -/
theorem Execute_YearCharWarn_iff {W : Type} [DecidableEq W] (YearCharWarn : W) (p : Engine)
    (fuel : Nat) (q : Engine) (warnings : List W)
    (h : p.reset.Parse fuel [] = .done (none, q)) :
    (YearCharWarn ∈ q.Execute YearCharWarn warnings ↔
      YearCharWarn ∈ warnings ∨ ∃ t ∈ q.tokens32, t.pegRule = .ruleYearWithChar) ∧
    (∀ w ∈ q.Execute YearCharWarn warnings, w ∈ warnings ∨ w = YearCharWarn) ∧
    (∀ t ∈ q.tokens32, t.pegRule = .ruleYearWithChar →
      ∃ x c, t.«end» = x + 1 ∧ t.begin ≤ x ∧ q.buffer.get? x = some c ∧
        'a'.toNat ≤ c ∧ c ≤ 'z'.toNat) := by
  obtain ⟨hb, hy⟩ := Parse_YearCharTokens h
  refine ⟨?_, ?_, ?_⟩
  · rw [Engine.mem_Execute, hy.action_iff]
    constructor
    · rintro (h' | ⟨-, h'⟩)
      · exact Or.inl h'
      · exact Or.inr h'
    · rintro (h' | h')
      · exact Or.inl h'
      · exact Or.inr ⟨rfl, h'⟩
  · intro w hw
    rcases (Engine.mem_Execute YearCharWarn q warnings w).1 hw with h' | ⟨h', -⟩
    · exact Or.inl h'
    · exact Or.inr h'
  · rw [hb]
    exact hy.year_letter

/-- Evaluated: rule `AuthorsGroup` on `Jones ex Brown 1901` matches a first team
`Jones`, the word `ex` and a second team `Brown 1901`; the year belongs to the
second team. -/
theorem AuthorsGroup_Jones_ex_Brown :
    ((Engine.new "Jones ex Brown 1901").reset.Parse 130 [.ruleAuthorsGroup]).parsed.map
        (fun q => q.tokens32.filter (fun t =>
          t.pegRule = .ruleAuthorsTeam ∨ t.pegRule = .ruleAuthorEx ∨ t.pegRule = .ruleYear ∨
            t.pegRule = .ruleAuthorsGroup)) =
      some [⟨.ruleAuthorsTeam, 0, 5⟩, ⟨.ruleAuthorEx, 6, 9⟩, ⟨.ruleYear, 15, 19⟩,
            ⟨.ruleAuthorsTeam, 9, 19⟩, ⟨.ruleAuthorsGroup, 0, 19⟩] := by
  decide!

/-! ### Evaluation with the live tokens only -/

theorem runTokens_dot (buf : List Nat) (f : Nat) (position : Nat) (tokens : List token32) :
    runTokens buf (f + 1) .dot position tokens =
      match buf.get? position with
      | none => .fault
      | some c =>
        if c ≠ endSymbol then .done (true, position + 1, tokens)
        else .done (false, position, tokens) := rfl

theorem runTokens_char (buf : List Nat) (f : Nat) (c : Nat) (position : Nat)
    (tokens : List token32) :
    runTokens buf (f + 1) (.char c) position tokens =
      match buf.get? position with
      | none => .fault
      | some x =>
        if x ≠ c then .done (false, position, tokens)
        else .done (true, position + 1, tokens) := rfl

theorem runTokens_range (buf : List Nat) (f : Nat) (l u : Nat) (position : Nat)
    (tokens : List token32) :
    runTokens buf (f + 1) (.range l u) position tokens =
      match buf.get? position with
      | none => .fault
      | some c =>
        if c < l ∨ c > u then .done (false, position, tokens)
        else .done (true, position + 1, tokens) := rfl

theorem runTokens_action (buf : List Nat) (f : Nat) (position : Nat) (tokens : List token32) :
    runTokens buf (f + 1) .action position tokens = .done (true, position, tokens) := rfl

theorem runTokens_call (buf : List Nat) (f : Nat) (r : pegRule) (position : Nat)
    (tokens : List token32) :
    runTokens buf (f + 1) (.call r) position tokens =
      match rules r with
      | none => .fault
      | some body =>
        match runTokens buf f body position tokens with
        | .done (true, position', tokens') =>
          .done (true, position', ⟨r, position, position'⟩ :: tokens')
        | .done (false, _, _) => .done (false, position, tokens)
        | .fault => .fault
        | .timeout => .timeout := rfl

theorem runTokens_seq (buf : List Nat) (f : Nat) (a b : Expr) (position : Nat)
    (tokens : List token32) :
    runTokens buf (f + 1) (.seq a b) position tokens =
      match runTokens buf f a position tokens with
      | .done (true, position', tokens') => runTokens buf f b position' tokens'
      | r => r := rfl

theorem runTokens_alt (buf : List Nat) (f : Nat) (a b : Expr) (position : Nat)
    (tokens : List token32) :
    runTokens buf (f + 1) (.alt a b) position tokens =
      match runTokens buf f a position tokens with
      | .done (true, position', tokens') => .done (true, position', tokens')
      | .done (false, _, _) => runTokens buf f b position tokens
      | r => r := rfl

theorem runTokens_peekFor (buf : List Nat) (f : Nat) (e : Expr) (position : Nat)
    (tokens : List token32) :
    runTokens buf (f + 1) (.peekFor e) position tokens =
      match runTokens buf f e position tokens with
      | .done (true, _, _) => .done (true, position, tokens)
      | r => r := rfl

theorem runTokens_peekNot (buf : List Nat) (f : Nat) (e : Expr) (position : Nat)
    (tokens : List token32) :
    runTokens buf (f + 1) (.peekNot e) position tokens =
      match runTokens buf f e position tokens with
      | .done (true, position', tokens') => .done (false, position', tokens')
      | .done (false, _, _) => .done (true, position, tokens)
      | r => r := rfl

theorem runTokens_query (buf : List Nat) (f : Nat) (e : Expr) (position : Nat)
    (tokens : List token32) :
    runTokens buf (f + 1) (.query e) position tokens =
      match runTokens buf f e position tokens with
      | .done (true, position', tokens') => .done (true, position', tokens')
      | .done (false, _, _) => .done (true, position, tokens)
      | r => r := rfl

theorem runTokens_star (buf : List Nat) (f : Nat) (e : Expr) (position : Nat)
    (tokens : List token32) :
    runTokens buf (f + 1) (.star e) position tokens =
      match runTokens buf f e position tokens with
      | .done (true, position', tokens') => runTokens buf f (.star e) position' tokens'
      | .done (false, _, _) => .done (true, position, tokens)
      | r => r := rfl

theorem runTokens_plus (buf : List Nat) (f : Nat) (e : Expr) (position : Nat)
    (tokens : List token32) :
    runTokens buf (f + 1) (.plus e) position tokens =
      match runTokens buf f e position tokens with
      | .done (true, position', tokens') => runTokens buf f (.star e) position' tokens'
      | r => r := rfl

theorem Sim.of_true {p : State} {r : Outcome (Bool × Nat × List token32)}
    (h : Sim (.done (true, p)) r) :
    ∃ tokens, r = .done (true, p.position, tokens) ∧
      tokens32.Trim p.tree p.tokenIndex = tokens.reverse := by
  cases r with
  | done x =>
    obtain ⟨b, position, tokens⟩ := x
    cases b with
    | true =>
      obtain ⟨hp, ht⟩ := h
      subst hp
      exact ⟨tokens, rfl, ht⟩
    | false => exact h.elim
  | fault => exact h.elim
  | timeout => exact h.elim

theorem Sim.of_false {p : State} {r : Outcome (Bool × Nat × List token32)}
    (h : Sim (.done (false, p)) r) : ∃ position tokens, r = .done (false, position, tokens) := by
  cases r with
  | done x =>
    obtain ⟨b, position, tokens⟩ := x
    cases b with
    | true => exact h.elim
    | false => exact ⟨position, tokens, rfl⟩
  | fault => exact h.elim
  | timeout => exact h.elim

theorem Sim.of_fault {r : Outcome (Bool × Nat × List token32)} (h : Sim .fault r) :
    r = .fault := by
  cases r with
  | done x =>
    obtain ⟨b, position, tokens⟩ := x
    cases b <;> exact h.elim
  | fault => rfl
  | timeout => exact h.elim

theorem Sim.of_timeout {r : Outcome (Bool × Nat × List token32)} (h : Sim .timeout r) :
    r = .timeout := by
  cases r with
  | done x =>
    obtain ⟨b, position, tokens⟩ := x
    cases b <;> exact h.elim
  | fault => exact h.elim
  | timeout => rfl

/-- The live tokens after `restore`, when the run that went from `p` to `p₁` kept
the tokens below the token index of `p`. -/
theorem Trim_restore {buf : List Nat} {c : Bool} {p p₁ : State} {b : Bool}
    {tokens : List token32} (hi : RunInv buf c p b p₁)
    (h : tokens32.Trim p.tree p.tokenIndex = tokens.reverse) :
    tokens32.Trim (p₁.restore p).tree (p₁.restore p).tokenIndex = tokens.reverse := by
  rw [State.restore_tree, State.restore_tokenIndex, hi.1, h]

/-- `run` and `runTokens` correspond, from a state whose live tokens are the
tokens given to `runTokens`. -/
theorem run_runTokens (buf : List Nat) :
    ∀ (f : Nat) (e : Expr) (p : State) (tokens : List token32),
      tokens32.Trim p.tree p.tokenIndex = tokens.reverse →
      Sim (run buf f e p) (runTokens buf f e p.position tokens) := by
  intro f
  induction f with
  | zero => intro e p tokens _; exact True.intro
  | succ f ih =>
    intro e p tokens h
    cases e with
    | dot =>
      rw [run_dot, runTokens_dot]
      cases buf.get? p.position with
      | none => exact True.intro
      | some c =>
        simp only
        split_ifs with hc
        · exact ⟨State.advance_position p, by
            rw [State.advance_tree, State.advance_tokenIndex]; exact h⟩
        · exact True.intro
    | char c' =>
      rw [run_char, runTokens_char]
      cases buf.get? p.position with
      | none => exact True.intro
      | some c =>
        simp only
        split_ifs with hc
        · exact True.intro
        · exact ⟨State.advance_position p, by
            rw [State.advance_tree, State.advance_tokenIndex]; exact h⟩
    | range l u =>
      rw [run_range, runTokens_range]
      cases buf.get? p.position with
      | none => exact True.intro
      | some c =>
        simp only
        split_ifs with hc
        · exact True.intro
        · exact ⟨State.advance_position p, by
            rw [State.advance_tree, State.advance_tokenIndex]; exact h⟩
    | action =>
      rw [run_action, runTokens_action]
      exact ⟨rfl, h⟩
    | call r =>
      rw [run_call, runTokens_call]
      cases rules r with
      | none => exact True.intro
      | some body =>
        simp only
        have ihb := ih body p tokens h
        cases hrun : run buf f body p with
        | fault => rw [hrun] at ihb; rw [ihb.of_fault]; exact True.intro
        | timeout => rw [hrun] at ihb; rw [ihb.of_timeout]; exact True.intro
        | done x =>
          obtain ⟨b₁, p₁⟩ := x
          rw [hrun] at ihb
          cases b₁ with
          | true =>
            obtain ⟨tokens₁, hr, ht⟩ := ihb.of_true
            rw [hr]
            refine ⟨State.add_position _ _ _, ?_⟩
            rw [State.add_tree, State.add_tokenIndex, tokens32.Trim_Add_succ, ht,
              List.reverse_cons]
          | false =>
            obtain ⟨position₁, tokens₁, hr⟩ := ihb.of_false
            rw [hr]
            exact True.intro
    | seq a b =>
      rw [run_seq, runTokens_seq]
      have iha := ih a p tokens h
      cases hrun : run buf f a p with
      | fault => rw [hrun] at iha; rw [iha.of_fault]; exact True.intro
      | timeout => rw [hrun] at iha; rw [iha.of_timeout]; exact True.intro
      | done x =>
        obtain ⟨b₁, p₁⟩ := x
        rw [hrun] at iha
        cases b₁ with
        | true =>
          obtain ⟨tokens₁, hr, ht⟩ := iha.of_true
          rw [hr]
          exact ih b p₁ tokens₁ ht
        | false =>
          obtain ⟨position₁, tokens₁, hr⟩ := iha.of_false
          rw [hr]
          exact True.intro
    | alt a b =>
      rw [run_alt, runTokens_alt]
      have iha := ih a p tokens h
      cases hrun : run buf f a p with
      | fault => rw [hrun] at iha; rw [iha.of_fault]; exact True.intro
      | timeout => rw [hrun] at iha; rw [iha.of_timeout]; exact True.intro
      | done x =>
        obtain ⟨b₁, p₁⟩ := x
        rw [hrun] at iha
        cases b₁ with
        | true =>
          obtain ⟨tokens₁, hr, ht⟩ := iha.of_true
          rw [hr]
          exact ⟨rfl, ht⟩
        | false =>
          obtain ⟨position₁, tokens₁, hr⟩ := iha.of_false
          rw [hr]
          have hb := ih b (p₁.restore p) tokens
            (Trim_restore (run_inv buf f a p false p₁ hrun) h)
          rw [State.restore_position] at hb
          exact hb
    | peekFor e =>
      rw [run_peekFor, runTokens_peekFor]
      have iha := ih e p tokens h
      cases hrun : run buf f e p with
      | fault => rw [hrun] at iha; rw [iha.of_fault]; exact True.intro
      | timeout => rw [hrun] at iha; rw [iha.of_timeout]; exact True.intro
      | done x =>
        obtain ⟨b₁, p₁⟩ := x
        rw [hrun] at iha
        cases b₁ with
        | true =>
          obtain ⟨tokens₁, hr, ht⟩ := iha.of_true
          rw [hr]
          exact ⟨State.restore_position _ _,
            Trim_restore (run_inv buf f e p true p₁ hrun) h⟩
        | false =>
          obtain ⟨position₁, tokens₁, hr⟩ := iha.of_false
          rw [hr]
          exact True.intro
    | peekNot e =>
      rw [run_peekNot, runTokens_peekNot]
      have iha := ih e p tokens h
      cases hrun : run buf f e p with
      | fault => rw [hrun] at iha; rw [iha.of_fault]; exact True.intro
      | timeout => rw [hrun] at iha; rw [iha.of_timeout]; exact True.intro
      | done x =>
        obtain ⟨b₁, p₁⟩ := x
        rw [hrun] at iha
        cases b₁ with
        | true =>
          obtain ⟨tokens₁, hr, ht⟩ := iha.of_true
          rw [hr]
          exact True.intro
        | false =>
          obtain ⟨position₁, tokens₁, hr⟩ := iha.of_false
          rw [hr]
          exact ⟨State.restore_position _ _,
            Trim_restore (run_inv buf f e p false p₁ hrun) h⟩
    | query e =>
      rw [run_query, runTokens_query]
      have iha := ih e p tokens h
      cases hrun : run buf f e p with
      | fault => rw [hrun] at iha; rw [iha.of_fault]; exact True.intro
      | timeout => rw [hrun] at iha; rw [iha.of_timeout]; exact True.intro
      | done x =>
        obtain ⟨b₁, p₁⟩ := x
        rw [hrun] at iha
        cases b₁ with
        | true =>
          obtain ⟨tokens₁, hr, ht⟩ := iha.of_true
          rw [hr]
          exact ⟨rfl, ht⟩
        | false =>
          obtain ⟨position₁, tokens₁, hr⟩ := iha.of_false
          rw [hr]
          exact ⟨State.restore_position _ _,
            Trim_restore (run_inv buf f e p false p₁ hrun) h⟩
    | star e =>
      rw [run_star, runTokens_star]
      have iha := ih e p tokens h
      cases hrun : run buf f e p with
      | fault => rw [hrun] at iha; rw [iha.of_fault]; exact True.intro
      | timeout => rw [hrun] at iha; rw [iha.of_timeout]; exact True.intro
      | done x =>
        obtain ⟨b₁, p₁⟩ := x
        rw [hrun] at iha
        cases b₁ with
        | true =>
          obtain ⟨tokens₁, hr, ht⟩ := iha.of_true
          rw [hr]
          exact ih (.star e) p₁ tokens₁ ht
        | false =>
          obtain ⟨position₁, tokens₁, hr⟩ := iha.of_false
          rw [hr]
          exact ⟨State.restore_position _ _,
            Trim_restore (run_inv buf f e p false p₁ hrun) h⟩
    | plus e =>
      rw [run_plus, runTokens_plus]
      have iha := ih e p tokens h
      cases hrun : run buf f e p with
      | fault => rw [hrun] at iha; rw [iha.of_fault]; exact True.intro
      | timeout => rw [hrun] at iha; rw [iha.of_timeout]; exact True.intro
      | done x =>
        obtain ⟨b₁, p₁⟩ := x
        rw [hrun] at iha
        cases b₁ with
        | true =>
          obtain ⟨tokens₁, hr, ht⟩ := iha.of_true
          rw [hr]
          exact ih (.star e) p₁ tokens₁ ht
        | false =>
          obtain ⟨position₁, tokens₁, hr⟩ := iha.of_false
          rw [hr]
          exact True.intro

/-- The tokens of a successful `Parse` on the root rule are those that `runTokens`
computes, and `Parse` returns without error exactly when `runTokens` matches. -/
theorem Parse_tokens (p : Engine) (fuel : Nat) :
    (p.reset.Parse fuel []).parsed.map (fun q => q.tokens32) =
      (runTokens p.reset.buffer fuel (.call .ruleSciName) 0 []).tokens := by
  have h := run_runTokens p.reset.buffer fuel (.call .ruleSciName) p.reset.state []
    (by rw [(reset_state p).2]; rfl)
  rw [(reset_state p).1] at h
  unfold Engine.Parse
  simp only
  cases hrun : run p.reset.buffer fuel (.call .ruleSciName) p.reset.state with
  | fault => rw [hrun] at h; rw [h.of_fault]; rfl
  | timeout => rw [hrun] at h; rw [h.of_timeout]; rfl
  | done x =>
    obtain ⟨b₁, p₁⟩ := x
    rw [hrun] at h
    cases b₁ with
    | true =>
      obtain ⟨tokens₁, hr, ht⟩ := h.of_true
      rw [hr]
      show some (tokens32.Trim p₁.tree p₁.tokenIndex) = some tokens₁.reverse
      rw [ht]
    | false =>
      obtain ⟨position₁, tokens₁, hr⟩ := h.of_false
      rw [hr]
      rfl

/-- From the tokens that `runTokens` computes to the engine that `Parse` leaves. -/
theorem Parse_of_tokens {p : Engine} {fuel : Nat} {l : List token32}
    (h : (runTokens p.reset.buffer fuel (.call .ruleSciName) 0 []).tokens = some l) :
    ∃ q, p.reset.Parse fuel [] = .done (none, q) ∧ q.tokens32 = l ∧
      q.buffer = p.reset.buffer := by
  rw [← Parse_tokens] at h
  obtain ⟨q, hq, hl⟩ := Outcome.parsed_map h
  obtain ⟨st, -, hst⟩ := Parse_eq_done_none hq
  exact ⟨q, hq, hl, by rw [hst]⟩

/-! ### The warning of a year with a letter: the examples -/

/-- From the filtered tokens that `runTokens` computes to the engine that `Parse`
leaves. -/
theorem Parse_of_filter {p : Engine} {fuel : Nat} {pred : token32 → Bool} {l : List token32}
    (h : (runTokens p.reset.buffer fuel (.call .ruleSciName) 0 []).tokens.map
      (fun ts => ts.filter pred) = some l) :
    ∃ q, p.reset.Parse fuel [] = .done (none, q) ∧ q.tokens32.filter pred = l ∧
      q.buffer = p.reset.buffer := by
  cases ht : (runTokens p.reset.buffer fuel (.call .ruleSciName) 0 []).tokens with
  | none => rw [ht] at h; cases h
  | some ts =>
    rw [ht] at h
    obtain ⟨q, hq, hl, hb⟩ := Parse_of_tokens ht
    exact ⟨q, hq, by rw [hl]; exact Option.some.inj h, hb⟩

theorem mem_of_filter_eq {pred : token32 → Bool} {ts l : List token32}
    (h : ts.filter pred = l) {t : token32} (ht : t ∈ l) : t ∈ ts := by
  rw [← h] at ht
  exact (List.mem_filter.1 ht).1

theorem List.foldl_fixed {α β : Type} (f : β → α → β) (l : List α) (b : β)
    (h : ∀ a ∈ l, ∀ b, f b a = b) : l.foldl f b = b := by
  induction l with
  | nil => rfl
  | cons a l ih =>
    rw [List.foldl_cons, h a (List.mem_cons_self a l) b]
    exact ih (fun x hx => h x (List.mem_cons_of_mem a hx))

/-- `Execute` leaves the warning set as it is when there is no `Action0` token. -/
theorem Engine.Execute_of_filter {W : Type} [DecidableEq W] (YearCharWarn : W) (q : Engine)
    (warnings : List W) {l : List token32} (h : q.tokens32.filter isYearRule = l)
    (hl : ∀ t ∈ l, t.pegRule ≠ .ruleAction0) : q.Execute YearCharWarn warnings = warnings := by
  have hno : ∀ t ∈ q.tokens32, t.pegRule ≠ .ruleAction0 := by
    intro t ht hr
    have hm : t ∈ q.tokens32.filter isYearRule := by
      rw [List.mem_filter]
      refine ⟨ht, ?_⟩
      unfold isYearRule
      rw [hr]
      rfl
    rw [h] at hm
    exact hl t hm hr
  unfold Engine.Execute
  apply List.foldl_fixed
  intro t ht ws
  show (match t.pegRule with
    | .ruleAction0 => Engine.AddWarn ws YearCharWarn
    | _ => ws) = ws
  split
  · rename_i hr; exact absurd hr (hno t ht)
  · rfl

/-- Evaluated: the year tokens of `Aa L. 1901-2a`: a year range from rune 6 to
13, and no action. -/
theorem tokens_Aa_L_1901_2a :
    (runTokens (Engine.new "Aa L. 1901-2a").reset.buffer 150 (.call .ruleSciName) 0
        []).tokens.map (fun ts => ts.filter isYearRule) =
      some [⟨.ruleYearRange, 6, 13⟩, ⟨.ruleYear, 6, 13⟩] := by
  decide!

/-- Claim C19 fails as stated: `Aa L. 1901-2a` parses, rule `Year` matches
`1901-2a` (runes 6 to 13, a year range), which ends in the letter `a`, and
`Execute` records no warning. -/
theorem Execute_year_range_no_warning :
    ∃ q, (Engine.new "Aa L. 1901-2a").reset.Parse 150 [] = .done (none, q) ∧
      ⟨.ruleYear, 6, 13⟩ ∈ q.tokens32 ∧
      q.buffer.get? 12 = some 'a'.toNat ∧
      q.Execute TestWarning.YearCharWarn [] = [] :=
  Exists.elim (Parse_of_filter tokens_Aa_L_1901_2a)
    (fun q hq => ⟨q, hq.1, mem_of_filter_eq hq.2.1 (by decide),
      hq.2.2.symm ▸ (by decide),
      Engine.Execute_of_filter TestWarning.YearCharWarn q [] hq.2.1 (by decide)⟩)

/-- Evaluated: the year tokens of `Foo bar Smith, 1901a`: a year with a letter
from rune 15 to 20, with its action. -/
theorem tokens_Foo_bar_Smith_1901a :
    (runTokens (Engine.new "Foo bar Smith, 1901a").reset.buffer 150 (.call .ruleSciName) 0
        []).tokens.map (fun ts => ts.filter isYearRule) =
      some [⟨.ruleAction0, 20, 20⟩, ⟨.ruleYearWithChar, 15, 20⟩, ⟨.ruleYear, 15, 20⟩] := by
  decide!

/-- Instance of claim C19: `Foo bar Smith, 1901a` parses, its token list has the
`YearWithChar` token of `1901a`, and `Execute` records `YearCharWarn` and nothing
else. -/
theorem Execute_YearCharWarn_iff_witness :
    ∃ q, (Engine.new "Foo bar Smith, 1901a").reset.Parse 150 [] = .done (none, q) ∧
      ⟨.ruleYearWithChar, 15, 20⟩ ∈ q.tokens32 ∧
      TestWarning.YearCharWarn ∈ q.Execute TestWarning.YearCharWarn [] ∧
      ∀ w ∈ q.Execute TestWarning.YearCharWarn [], w = TestWarning.YearCharWarn :=
  Exists.elim (Parse_of_filter tokens_Foo_bar_Smith_1901a)
    (fun q hq => ⟨q, hq.1, mem_of_filter_eq hq.2.1 (by decide),
      (Execute_YearCharWarn_iff TestWarning.YearCharWarn (Engine.new "Foo bar Smith, 1901a")
        150 q [] hq.1).1.2
        (Or.inr ⟨⟨.ruleYearWithChar, 15, 20⟩, mem_of_filter_eq hq.2.1 (by decide), rfl⟩),
      fun w hw =>
        ((Execute_YearCharWarn_iff TestWarning.YearCharWarn
          (Engine.new "Foo bar Smith, 1901a") 150 q [] hq.1).2.1 w hw).resolve_left
          (fun h => by cases h)⟩)

/-! ### Configuration -/

theorem lastSetting_append {α : Type} (sel : OptCall → Option α) (d : α)
    (calls : List OptCall) (o : OptCall) :
    lastSetting sel d (calls ++ [o]) =
      match sel o with
      | some v => v
      | none => lastSetting sel d calls := by
  unfold lastSetting
  rw [List.filterMap_append]
  cases h : sel o with
  | none => simp [List.filterMap_cons, h]
  | some v => simp [List.filterMap_cons, h]

theorem NewConfig_append {F : Type} (CSV : F) (NumCPU : Int) (opts : List (ConfigOption F))
    (opt : ConfigOption F) :
    NewConfig CSV NumCPU (opts ++ [opt]) = opt (NewConfig CSV NumCPU opts) := by
  unfold NewConfig
  simp only [List.foldl_append, List.foldl_cons, List.foldl_nil]

/-- Claim C30.  For every list of calls of the exported constructors `Opt*`,
`NewConfig` returns a configuration whose `BatchSize` is positive: it is the
argument of the last `OptBatchSize` call with a positive argument, and 50000 when
there is none.  `OptBatchSize i` leaves the `BatchSize` it finds when `i <= 0`,
sets it to `i` when `i > 0`, and changes no other field.  The options are applied
from left to right, so that every other field too has the value of the last call
that sets it (for `Format`, the format of the string, and `CSV` when the string
is refused), and its default when no call does. -/
theorem NewConfig_BatchSize_pos {F : Type} (CSV : F) (NewFormat : String → Option F)
    (NumCPU : Int) (calls : List OptCall) :
    0 < (NewConfig CSV NumCPU (calls.map (OptCall.option CSV NewFormat))).BatchSize ∧
    (NewConfig CSV NumCPU (calls.map (OptCall.option CSV NewFormat))).BatchSize =
      lastSetting OptCall.batchSize 50000 calls ∧
    (∀ (i : Int) (cfg : Config F),
      (OptBatchSize i cfg).BatchSize = (if i ≤ 0 then cfg.BatchSize else i) ∧
      { OptBatchSize i cfg with BatchSize := cfg.BatchSize } = cfg) ∧
    (∀ (call : OptCall),
      NewConfig CSV NumCPU ((calls ++ [call]).map (OptCall.option CSV NewFormat)) =
        call.option CSV NewFormat
          (NewConfig CSV NumCPU (calls.map (OptCall.option CSV NewFormat)))) ∧
    (NewConfig CSV NumCPU (calls.map (OptCall.option CSV NewFormat))).Format =
      lastSetting (OptCall.format CSV NewFormat) CSV calls ∧
    (NewConfig CSV NumCPU (calls.map (OptCall.option CSV NewFormat))).JobsNum =
      lastSetting OptCall.jobsNum NumCPU calls ∧
    (NewConfig CSV NumCPU (calls.map (OptCall.option CSV NewFormat))).Port =
      lastSetting OptCall.port 8080 calls ∧
    (NewConfig CSV NumCPU (calls.map (OptCall.option CSV NewFormat))).flags =
      [0, 1, 2, 3, 4, 5, 6, 7].map (fun k => lastSetting (OptCall.flag k) false calls) := by
  refine ⟨?_, ?_, ?_, ?_, ?_, ?_, ?_, ?_⟩
  · induction calls using List.reverseRecOn with
    | nil =>
      show (0 : Int) < 50000
      decide
    | append_singleton calls o ih =>
      rw [List.map_append, List.map_cons, List.map_nil, NewConfig_append]
      cases o <;> try exact ih
      rename_i i
      show 0 < (OptBatchSize i _).BatchSize
      unfold OptBatchSize
      split_ifs with hi
      · exact ih
      · exact not_le.1 hi
  · induction calls using List.reverseRecOn with
    | nil => rfl
    | append_singleton calls o ih =>
      rw [List.map_append, List.map_cons, List.map_nil, NewConfig_append, lastSetting_append]
      cases o <;> try exact ih
      rename_i i
      show (OptBatchSize i _).BatchSize = _
      unfold OptBatchSize OptCall.batchSize
      by_cases hi : 0 < i
      · rw [if_neg (not_le.2 hi)]
        simp only [if_pos hi]
      · rw [if_pos (not_lt.1 hi)]
        simp only [if_neg hi]
        exact ih
  · intro i cfg
    unfold OptBatchSize
    split_ifs <;> exact ⟨rfl, rfl⟩
  · intro call
    rw [List.map_append, List.map_cons, List.map_nil, NewConfig_append]
  · induction calls using List.reverseRecOn with
    | nil => rfl
    | append_singleton calls o ih =>
      rw [List.map_append, List.map_cons, List.map_nil, NewConfig_append, lastSetting_append]
      cases o
      case Format s =>
        show (match NewFormat s with
          | some f => f
          | none => CSV) = (NewFormat s).getD CSV
        cases NewFormat s <;> rfl
      case BatchSize i =>
        show (OptBatchSize i _).Format = _
        unfold OptBatchSize
        split_ifs <;> exact ih
      all_goals exact ih
  · induction calls using List.reverseRecOn with
    | nil => rfl
    | append_singleton calls o ih =>
      rw [List.map_append, List.map_cons, List.map_nil, NewConfig_append, lastSetting_append]
      cases o
      case JobsNum i => rfl
      case BatchSize i =>
        show (OptBatchSize i _).JobsNum = _
        unfold OptBatchSize
        split_ifs <;> exact ih
      all_goals exact ih
  · induction calls using List.reverseRecOn with
    | nil => rfl
    | append_singleton calls o ih =>
      rw [List.map_append, List.map_cons, List.map_nil, NewConfig_append, lastSetting_append]
      cases o
      case Port i => rfl
      case BatchSize i =>
        show (OptBatchSize i _).Port = _
        unfold OptBatchSize
        split_ifs <;> exact ih
      all_goals exact ih
  · induction calls using List.reverseRecOn with
    | nil => rfl
    | append_singleton calls o ih =>
      rw [List.map_append, List.map_cons, List.map_nil, NewConfig_append]
      simp only [List.map_cons, List.map_nil, lastSetting_append]
      simp only [List.map_cons, List.map_nil, Config.flags, List.cons.injEq, and_true] at ih
      obtain ⟨h0, h1, h2, h3, h4, h5, h6, h7⟩ := ih
      cases o
      case BatchSize i =>
        show (OptBatchSize i _).flags = _
        unfold OptBatchSize
        split_ifs <;>
          simp only [Config.flags, OptCall.flag, h0, h1, h2, h3, h4, h5, h6, h7]
      all_goals
        simp [Config.flags, OptCall.option, OptCall.flag, OptFormat, OptJobsNum,
          OptIgnoreHTMLTags, OptWithDetails, OptWithStream, OptWithNoOrder,
          OptWithCapitaliation, OptDisableCultivars, OptPort, OptIsTest, OptDebug,
          h0, h1, h2, h3, h4, h5, h6, h7]

/-! ### The order of the words -/

theorem InSourceOrder_cons (a : parsed.Word) (rest : List parsed.Word) :
    InSourceOrder (a :: rest) =
      (decide (a.Start < a.End) &&
        (match rest with
         | [] => true
         | b :: _ => decide (a.End ≤ b.Start)) &&
        InSourceOrder rest) := rfl

theorem InSourceOrder.nonempty {ws : List parsed.Word} (h : InSourceOrder ws = true) :
    ∀ w ∈ ws, w.Start < w.End := by
  induction ws with
  | nil => intro w hw; cases hw
  | cons a ws ih =>
    rw [InSourceOrder_cons, Bool.and_eq_true, Bool.and_eq_true, decide_eq_true_eq] at h
    intro w hw
    rcases List.mem_cons.1 hw with rfl | hw
    · exact h.1.1
    · exact ih h.2 w hw

theorem InSourceOrder.pairwise {ws : List parsed.Word} (h : InSourceOrder ws = true) :
    (ws.map parsed.Word.span).Pairwise (fun a b => a.1 < a.2 ∧ b.1 < b.2 ∧ a.2 ≤ b.1) := by
  induction ws with
  | nil => exact List.Pairwise.nil
  | cons a ws ih =>
    rw [InSourceOrder_cons, Bool.and_eq_true, Bool.and_eq_true, decide_eq_true_eq] at h
    obtain ⟨⟨ha, hac⟩, h2⟩ := h
    rw [List.map_cons, List.pairwise_cons]
    have h3 := ih h2
    refine ⟨?_, h3⟩
    intro b hb
    cases ws with
    | nil => cases hb
    | cons c ws =>
      have hac : a.End ≤ c.Start := of_decide_eq_true hac
      rw [InSourceOrder_cons, Bool.and_eq_true, Bool.and_eq_true, decide_eq_true_eq] at h2
      have hc : c.Start < c.End := h2.1.1
      rw [List.map_cons, List.mem_cons] at hb
      rcases hb with rfl | hb
      · exact ⟨ha, hc, hac⟩
      · rw [List.map_cons, List.pairwise_cons] at h3
        have h4 := h3.1 b hb
        refine ⟨ha, h4.2.1, ?_⟩
        have h6 : c.End ≤ b.1 := h4.2.2
        show a.End ≤ b.1
        omega

theorem span_word (w : parsedWord) : w.word.span = w.Pos.span := rfl

theorem authorsTeamNode_words_span (t : Option authorsTeamNode) :
    (authorsTeamNode.words t).map parsed.Word.span =
      (authorsTeamNode.parts t).map parsed.Word.span := by
  cases t with
  | none => rfl
  | some aut =>
    obtain ⟨authors, year⟩ := aut
    unfold authorsTeamNode.words authorsTeamNode.parts
    have key : ∀ (l : List authorNode) (acc : List parsed.Word),
        (l.foldl (fun res v => res ++ v.words) acc).map parsed.Word.span =
          acc.map parsed.Word.span ++
            (l.flatMap (fun a => a.Words.map (fun w => w.Pos))).map parsed.Word.span := by
      intro l
      induction l with
      | nil => intro acc; simp
      | cons a l ih =>
        intro acc
        rw [List.foldl_cons, ih, List.flatMap_cons, List.map_append, List.map_append,
          List.append_assoc]
        congr 2
        unfold authorNode.words
        simp only [List.map_map]
        rfl
    cases year with
    | none => simp [key]
    | some yr =>
      simp only [List.map_append, key, List.map_nil, List.nil_append, Option.toList,
        List.map_cons]
      rfl

theorem authorshipNode_words_span (a : Option authorshipNode) :
    (authorshipNode.words a).map parsed.Word.span =
      (authorshipNode.parts a).map parsed.Word.span := by
  have hg : ∀ g : Option authorsGroupNode,
      (authorsGroupNode.words g).map parsed.Word.span =
        (authorsGroupNode.parts g).map parsed.Word.span := by
    intro g
    cases g with
    | none => rfl
    | some ag =>
      unfold authorsGroupNode.words authorsGroupNode.parts
      rw [List.map_append, List.map_append, authorsTeamNode_words_span,
        authorsTeamNode_words_span]
  cases a with
  | none => rfl
  | some a =>
    unfold authorshipNode.words authorshipNode.parts
    rw [List.map_append, List.map_append, hg, hg]

theorem infraspEpithetNode_words_sublist (v : infraspEpithetNode) :
    List.Sublist (v.words.map parsed.Word.span)
      ((v.Rank.toList.map (fun r => r.Word.Pos) ++ [v.Word.Pos] ++
        authorshipNode.parts v.Authorship).map parsed.Word.span) := by
  obtain ⟨w, rank, au⟩ := v
  have hw : List.Sublist ([w.word].map parsed.Word.span) ([w.Pos].map parsed.Word.span) :=
    List.Sublist.refl _
  have ha : ∀ au : Option authorshipNode, List.Sublist
      ((authorshipNode.words au).map parsed.Word.span)
      ((authorshipNode.parts au).map parsed.Word.span) := by
    intro au
    rw [authorshipNode_words_span]
  have h1 : List.Sublist
      ((match rank with
        | some rank => if rank.Word.Pos.Start ≠ 0 then [rank.Word.word] else []
        | none => ([] : List parsed.Word)).map parsed.Word.span)
      ((rank.toList.map (fun r => r.Word.Pos)).map parsed.Word.span) := by
    cases rank with
    | none => exact List.Sublist.refl _
    | some rank =>
      simp only [Option.toList, List.map_cons, List.map_nil]
      split_ifs
      · exact List.Sublist.refl _
      · exact List.nil_sublist _
  cases au with
  | none =>
    have h := List.Sublist.append (List.Sublist.append h1 hw) (ha none)
    rw [show authorshipNode.words none = [] from rfl, List.map_nil, List.append_nil] at h
    show List.Sublist (List.map parsed.Word.span (_ ++ [w.word])) _
    rw [List.map_append, List.map_append, List.map_append]
    exact h
  | some au =>
    show List.Sublist (List.map parsed.Word.span (_ ++ [w.word] ++ _)) _
    rw [List.map_append, List.map_append, List.map_append, List.map_append]
    exact List.Sublist.append (List.Sublist.append h1 hw) (ha _)

theorem speciesNode_words_sublist (sp : speciesNode) :
    List.Sublist (sp.words.map parsed.Word.span) (sp.parts.map parsed.Word.span) := by
  obtain ⟨genus, subgenus, sep, infs⟩ := sp
  unfold speciesNode.words speciesNode.parts
  have key : ∀ (l : List infraspEpithetNode) (acc acc' : List parsed.Word),
      List.Sublist (acc.map parsed.Word.span) (acc'.map parsed.Word.span) →
      List.Sublist ((l.foldl (fun words v => words ++ v.words) acc).map parsed.Word.span)
        ((acc' ++ l.flatMap (fun v =>
          v.Rank.toList.map (fun r => r.Word.Pos) ++ [v.Word.Pos] ++
            authorshipNode.parts v.Authorship)).map parsed.Word.span) := by
    intro l
    induction l with
    | nil => intro acc acc' h; simpa using h
    | cons v l ih =>
      intro acc acc' h
      rw [List.foldl_cons, List.flatMap_cons, ← List.append_assoc]
      refine ih _ _ ?_
      rw [List.map_append, List.map_append]
      exact List.Sublist.append h (infraspEpithetNode_words_sublist v)
  refine key _ _ _ ?_
  have h1 : List.Sublist
      ((if genus.Pos.End ≠ 0 then [genus.word] else []).map parsed.Word.span)
      ([genus.Pos].map parsed.Word.span) := by
    split_ifs
    · exact List.Sublist.refl _
    · exact List.nil_sublist _
  have h3 : List.Sublist (sep.words.map parsed.Word.span)
      (([sep.Word.Pos] ++ authorshipNode.parts sep.Authorship).map parsed.Word.span) := by
    unfold spEpithetNode.words
    rw [List.map_append, List.map_append, authorshipNode_words_span]
    exact List.Sublist.refl _
  cases subgenus with
  | none =>
    show List.Sublist (List.map parsed.Word.span (_ ++ sep.words))
      (List.map parsed.Word.span ([genus.Pos] ++ [] ++ [sep.Word.Pos] ++ _))
    rw [List.append_nil, List.append_assoc, List.map_append, List.map_append]
    exact List.Sublist.append h1 h3
  | some sg =>
    show List.Sublist (List.map parsed.Word.span (_ ++ [sg.word] ++ sep.words))
      (List.map parsed.Word.span ([genus.Pos] ++ [sg.Pos] ++ [sep.Word.Pos] ++ _))
    rw [List.append_assoc ([genus.Pos] ++ [sg.Pos]), List.map_append, List.map_append,
      List.map_append, List.map_append]
    exact List.Sublist.append (List.Sublist.append h1 (List.Sublist.refl _)) h3

/-- Claim C27.  For every species node whose parts carry non-empty spans in
source order without overlap (genus, subgenus if any, species epithet, its
authorship words, then for each infraspecific element its rank if any, its
epithet and its authorship words), the words that `words()` returns are strictly
ordered by start offset, each word ends at or before the start of the next one,
and this holds between any two of them, not only between neighbours. -/
theorem speciesNode_words_ordered (sp : speciesNode) (h : InSourceOrder sp.parts = true) :
    sp.words.Chain' (fun a b => a.Start < b.Start ∧ a.End ≤ b.Start) ∧
    sp.words.Pairwise (fun a b => a.Start < b.Start ∧ a.End ≤ b.Start) ∧
    ∀ w ∈ sp.words, w.Start < w.End := by
  have h1 := List.Pairwise.sublist (speciesNode_words_sublist sp) (InSourceOrder.pairwise h)
  have h2 : sp.words.Pairwise (fun a b => a.Start < b.Start ∧ a.End ≤ b.Start) := by
    rw [List.pairwise_map] at h1
    refine List.Pairwise.imp ?_ h1
    intro a b hab
    obtain ⟨ha, -, hb⟩ := hab
    have ha' : a.Start < a.End := ha
    have hb' : a.End ≤ b.Start := hb
    exact ⟨by omega, hb'⟩
  refine ⟨List.Pairwise.chain' h2, h2, ?_⟩
  intro w hw
  have h3 : w.span ∈ sp.parts.map parsed.Word.span :=
    (speciesNode_words_sublist sp).subset (List.mem_map_of_mem _ hw)
  obtain ⟨w', hw', he⟩ := List.mem_map.1 h3
  have h4 := InSourceOrder.nonempty h w' hw'
  have h5 : w'.Start = w.Start := congrArg Prod.fst he
  have h6 : w'.End = w.End := congrArg Prod.snd he
  omega

/-- Instance of claim C27: the words of `Aus bus var. cus (Smith) Jones ex Brown
1901` are in source order. -/
theorem speciesNode_words_ordered_witness :
    InSourceOrder ausBusVarCusAuthored.parts = true ∧
    ausBusVarCusAuthored.words.map parsed.Word.span =
      [(0, 3), (4, 7), (8, 12), (13, 16), (18, 23), (25, 30), (34, 39), (40, 44)] ∧
    ausBusVarCusAuthored.words.Chain' (fun a b => a.Start < b.Start ∧ a.End ≤ b.Start) :=
  ⟨by decide, by decide, (speciesNode_words_ordered ausBusVarCusAuthored (by decide)).1⟩

/-! ### The scenarios `Betula alba L.` and `Crataegus + Mespilus` -/

/-- Evaluated: the name tokens of `Betula alba L.`. -/
theorem tokens_Betula_alba_L :
    (runTokens (Engine.new "Betula alba L.").reset.buffer 150 (.call .ruleSciName) 0
        []).tokens.map (fun ts => ts.filter isNameRule) =
      some [⟨.ruleGenusWord, 0, 6⟩, ⟨.ruleWord, 7, 11⟩, ⟨.ruleAuthorship, 12, 14⟩,
        ⟨.ruleSpeciesEpithet, 7, 14⟩, ⟨.ruleNameSpecies, 0, 14⟩, ⟨.ruleName, 0, 14⟩,
        ⟨.ruleTail, 14, 14⟩, ⟨.ruleSciName, 0, 14⟩] := by
  decide!

/-- Claim C21.  Parsing `Betula alba L.` succeeds; the token tree has a
`NameSpecies` token over the whole input (runes 0 to 14), a `GenusWord` token
over `Betula`, a `Word` token over `alba`, an `Authorship` token over `L.` and an
empty `Tail` at the end of the input, and no other token of a name rule but those
listed. -/
theorem Parse_Betula_alba_L :
    ∃ q, (Engine.new "Betula alba L.").reset.Parse 150 [] = .done (none, q) ∧
      q.tokens32.filter isNameRule =
        [⟨.ruleGenusWord, 0, 6⟩, ⟨.ruleWord, 7, 11⟩, ⟨.ruleAuthorship, 12, 14⟩,
          ⟨.ruleSpeciesEpithet, 7, 14⟩, ⟨.ruleNameSpecies, 0, 14⟩, ⟨.ruleName, 0, 14⟩,
          ⟨.ruleTail, 14, 14⟩, ⟨.ruleSciName, 0, 14⟩] ∧
      q.buffer = runesOf "Betula alba L." ++ [endSymbol] ∧
      (runesOf "Betula alba L.").length = 14 ∧
      slice q.buffer 0 6 = runesOf "Betula" ∧
      slice q.buffer 7 11 = runesOf "alba" ∧
      slice q.buffer 12 14 = runesOf "L." :=
  Exists.elim (Parse_of_filter tokens_Betula_alba_L)
    (fun q hq => ⟨q, hq.1, hq.2.1, hq.2.2.symm ▸ (by decide), by decide,
      hq.2.2.symm ▸ (by decide), hq.2.2.symm ▸ (by decide), hq.2.2.symm ▸ (by decide)⟩)

/-- Evaluated: the name tokens of `Crataegus + Mespilus`. -/
theorem tokens_Crataegus_plus_Mespilus :
    (runTokens (Engine.new "Crataegus + Mespilus").reset.buffer 150 (.call .ruleSciName) 0
        []).tokens.map (fun ts => ts.filter isNameRule) =
      some [⟨.ruleNameUninomial, 0, 9⟩, ⟨.ruleName, 0, 9⟩, ⟨.ruleTail, 9, 20⟩,
        ⟨.ruleSciName, 0, 20⟩] := by
  decide!

/-- Evaluated: the name tokens of `Crataegus × Mespilus`. -/
theorem tokens_Crataegus_times_Mespilus :
    (runTokens (Engine.new "Crataegus × Mespilus").reset.buffer 150 (.call .ruleSciName) 0
        []).tokens.map (fun ts => ts.filter isNameRule) =
      some [⟨.ruleNameUninomial, 0, 9⟩, ⟨.ruleHybridChar, 10, 11⟩,
        ⟨.ruleNameUninomial, 12, 20⟩, ⟨.ruleHybridFormulaFull, 10, 20⟩,
        ⟨.ruleHybridFormula, 0, 20⟩, ⟨.ruleName, 0, 20⟩, ⟨.ruleTail, 20, 20⟩,
        ⟨.ruleSciName, 0, 20⟩] := by
  decide!

/-- Claim C22 fails as stated: `Crataegus + Mespilus` (20 runes) parses, but the
only `Name` token spans runes 0 to 9, the uninomial `Crataegus`, and the `Tail`
spans runes 9 to 20, the text ` + Mespilus`; no hybrid formula is recognised. -/
theorem Parse_Crataegus_plus_Mespilus_tail :
    ∃ q, (Engine.new "Crataegus + Mespilus").reset.Parse 150 [] = .done (none, q) ∧
      q.tokens32.filter (fun t => decide (t.pegRule = .ruleName ∨ t.pegRule = .ruleTail ∨
          t.pegRule = .ruleHybridFormula)) =
        [⟨.ruleName, 0, 9⟩, ⟨.ruleTail, 9, 20⟩] ∧
      (runesOf "Crataegus + Mespilus").length = 20 ∧
      slice q.buffer 9 20 = runesOf " + Mespilus" :=
  Exists.elim (Parse_of_filter tokens_Crataegus_plus_Mespilus)
    (fun q hq => ⟨q, hq.1,
      (by
        have h := congrArg (List.filter (fun t => decide (t.pegRule = .ruleName ∨
          t.pegRule = .ruleTail ∨ t.pegRule = .ruleHybridFormula))) hq.2.1
        rw [List.filter_filter] at h
        have h2 : q.tokens32.filter (fun t => decide (t.pegRule = .ruleName ∨
              t.pegRule = .ruleTail ∨ t.pegRule = .ruleHybridFormula)) =
            q.tokens32.filter (fun t => decide (t.pegRule = .ruleName ∨
              t.pegRule = .ruleTail ∨ t.pegRule = .ruleHybridFormula) && isNameRule t) := by
          refine List.filter_congr ?_
          intro t _
          obtain ⟨r, b, e⟩ := t
          cases r <;> rfl
        rw [h2, h]
        decide),
      by decide, hq.2.2.symm ▸ (by decide)⟩)

/-- Claim C22, amended.  Parsing `Crataegus + Mespilus` succeeds with the
uninomial `Crataegus` as the name (runes 0 to 9) and ` + Mespilus` as the tail;
no character or range of the grammar matches the sign `+`.  Written with the hybrid sign,
`Crataegus × Mespilus` is recognised whole as one hybrid formula: the `Name`
token spans the entire input, the `Tail` is empty, and the simple canonical form
of the formula is `Crataegus × Mespilus`. -/
theorem Parse_Crataegus_Mespilus :
    (∃ q, (Engine.new "Crataegus + Mespilus").reset.Parse 150 [] = .done (none, q) ∧
      q.tokens32.filter isNameRule =
        [⟨.ruleNameUninomial, 0, 9⟩, ⟨.ruleName, 0, 9⟩, ⟨.ruleTail, 9, 20⟩,
          ⟨.ruleSciName, 0, 20⟩] ∧
      slice q.buffer 0 9 = runesOf "Crataegus" ∧
      slice q.buffer 9 20 = runesOf " + Mespilus") ∧
    (∀ r e, rules r = some e → e.hasTerminal '+'.toNat = false) ∧
    (∃ q, (Engine.new "Crataegus × Mespilus").reset.Parse 150 [] = .done (none, q) ∧
      q.tokens32.filter isNameRule =
        [⟨.ruleNameUninomial, 0, 9⟩, ⟨.ruleHybridChar, 10, 11⟩,
          ⟨.ruleNameUninomial, 12, 20⟩, ⟨.ruleHybridFormulaFull, 10, 20⟩,
          ⟨.ruleHybridFormula, 0, 20⟩, ⟨.ruleName, 0, 20⟩, ⟨.ruleTail, 20, 20⟩,
          ⟨.ruleSciName, 0, 20⟩] ∧
      (runesOf "Crataegus × Mespilus").length = 20) ∧
    (name.hybridFormulaNode (mkUninomial "Crataegus" 0 9)
        [⟨mkWord "×" 10 11, some (mkUninomial "Mespilus" 12 20)⟩]).canonical.Value =
      "Crataegus × Mespilus" :=
  ⟨Exists.elim (Parse_of_filter tokens_Crataegus_plus_Mespilus)
      (fun q hq => ⟨q, hq.1, hq.2.1, hq.2.2.symm ▸ (by decide), hq.2.2.symm ▸ (by decide)⟩),
    (by
      intro r e hr
      cases r <;> cases hr <;> rfl),
    Exists.elim (Parse_of_filter tokens_Crataegus_times_Mespilus)
      (fun q hq => ⟨q, hq.1, hq.2.1, by decide⟩),
    by decide⟩

/-! ### Reads within the buffer -/

theorem IsBuffer.get_le {buf : List Nat} {n i : Nat} (h : IsBuffer buf n) (hi : i ≤ n) :
    ∃ c, buf.get? i = some c := by
  rcases Nat.lt_or_ge i n with h1 | h1
  · obtain ⟨c, hc, -⟩ := h.get_lt h1
    exact ⟨c, hc⟩
  · have : i = n := Nat.le_antisymm hi h1
    subst this
    exact ⟨_, h.get_end⟩

theorem rules_safe {r : pegRule} {body : Expr} (h : rules r = some body) :
    body.safe = true := by
  cases r <;> cases h <;> rfl

/-- On a buffer that ends in its only sentinel, the code of a safe expression,
started at or before the sentinel, never reads outside the buffer and never
leaves the position after the sentinel. -/
theorem run_within {buf : List Nat} {n : Nat} (hb : IsBuffer buf n) :
    ∀ (f : Nat) (e : Expr) (p : State), e.safe = true → p.position ≤ n →
      (run buf f e p).within n := by
  intro f
  induction f with
  | zero => intro e p _ _; exact True.intro
  | succ f ih =>
    intro e p he hp
    cases e with
    | dot =>
      rw [run_dot]
      obtain ⟨c, hc⟩ := hb.get_le hp
      simp only [hc]
      by_cases h : c ≠ endSymbol
      · rw [if_pos h]
        show p.advance.position ≤ n
        rw [State.advance_position]
        exact hb.lt_of_get hc h
      · rw [if_neg h]
        exact hp
    | char x =>
      rw [run_char]
      obtain ⟨c, hc⟩ := hb.get_le hp
      simp only [hc]
      by_cases h : c ≠ x
      · rw [if_pos h]
        exact hp
      · rw [if_neg h]
        show p.advance.position ≤ n
        rw [State.advance_position]
        have hx : x ≠ endSymbol := of_decide_eq_true he
        have hcx : c = x := not_not.1 h
        exact hb.lt_of_get hc (hcx ▸ hx)
    | range l u =>
      rw [run_range]
      obtain ⟨c, hc⟩ := hb.get_le hp
      simp only [hc]
      by_cases h : c < l ∨ c > u
      · rw [if_pos h]
        exact hp
      · rw [if_neg h]
        show p.advance.position ≤ n
        rw [State.advance_position]
        have hx : endSymbol < l ∨ u < endSymbol := of_decide_eq_true he
        refine hb.lt_of_get hc ?_
        intro hce
        rw [hce] at h
        rcases hx with hx | hx
        · exact h (Or.inl hx)
        · exact h (Or.inr hx)
    | action =>
      rw [run_action]
      exact hp
    | call r =>
      rw [run_call]
      cases hr : rules r with
      | none =>
        have : (rules r).isSome = true := he
        rw [hr] at this
        cases this
      | some body =>
        simp only []
        have h1 := ih body p (rules_safe hr) hp
        cases hres : run buf f body p with
        | done x =>
          obtain ⟨b, p'⟩ := x
          rw [hres] at h1
          cases b with
          | true =>
            show (p'.add r p.position).position ≤ n
            rw [State.add_position]
            exact h1
          | false =>
            show (p'.restore p).position ≤ n
            rw [State.restore_position]
            exact hp
        | fault => rw [hres] at h1; exact h1
        | timeout => exact True.intro
    | seq a b =>
      rw [run_seq]
      have he' : a.safe = true ∧ b.safe = true := Bool.and_eq_true_iff.1 he
      have h1 := ih a p he'.1 hp
      cases hres : run buf f a p with
      | done x =>
        obtain ⟨ba, p'⟩ := x
        rw [hres] at h1
        cases ba with
        | true => exact ih b p' he'.2 h1
        | false => exact h1
      | fault => rw [hres] at h1; exact h1
      | timeout => exact True.intro
    | alt a b =>
      rw [run_alt]
      have he' : a.safe = true ∧ b.safe = true := Bool.and_eq_true_iff.1 he
      have h1 := ih a p he'.1 hp
      cases hres : run buf f a p with
      | done x =>
        obtain ⟨ba, p'⟩ := x
        rw [hres] at h1
        cases ba with
        | true => exact h1
        | false =>
          refine ih b (p'.restore p) he'.2 ?_
          rw [State.restore_position]
          exact hp
      | fault => rw [hres] at h1; exact h1
      | timeout => exact True.intro
    | peekFor e =>
      rw [run_peekFor]
      have h1 := ih e p he hp
      cases hres : run buf f e p with
      | done x =>
        obtain ⟨ba, p'⟩ := x
        rw [hres] at h1
        cases ba with
        | true =>
          show (p'.restore p).position ≤ n
          rw [State.restore_position]
          exact hp
        | false => exact h1
      | fault => rw [hres] at h1; exact h1
      | timeout => exact True.intro
    | peekNot e =>
      rw [run_peekNot]
      have h1 := ih e p he hp
      cases hres : run buf f e p with
      | done x =>
        obtain ⟨ba, p'⟩ := x
        rw [hres] at h1
        cases ba with
        | true => exact h1
        | false =>
          show (p'.restore p).position ≤ n
          rw [State.restore_position]
          exact hp
      | fault => rw [hres] at h1; exact h1
      | timeout => exact True.intro
    | query e =>
      rw [run_query]
      have h1 := ih e p he hp
      cases hres : run buf f e p with
      | done x =>
        obtain ⟨ba, p'⟩ := x
        rw [hres] at h1
        cases ba with
        | true => exact h1
        | false =>
          show (p'.restore p).position ≤ n
          rw [State.restore_position]
          exact hp
      | fault => rw [hres] at h1; exact h1
      | timeout => exact True.intro
    | star e =>
      rw [run_star]
      have h1 := ih e p he hp
      cases hres : run buf f e p with
      | done x =>
        obtain ⟨ba, p'⟩ := x
        rw [hres] at h1
        cases ba with
        | true => exact ih (.star e) p' he h1
        | false =>
          show (p'.restore p).position ≤ n
          rw [State.restore_position]
          exact hp
      | fault => rw [hres] at h1; exact h1
      | timeout => exact True.intro
    | plus e =>
      rw [run_plus]
      have h1 := ih e p he hp
      cases hres : run buf f e p with
      | done x =>
        obtain ⟨ba, p'⟩ := x
        rw [hres] at h1
        cases ba with
        | true => exact ih (.star e) p' he h1
        | false => exact h1
      | fault => rw [hres] at h1; exact h1
      | timeout => exact True.intro

theorem run_position_le {buf : List Nat} {n : Nat} (hb : IsBuffer buf n) {f : Nat} {e : Expr}
    {p : State} {b : Bool} {q : State} (he : e.safe = true) (hp : p.position ≤ n)
    (h : run buf f e p = .done (b, q)) : q.position ≤ n := by
  have h1 := run_within hb f e p he hp
  rw [h] at h1
  exact h1

theorem run_ne_fault {buf : List Nat} {n : Nat} (hb : IsBuffer buf n) (f : Nat) {e : Expr}
    {p : State} (he : e.safe = true) (hp : p.position ≤ n) : run buf f e p ≠ .fault := by
  intro h
  have h1 := run_within hb f e p he hp
  rw [h] at h1
  exact h1

/-! ### Inversion of runs, continued -/

theorem run_alt_true {buf : List Nat} {f : Nat} {a b : Expr} {p q : State}
    (h : run buf f (.alt a b) p = .done (true, q)) :
    ∃ f', f = f' + 1 ∧ (run buf f' a p = .done (true, q) ∨
      ∃ p', run buf f' a p = .done (false, p') ∧
        run buf f' b (p'.restore p) = .done (true, q)) := by
  cases f with
  | zero => cases h
  | succ f =>
    refine ⟨f, rfl, ?_⟩
    rw [run_alt] at h
    cases hres : run buf f a p with
    | done x =>
      obtain ⟨ba, p'⟩ := x
      rw [hres] at h
      cases ba with
      | true => exact Or.inl h
      | false => exact Or.inr ⟨p', rfl, h⟩
    | fault => rw [hres] at h; cases h
    | timeout => rw [hres] at h; cases h

theorem run_alt_false {buf : List Nat} {f : Nat} {a b : Expr} {p q : State}
    (h : run buf f (.alt a b) p = .done (false, q)) :
    ∃ f' p', f = f' + 1 ∧ run buf f' a p = .done (false, p') ∧
      run buf f' b (p'.restore p) = .done (false, q) := by
  cases f with
  | zero => cases h
  | succ f =>
    rw [run_alt] at h
    cases hres : run buf f a p with
    | done x =>
      obtain ⟨ba, p'⟩ := x
      rw [hres] at h
      cases ba with
      | true => cases h
      | false => exact ⟨f, p', rfl, hres, h⟩
    | fault => rw [hres] at h; cases h
    | timeout => rw [hres] at h; cases h

theorem run_call_false {buf : List Nat} {f : Nat} {r : pegRule} {p q : State}
    (h : run buf f (.call r) p = .done (false, q)) :
    ∃ f' body p', f = f' + 1 ∧ rules r = some body ∧ run buf f' body p = .done (false, p') ∧
      q = p'.restore p := by
  cases f with
  | zero => cases h
  | succ f =>
    rw [run_call] at h
    cases hr : rules r with
    | none => rw [hr] at h; cases h
    | some body =>
      simp only [hr] at h
      cases hres : run buf f body p with
      | done x =>
        obtain ⟨ba, p'⟩ := x
        rw [hres] at h
        cases ba with
        | true => cases h
        | false =>
          simp only [Outcome.done.injEq, Prod.mk.injEq, true_and] at h
          exact ⟨f, body, p', rfl, rfl, hres, h.symm⟩
      | fault => rw [hres] at h; cases h
      | timeout => rw [hres] at h; cases h

theorem run_plus_true {buf : List Nat} {f : Nat} {e : Expr} {p q : State}
    (h : run buf f (.plus e) p = .done (true, q)) :
    ∃ f' p', f = f' + 1 ∧ run buf f' e p = .done (true, p') ∧
      run buf f' (.star e) p' = .done (true, q) := by
  cases f with
  | zero => cases h
  | succ f =>
    rw [run_plus] at h
    cases hres : run buf f e p with
    | done x =>
      obtain ⟨ba, p'⟩ := x
      rw [hres] at h
      cases ba with
      | true => exact ⟨f, p', rfl, hres, h⟩
      | false => cases h
    | fault => rw [hres] at h; cases h
    | timeout => rw [hres] at h; cases h

theorem run_peekFor_true {buf : List Nat} {f : Nat} {e : Expr} {p q : State}
    (h : run buf f (.peekFor e) p = .done (true, q)) :
    ∃ f' p', f = f' + 1 ∧ run buf f' e p = .done (true, p') ∧ q = p'.restore p := by
  cases f with
  | zero => cases h
  | succ f =>
    rw [run_peekFor] at h
    cases hres : run buf f e p with
    | done x =>
      obtain ⟨ba, p'⟩ := x
      rw [hres] at h
      cases ba with
      | true =>
        simp only [Outcome.done.injEq, Prod.mk.injEq, true_and] at h
        exact ⟨f, p', rfl, hres, h.symm⟩
      | false => cases h
    | fault => rw [hres] at h; cases h
    | timeout => rw [hres] at h; cases h

theorem run_char_done {buf : List Nat} {f : Nat} {c : Nat} {p : State} {b : Bool} {q : State}
    (h : run buf f (.char c) p = .done (b, q)) :
    ∃ x, buf.get? p.position = some x ∧ b = decide (x = c) ∧
      q = if x = c then p.advance else p := by
  cases f with
  | zero => cases h
  | succ f =>
    rw [run_char] at h
    cases hg : buf.get? p.position with
    | none => rw [hg] at h; cases h
    | some x =>
      simp only [hg] at h
      refine ⟨x, rfl, ?_⟩
      by_cases hx : x = c
      · rw [if_neg (not_not.2 hx)] at h
        simp only [Outcome.done.injEq, Prod.mk.injEq] at h
        rw [if_pos hx, ← h.1, ← h.2]
        exact ⟨(decide_eq_true hx).symm, rfl⟩
      · rw [if_pos hx] at h
        simp only [Outcome.done.injEq, Prod.mk.injEq] at h
        rw [if_neg hx, ← h.1, ← h.2]
        exact ⟨(decide_eq_false hx).symm, rfl⟩

theorem run_range_done {buf : List Nat} {f : Nat} {l u : Nat} {p : State} {b : Bool}
    {q : State} (h : run buf f (.range l u) p = .done (b, q)) :
    ∃ x, buf.get? p.position = some x ∧ b = decide (l ≤ x ∧ x ≤ u) ∧
      q = if l ≤ x ∧ x ≤ u then p.advance else p := by
  cases f with
  | zero => cases h
  | succ f =>
    rw [run_range] at h
    cases hg : buf.get? p.position with
    | none => rw [hg] at h; cases h
    | some x =>
      simp only [hg] at h
      refine ⟨x, rfl, ?_⟩
      by_cases hx : x < l ∨ x > u
      · rw [if_pos hx] at h
        simp only [Outcome.done.injEq, Prod.mk.injEq] at h
        have hn : ¬ (l ≤ x ∧ x ≤ u) := by omega
        rw [if_neg hn, ← h.1, ← h.2]
        exact ⟨(decide_eq_false hn).symm, rfl⟩
      · rw [if_neg hx] at h
        simp only [Outcome.done.injEq, Prod.mk.injEq] at h
        have hn : l ≤ x ∧ x ≤ u := by omega
        rw [if_pos hn, ← h.1, ← h.2]
        exact ⟨(decide_eq_true hn).symm, rfl⟩

theorem run_dot_done {buf : List Nat} {f : Nat} {p : State} {b : Bool} {q : State}
    (h : run buf f .dot p = .done (b, q)) :
    ∃ x, buf.get? p.position = some x ∧ b = decide (x ≠ endSymbol) ∧
      q = if x ≠ endSymbol then p.advance else p := by
  cases f with
  | zero => cases h
  | succ f =>
    rw [run_dot] at h
    cases hg : buf.get? p.position with
    | none => rw [hg] at h; cases h
    | some x =>
      simp only [hg] at h
      refine ⟨x, rfl, ?_⟩
      by_cases hx : x ≠ endSymbol
      · rw [if_pos hx] at h
        simp only [Outcome.done.injEq, Prod.mk.injEq] at h
        rw [if_pos hx, ← h.1, ← h.2]
        exact ⟨(decide_eq_true hx).symm, rfl⟩
      · rw [if_neg hx] at h
        simp only [Outcome.done.injEq, Prod.mk.injEq] at h
        rw [if_neg hx, ← h.1, ← h.2]
        exact ⟨(decide_eq_false hx).symm, rfl⟩

/-- On a match the position does not go back. -/
theorem run_position_mono {buf : List Nat} {f : Nat} {e : Expr} {p q : State}
    (h : run buf f e p = .done (true, q)) : p.position ≤ q.position :=
  ((run_inv buf f e p true q h).2 rfl).1

/-! ### Matches that consume -/

theorem rules_nullable {r : pegRule} {body : Expr} (h : rules r = some body)
    (hn : nullableRule r = false) : body.nullable = false := by
  cases r <;> cases h <;> first | rfl | cases hn

/-- An expression that is not nullable consumes at least one rune when it
matches. -/
theorem run_consumes (buf : List Nat) :
    ∀ (f : Nat) (e : Expr) (p q : State), run buf f e p = .done (true, q) →
      e.nullable = false → p.position < q.position := by
  intro f
  induction f with
  | zero => intro e p q h; cases h
  | succ f ih =>
    intro e p q h hn
    cases e with
    | dot =>
      obtain ⟨x, -, hb, hq⟩ := run_dot_done h
      have hx : x ≠ endSymbol := of_decide_eq_true hb.symm
      rw [if_pos hx] at hq
      rw [hq, State.advance_position]
      exact Nat.lt_succ_self _
    | char c =>
      obtain ⟨x, -, hb, hq⟩ := run_char_done h
      have hx : x = c := of_decide_eq_true hb.symm
      rw [if_pos hx] at hq
      rw [hq, State.advance_position]
      exact Nat.lt_succ_self _
    | range l u =>
      obtain ⟨x, -, hb, hq⟩ := run_range_done h
      have hx : l ≤ x ∧ x ≤ u := of_decide_eq_true hb.symm
      rw [if_pos hx] at hq
      rw [hq, State.advance_position]
      exact Nat.lt_succ_self _
    | action => cases hn
    | call r =>
      cases hr : rules r with
      | none =>
        rw [run_call, hr] at h
        cases h
      | some body =>
        obtain ⟨f', p', hf, hrun, hq⟩ := run_call_true hr h
        have hf' : f' = f := by omega
        subst hf'
        have h1 := ih body p p' hrun (rules_nullable hr hn)
        rw [hq, State.add_position]
        exact h1
    | seq a b =>
      obtain ⟨f', p', hf, ha, hb⟩ := run_seq_true h
      have hf' : f' = f := by omega
      subst hf'
      have h1 := run_position_mono ha
      have h2 := run_position_mono hb
      have hn' : a.nullable = false ∨ b.nullable = false := by
        have h0 : (a.nullable && b.nullable) = false := hn
        cases ha' : a.nullable with
        | false => exact Or.inl rfl
        | true =>
          rw [ha'] at h0
          exact Or.inr h0
      rcases hn' with hn' | hn'
      · have := ih a p p' ha hn'
        omega
      · have := ih b p' q hb hn'
        omega
    | alt a b =>
      obtain ⟨f', hf, hab⟩ := run_alt_true h
      have hf' : f' = f := by omega
      subst hf'
      have h0 : (a.nullable || b.nullable) = false := hn
      rcases hab with ha | ⟨p', -, hb⟩
      · refine ih a p q ha ?_
        cases ha' : a.nullable with
        | false => rfl
        | true => rw [ha'] at h0; cases h0
      · have h1 := ih b (p'.restore p) q hb (by
          cases hb' : b.nullable with
          | false => rfl
          | true => rw [hb', Bool.or_true] at h0; cases h0)
        rw [State.restore_position] at h1
        exact h1
    | peekFor e => cases hn
    | peekNot e => cases hn
    | query e => cases hn
    | star e => cases hn
    | plus e =>
      obtain ⟨f', p', hf, ha, hb⟩ := run_plus_true h
      have hf' : f' = f := by omega
      subst hf'
      have h1 := ih e p p' ha hn
      have h2 := run_position_mono hb
      omega

/-! ### Termination -/

theorem rules_loopsConsume {r : pegRule} {body : Expr} (h : rules r = some body) :
    body.loopsConsume = true := by
  cases r <;> cases h <;> rfl

theorem rules_leftRank {r : pegRule} {body : Expr} (h : rules r = some body) :
    ∀ r' ∈ body.leftCalls, leftRank r' < leftRank r := by
  cases r <;> cases h <;> decide

theorem leftRank_le (r : pegRule) : leftRank r < 15 := by
  cases r <;> decide

theorem Returns.of_done {buf : List Nat} {f : Nat} {e : Expr} {p : State} {r : Bool × State}
    (h : run buf f e p = .done r) : Returns buf e p := ⟨f, r, h⟩

theorem Returns.seq_of {buf : List Nat} {f : Nat} {a b : Expr} {p : State} {ba : Bool} {p' : State}
    (ha : run buf f a p = .done (ba, p')) (hb : ba = true → Returns buf b p') :
    Returns buf (.seq a b) p := by
  cases ba with
  | false =>
    refine ⟨f + 1, (false, p'), ?_⟩
    rw [run_seq, ha]
  | true =>
    obtain ⟨f2, r, h2⟩ := hb rfl
    refine ⟨max f f2 + 1, r, ?_⟩
    rw [run_seq, run_mono buf (Nat.le_max_left f f2) ha]
    exact run_mono buf (Nat.le_max_right f f2) h2

theorem Returns.alt {buf : List Nat} {f : Nat} {a b : Expr} {p : State} {ba : Bool} {p' : State}
    (ha : run buf f a p = .done (ba, p')) (hb : ba = false → Returns buf b (p'.restore p)) :
    Returns buf (.alt a b) p := by
  cases ba with
  | true =>
    refine ⟨f + 1, (true, p'), ?_⟩
    rw [run_alt, ha]
  | false =>
    obtain ⟨f2, r, h2⟩ := hb rfl
    refine ⟨max f f2 + 1, r, ?_⟩
    rw [run_alt, run_mono buf (Nat.le_max_left f f2) ha]
    exact run_mono buf (Nat.le_max_right f f2) h2

theorem Returns.star {buf : List Nat} {f : Nat} {e : Expr} {p : State} {ba : Bool} {p' : State}
    (ha : run buf f e p = .done (ba, p')) (hb : ba = true → Returns buf (.star e) p') :
    Returns buf (.star e) p := by
  cases ba with
  | false =>
    refine ⟨f + 1, (true, p'.restore p), ?_⟩
    rw [run_star, ha]
  | true =>
    obtain ⟨f2, r, h2⟩ := hb rfl
    refine ⟨max f f2 + 1, r, ?_⟩
    rw [run_star, run_mono buf (Nat.le_max_left f f2) ha]
    exact run_mono buf (Nat.le_max_right f f2) h2

theorem Returns.plus {buf : List Nat} {f : Nat} {e : Expr} {p : State} {ba : Bool} {p' : State}
    (ha : run buf f e p = .done (ba, p')) (hb : ba = true → Returns buf (.star e) p') :
    Returns buf (.plus e) p := by
  cases ba with
  | false =>
    refine ⟨f + 1, (false, p'), ?_⟩
    rw [run_plus, ha]
  | true =>
    obtain ⟨f2, r, h2⟩ := hb rfl
    refine ⟨max f f2 + 1, r, ?_⟩
    rw [run_plus, run_mono buf (Nat.le_max_left f f2) ha]
    exact run_mono buf (Nat.le_max_right f f2) h2

theorem Returns.call {buf : List Nat} {r : pegRule} {body : Expr} {p : State}
    (hr : rules r = some body) (h : Returns buf body p) : Returns buf (.call r) p := by
  obtain ⟨f, ⟨b, p'⟩, h⟩ := h
  cases b with
  | true => exact ⟨f + 1, (true, p'.add r p.position), by rw [run_call, hr]; simp only [h]⟩
  | false => exact ⟨f + 1, (false, p'.restore p), by rw [run_call, hr]; simp only [h]⟩

theorem Returns.peekFor {buf : List Nat} {e : Expr} {p : State} (h : Returns buf e p) :
    Returns buf (.peekFor e) p := by
  obtain ⟨f, ⟨b, p'⟩, h⟩ := h
  cases b with
  | true => exact ⟨f + 1, (true, p'.restore p), by rw [run_peekFor, h]⟩
  | false => exact ⟨f + 1, (false, p'), by rw [run_peekFor, h]⟩

theorem Returns.peekNot {buf : List Nat} {e : Expr} {p : State} (h : Returns buf e p) :
    Returns buf (.peekNot e) p := by
  obtain ⟨f, ⟨b, p'⟩, h⟩ := h
  cases b with
  | true => exact ⟨f + 1, (false, p'), by rw [run_peekNot, h]⟩
  | false => exact ⟨f + 1, (true, p'.restore p), by rw [run_peekNot, h]⟩

theorem Returns.query {buf : List Nat} {e : Expr} {p : State} (h : Returns buf e p) :
    Returns buf (.query e) p := by
  obtain ⟨f, ⟨b, p'⟩, h⟩ := h
  cases b with
  | true => exact ⟨f + 1, (true, p'), by rw [run_query, h]⟩
  | false => exact ⟨f + 1, (true, p'.restore p), by rw [run_query, h]⟩

/-- Every run of a safe expression whose repetitions consume returns, when `m`
bounds the runes that are left: by induction on `m`, then on the rank of the
rules that may be called before a rune is consumed, then on the expression. -/
theorem run_returns_aux {buf : List Nat} {n : Nat} (hb : IsBuffer buf n) :
    ∀ (m : Nat) (e : Expr) (p : State), e.safe = true → e.loopsConsume = true →
      p.position ≤ n → n - p.position < m → Returns buf e p := by
  intro m
  induction m with
  | zero => intro e p _ _ _ h; exact absurd h (Nat.not_lt_zero _)
  | succ m ihm =>
    have inner : ∀ (k : Nat) (e : Expr), (∀ r ∈ e.leftCalls, leftRank r < k) →
        e.safe = true → e.loopsConsume = true → ∀ p : State, p.position ≤ n →
        n - p.position < m + 1 → Returns buf e p := by
      intro k
      induction k using Nat.strong_induction_on with
      | _ k ihk =>
        intro e
        induction e with
        | dot =>
          intro _ _ _ p hp _
          obtain ⟨c, hc⟩ := hb.get_le hp
          refine ⟨1, ?_⟩
          rw [run_dot]
          simp only [hc]
          split_ifs <;> exact ⟨_, rfl⟩
        | char x =>
          intro _ _ _ p hp _
          obtain ⟨c, hc⟩ := hb.get_le hp
          refine ⟨1, ?_⟩
          rw [run_char]
          simp only [hc]
          split_ifs <;> exact ⟨_, rfl⟩
        | range l u =>
          intro _ _ _ p hp _
          obtain ⟨c, hc⟩ := hb.get_le hp
          refine ⟨1, ?_⟩
          rw [run_range]
          simp only [hc]
          split_ifs <;> exact ⟨_, rfl⟩
        | action =>
          intro _ _ _ p _ _
          exact ⟨1, _, rfl⟩
        | call r =>
          intro hl hs _ p hp hm
          cases hr : rules r with
          | none =>
            have : (rules r).isSome = true := hs
            rw [hr] at this
            cases this
          | some body =>
            have hk : leftRank r < k := hl r (List.mem_singleton_self r)
            exact Returns.call hr
              (ihk (leftRank r) hk body (rules_leftRank hr) (rules_safe hr)
                (rules_loopsConsume hr) p hp hm)
        | seq a b iha ihb =>
          intro hl hs hc p hp hm
          have hs' : a.safe = true ∧ b.safe = true := Bool.and_eq_true_iff.1 hs
          have hc' : a.loopsConsume = true ∧ b.loopsConsume = true := Bool.and_eq_true_iff.1 hc
          have hla : ∀ r ∈ a.leftCalls, leftRank r < k := fun r hr =>
            hl r (List.mem_append_left _ hr)
          obtain ⟨f, ⟨ba, p'⟩, ha⟩ := iha hla hs'.1 hc'.1 p hp hm
          refine Returns.seq_of ha ?_
          intro hba
          subst hba
          have hp' := run_position_le hb hs'.1 hp ha
          have hmono := run_position_mono ha
          rcases Nat.lt_or_ge p.position p'.position with hlt | hge
          · exact ihm b p' hs'.2 hc'.2 hp' (by omega)
          · have han : a.nullable = true := by
              cases han : a.nullable with
              | true => rfl
              | false =>
                have := run_consumes buf f a p p' ha han
                omega
            have hlb : ∀ r ∈ b.leftCalls, leftRank r < k := by
              intro r hr
              refine hl r (List.mem_append_right _ ?_)
              rw [han, if_pos rfl]
              exact hr
            exact ihb hlb hs'.2 hc'.2 p' hp' (by omega)
        | alt a b iha ihb =>
          intro hl hs hc p hp hm
          have hs' : a.safe = true ∧ b.safe = true := Bool.and_eq_true_iff.1 hs
          have hc' : a.loopsConsume = true ∧ b.loopsConsume = true := Bool.and_eq_true_iff.1 hc
          have hla : ∀ r ∈ a.leftCalls, leftRank r < k := fun r hr =>
            hl r (List.mem_append_left _ hr)
          have hlb : ∀ r ∈ b.leftCalls, leftRank r < k := fun r hr =>
            hl r (List.mem_append_right _ hr)
          obtain ⟨f, ⟨ba, p'⟩, ha⟩ := iha hla hs'.1 hc'.1 p hp hm
          refine Returns.alt ha ?_
          intro _
          refine ihb hlb hs'.2 hc'.2 (p'.restore p) ?_ ?_
          · rw [State.restore_position]; exact hp
          · rw [State.restore_position]; exact hm
        | peekFor e ih =>
          intro hl hs hc p hp hm
          exact Returns.peekFor (ih hl hs hc p hp hm)
        | peekNot e ih =>
          intro hl hs hc p hp hm
          exact Returns.peekNot (ih hl hs hc p hp hm)
        | query e ih =>
          intro hl hs hc p hp hm
          exact Returns.query (ih hl hs hc p hp hm)
        | star e ih =>
          intro hl hs hc p hp hm
          have hc' : (!e.nullable) = true ∧ e.loopsConsume = true := Bool.and_eq_true_iff.1 hc
          have hn : e.nullable = false := by
            cases he : e.nullable with
            | false => rfl
            | true => rw [he] at hc'; exact absurd hc'.1 (by decide)
          obtain ⟨f, ⟨ba, p'⟩, ha⟩ := ih hl hs hc'.2 p hp hm
          refine Returns.star ha ?_
          intro hba
          subst hba
          have hp' := run_position_le hb (show e.safe = true from hs) hp ha
          have hlt := run_consumes buf f e p p' ha hn
          exact ihm (.star e) p' hs hc hp' (by omega)
        | plus e ih =>
          intro hl hs hc p hp hm
          have hc' : (!e.nullable) = true ∧ e.loopsConsume = true := Bool.and_eq_true_iff.1 hc
          have hn : e.nullable = false := by
            cases he : e.nullable with
            | false => rfl
            | true => rw [he] at hc'; exact absurd hc'.1 (by decide)
          obtain ⟨f, ⟨ba, p'⟩, ha⟩ := ih hl hs hc'.2 p hp hm
          refine Returns.plus ha ?_
          intro hba
          subst hba
          have hp' := run_position_le hb (show e.safe = true from hs) hp ha
          have hlt := run_consumes buf f e p p' ha hn
          exact ihm (.star e) p' hs hc hp' (by omega)
    intro e p hs hc hp hm
    exact inner 15 e (fun r _ => leftRank_le r) hs hc p hp hm

/-- On a buffer that ends in its only sentinel, every rule called at or before
the sentinel returns: it matches or fails, with some fuel. -/
theorem run_returns {buf : List Nat} {n : Nat} (hb : IsBuffer buf n) (r : pegRule)
    (hr : r ≠ .ruleUnknown) (p : State) (hp : p.position ≤ n) :
    Returns buf (.call r) p := by
  refine run_returns_aux hb (n - p.position + 1) (.call r) p ?_ rfl hp (Nat.lt_succ_self _)
  show (rules r).isSome = true
  cases r <;> first | rfl | exact absurd rfl hr

theorem call_safe {r : pegRule} (hr : r ≠ .ruleUnknown) : (Expr.call r).safe = true := by
  show (rules r).isSome = true
  cases r <;> first | rfl | exact absurd rfl hr

theorem Parse_eq_run (fuel : Nat) (p : Engine) (rule : List pegRule) :
    p.Parse fuel rule =
      match run p.buffer fuel (.call (rule.headD .ruleSciName)) p.state with
      | .done (isMatch, state) =>
        if isMatch then
          .done (none,
            { p with state := state, tokens32 := tokens32.Trim state.tree state.tokenIndex })
        else .done (some ⟨state.max⟩, { p with state := state, tokens32 := state.tree })
      | .fault => .fault
      | .timeout => .timeout := by
  cases rule <;> rfl

theorem Parse_rule_ne {rule : List pegRule} (h : rule.head? ≠ some .ruleUnknown) :
    rule.headD .ruleSciName ≠ .ruleUnknown := by
  cases rule with
  | nil => intro hc; cases hc
  | cons r rest =>
    intro hc
    exact h (congrArg some hc)

theorem IsBuffer.count {buf : List Nat} {n : Nat} (h : IsBuffer buf n) :
    buf.count endSymbol = 1 ∧ buf.length = n + 1 := by
  obtain ⟨runes, rfl, hl, hr⟩ := h
  constructor
  · rw [List.count_append, List.count_eq_zero.2 (fun hc => hr _ hc rfl)]
    rfl
  · rw [List.length_append, hl]
    rfl

/-- Claim C29.  For every input string, after `reset` the rune buffer consists of
the runes of the string followed by the sentinel, which occurs nowhere else in
it.  `Parse`, on any rule that has a function, never panics: no read is outside
the buffer, and the position it leaves is at most the index of the sentinel; the
same holds for the code of every safe expression started at or before the
sentinel, and the body of every rule is safe, so that the bound holds throughout
the parse. -/
theorem Parse_within_buffer (p : Engine) (fuel : Nat) (rule : List pegRule)
    (h : rule.head? ≠ some .ruleUnknown) :
    IsBuffer p.reset.buffer p.Buffer.length ∧
    p.reset.buffer.get? p.Buffer.length = some endSymbol ∧
    p.reset.buffer.count endSymbol = 1 ∧
    p.reset.buffer.length = p.Buffer.length + 1 ∧
    p.reset.Parse fuel rule ≠ .fault ∧
    (∀ err q, p.reset.Parse fuel rule = .done (err, q) →
      q.state.position ≤ p.Buffer.length) ∧
    (∀ (f : Nat) (e : Expr) (st : State), e.safe = true → st.position ≤ p.Buffer.length →
      (run p.reset.buffer f e st).within p.Buffer.length) ∧
    (∀ r body, rules r = some body → body.safe = true) := by
  have hb := reset_isBuffer p
  refine ⟨hb, hb.get_end, hb.count.1, hb.count.2, ?_, ?_, fun f e st => run_within hb f e st,
    fun r body => rules_safe⟩
  · intro hf
    rw [Parse_eq_run] at hf
    have h0 : (p.reset.state.position ≤ p.Buffer.length) := by
      rw [(reset_state p).1]
      exact Nat.zero_le _
    have h1 := run_ne_fault hb fuel (call_safe (Parse_rule_ne h)) h0
    cases hres : run p.reset.buffer fuel (.call (rule.headD .ruleSciName)) p.reset.state with
    | done x =>
      obtain ⟨b, st⟩ := x
      rw [hres] at hf
      cases b <;> cases hf
    | fault => exact h1 hres
    | timeout => rw [hres] at hf; cases hf
  · intro err q hq
    rw [Parse_eq_run] at hq
    have h0 : (p.reset.state.position ≤ p.Buffer.length) := by
      rw [(reset_state p).1]
      exact Nat.zero_le _
    cases hres : run p.reset.buffer fuel (.call (rule.headD .ruleSciName)) p.reset.state with
    | done x =>
      obtain ⟨b, st⟩ := x
      have h2 := run_position_le hb (call_safe (Parse_rule_ne h)) h0 hres
      rw [hres] at hq
      cases b with
      | true =>
        simp only [if_true, Outcome.done.injEq, Prod.mk.injEq] at hq
        rw [← hq.2]
        exact h2
      | false =>
        simp only [Bool.false_eq_true, if_false, Outcome.done.injEq, Prod.mk.injEq] at hq
        rw [← hq.2]
        exact h2
    | fault => rw [hres] at hq; cases hq
    | timeout => rw [hres] at hq; cases hq

/-- Instance of claim C29: on `Aa` the buffer has 3 cells, and `Parse` with fuel
100 does not panic. -/
theorem Parse_within_buffer_witness :
    (Engine.new "Aa").reset.buffer.length = 3 ∧
    (Engine.new "Aa").reset.Parse 100 [] ≠ .fault :=
  ⟨(Parse_within_buffer (Engine.new "Aa") 100 [] (by decide)).2.2.2.1,
    (Parse_within_buffer (Engine.new "Aa") 100 [] (by decide)).2.2.2.2.1⟩

/-- Claim C28.  For every input string, `Parse` on any rule that has a function
returns with some fuel, either without an error or with a parse error, and more
fuel does not change what it returns.  No rule is left-recursive: `leftRank`
ranks every rule above the rules it may call before consuming a rune.  The body
of every repetition consumes at least one rune when it matches: it is not
nullable, and an expression that is not nullable moves the position forward. -/
theorem Parse_terminates (p : Engine) (rule : List pegRule)
    (h : rule.head? ≠ some .ruleUnknown) :
    (∃ fuel, (∃ q, p.reset.Parse fuel rule = .done (none, q)) ∨
      ∃ err q, p.reset.Parse fuel rule = .done (some err, q)) ∧
    (∀ fuel fuel' x, p.reset.Parse fuel rule = .done x → fuel ≤ fuel' →
      p.reset.Parse fuel' rule = .done x) ∧
    (∀ r body, rules r = some body →
      body.loopsConsume = true ∧ ∀ r' ∈ body.leftCalls, leftRank r' < leftRank r) ∧
    (∀ (buf : List Nat) (f : Nat) (e : Expr) (st q : State),
      run buf f e st = .done (true, q) → e.nullable = false → st.position < q.position) := by
  refine ⟨?_, fun fuel fuel' x hx hle => Parse_mono hle hx,
    fun r body hr => ⟨rules_loopsConsume hr, rules_leftRank hr⟩, run_consumes⟩
  have hb := reset_isBuffer p
  have h0 : (p.reset.state.position ≤ p.Buffer.length) := by
    rw [(reset_state p).1]
    exact Nat.zero_le _
  obtain ⟨f, ⟨b, st⟩, hrun⟩ := run_returns hb _ (Parse_rule_ne h) p.reset.state h0
  refine ⟨f, ?_⟩
  rw [Parse_eq_run, hrun]
  cases b with
  | true => exact Or.inl ⟨_, rfl⟩
  | false => exact Or.inr ⟨_, _, rfl⟩

/-- Instance of claim C28: `Parse` returns on `SomeRandomText123`. -/
theorem Parse_terminates_witness :
    ∃ fuel, (∃ q, (Engine.new "SomeRandomText123").reset.Parse fuel [] = .done (none, q)) ∨
      ∃ err q, (Engine.new "SomeRandomText123").reset.Parse fuel [] = .done (some err, q) :=
  (Parse_terminates (Engine.new "SomeRandomText123") [] (by decide)).1

/-! ### Sequences of characters and classes of runes -/

theorem matchesAt_append (buf : List Nat) (x y : List Nat) :
    ∀ pos, matchesAt buf pos (x ++ y) =
      (matchesAt buf pos x && matchesAt buf (pos + x.length) y) := by
  induction x with
  | nil => intro pos; simp [matchesAt]
  | cons c x ih =>
    intro pos
    show (buf.get? pos == some c && matchesAt buf (pos + 1) (x ++ y)) =
      ((buf.get? pos == some c && matchesAt buf (pos + 1) x) &&
        matchesAt buf (pos + (x.length + 1)) y)
    rw [ih, Bool.and_assoc, Nat.add_assoc, Nat.add_comm 1]

theorem matchesAt_get {buf : List Nat} :
    ∀ {l : List Nat} {pos : Nat}, matchesAt buf pos l = true →
      ∀ i c, l.get? i = some c → buf.get? (pos + i) = some c := by
  intro l
  induction l with
  | nil => intro pos _ i c hc; cases hc
  | cons x l ih =>
    intro pos h i c hc
    have h' : (buf.get? pos == some x && matchesAt buf (pos + 1) l) = true := h
    rw [Bool.and_eq_true, beq_iff_eq] at h'
    cases i with
    | zero =>
      simp only [List.get?_cons_zero, Option.some.injEq] at hc
      rw [← hc]
      exact h'.1
    | succ i =>
      have := ih h'.2 i c hc
      rw [Nat.add_assoc, Nat.add_comm 1] at this
      exact this

/-- The code of a sequence of characters matches exactly when the characters
stand at the position, and then moves the position past them. -/
theorem run_literal {buf : List Nat} :
    ∀ (e : Expr) (l : List Nat), e.literal = some l → ∀ (f : Nat) (p : State) (b : Bool)
      (q : State), run buf f e p = .done (b, q) →
      b = matchesAt buf p.position l ∧ (b = true → q.position = p.position + l.length) := by
  intro e
  induction e with
  | char c =>
    intro l hl f p b q h
    have hl' : l = [c] := (Option.some.inj hl).symm
    subst hl'
    obtain ⟨x, hx, hb, hq⟩ := run_char_done h
    have hm : matchesAt buf p.position [c] = decide (x = c) := by
      show (buf.get? p.position == some c && true) = _
      rw [hx, Bool.and_true]
      by_cases hxc : x = c
      · rw [hxc]; simp
      · simp [hxc]
    refine ⟨by rw [hb, hm], ?_⟩
    intro hbt
    rw [hbt] at hb
    have hxc : x = c := of_decide_eq_true hb.symm
    rw [if_pos hxc] at hq
    rw [hq, State.advance_position]
    rfl
  | seq a b iha ihb =>
    intro l hl f p bb q h
    have hl0 : (match a.literal, b.literal with
        | some x, some y => some (x ++ y)
        | _, _ => none) = some l := hl
    cases hla : a.literal with
    | none => rw [hla] at hl0; cases hl0
    | some x =>
      cases hlb : b.literal with
      | none => rw [hla, hlb] at hl0; cases hl0
      | some y =>
        rw [hla, hlb] at hl0
        have hl' : l = x ++ y := (Option.some.inj hl0).symm
        subst hl'
        cases f with
        | zero => cases h
        | succ f =>
          rw [run_seq] at h
          cases hres : run buf f a p with
          | done r =>
            obtain ⟨ba, p1⟩ := r
            rw [hres] at h
            obtain ⟨h1, h2⟩ := iha x hla f p ba p1 hres
            cases ba with
            | true =>
              have hp1 := h2 rfl
              obtain ⟨h3, h4⟩ := ihb y hlb f p1 bb q h
              rw [matchesAt_append, ← h1, Bool.true_and, ← hp1]
              refine ⟨h3, ?_⟩
              intro hbt
              rw [h4 hbt, hp1, List.length_append, Nat.add_assoc]
            | false =>
              simp only [Outcome.done.injEq, Prod.mk.injEq] at h
              rw [matchesAt_append, ← h1, Bool.false_and]
              refine ⟨h.1.symm, ?_⟩
              intro hbt
              rw [← h.1] at hbt
              cases hbt
          | fault => rw [hres] at h; cases h
          | timeout => rw [hres] at h; cases h
  | dot => intro l hl; cases hl
  | range _ _ => intro l hl; cases hl
  | call _ => intro l hl; cases hl
  | action => intro l hl; cases hl
  | alt _ _ _ _ => intro l hl; cases hl
  | peekFor _ _ => intro l hl; cases hl
  | peekNot _ _ => intro l hl; cases hl
  | query _ _ => intro l hl; cases hl
  | star _ _ => intro l hl; cases hl
  | plus _ _ => intro l hl; cases hl

/-- The code of an ordered choice of sequences of characters matches one of the
sequences that stand at the position, and fails when none does. -/
theorem run_literals {buf : List Nat} :
    ∀ (e : Expr) (ls : List (List Nat)), e.literals = some ls → ∀ (f : Nat) (p : State)
      (b : Bool) (q : State), run buf f e p = .done (b, q) →
      (b = true → ∃ l ∈ ls, matchesAt buf p.position l = true ∧
        q.position = p.position + l.length) ∧
      (b = false → ∀ l ∈ ls, matchesAt buf p.position l = false) := by
  have single : ∀ (e : Expr) (l : List Nat), e.literal = some l → ∀ (f : Nat) (p : State)
      (b : Bool) (q : State), run buf f e p = .done (b, q) →
      (b = true → ∃ l' ∈ [l], matchesAt buf p.position l' = true ∧
        q.position = p.position + l'.length) ∧
      (b = false → ∀ l' ∈ [l], matchesAt buf p.position l' = false) := by
    intro e l hl f p b q h
    obtain ⟨h1, h2⟩ := run_literal e l hl f p b q h
    constructor
    · intro hb
      exact ⟨l, List.mem_singleton_self l, by rw [← h1, hb], h2 hb⟩
    · intro hb l' hl'
      rw [List.mem_singleton.1 hl', ← h1, hb]
  intro e
  induction e with
  | alt a b iha ihb =>
    intro ls hl f p bb q h
    have hl0 : (match a.literals, b.literals with
        | some x, some y => some (x ++ y)
        | _, _ => none) = some ls := hl
    cases hla : a.literals with
    | none => rw [hla] at hl0; cases hl0
    | some x =>
      cases hlb : b.literals with
      | none => rw [hla, hlb] at hl0; cases hl0
      | some y =>
        rw [hla, hlb] at hl0
        have hl' : ls = x ++ y := (Option.some.inj hl0).symm
        subst hl'
        cases f with
        | zero => cases h
        | succ f =>
          rw [run_alt] at h
          cases hres : run buf f a p with
          | done r =>
            obtain ⟨ba, p1⟩ := r
            rw [hres] at h
            obtain ⟨h1, h2⟩ := iha x hla f p ba p1 hres
            cases ba with
            | true =>
              simp only [Outcome.done.injEq, Prod.mk.injEq] at h
              constructor
              · intro _
                obtain ⟨l, hl, hm, hq⟩ := h1 rfl
                exact ⟨l, List.mem_append_left _ hl, hm, by rw [← h.2]; exact hq⟩
              · intro hb
                rw [← h.1] at hb
                cases hb
            | false =>
              obtain ⟨h3, h4⟩ := ihb y hlb f (p1.restore p) bb q h
              rw [State.restore_position] at h3 h4
              constructor
              · intro hb
                obtain ⟨l, hl, hm, hq⟩ := h3 hb
                exact ⟨l, List.mem_append_right _ hl, hm, hq⟩
              · intro hb l hl
                rcases List.mem_append.1 hl with hl | hl
                · exact h2 rfl l hl
                · exact h4 hb l hl
          | fault => rw [hres] at h; cases h
          | timeout => rw [hres] at h; cases h
  | char c =>
    intro ls hl
    have : ls = [[c]] := (Option.some.inj hl).symm
    subst this
    exact single (.char c) [c] rfl
  | seq a b _ _ =>
    intro ls hl
    have hl0 : (Expr.seq a b).literal.map (fun l => [l]) = some ls := hl
    cases hl1 : (Expr.seq a b).literal with
    | none => rw [hl1] at hl0; cases hl0
    | some l =>
      rw [hl1] at hl0
      have : ls = [l] := (Option.some.inj hl0).symm
      subst this
      exact single (.seq a b) l hl1
  | dot => intro l hl; cases hl
  | range _ _ => intro l hl; cases hl
  | call _ => intro l hl; cases hl
  | action => intro l hl; cases hl
  | peekFor _ _ => intro l hl; cases hl
  | peekNot _ _ => intro l hl; cases hl
  | query _ _ => intro l hl; cases hl
  | star _ _ => intro l hl; cases hl
  | plus _ _ => intro l hl; cases hl

theorem run_call_done {buf : List Nat} {f : Nat} {r : pegRule} {p : State} {b : Bool}
    {q : State} (h : run buf f (.call r) p = .done (b, q)) :
    ∃ f' body p', f = f' + 1 ∧ rules r = some body ∧ run buf f' body p = .done (b, p') ∧
      q.position = if b then p'.position else p.position := by
  cases b with
  | true =>
    cases hr : rules r with
    | none =>
      cases f with
      | zero => cases h
      | succ f => rw [run_call, hr] at h; cases h
    | some body =>
      obtain ⟨f', p', hf, hrun, hq⟩ := run_call_true hr h
      exact ⟨f', body, p', hf, rfl, hrun, by rw [hq, State.add_position]; rfl⟩
  | false =>
    obtain ⟨f', body, p', hf, hr, hrun, hq⟩ := run_call_false h
    exact ⟨f', body, p', hf, hr, hrun, by rw [hq, State.restore_position]; rfl⟩

theorem classWith_sound {cls : pegRule → Option (Nat → Bool)} (hcls : ClassSound cls) :
    ∀ (e : Expr) (P : Nat → Bool), e.classWith cls = some P → ∀ (buf : List Nat) (f : Nat)
      (p : State) (b : Bool) (q : State), run buf f e p = .done (b, q) →
      ∃ c, buf.get? p.position = some c ∧ b = P c ∧
        (b = true → q.position = p.position + 1) := by
  intro e
  induction e with
  | char x =>
    intro P hP buf f p b q h
    have : P = fun c => decide (c = x) := (Option.some.inj hP).symm
    subst this
    obtain ⟨c, hc, hb, hq⟩ := run_char_done h
    refine ⟨c, hc, hb, ?_⟩
    intro hbt
    rw [hbt] at hb
    rw [if_pos (of_decide_eq_true hb.symm)] at hq
    rw [hq, State.advance_position]
  | range l u =>
    intro P hP buf f p b q h
    have : P = fun c => decide (l ≤ c ∧ c ≤ u) := (Option.some.inj hP).symm
    subst this
    obtain ⟨c, hc, hb, hq⟩ := run_range_done h
    refine ⟨c, hc, hb, ?_⟩
    intro hbt
    rw [hbt] at hb
    rw [if_pos (of_decide_eq_true hb.symm)] at hq
    rw [hq, State.advance_position]
  | alt a b iha ihb =>
    intro P hP buf f p bb q h
    have hP0 : (match a.classWith cls, b.classWith cls with
        | some x, some y => some (fun c => x c || y c)
        | _, _ => none) = some P := hP
    cases hca : a.classWith cls with
    | none => rw [hca] at hP0; cases hP0
    | some x =>
      cases hcb : b.classWith cls with
      | none => rw [hca, hcb] at hP0; cases hP0
      | some y =>
        rw [hca, hcb] at hP0
        have : P = fun c => x c || y c := (Option.some.inj hP0).symm
        subst this
        cases f with
        | zero => cases h
        | succ f =>
          rw [run_alt] at h
          cases hres : run buf f a p with
          | done r =>
            obtain ⟨ba, p1⟩ := r
            rw [hres] at h
            obtain ⟨c, hc, h1, h2⟩ := iha x hca buf f p ba p1 hres
            cases ba with
            | true =>
              simp only [Outcome.done.injEq, Prod.mk.injEq] at h
              refine ⟨c, hc, ?_, ?_⟩
              · show bb = (x c || y c)
                rw [← h1, ← h.1]
                rfl
              · intro _
                rw [← h.2]
                exact h2 rfl
            | false =>
              obtain ⟨c', hc', h3, h4⟩ := ihb y hcb buf f (p1.restore p) bb q h
              rw [State.restore_position] at hc' h4
              have hcc : c' = c := by
                rw [hc] at hc'
                exact (Option.some.inj hc').symm
              subst hcc
              refine ⟨c', hc, ?_, h4⟩
              show bb = (x c' || y c')
              rw [← h1, ← h3]
              rfl
          | fault => rw [hres] at h; cases h
          | timeout => rw [hres] at h; cases h
  | call r =>
    intro P hP buf f p b q h
    exact hcls r P hP buf f p b q h
  | dot => intro P hP; cases hP
  | action => intro P hP; cases hP
  | seq _ _ _ _ => intro P hP; cases hP
  | peekFor _ _ => intro P hP; cases hP
  | peekNot _ _ => intro P hP; cases hP
  | query _ _ => intro P hP; cases hP
  | star _ _ => intro P hP; cases hP
  | plus _ _ => intro P hP; cases hP

theorem ruleClass_sound : ∀ k, ClassSound (ruleClass k) := by
  intro k
  induction k with
  | zero => intro r P hP; cases hP
  | succ k ih =>
    intro r P hP buf f p b q h
    obtain ⟨f', body, p', -, hr, hrun, hq⟩ := run_call_done h
    have hP' : body.classWith (ruleClass k) = some P := by
      have h0 : (match rules r with
          | some body => body.classWith (ruleClass k)
          | none => none) = some P := hP
      rw [hr] at h0
      exact h0
    obtain ⟨c, hc, hb, hpos⟩ := classWith_sound ih body P hP' buf f' p b p' hrun
    refine ⟨c, hc, hb, ?_⟩
    intro hbt
    rw [hq, hbt, if_pos rfl]
    exact hpos hbt

/-- A rule whose body is a class of single runes reads the rune at the position
and matches exactly when the rune is in the class. -/
theorem run_class {r : pegRule} (hr : (ruleClass 3 r).isSome = true) {buf : List Nat}
    {f : Nat} {p : State} {b : Bool} {q : State} (h : run buf f (.call r) p = .done (b, q)) :
    ∃ c, buf.get? p.position = some c ∧ b = inClass r c ∧
      (b = true → q.position = p.position + 1) := by
  cases hc : ruleClass 3 r with
  | none => rw [hc] at hr; cases hr
  | some P =>
    obtain ⟨c, h1, h2, h3⟩ := ruleClass_sound 3 r P hc buf f p b q h
    refine ⟨c, h1, ?_, h3⟩
    unfold inClass
    rw [hc]
    exact h2

theorem Outcome.matched_eq {r : Outcome (Bool × State)} {q : State}
    (h : r.matched = some q) : r = .done (true, q) := by
  cases r with
  | done x =>
    obtain ⟨b, q'⟩ := x
    cases b with
    | true => rw [Option.some.inj h]
    | false => cases h
  | fault => cases h
  | timeout => cases h

theorem Outcome.matched_map {α : Type} {r : Outcome (Bool × State)} {g : State → α} {a : α}
    (h : r.matched.map g = some a) : ∃ q, r = .done (true, q) ∧ g q = a := by
  cases hm : r.matched with
  | none => rw [hm] at h; cases h
  | some q =>
    rw [hm] at h
    exact ⟨q, Outcome.matched_eq hm, Option.some.inj h⟩

/-! ### What follows a rank marker -/

/-- A match of rule `SpaceCharEOI` starts at a space or at the sentinel. -/
theorem run_SpaceCharEOI_true {buf : List Nat} {f : Nat} {p q : State}
    (h : run buf f (.call .ruleSpaceCharEOI) p = .done (true, q)) :
    buf.get? p.position = some 32 ∨ buf.get? p.position = some endSymbol := by
  obtain ⟨f1, p1, -, h1, -⟩ :=
    run_call_true (rfl : rules .ruleSpaceCharEOI = some (.alt (.call .rule_) (.peekNot .dot))) h
  obtain ⟨f2, -, h2⟩ := run_alt_true h1
  rcases h2 with h2 | ⟨p2, -, h2⟩
  · left
    cases hg : buf.get? p.position with
    | none =>
      exact absurd h2 (run_ne_done_of_fault buf (run_space_fault buf 0 p hg) _)
    | some x =>
      by_cases hx : x = 32
      · rw [hx]
      · obtain ⟨q', hq', -⟩ := run_space_at_other buf 0 p x hg hx
        have := run_det buf h2 hq'
        cases this
  · right
    have := (run_peekNot_dot_true h2).1
    rw [State.restore_position] at this
    exact this

/-- The lookahead `&SpaceCharEOI` matches only before a space or the sentinel and
leaves the position where it was. -/
theorem run_peekFor_SpaceCharEOI {buf : List Nat} {f : Nat} {p q : State}
    (h : run buf f (.peekFor (.call .ruleSpaceCharEOI)) p = .done (true, q)) :
    q.position = p.position ∧
      (buf.get? p.position = some 32 ∨ buf.get? p.position = some endSymbol) := by
  obtain ⟨f1, p1, -, h1, hq⟩ := run_peekFor_true h
  exact ⟨by rw [hq, State.restore_position], run_SpaceCharEOI_true h1⟩

/-- The end of a rank marker `(&SpaceCharEOI / '.')`: a lookahead, or a
period. -/
theorem run_rank_end {buf : List Nat} {f : Nat} {p q : State}
    (h : run buf f (.alt (.peekFor (.call .ruleSpaceCharEOI)) (.char 46)) p = .done (true, q)) :
    (q.position = p.position ∧
      (buf.get? p.position = some 32 ∨ buf.get? p.position = some endSymbol)) ∨
    (q.position = p.position + 1 ∧ buf.get? p.position = some 46) := by
  obtain ⟨f1, -, h1⟩ := run_alt_true h
  rcases h1 with h1 | ⟨p1, -, h1⟩
  · exact Or.inl (run_peekFor_SpaceCharEOI h1)
  · right
    obtain ⟨x, hx, hb, hq⟩ := run_char_done h1
    have hxc : x = 46 := of_decide_eq_true hb.symm
    rw [if_pos hxc, State.restore_position] at *
    rw [hq, State.advance_position, State.restore_position, hx, hxc]
    exact ⟨rfl, rfl⟩

/-- A marker followed by `&SpaceCharEOI`. -/
theorem run_marker_peek {buf : List Nat} {f : Nat} {a : Expr} {p q : State}
    (h : run buf f (.seq a (.peekFor (.call .ruleSpaceCharEOI))) p = .done (true, q)) :
    buf.get? q.position = some ' '.toNat ∨ buf.get? q.position = some endSymbol := by
  obtain ⟨f1, p1, -, -, h2⟩ := run_seq_true h
  obtain ⟨hq, hn⟩ := run_peekFor_SpaceCharEOI h2
  rw [hq]
  exact hn

/-- Evaluated: the name tokens of `Aus bus var.alba`. -/
theorem tokens_Aus_bus_var_alba :
    (runTokens (Engine.new "Aus bus var.alba").reset.buffer 150 (.call .ruleSciName) 0
        []).tokens.map (fun ts => ts.filter isNameRule) =
      some [⟨.ruleGenusWord, 0, 3⟩, ⟨.ruleWord, 4, 7⟩, ⟨.ruleSpeciesEpithet, 4, 7⟩,
        ⟨.ruleRank, 8, 12⟩, ⟨.ruleWord, 12, 16⟩, ⟨.ruleInfraspEpithet, 8, 16⟩,
        ⟨.ruleNameSpecies, 0, 16⟩, ⟨.ruleName, 0, 16⟩, ⟨.ruleTail, 16, 16⟩,
        ⟨.ruleSciName, 0, 16⟩] := by
  decide!

/-- Evaluated: the name tokens of `Aus bus varietyalba`. -/
theorem tokens_Aus_bus_varietyalba :
    (runTokens (Engine.new "Aus bus varietyalba").reset.buffer 150 (.call .ruleSciName) 0
        []).tokens.map (fun ts => ts.filter isNameRule) =
      some [⟨.ruleGenusWord, 0, 3⟩, ⟨.ruleWord, 4, 7⟩, ⟨.ruleSpeciesEpithet, 4, 7⟩,
        ⟨.ruleRank, 8, 15⟩, ⟨.ruleWord, 15, 19⟩, ⟨.ruleInfraspEpithet, 8, 19⟩,
        ⟨.ruleNameSpecies, 0, 19⟩, ⟨.ruleName, 0, 19⟩, ⟨.ruleTail, 19, 19⟩,
        ⟨.ruleSciName, 0, 19⟩] := by
  decide!

/-- Evaluated: rule `Rank` matches the first 4 runes of `var. alba`. -/
theorem run_Rank_var_alba :
    (run (runesOf "var. alba" ++ [endSymbol]) 30 (.call .ruleRank)
        ⟨token32.zero, 0, 0, []⟩).matched.map (fun q => q.position) = some 4 := by
  decide!

/-! ### Two-letter genera -/

theorem rules_TwoLetterGenus :
    ∃ body, rules .ruleTwoLetterGenus = some body ∧ body.literals = some twoLetterGenera :=
  ⟨_, rfl, rfl⟩

theorem twoLetterGenera_length : ∀ l ∈ twoLetterGenera, l.length = 2 := by
  decide

/-- Rule `TwoLetterGenus` matches exactly when one of the 18 pairs stands at the
position, and then moves the position by 2. -/
theorem run_TwoLetterGenus {buf : List Nat} {f : Nat} {p : State} {b : Bool} {q : State}
    (h : run buf f (.call .ruleTwoLetterGenus) p = .done (b, q)) :
    (b = true → (∃ l ∈ twoLetterGenera, matchesAt buf p.position l = true) ∧
      q.position = p.position + 2) ∧
    (b = false → ∀ l ∈ twoLetterGenera, matchesAt buf p.position l = false) := by
  obtain ⟨f', body, p', -, hr, hrun, hq⟩ := run_call_done h
  obtain ⟨body', hr', hl⟩ := rules_TwoLetterGenus
  rw [hr] at hr'
  have hbody : body = body' := Option.some.inj hr'
  subst hbody
  obtain ⟨h1, h2⟩ := run_literals body twoLetterGenera hl f' p b p' hrun
  refine ⟨?_, h2⟩
  intro hb
  obtain ⟨l, hl1, hl2, hl3⟩ := h1 hb
  refine ⟨⟨l, hl1, hl2⟩, ?_⟩
  rw [hq, hb, if_pos rfl, hl3, twoLetterGenera_length l hl1]

theorem run_CapWord1 {buf : List Nat} {f : Nat} {p q : State}
    (h : run buf f (.call .ruleCapWord1) p = .done (true, q)) :
    ThreeLetters buf p.position q.position := by
  obtain ⟨f1, p1, -, h1, hq⟩ := run_call_true
    (rfl : rules .ruleCapWord1 = some (.seq (.call .ruleNameUpperChar)
      (.seq (.call .ruleNameLowerChar) (.seq (.plus (.call .ruleNameLowerChar))
        (.query (.char 63)))))) h
  obtain ⟨f2, s1, -, h2, h3⟩ := run_seq_true h1
  obtain ⟨f3, s2, -, h4, h5⟩ := run_seq_true h3
  obtain ⟨f4, s3, -, h6, h7⟩ := run_seq_true h5
  obtain ⟨f5, s2', -, h8, h9⟩ := run_plus_true h6
  obtain ⟨c1, hc1, hb1, hp1⟩ := run_class (r := .ruleNameUpperChar) rfl h2
  obtain ⟨c2, hc2, hb2, hp2⟩ := run_class (r := .ruleNameLowerChar) rfl h4
  obtain ⟨c3, hc3, hb3, hp3⟩ := run_class (r := .ruleNameLowerChar) rfl h8
  have hp1' := hp1 rfl
  have hp2' := hp2 rfl
  have hp3' := hp3 rfl
  have hm1 := run_position_mono h9
  have hm2 := run_position_mono h7
  rw [hp1'] at hc2 hp2'
  rw [hp2'] at hc3 hp3'
  refine ⟨c1, c2, c3, hc1, hc2, hc3, hb1.symm, hb2.symm, hb3.symm, ?_⟩
  rw [hq, State.add_position]
  omega

theorem run_CapWord {buf : List Nat} {f : Nat} {p q : State}
    (h : run buf f (.call .ruleCapWord) p = .done (true, q)) :
    ThreeLetters buf p.position q.position := by
  obtain ⟨f1, p1, -, h1, hq⟩ := run_call_true
    (rfl : rules .ruleCapWord = some (.alt (.call .ruleCapWord2) (.call .ruleCapWord1))) h
  rw [hq, State.add_position]
  obtain ⟨f2, -, h2⟩ := run_alt_true h1
  rcases h2 with h2 | ⟨p2, -, h2⟩
  · obtain ⟨f3, p3, -, h3, hq3⟩ := run_call_true
      (rfl : rules .ruleCapWord2 = some (.seq (.call .ruleCapWord1) (.seq (.call .ruledash)
        (.alt (.call .ruleCapWord1) (.call .ruleWord1))))) h2
    obtain ⟨f4, s1, -, h4, h5⟩ := run_seq_true h3
    obtain ⟨c1, c2, c3, hc1, hc2, hc3, hb1, hb2, hb3, hle⟩ := run_CapWord1 h4
    have hm := run_position_mono h5
    refine ⟨c1, c2, c3, hc1, hc2, hc3, hb1, hb2, hb3, ?_⟩
    rw [hq3, State.add_position]
    omega
  · have := run_CapWord1 h2
    rw [State.restore_position] at this
    exact this

/-- Every match of rule `UninomialWord` is one of the 18 two-letter genera, over
2 runes, or a capitalised word of at least three letters. -/
theorem run_UninomialWord {buf : List Nat} {f : Nat} {p q : State}
    (h : run buf f (.call .ruleUninomialWord) p = .done (true, q)) :
    ((∃ l ∈ twoLetterGenera, matchesAt buf p.position l = true) ∧
      q.position = p.position + 2) ∨ ThreeLetters buf p.position q.position := by
  obtain ⟨f1, p1, -, h1, hq⟩ := run_call_true
    (rfl : rules .ruleUninomialWord =
      some (.alt (.call .ruleCapWord) (.call .ruleTwoLetterGenus))) h
  rw [hq, State.add_position]
  obtain ⟨f2, -, h2⟩ := run_alt_true h1
  rcases h2 with h2 | ⟨p2, -, h2⟩
  · exact Or.inr (run_CapWord h2)
  · have := (run_TwoLetterGenus h2).1 rfl
    rw [State.restore_position] at this
    exact Or.inl this

/-- Claim C24.  On every buffer, at a position whose third rune is not a
lower-case name letter (so that a word that starts there has at most two
letters), rule `UninomialWord` matches if and only if the two runes at the
position are one of the 18 pairs Ca, Ea, Ge, Ia, Io, Ix, Lo, Oa, Ra, Ty, Ua, Aa,
Ja, Zu, La, Qu, As, Ba, and the match spans these two runes.  Every other match of
`UninomialWord`, at any position of any buffer, starts with an upper-case name
letter and two lower-case name letters and spans at least three runes. -/
theorem UninomialWord_two_letters {buf : List Nat} {n : Nat} (hb : IsBuffer buf n)
    (p : State) (c : Nat) (h3 : buf.get? (p.position + 2) = some c)
    (hc : inClass .ruleNameLowerChar c = false) :
    ((∃ f q, run buf f (.call .ruleUninomialWord) p = .done (true, q)) ↔
      ∃ l ∈ twoLetterGenera, matchesAt buf p.position l = true) ∧
    (∀ f q, run buf f (.call .ruleUninomialWord) p = .done (true, q) →
      q.position = p.position + 2) ∧
    (∀ (buf' : List Nat) (f : Nat) (p' q : State),
      run buf' f (.call .ruleUninomialWord) p' = .done (true, q) →
      ((∃ l ∈ twoLetterGenera, matchesAt buf' p'.position l = true) ∧
        q.position = p'.position + 2) ∨ ThreeLetters buf' p'.position q.position) := by
  have key : ∀ f q, run buf f (.call .ruleUninomialWord) p = .done (true, q) →
      (∃ l ∈ twoLetterGenera, matchesAt buf p.position l = true) ∧
        q.position = p.position + 2 := by
    intro f q h
    rcases run_UninomialWord h with h1 | ⟨c1, c2, c3, -, -, hc3, -, -, hb3, -⟩
    · exact h1
    · rw [h3] at hc3
      rw [← Option.some.inj hc3, hc] at hb3
      cases hb3
  refine ⟨⟨?_, ?_⟩, fun f q h => (key f q h).2, fun buf' f p' q h => run_UninomialWord h⟩
  · rintro ⟨f, q, h⟩
    exact (key f q h).1
  · rintro ⟨l, hl, hm⟩
    have hp : p.position ≤ n := by
      have := hb.le_of_get h3
      omega
    obtain ⟨f, ⟨b, q⟩, h⟩ := run_returns hb .ruleUninomialWord (by decide) p hp
    cases b with
    | true => exact ⟨f, q, h⟩
    | false =>
      exfalso
      obtain ⟨f1, body, p1, -, hr, h1, -⟩ := run_call_false h
      have hr' : rules .ruleUninomialWord =
          some (.alt (.call .ruleCapWord) (.call .ruleTwoLetterGenus)) := rfl
      rw [hr] at hr'
      have hbody := Option.some.inj hr'
      subst hbody
      obtain ⟨f2, p2, -, -, h2⟩ := run_alt_false h1
      have h4 := (run_TwoLetterGenus h2).2 rfl l hl
      rw [State.restore_position, hm] at h4
      cases h4

/-- Evaluated: the third cell of the buffer of `Aa` holds the sentinel, which is
no lower-case name letter, and `Aa` is one of the 18 pairs. -/
theorem UninomialWord_two_letters_witness :
    (Engine.new "Aa").reset.buffer.get? 2 = some endSymbol ∧
    inClass .ruleNameLowerChar endSymbol = false ∧
    (∃ f q, run (Engine.new "Aa").reset.buffer f (.call .ruleUninomialWord)
      (Engine.new "Aa").reset.state = .done (true, q)) ∧
    (¬ ∃ f q, run (Engine.new "Ab").reset.buffer f (.call .ruleUninomialWord)
      (Engine.new "Ab").reset.state = .done (true, q)) :=
  ⟨by decide, by decide,
    (UninomialWord_two_letters (reset_isBuffer (Engine.new "Aa")) (Engine.new "Aa").reset.state
      endSymbol (by decide) (by decide)).1.2 ⟨runesOf "Aa", by decide, by decide⟩,
    fun h => absurd
      ((UninomialWord_two_letters (reset_isBuffer (Engine.new "Ab"))
        (Engine.new "Ab").reset.state endSymbol (by decide) (by decide)).1.1 h)
      (by decide)⟩

/-! ### Groups of an authorship -/

theorem authGroupDetail_Authors (g : Option authorsGroupNode) :
    (authGroupDetail g).Authors = authorsGroupNode.firstTeamAuthors g := by
  cases g with
  | none => rfl
  | some ag =>
    obtain ⟨T1, T2T, T2W, T2, P⟩ := ag
    cases T1 with
    | none => cases T2 <;> cases T2T <;> rfl
    | some t1 =>
      obtain ⟨a1, y1⟩ := t1
      cases y1 <;> cases T2 <;> cases T2T <;> rfl

theorem authGroupDetail_second_team (g : authorsGroupNode) :
    (authGroupDetail (some g)).ExAuthors =
        (match g.Team2, g.Team2Type with
          | some t2, .teamEx =>
            some { Authors := t2.Authors.map (fun v => v.Value)
                   Year := (authorsTeamNode.details (some t2)).2 }
          | _, _ => none) ∧
      (authGroupDetail (some g)).EmendAuthors =
        (match g.Team2, g.Team2Type with
          | some t2, .teamEmend =>
            some { Authors := t2.Authors.map (fun v => v.Value)
                   Year := (authorsTeamNode.details (some t2)).2 }
          | _, _ => none) := by
  obtain ⟨T1, T2T, T2W, T2, P⟩ := g
  cases T2 with
  | none => cases T2T <;> exact ⟨rfl, rfl⟩
  | some t2 =>
    obtain ⟨a2, y2⟩ := t2
    cases y2 <;> cases T2T <;> exact ⟨rfl, rfl⟩

/-- Claim C36.  For every non-nil authorship node `details` returns a record
whose `Original` group is not nil (it is `authGroupDetail` of the original
authors), whose `Combination` group is nil exactly when the node has no
combination authors, and whose flat `Authors` list is the authors of the first
team of the original group followed by the authors of the first team of the
combination group, in order.  The second team of a group does not enter the
`Authors` of the group, hence not the flat list: it is recorded under `ExAuthors`
when it is an ex team and under `EmendAuthors` when it is an emend team, and
nowhere otherwise. -/
theorem authorshipNode_details_groups (au : authorshipNode) :
    ∃ (a : parsed.Authorship) (o : parsed.AuthGroup),
      authorshipNode.details (some au) = some a ∧
      a.Original = some o ∧ o = authGroupDetail au.OriginalAuthors ∧
      (a.Combination = none ↔ au.CombinationAuthors = none) ∧
      a.Combination = au.CombinationAuthors.map (fun c => authGroupDetail (some c)) ∧
      o.Authors = authorsGroupNode.firstTeamAuthors au.OriginalAuthors ∧
      (∀ c, a.Combination = some c →
        c.Authors = authorsGroupNode.firstTeamAuthors au.CombinationAuthors) ∧
      a.Authors = authorsGroupNode.firstTeamAuthors au.OriginalAuthors ++
        authorsGroupNode.firstTeamAuthors au.CombinationAuthors ∧
      (∀ g : authorsGroupNode,
        (authGroupDetail (some g)).Authors = authorsGroupNode.firstTeamAuthors (some g) ∧
        (authGroupDetail (some g)).ExAuthors =
          (match g.Team2, g.Team2Type with
            | some t2, .teamEx =>
              some { Authors := t2.Authors.map (fun v => v.Value)
                     Year := (authorsTeamNode.details (some t2)).2 }
            | _, _ => none) ∧
        (authGroupDetail (some g)).EmendAuthors =
          (match g.Team2, g.Team2Type with
            | some t2, .teamEmend =>
              some { Authors := t2.Authors.map (fun v => v.Value)
                     Year := (authorsTeamNode.details (some t2)).2 }
            | _, _ => none)) := by
  obtain ⟨V, O, C⟩ := au
  refine ⟨_, authGroupDetail O, rfl, rfl, rfl, ?_, ?_, authGroupDetail_Authors O, ?_, ?_, ?_⟩
  · cases C with
    | none => exact ⟨fun _ => rfl, fun _ => rfl⟩
    | some c => exact ⟨fun h => (by cases h), fun h => (by cases h)⟩
  · cases C <;> rfl
  · intro c hc
    cases C with
    | none => cases hc
    | some c' =>
      have : c = authGroupDetail (some c') := (Option.some.inj hc).symm
      rw [this]
      exact authGroupDetail_Authors (some c')
  · cases C with
    | none =>
      show (authGroupDetail O).Authors = _
      rw [authGroupDetail_Authors]
      exact (List.append_nil _).symm
    | some c =>
      show (authGroupDetail O).Authors ++ (authGroupDetail (some c)).Authors = _
      rw [authGroupDetail_Authors, authGroupDetail_Authors]
  · intro g
    exact ⟨authGroupDetail_Authors (some g), authGroupDetail_second_team g⟩

/-! ### Combinations of uninomials -/

/-- Claim C37.  For every uninomial combination node (parent `Uninomial1`, rank,
child `Uninomial2`) the simple canonical is the normalized child alone; the ranked
canonical is the normalized parent, rank and child, empty ones skipped, joined by
single spaces; the details give the child as `Value` with the parent as `Parent`
and the rank as `Rank`, and the details of the child's authorship; and the last
authorship is the child's authorship, which `LastAuthorship` reports. -/
theorem uninomialComboNode_canonical {W H S B : Type} (u : uninomialComboNode)
    (sn : scientificNameNode W H S B) :
    (name.uninomialComboNode u).canonical.Value = u.Uninomial2.Word.NormValue ∧
    (name.uninomialComboNode u).canonical.ValueRanked =
      joinWords ([u.Uninomial1.Word.NormValue, u.Rank.Word.NormValue,
        u.Uninomial2.Word.NormValue].filter (fun w => w ≠ "")) ∧
    (u.Uninomial1.Word.NormValue ≠ "" → u.Rank.Word.NormValue ≠ "" →
      u.Uninomial2.Word.NormValue ≠ "" →
      (name.uninomialComboNode u).canonical.ValueRanked =
        u.Uninomial1.Word.NormValue ++ " " ++ u.Rank.Word.NormValue ++ " " ++
          u.Uninomial2.Word.NormValue) ∧
    (name.uninomialComboNode u).details =
      .DetailsUninomial
        { Value := u.Uninomial2.Word.NormValue
          Rank := u.Rank.Word.NormValue
          Parent := u.Uninomial1.Word.NormValue
          Authorship := authorshipNode.details u.Uninomial2.Authorship } ∧
    (name.uninomialComboNode u).lastAuthorship = u.Uninomial2.Authorship ∧
    (sn.nameData = some (.uninomialComboNode u) →
      sn.LastAuthorship true = authorshipNode.details u.Uninomial2.Authorship) := by
  have hr : (name.uninomialComboNode u).canonical.ValueRanked =
      [u.Rank.Word.NormValue, u.Uninomial2.Word.NormValue].foldl
        (fun acc w => JoinStrings acc w " ") u.Uninomial1.Word.NormValue := rfl
  refine ⟨rfl, ?_, ?_, ?_, rfl, ?_⟩
  · rw [hr, foldl_JoinStrings_eq_joinWords]
  · intro h1 h2 h3
    show JoinStrings (JoinStrings u.Uninomial1.Word.NormValue u.Rank.Word.NormValue " ")
      u.Uninomial2.Word.NormValue " " = _
    rw [JoinStrings_of_ne " " h1 h2, JoinStrings_of_ne " " (String_append_sep_ne_empty _ _) h3]
  · show u.details = _
    unfold uninomialComboNode.details
    cases u.Uninomial2.Authorship <;> rfl
  · intro h
    unfold scientificNameNode.LastAuthorship
    rw [h]
    show (match u.Uninomial2.Authorship with
      | none => none
      | some an =>
        match authorshipNode.details (some an) with
        | none => none
        | some res => if !true then some { res with Original := none, Combination := none }
          else some res) = _
    cases u.Uninomial2.Authorship <;> rfl

/-! ### Hybrid formulas -/

theorem canonicalLoop_Value (els : List (hybridElement name)) (c : canonical) :
    (hybridFormulaNode.canonicalLoop c els).Value =
      (els.flatMap (hybridElement.canonicalParts (fun c => c.Value))).foldl
        (fun acc w => JoinStrings acc w " ") c.Value := by
  induction els generalizing c with
  | nil => rfl
  | cons v els ih =>
    obtain ⟨hc, sp⟩ := v
    cases sp with
    | none =>
      rw [hybridFormulaNode.canonicalLoop, ih]
      rfl
    | some s =>
      rw [hybridFormulaNode.canonicalLoop, ih]
      rfl

theorem canonicalLoop_ValueRanked (els : List (hybridElement name)) (c : canonical) :
    (hybridFormulaNode.canonicalLoop c els).ValueRanked =
      (els.flatMap (hybridElement.canonicalParts (fun c => c.ValueRanked))).foldl
        (fun acc w => JoinStrings acc w " ") c.ValueRanked := by
  induction els generalizing c with
  | nil => rfl
  | cons v els ih =>
    obtain ⟨hc, sp⟩ := v
    cases sp with
    | none =>
      rw [hybridFormulaNode.canonicalLoop, ih]
      rfl
    | some s =>
      rw [hybridFormulaNode.canonicalLoop, ih]
      rfl

/-- Claim C38.  For every hybrid formula node the simple canonical is the simple
canonical of the first name followed, for each hybrid element in order, by the
normalized hybrid sign and, when the element has a name, the simple canonical of
that name, empty parts skipped, all joined by single spaces; the ranked canonical
is the same with the ranked canonical of the names.  So a hybrid sign that is not
empty is one of the words of the simple canonical of the formula. -/
theorem hybridFormulaNode_canonical (FirstSpecies : name)
    (HybridElements : List (hybridElement name)) :
    (name.hybridFormulaNode FirstSpecies HybridElements).canonical.Value =
      joinWords ((FirstSpecies.canonical.Value ::
        HybridElements.flatMap (hybridElement.canonicalParts (fun c => c.Value))).filter
          (fun w => w ≠ "")) ∧
    (name.hybridFormulaNode FirstSpecies HybridElements).canonical.ValueRanked =
      joinWords ((FirstSpecies.canonical.ValueRanked ::
        HybridElements.flatMap (hybridElement.canonicalParts (fun c => c.ValueRanked))).filter
          (fun w => w ≠ "")) ∧
    (∀ v ∈ HybridElements, v.HybridChar.NormValue ≠ "" →
      v.HybridChar.NormValue ∈ (FirstSpecies.canonical.Value ::
        HybridElements.flatMap (hybridElement.canonicalParts (fun c => c.Value))).filter
          (fun w => w ≠ "")) ∧
    (∀ (sign : parsedWord) (second : name),
      FirstSpecies.canonical.Value ≠ "" → sign.NormValue ≠ "" → second.canonical.Value ≠ "" →
      (name.hybridFormulaNode FirstSpecies [⟨sign, some second⟩]).canonical.Value =
        FirstSpecies.canonical.Value ++ " " ++ sign.NormValue ++ " " ++
          second.canonical.Value) := by
  refine ⟨?_, ?_, ?_, ?_⟩
  · show (hybridFormulaNode.canonicalLoop FirstSpecies.canonical HybridElements).Value = _
    rw [canonicalLoop_Value, foldl_JoinStrings_eq_joinWords]
  · show (hybridFormulaNode.canonicalLoop FirstSpecies.canonical HybridElements).ValueRanked = _
    rw [canonicalLoop_ValueRanked, foldl_JoinStrings_eq_joinWords]
  · intro v hv hne
    rw [List.mem_filter]
    refine ⟨List.mem_cons_of_mem _ (List.mem_flatMap.2 ⟨v, hv, ?_⟩), by simpa using hne⟩
    unfold hybridElement.canonicalParts
    cases v.Species <;> simp
  · intro sign second h1 h2 h3
    show JoinStrings (JoinStrings FirstSpecies.canonical.Value sign.NormValue " ")
      second.canonical.Value " " = _
    rw [JoinStrings_of_ne " " h1 h2, JoinStrings_of_ne " " (String_append_sep_ne_empty _ _) h3]

/-! ### Batches of lines -/

theorem run_star_done {buf : List Nat} :
    ∀ (f : Nat) (e : Expr) (p : State) (b : Bool) (q : State),
      run buf f (.star e) p = .done (b, q) → b = true := by
  intro f
  induction f with
  | zero => intro e p b q h; cases h
  | succ f ih =>
    intro e p b q h
    rw [run_star] at h
    cases hres : run buf f e p with
    | done x =>
      obtain ⟨ba, p'⟩ := x
      rw [hres] at h
      cases ba with
      | true => exact ih e p' b q h
      | false =>
        simp only [Outcome.done.injEq, Prod.mk.injEq] at h
        exact h.1.symm
    | fault => rw [hres] at h; cases h
    | timeout => rw [hres] at h; cases h

theorem run_peekNot_done {buf : List Nat} {f : Nat} {e : Expr} {p : State} {b : Bool}
    {q : State} (h : run buf f (.peekNot e) p = .done (b, q)) :
    ∃ f' p', f = f' + 1 ∧ run buf f' e p = .done (!b, p') ∧
      q = if b then p'.restore p else p' := by
  cases f with
  | zero => cases h
  | succ f =>
    rw [run_peekNot] at h
    cases hres : run buf f e p with
    | done x =>
      obtain ⟨ba, p'⟩ := x
      rw [hres] at h
      cases ba with
      | true =>
        simp only [Outcome.done.injEq, Prod.mk.injEq] at h
        obtain ⟨hb, hq⟩ := h
        subst hb hq
        exact ⟨f, p', rfl, hres, rfl⟩
      | false =>
        simp only [Outcome.done.injEq, Prod.mk.injEq] at h
        obtain ⟨hb, hq⟩ := h
        subst hb hq
        exact ⟨f, p', rfl, hres, rfl⟩
    | fault => rw [hres] at h; cases h
    | timeout => rw [hres] at h; cases h

theorem run_peekFor_false {buf : List Nat} {f : Nat} {e : Expr} {p q : State}
    (h : run buf f (.peekFor e) p = .done (false, q)) :
    ∃ f', f = f' + 1 ∧ run buf f' e p = .done (false, q) := by
  cases f with
  | zero => cases h
  | succ f =>
    rw [run_peekFor] at h
    cases hres : run buf f e p with
    | done x =>
      obtain ⟨ba, p'⟩ := x
      rw [hres] at h
      cases ba with
      | true => cases h
      | false =>
        simp only [Outcome.done.injEq, Prod.mk.injEq, true_and] at h
        subst h
        exact ⟨f, rfl, hres⟩
    | fault => rw [hres] at h; cases h
    | timeout => rw [hres] at h; cases h

theorem run_plus_false {buf : List Nat} {f : Nat} {e : Expr} {p q : State}
    (h : run buf f (.plus e) p = .done (false, q)) :
    ∃ f', f = f' + 1 ∧ run buf f' e p = .done (false, q) := by
  cases f with
  | zero => cases h
  | succ f =>
    rw [run_plus] at h
    cases hres : run buf f e p with
    | done x =>
      obtain ⟨ba, p'⟩ := x
      rw [hres] at h
      cases ba with
      | true => cases run_star_done f e p' false q h
      | false =>
        simp only [Outcome.done.injEq, Prod.mk.injEq, true_and] at h
        subst h
        exact ⟨f, rfl, hres⟩
    | fault => rw [hres] at h; cases h
    | timeout => rw [hres] at h; cases h

theorem run_query_done {buf : List Nat} {f : Nat} {e : Expr} {p : State} {b : Bool} {q : State}
    (h : run buf f (.query e) p = .done (b, q)) : b = true := by
  cases f with
  | zero => cases h
  | succ f =>
    rw [run_query] at h
    cases hres : run buf f e p with
    | done x =>
      obtain ⟨ba, p'⟩ := x
      rw [hres] at h
      cases ba <;>
        · simp only [Outcome.done.injEq, Prod.mk.injEq] at h
          exact h.1.symm
    | fault => rw [hres] at h; cases h
    | timeout => rw [hres] at h; cases h

/-- An expression that `failsClean` fails with the position and the token index
it was entered with. -/
theorem run_failsClean {buf : List Nat} (e : Expr) :
    ∀ (f : Nat) (p q : State), e.failsClean = true → run buf f e p = .done (false, q) →
      q.position = p.position ∧ q.tokenIndex = p.tokenIndex := by
  induction e with
  | dot =>
    intro f p q _ h
    obtain ⟨c, -, hb, hq⟩ := run_dot_done h
    rw [if_neg (of_decide_eq_false hb.symm)] at hq
    rw [hq]
    exact ⟨rfl, rfl⟩
  | char c' =>
    intro f p q _ h
    obtain ⟨c, -, hb, hq⟩ := run_char_done h
    rw [if_neg (of_decide_eq_false hb.symm)] at hq
    rw [hq]
    exact ⟨rfl, rfl⟩
  | range l u =>
    intro f p q _ h
    obtain ⟨c, -, hb, hq⟩ := run_range_done h
    rw [if_neg (of_decide_eq_false hb.symm)] at hq
    rw [hq]
    exact ⟨rfl, rfl⟩
  | call r =>
    intro f p q _ h
    obtain ⟨f', body, p', -, -, -, hq⟩ := run_call_false h
    rw [hq]
    exact ⟨State.restore_position _ _, State.restore_tokenIndex _ _⟩
  | action =>
    intro f p q _ h
    cases f with
    | zero => cases h
    | succ f => rw [run_action] at h; cases h
  | seq a b _ _ => intro f p q hc; cases hc
  | alt a b _ ihb =>
    intro f p q hc h
    obtain ⟨f', p', -, -, hb⟩ := run_alt_false h
    have := ihb f' (p'.restore p) q hc hb
    rw [State.restore_position, State.restore_tokenIndex] at this
    exact this
  | peekFor e ih =>
    intro f p q hc h
    obtain ⟨f', -, he⟩ := run_peekFor_false h
    exact ih f' p q hc he
  | peekNot e _ => intro f p q hc; cases hc
  | query e _ =>
    intro f p q _ h
    cases run_query_done h
  | star e _ =>
    intro f p q _ h
    cases run_star_done f e p false q h
  | plus e ih =>
    intro f p q hc h
    obtain ⟨f', -, he⟩ := run_plus_false h
    exact ih f' p q hc he

theorem Expr.failsClean_of_peeksClean (body : Expr) :
    body.peeksClean = true → ∀ e, Expr.peekFor e ∈ body.subexprs → e.failsClean = true := by
  induction body with
  | seq a b iha ihb =>
    intro hc e he
    simp only [Expr.peeksClean, Bool.and_eq_true] at hc
    simp only [Expr.subexprs, List.mem_cons, List.mem_append] at he
    rcases he with he | he | he
    · cases he
    · exact iha hc.1 e he
    · exact ihb hc.2 e he
  | alt a b iha ihb =>
    intro hc e he
    simp only [Expr.peeksClean, Bool.and_eq_true] at hc
    simp only [Expr.subexprs, List.mem_cons, List.mem_append] at he
    rcases he with he | he | he
    · cases he
    · exact iha hc.1 e he
    · exact ihb hc.2 e he
  | peekFor x ih =>
    intro hc e he
    simp only [Expr.peeksClean, Bool.and_eq_true] at hc
    simp only [Expr.subexprs, List.mem_cons] at he
    rcases he with he | he
    · cases he
      exact hc.1
    · exact ih hc.2 e he
  | peekNot x ih =>
    intro hc e he
    simp only [Expr.subexprs, List.mem_cons] at he
    rcases he with he | he
    · cases he
    · exact ih hc e he
  | query x ih =>
    intro hc e he
    simp only [Expr.subexprs, List.mem_cons] at he
    rcases he with he | he
    · cases he
    · exact ih hc e he
  | star x ih =>
    intro hc e he
    simp only [Expr.subexprs, List.mem_cons] at he
    rcases he with he | he
    · cases he
    · exact ih hc e he
  | plus x ih =>
    intro hc e he
    simp only [Expr.subexprs, List.mem_cons] at he
    rcases he with he | he
    · cases he
    · exact ih hc e he
  | dot => intro _ e he; simp [Expr.subexprs] at he
  | char c => intro _ e he; simp [Expr.subexprs] at he
  | range l u => intro _ e he; simp [Expr.subexprs] at he
  | call r => intro _ e he; simp [Expr.subexprs] at he
  | action => intro _ e he; simp [Expr.subexprs] at he

theorem rules_peeksClean {r : pegRule} {body : Expr} (h : rules r = some body) :
    body.peeksClean = true := by
  cases r <;> cases h <;> rfl

theorem left_GenusWord_lookahead :
    (run (runesOf "Aus Bus" ++ [endSymbol]) 101
        (.peekNot (.seq (.call .rule_) (.call .ruleAuthorWord)))
        { max := token32.zero, position := 3, tokenIndex := 0, tree := [] }).left =
      some (false, 7, 11) := by
  decide!

theorem left_GenusWord_Aus_Bus :
    (run (runesOf "Aus Bus" ++ [endSymbol]) 103 (.call .ruleGenusWord)
        { max := token32.zero, position := 0, tokenIndex := 0, tree := [] }).left =
      some (false, 0, 0) := by
  decide!

/-- Claim C31 fails as stated for a lookahead `!e` that fails.  Rule `GenusWord`
ends with the lookahead `!(_ AuthorWord)`; on the buffer of `Aus Bus`, entered at
position 3 with no token, this lookahead fails (its operand matches ` Bus`) and
leaves position 7 and token index 11, not 3 and 0.  The rule around it then
returns false with the position and the token index it was entered with. -/
theorem peekNot_failure_not_restored :
    rules .ruleGenusWord =
      some (.seq (.alt (.call .ruleAbbrGenus) (.call .ruleUninomialWord))
        (.peekNot (.seq (.call .rule_) (.call .ruleAuthorWord)))) ∧
    (∃ q, run (runesOf "Aus Bus" ++ [endSymbol]) 101
        (.peekNot (.seq (.call .rule_) (.call .ruleAuthorWord)))
        { max := token32.zero, position := 3, tokenIndex := 0, tree := [] } = .done (false, q) ∧
      q.position = 7 ∧ q.tokenIndex = 11) ∧
    ¬ (∀ (buf : List Nat) (f : Nat) (e : Expr) (p : State) (b : Bool) (q : State),
      run buf f (.peekNot e) p = .done (b, q) →
        q.position = p.position ∧ q.tokenIndex = p.tokenIndex) ∧
    (run (runesOf "Aus Bus" ++ [endSymbol]) 103 (.call .ruleGenusWord)
        { max := token32.zero, position := 0, tokenIndex := 0, tree := [] }).left =
      some (false, 0, 0) := by
  have hq : ∃ q, run (runesOf "Aus Bus" ++ [endSymbol]) 101
      (.peekNot (.seq (.call .rule_) (.call .ruleAuthorWord)))
      { max := token32.zero, position := 3, tokenIndex := 0, tree := [] } = .done (false, q) ∧
      q.position = 7 ∧ q.tokenIndex = 11 := by
    have h := left_GenusWord_lookahead
    cases hres : run (runesOf "Aus Bus" ++ [endSymbol]) 101
        (.peekNot (.seq (.call .rule_) (.call .ruleAuthorWord)))
        { max := token32.zero, position := 3, tokenIndex := 0, tree := [] } with
    | done x =>
      obtain ⟨b, q⟩ := x
      rw [hres] at h
      simp only [Outcome.left, Option.some.injEq, Prod.mk.injEq] at h
      obtain ⟨hb, hp, ht⟩ := h
      subst hb
      exact ⟨q, rfl, hp, ht⟩
    | fault => rw [hres] at h; cases h
    | timeout => rw [hres] at h; cases h
  refine ⟨rfl, hq, ?_, left_GenusWord_Aus_Bus⟩
  intro hall
  obtain ⟨q, hrun, hp, -⟩ := hq
  have := (hall _ _ _ _ _ _ hrun).1
  rw [hp] at this
  cases this

/-- Claim C31, amended.  Every rule that returns false leaves the position and
the token index, and with them the live tokens, as they were when it was
entered.  A lookahead `&e` or `!e` that succeeds leaves them unchanged too, and so
does every lookahead `&e` of the grammar when it fails.  A lookahead `!e` that
fails does not restore them: it fails exactly when `e` matches and leaves the
position and the token index where the match of `e` ended (further on when `e`
cannot match the empty string); they are restored by the rule or the choice
around the lookahead. -/
theorem backtracking_restores (buf : List Nat) :
    (∀ f r p q, run buf f (.call r) p = .done (false, q) →
      q.position = p.position ∧ q.tokenIndex = p.tokenIndex ∧
        tokens32.Trim q.tree q.tokenIndex = tokens32.Trim p.tree p.tokenIndex) ∧
    (∀ f e p q, run buf f (.peekFor e) p = .done (true, q) →
      q.position = p.position ∧ q.tokenIndex = p.tokenIndex ∧
        tokens32.Trim q.tree q.tokenIndex = tokens32.Trim p.tree p.tokenIndex) ∧
    (∀ f e p q, run buf f (.peekNot e) p = .done (true, q) →
      q.position = p.position ∧ q.tokenIndex = p.tokenIndex ∧
        tokens32.Trim q.tree q.tokenIndex = tokens32.Trim p.tree p.tokenIndex) ∧
    (∀ r body e, rules r = some body → Expr.peekFor e ∈ body.subexprs →
      ∀ f p q, run buf f (.peekFor e) p = .done (false, q) →
        q.position = p.position ∧ q.tokenIndex = p.tokenIndex ∧
          tokens32.Trim q.tree q.tokenIndex = tokens32.Trim p.tree p.tokenIndex) ∧
    (∀ f e p q, run buf f (.peekNot e) p = .done (false, q) →
      (∃ f', run buf f' e p = .done (true, q)) ∧
        p.position ≤ q.position ∧ p.tokenIndex ≤ q.tokenIndex ∧
        (e.nullable = false → p.position < q.position)) ∧
    (∀ f a b p q, run buf f (.alt a b) p = .done (false, q) → b.failsClean = true →
      q.position = p.position ∧ q.tokenIndex = p.tokenIndex) := by
  refine ⟨?_, ?_, ?_, ?_, ?_, ?_⟩
  · intro f r p q h
    have hinv := (run_inv buf f (.call r) p false q h).1
    obtain ⟨f', body, p', -, -, -, hq⟩ := run_call_false h
    have hi : q.tokenIndex = p.tokenIndex := by rw [hq, State.restore_tokenIndex]
    refine ⟨by rw [hq, State.restore_position], hi, ?_⟩
    rw [hi]
    exact hinv
  · intro f e p q h
    have hinv := (run_inv buf f (.peekFor e) p true q h).1
    obtain ⟨f', p', -, -, hq⟩ := run_peekFor_true h
    have hi : q.tokenIndex = p.tokenIndex := by rw [hq, State.restore_tokenIndex]
    refine ⟨by rw [hq, State.restore_position], hi, ?_⟩
    rw [hi]
    exact hinv
  · intro f e p q h
    have hinv := (run_inv buf f (.peekNot e) p true q h).1
    obtain ⟨f', p', -, -, hq⟩ := run_peekNot_done h
    simp only [if_true] at hq
    have hi : q.tokenIndex = p.tokenIndex := by rw [hq, State.restore_tokenIndex]
    refine ⟨by rw [hq, State.restore_position], hi, ?_⟩
    rw [hi]
    exact hinv
  · intro r body e hr he f p q h
    have hinv := (run_inv buf f (.peekFor e) p false q h).1
    have hc := Expr.failsClean_of_peeksClean body (rules_peeksClean hr) e he
    have hpos := run_failsClean (.peekFor e) f p q hc h
    refine ⟨hpos.1, hpos.2, ?_⟩
    rw [hpos.2]
    exact hinv
  · intro f e p q h
    obtain ⟨f', p', -, he, hq⟩ := run_peekNot_done h
    simp only [Bool.false_eq_true, if_false] at hq
    subst hq
    simp only [Bool.not_false] at he
    have hinv := (run_inv buf f' e p true q he).2 rfl
    exact ⟨⟨f', he⟩, hinv.1, hinv.2.1, fun hn => run_consumes buf f' e p q he hn⟩
  · intro f a b p q h hc
    exact run_failsClean (.alt a b) f p q hc h

/-! ### Words with a hyphen, year numbers -/

theorem run_seq_done {buf : List Nat} {f : Nat} {a b : Expr} {p : State} {r : Bool}
    {q : State} (h : run buf f (.seq a b) p = .done (r, q)) :
    ∃ f' ba p', f = f' + 1 ∧ run buf f' a p = .done (ba, p') ∧
      (ba = false → r = false ∧ q = p') ∧
      (ba = true → run buf f' b p' = .done (r, q)) := by
  cases f with
  | zero => cases h
  | succ f =>
    rw [run_seq] at h
    cases hres : run buf f a p with
    | done x =>
      obtain ⟨ba, p'⟩ := x
      rw [hres] at h
      cases ba with
      | true => exact ⟨f, true, p', rfl, hres, fun hc => (by cases hc), fun _ => h⟩
      | false =>
        simp only [Outcome.done.injEq, Prod.mk.injEq] at h
        exact ⟨f, false, p', rfl, hres, fun _ => ⟨h.1.symm, h.2.symm⟩, fun hc => (by cases hc)⟩
    | fault => rw [hres] at h; cases h
    | timeout => rw [hres] at h; cases h

theorem run_plus_done {buf : List Nat} {f : Nat} {e : Expr} {p : State} {r : Bool}
    {q : State} (h : run buf f (.plus e) p = .done (r, q)) :
    ∃ f' be p', f = f' + 1 ∧ run buf f' e p = .done (be, p') ∧
      (be = false → r = false ∧ q = p') ∧
      (be = true → run buf f' (.star e) p' = .done (r, q)) := by
  cases f with
  | zero => cases h
  | succ f =>
    rw [run_plus] at h
    cases hres : run buf f e p with
    | done x =>
      obtain ⟨be, p'⟩ := x
      rw [hres] at h
      cases be with
      | true => exact ⟨f, true, p', rfl, hres, fun hc => (by cases hc), fun _ => h⟩
      | false =>
        simp only [Outcome.done.injEq, Prod.mk.injEq] at h
        exact ⟨f, false, p', rfl, hres, fun _ => ⟨h.1.symm, h.2.symm⟩, fun hc => (by cases hc)⟩
    | fault => rw [hres] at h; cases h
    | timeout => rw [hres] at h; cases h

theorem run_query_inv {buf : List Nat} {f : Nat} {e : Expr} {p : State} {r : Bool}
    {q : State} (h : run buf f (.query e) p = .done (r, q)) :
    r = true ∧ ∃ f', f = f' + 1 ∧ (run buf f' e p = .done (true, q) ∨
      ∃ p', run buf f' e p = .done (false, p') ∧ q = p'.restore p) := by
  cases f with
  | zero => cases h
  | succ f =>
    rw [run_query] at h
    cases hres : run buf f e p with
    | done x =>
      obtain ⟨be, p'⟩ := x
      rw [hres] at h
      cases be with
      | true =>
        simp only [Outcome.done.injEq, Prod.mk.injEq] at h
        obtain ⟨hr, hq⟩ := h
        subst hq
        exact ⟨hr.symm, f, rfl, Or.inl hres⟩
      | false =>
        simp only [Outcome.done.injEq, Prod.mk.injEq] at h
        obtain ⟨hr, hq⟩ := h
        exact ⟨hr.symm, f, rfl, Or.inr ⟨p', hres, hq.symm⟩⟩
    | fault => rw [hres] at h; cases h
    | timeout => rw [hres] at h; cases h

/-- The code of a class of single runes matches exactly when the rune at the
position is in the class, and then moves the position by one. -/
theorem run_classExpr {buf : List Nat} {e : Expr} {P : Nat → Bool}
    (hP : e.classWith (ruleClass 3) = some P) {f : Nat} {p : State} {b : Bool} {q : State}
    (h : run buf f e p = .done (b, q)) :
    b = runeIs buf p.position P ∧ (∃ c, buf.get? p.position = some c) ∧
      (b = true → q.position = p.position + 1) := by
  obtain ⟨c, hc, hb, hq⟩ := classWith_sound (ruleClass_sound 3) e P hP buf f p b q h
  refine ⟨?_, ⟨c, hc⟩, hq⟩
  unfold runeIs
  rw [hc]
  exact hb

/-- A class of single runes followed by more: the code fails when the rune at the
position is not in the class, and otherwise goes on one rune further. -/
theorem run_seq_class {buf : List Nat} {e rest : Expr} {P : Nat → Bool}
    (hP : e.classWith (ruleClass 3) = some P) {f : Nat} {p : State} {b : Bool} {q : State}
    (h : run buf f (.seq e rest) p = .done (b, q)) :
    (runeIs buf p.position P = false ∧ b = false) ∨
    (runeIs buf p.position P = true ∧ ∃ f' p', p'.position = p.position + 1 ∧
      run buf f' rest p' = .done (b, q)) := by
  obtain ⟨f', ba, p', -, ha, hf, ht⟩ := run_seq_done h
  obtain ⟨hb, -, hq⟩ := run_classExpr hP ha
  cases ba with
  | false => exact Or.inl ⟨hb.symm, (hf rfl).1⟩
  | true => exact Or.inr ⟨hb.symm, f', p', hq rfl, ht rfl⟩

/-- A repetition of a class of single runes always matches: it takes the runes of
the class that stand at the position and stops at the first rune outside it. -/
theorem run_star_class {buf : List Nat} {e : Expr} {P : Nat → Bool}
    (hP : e.classWith (ruleClass 3) = some P) :
    ∀ (f : Nat) (p : State) (b : Bool) (q : State), run buf f (.star e) p = .done (b, q) →
      b = true ∧ p.position ≤ q.position ∧
      (∀ i, p.position ≤ i → i < q.position → runeIs buf i P = true) ∧
      runeIs buf q.position P = false ∧ ∃ c, buf.get? q.position = some c := by
  intro f
  induction f with
  | zero => intro p b q h; cases h
  | succ f ih =>
    intro p b q h
    rw [run_star] at h
    cases hres : run buf f e p with
    | done x =>
      obtain ⟨be, p'⟩ := x
      rw [hres] at h
      obtain ⟨hb, hc, hq⟩ := run_classExpr hP hres
      cases be with
      | true =>
        obtain ⟨h1, h2, h3, h4, h5⟩ := ih p' b q h
        have hp' := hq rfl
        refine ⟨h1, by omega, ?_, h4, h5⟩
        intro i hi1 hi2
        by_cases hi : i = p.position
        · rw [hi]; exact hb.symm
        · exact h3 i (by omega) hi2
      | false =>
        simp only [Outcome.done.injEq, Prod.mk.injEq] at h
        obtain ⟨hb', hq'⟩ := h
        subst hq'
        rw [State.restore_position]
        exact ⟨hb'.symm, Nat.le_refl _, fun i h1 h2 => by omega, hb.symm, hc⟩
    | fault => rw [hres] at h; cases h
    | timeout => rw [hres] at h; cases h

/-- One or more runes of a class: the code fails when the rune at the position
is not in the class and otherwise takes the runes of the class up to the first
rune outside it. -/
theorem run_plus_class {buf : List Nat} {e : Expr} {P : Nat → Bool}
    (hP : e.classWith (ruleClass 3) = some P) {f : Nat} {p : State} {b : Bool} {q : State}
    (h : run buf f (.plus e) p = .done (b, q)) :
    b = runeIs buf p.position P ∧
      (b = true → p.position < q.position ∧
        (∀ i, p.position ≤ i → i < q.position → runeIs buf i P = true) ∧
        runeIs buf q.position P = false) := by
  obtain ⟨f', be, p', -, he, hf, ht⟩ := run_plus_done h
  obtain ⟨hb, -, hq⟩ := run_classExpr hP he
  cases be with
  | false =>
    rw [(hf rfl).1]
    exact ⟨hb, fun hc => by cases hc⟩
  | true =>
    obtain ⟨h1, h2, h3, h4, -⟩ := run_star_class hP f' p' b q (ht rfl)
    have hp' := hq rfl
    refine ⟨h1.trans hb, fun _ => ⟨by omega, ?_, h4⟩⟩
    intro i hi1 hi2
    by_cases hi : i = p.position
    · rw [hi]; exact hb.symm
    · exact h3 i (by omega) hi2

theorem classWith_NameLowerChar :
    (Expr.call .ruleNameLowerChar).classWith (ruleClass 3) =
      some (inClass .ruleNameLowerChar) := by
  show ruleClass 3 .ruleNameLowerChar = _
  cases h : ruleClass 3 .ruleNameLowerChar with
  | none =>
    have hs : (ruleClass 3 .ruleNameLowerChar).isSome = true := rfl
    rw [h] at hs
    cases hs
  | some P =>
    congr 1
    funext c
    unfold inClass
    rw [h]

theorem inClass_NameLowerChar_dash : inClass .ruleNameLowerChar '-'.toNat = false := by
  decide

/-- Rule `Word2` matches exactly a hyphenated word of lower-case name letters
that ends before a rune that is no such letter. -/
theorem run_Word2 {buf : List Nat} {f : Nat} {p q : State}
    (h : run buf f (.call .ruleWord2) p = .done (true, q)) :
    Hyphenated buf p.position q.position ∧
      runeIs buf q.position (inClass .ruleNameLowerChar) = false := by
  obtain ⟨f1, p1, -, h1, hq⟩ := run_call_true
    (rfl : rules .ruleWord2 = some (.seq (.plus (.call .ruleNameLowerChar))
      (.seq (.query (.call .ruledash)) (.plus (.call .ruleNameLowerChar))))) h
  obtain ⟨f2, s1, -, h2, h3⟩ := run_seq_true h1
  obtain ⟨f3, s2, -, h4, h5⟩ := run_seq_true h3
  obtain ⟨hb1, hl1⟩ := run_plus_class classWith_NameLowerChar h2
  obtain ⟨hlt1, hall1, hend1⟩ := hl1 rfl
  obtain ⟨hb2, hl2⟩ := run_plus_class classWith_NameLowerChar h5
  obtain ⟨hlt2, hall2, hend2⟩ := hl2 rfl
  obtain ⟨-, f4, -, h6⟩ := run_query_inv h4
  rw [hq, State.add_position]
  rcases h6 with h6 | ⟨p', -, hs2⟩
  · obtain ⟨f5, p5, -, h7, hs2⟩ := run_call_true (rfl : rules .ruledash = some (.char 45)) h6
    obtain ⟨x, hx, hbx, hp5⟩ := run_char_done h7
    have hx45 : x = '-'.toNat := of_decide_eq_true hbx.symm
    rw [if_pos hx45] at hp5
    have hs2p : s2.position = s1.position + 1 := by
      rw [hs2, State.add_position, hp5, State.advance_position]
    refine ⟨⟨s1.position, hlt1, by omega, by rw [hx, hx45], hall1, ?_⟩, hend2⟩
    intro i hi1 hi2
    exact hall2 i (by omega) hi2
  · exfalso
    have hs2p : s2.position = s1.position := by rw [hs2, State.restore_position]
    rw [hs2p, hend1] at hb2
    cases hb2

/-- Claim C34.  On every buffer a match of rule `Word2` is a hyphenated word: one
or more lower-case name letters, a hyphen, one or more lower-case name letters,
up to a rune that is no such letter.  On a run of `k` lower-case name letters that
ends before a rune that is neither such a letter nor a hyphen, `Word2` does not
match: the first repetition takes all the letters and leaves none for the second.
When the buffer ends with the sentinel the rule returns false there, and a run of
at least two letters is matched whole by rule `Word1`. -/
theorem Word2_hyphenated (buf : List Nat) :
    (∀ f p q, run buf f (.call .ruleWord2) p = .done (true, q) →
      Hyphenated buf p.position q.position ∧
        runeIs buf q.position (inClass .ruleNameLowerChar) = false) ∧
    (∀ (p : State) (k : Nat),
      (∀ i, i < k → runeIs buf (p.position + i) (inClass .ruleNameLowerChar) = true) →
      runeIs buf (p.position + k) (inClass .ruleNameLowerChar) = false →
      buf.get? (p.position + k) ≠ some '-'.toNat →
      (∀ f q, run buf f (.call .ruleWord2) p ≠ .done (true, q)) ∧
      (∀ n, IsBuffer buf n → p.position ≤ n →
        (∃ f q, run buf f (.call .ruleWord2) p = .done (false, q)) ∧
        (2 ≤ k → ∃ f q, run buf f (.call .ruleWord1) p = .done (true, q) ∧
          q.position = p.position + k))) := by
  refine ⟨fun f p q h => run_Word2 h, ?_⟩
  intro p k hletters hend hnodash
  have hno : ∀ f q, run buf f (.call .ruleWord2) p ≠ .done (true, q) := by
    intro f q h
    obtain ⟨⟨d, hd1, hd2, hd, hbefore, -⟩, -⟩ := run_Word2 h
    have hdash : runeIs buf d (inClass .ruleNameLowerChar) = false := by
      unfold runeIs
      rw [hd]
      exact inClass_NameLowerChar_dash
    rcases Nat.lt_trichotomy d (p.position + k) with hlt | heq | hgt
    · have := hletters (d - p.position) (by omega)
      rw [show p.position + (d - p.position) = d by omega, hdash] at this
      cases this
    · rw [heq] at hd
      exact hnodash hd
    · have := hbefore (p.position + k) (by omega) hgt
      rw [hend] at this
      cases this
  refine ⟨hno, ?_⟩
  intro n hb hp
  constructor
  · obtain ⟨f, ⟨b, q⟩, h⟩ := run_returns hb .ruleWord2 (by decide) p hp
    cases b with
    | true => exact absurd h (hno f q)
    | false => exact ⟨f, q, h⟩
  · intro hk
    obtain ⟨f, ⟨b, q⟩, h⟩ := run_returns hb .ruleWord1 (by decide) p hp
    obtain ⟨f1, body, p1, -, hr, h1, hq⟩ := run_call_done h
    have hr' : rules .ruleWord1 = some (.seq (.query (.seq (.call .rulelASCII) (.call .ruledash)))
        (.seq (.call .ruleNameLowerChar) (.plus (.call .ruleNameLowerChar)))) := rfl
    rw [hr] at hr'
    have hbody := Option.some.inj hr'
    subst hbody
    obtain ⟨f2, ba, s1, -, h2, -, h3⟩ := run_seq_done h1
    obtain ⟨hba, f3, -, h4⟩ := run_query_inv h2
    subst hba
    have h3' := h3 rfl
    have hs1 : s1.position = p.position := by
      rcases h4 with h4 | ⟨p', -, hs1⟩
      · exfalso
        obtain ⟨f4, s0, -, h5, h6⟩ := run_seq_true h4
        obtain ⟨c0, -, -, hp0⟩ := run_class (r := .rulelASCII) rfl h5
        obtain ⟨f5, p5, -, h7, -⟩ :=
          run_call_true (rfl : rules .ruledash = some (.char 45)) h6
        obtain ⟨x, hx, hbx, -⟩ := run_char_done h7
        have hx45 : x = '-'.toNat := of_decide_eq_true hbx.symm
        rw [hp0 rfl] at hx
        have := hletters 1 (by omega)
        unfold runeIs at this
        rw [hx, hx45] at this
        have h' : inClass .ruleNameLowerChar '-'.toNat = true := this
        rw [inClass_NameLowerChar_dash] at h'
        cases h'
      · rw [hs1, State.restore_position]
    rcases run_seq_class classWith_NameLowerChar h3' with ⟨hf, -⟩ | ⟨-, f6, s2, hs2, h8⟩
    · have := hletters 0 (by omega)
      rw [Nat.add_zero, ← hs1, hf] at this
      cases this
    · obtain ⟨hb2, hl2⟩ := run_plus_class classWith_NameLowerChar h8
      have hb1 : b = true := by
        rw [hb2, hs2, hs1]
        exact hletters 1 (by omega)
      subst hb1
      obtain ⟨hlt, hall, hstop⟩ := hl2 rfl
      refine ⟨f, q, h, ?_⟩
      rw [hq, if_pos rfl]
      rcases Nat.lt_trichotomy p1.position (p.position + k) with hlt' | heq | hgt
      · have := hletters (p1.position - p.position) (by omega)
        rw [show p.position + (p1.position - p.position) = p1.position by omega, hstop] at this
        cases this
      · exact heq
      · have := hall (p.position + k) (by omega) hgt
        rw [hend] at this
        cases this

/-- The four runes and the question marks of a year number, as rule `YearNum`
reads them. -/
theorem run_YearNum {buf : List Nat} {f : Nat} {p : State} {b : Bool} {q : State}
    (h : run buf f (.call .ruleYearNum) p = .done (b, q)) :
    b = yearNumAt buf p.position ∧
      (b = true → p.position + 4 ≤ q.position ∧
        (∀ i, p.position + 4 ≤ i → i < q.position → buf.get? i = some '?'.toNat) ∧
        (∃ c, buf.get? q.position = some c ∧ c ≠ '?'.toNat)) := by
  obtain ⟨f1, body, p1, -, hr, h1, hq⟩ := run_call_done h
  have hr' : rules .ruleYearNum = some (.seq (.alt (.char 49) (.char 50))
      (.seq (.alt (.char 48) (.alt (.char 55) (.alt (.char 56) (.char 57))))
        (.seq (.call .rulenums) (.seq (.alt (.call .rulenums) (.char 63))
          (.star (.char 63)))))) := rfl
  rw [hr] at hr'
  have hbody := Option.some.inj hr'
  subst hbody
  unfold yearNumAt
  rcases run_seq_class (e := .alt (.char 49) (.char 50))
      (P := fun c => decide (c = '1'.toNat) || decide (c = '2'.toNat)) rfl h1
    with ⟨hf, hb⟩ | ⟨ht1, f2, s1, hs1, h2⟩
  · rw [hf, hb]
    exact ⟨rfl, fun hc => by cases hc⟩
  rcases run_seq_class (e := .alt (.char 48) (.alt (.char 55) (.alt (.char 56) (.char 57))))
      (P := fun c => decide (c = '0'.toNat) || (decide (c = '7'.toNat) ||
      (decide (c = '8'.toNat) || decide (c = '9'.toNat)))) rfl h2
    with ⟨hf, hb⟩ | ⟨ht2, f3, s2, hs2, h3⟩
  · rw [hs1] at hf
    rw [ht1, hf, hb]
    exact ⟨rfl, fun hc => by cases hc⟩
  rcases run_seq_class (e := .call .rulenums)
      (P := fun c => decide ('0'.toNat ≤ c ∧ c ≤ '9'.toNat)) rfl h3
    with ⟨hf, hb⟩ | ⟨ht3, f4, s3, hs3, h4⟩
  · rw [hs2, hs1] at hf
    rw [hs1] at ht2
    rw [ht1, ht2, hf, hb]
    exact ⟨rfl, fun hc => by cases hc⟩
  rcases run_seq_class (e := .alt (.call .rulenums) (.char 63))
      (P := fun c => decide ('0'.toNat ≤ c ∧ c ≤ '9'.toNat) || decide (c = '?'.toNat)) rfl h4
    with ⟨hf, hb⟩ | ⟨ht4, f5, s4, hs4, h5⟩
  · rw [hs3, hs2, hs1] at hf
    rw [hs1] at ht2
    rw [hs2, hs1] at ht3
    rw [ht1, ht2, ht3, hf, hb]
    exact ⟨rfl, fun hc => by cases hc⟩
  rw [hs1] at ht2
  rw [hs2, hs1] at ht3
  rw [hs3, hs2, hs1] at ht4
  obtain ⟨hb, hle, hall, hstop, c, hc⟩ :=
    run_star_class (e := .char 63) (P := fun c => decide (c = '?'.toNat)) rfl f5 s4 b p1 h5
  rw [ht1, ht2, ht3, ht4]
  refine ⟨hb, fun _ => ?_⟩
  rw [hq, hb, if_pos rfl]
  refine ⟨by omega, ?_, c, hc, ?_⟩
  · intro i hi1 hi2
    have := hall i (by omega) hi2
    unfold runeIs at this
    cases hg : buf.get? i with
    | none => rw [hg] at this; cases this
    | some x =>
      rw [hg] at this
      rw [of_decide_eq_true this]
  · intro hcq
    unfold runeIs at hstop
    rw [hc, hcq] at hstop
    exact absurd hstop (by decide)

/-- Every alternative of rule `Year` starts with a year number, or with `[` or
`(`. -/
theorem run_Year {buf : List Nat} {f : Nat} {p q : State}
    (h : run buf f (.call .ruleYear) p = .done (true, q)) :
    yearNumAt buf p.position = true ∨ buf.get? p.position = some '['.toNat ∨
      buf.get? p.position = some '('.toNat := by
  have hnum : ∀ {f : Nat} {s t : State}, s.position = p.position →
      run buf f (.call .ruleYearNum) s = .done (true, t) → yearNumAt buf p.position = true := by
    intro f s t hs ht
    rw [← hs]
    exact (run_YearNum ht).1.symm
  have hchar : ∀ {f : Nat} {s t : State}, s.position = p.position →
      run buf f (.call .ruleYearWithChar) s = .done (true, t) →
      yearNumAt buf p.position = true := by
    intro f s t hs ht
    obtain ⟨f1, p1, -, h1, -⟩ := run_call_true
      (rfl : rules .ruleYearWithChar = some (.seq (.call .ruleYearNum)
        (.seq (.call .rulelASCII) (.call .ruleAction0)))) ht
    obtain ⟨f2, s1, -, h2, -⟩ := run_seq_true h1
    exact hnum hs h2
  obtain ⟨f1, p1, -, h1, -⟩ := run_call_true
    (rfl : rules .ruleYear = some (.alt (.call .ruleYearRange) (.alt (.call .ruleYearApprox)
      (.alt (.call .ruleYearWithParens) (.alt (.call .ruleYearWithPage)
        (.alt (.call .ruleYearWithDot) (.alt (.call .ruleYearWithChar)
          (.call .ruleYearNum)))))))) h
  obtain ⟨f2, -, h2⟩ := run_alt_true h1
  rcases h2 with h2 | ⟨t1, -, h2⟩
  · obtain ⟨g1, u1, -, k1, -⟩ := run_call_true
      (rfl : rules .ruleYearRange = some (.seq (.call .ruleYearNum) (.seq (.call .ruledash)
        (Expr.seqs [.plus (.call .rulenums), .star (Expr.alts [Expr.chr 'a', Expr.chr 'b',
          Expr.chr 'c', Expr.chr 'd', Expr.chr 'e', Expr.chr 'f', Expr.chr 'g', Expr.chr 'h',
          Expr.chr 'i', Expr.chr 'j', Expr.chr 'k', Expr.chr 'l', Expr.chr 'm', Expr.chr 'n',
          Expr.chr 'o', Expr.chr 'p', Expr.chr 'q', Expr.chr 'r', Expr.chr 's', Expr.chr 't',
          Expr.chr 'u', Expr.chr 'v', Expr.chr 'w', Expr.chr 'x', Expr.chr 'y', Expr.chr 'z',
          Expr.chr '?'])])))) h2
    obtain ⟨g2, u2, -, k2, -⟩ := run_seq_true k1
    exact Or.inl (hnum rfl k2)
  obtain ⟨f3, -, h3⟩ := run_alt_true h2
  rcases h3 with h3 | ⟨t2, -, h3⟩
  · obtain ⟨g1, u1, -, k1, -⟩ := run_call_true
      (rfl : rules .ruleYearApprox = some (.seq (.char 91) (.seq (.query (.call .rule_))
        (.seq (.call .ruleYearNum) (.seq (.query (.call .rule_)) (.char 93)))))) h3
    obtain ⟨g2, u2, -, k2, -⟩ := run_seq_true k1
    obtain ⟨x, hx, hbx, -⟩ := run_char_done k2
    simp only [State.restore_position] at hx
    rw [hx, of_decide_eq_true hbx.symm]
    exact Or.inr (Or.inl rfl)
  obtain ⟨f4, -, h4⟩ := run_alt_true h3
  rcases h4 with h4 | ⟨t3, -, h4⟩
  · obtain ⟨g1, u1, -, k1, -⟩ := run_call_true
      (rfl : rules .ruleYearWithParens = some (.seq (.char 40)
        (.seq (.alt (.call .ruleYearWithChar) (.call .ruleYearNum)) (.char 41)))) h4
    obtain ⟨g2, u2, -, k2, -⟩ := run_seq_true k1
    obtain ⟨x, hx, hbx, -⟩ := run_char_done k2
    simp only [State.restore_position] at hx
    rw [hx, of_decide_eq_true hbx.symm]
    exact Or.inr (Or.inr rfl)
  obtain ⟨f5, -, h5⟩ := run_alt_true h4
  rcases h5 with h5 | ⟨t4, -, h5⟩
  · obtain ⟨g1, u1, -, k1, -⟩ := run_call_true
      (rfl : rules .ruleYearWithPage = some (.seq (.alt (.call .ruleYearWithChar)
        (.call .ruleYearNum)) (.seq (.query (.call .rule_)) (.seq (.char 58)
          (.seq (.query (.call .rule_)) (.plus (.call .rulenums))))))) h5
    obtain ⟨g2, u2, -, k2, -⟩ := run_seq_true k1
    obtain ⟨g3, -, k3⟩ := run_alt_true k2
    rcases k3 with k3 | ⟨u3, -, k3⟩
    · exact Or.inl (hchar (by simp only [State.restore_position]) k3)
    · exact Or.inl (hnum (by simp only [State.restore_position]) k3)
  obtain ⟨f6, -, h6⟩ := run_alt_true h5
  rcases h6 with h6 | ⟨t5, -, h6⟩
  · obtain ⟨g1, u1, -, k1, -⟩ := run_call_true
      (rfl : rules .ruleYearWithDot = some (.seq (.call .ruleYearNum) (.char 46))) h6
    obtain ⟨g2, u2, -, k2, -⟩ := run_seq_true k1
    exact Or.inl (hnum (by simp only [State.restore_position]) k2)
  obtain ⟨f7, -, h7⟩ := run_alt_true h6
  rcases h7 with h7 | ⟨t6, -, h7⟩
  · exact Or.inl (hchar (by simp only [State.restore_position]) h7)
  · exact Or.inl (hnum (by simp only [State.restore_position]) h7)

/-- Claim C35.  At every position of a buffer that ends with the sentinel, rule
`YearNum` matches if and only if the runes there are `1` or `2`, then one of `0`,
`7`, `8`, `9`, then a digit, then a digit or `?`.  A match takes these four runes
and every `?` that follows them immediately, up to a rune that is not `?`.  When
the second rune is one of the digits 1 to 6 the rule does not match, and rule
`Year` does not match either at a position that starts with a digit. -/
theorem YearNum_matches_iff {buf : List Nat} {n : Nat} (hb : IsBuffer buf n) (p : State)
    (hp : p.position ≤ n) :
    ((∃ f q, run buf f (.call .ruleYearNum) p = .done (true, q)) ↔
      yearNumAt buf p.position = true) ∧
    (∀ f q, run buf f (.call .ruleYearNum) p = .done (true, q) →
      p.position + 4 ≤ q.position ∧
      (∀ i, p.position + 4 ≤ i → i < q.position → buf.get? i = some '?'.toNat) ∧
      (∃ c, buf.get? q.position = some c ∧ c ≠ '?'.toNat)) ∧
    (∀ c1 c2, buf.get? p.position = some c1 → '0'.toNat ≤ c1 → c1 ≤ '9'.toNat →
      buf.get? (p.position + 1) = some c2 → '1'.toNat ≤ c2 → c2 ≤ '6'.toNat →
      yearNumAt buf p.position = false ∧
      (∀ f q, run buf f (.call .ruleYearNum) p ≠ .done (true, q)) ∧
      (∀ f q, run buf f (.call .ruleYear) p ≠ .done (true, q))) := by
  refine ⟨⟨?_, ?_⟩, fun f q h => (run_YearNum h).2 rfl, ?_⟩
  · rintro ⟨f, q, h⟩
    exact (run_YearNum h).1.symm
  · intro hy
    obtain ⟨f, ⟨b, q⟩, h⟩ := run_returns hb .ruleYearNum (by decide) p hp
    have hb' := (run_YearNum h).1
    rw [hy] at hb'
    subst hb'
    exact ⟨f, q, h⟩
  · intro c1 c2 h1 h1l h1u h2 h2l h2u
    have hy : yearNumAt buf p.position = false := by
      unfold yearNumAt runeIs
      rw [h1, h2]
      have hd : (decide (c2 = '0'.toNat) || (decide (c2 = '7'.toNat) ||
          (decide (c2 = '8'.toNat) || decide (c2 = '9'.toNat)))) = false := by
        have e0 : '0'.toNat = 48 := rfl
        have e1 : '1'.toNat = 49 := rfl
        have e6 : '6'.toNat = 54 := rfl
        have e7 : '7'.toNat = 55 := rfl
        have e8 : '8'.toNat = 56 := rfl
        have e9 : '9'.toNat = 57 := rfl
        simp only [Bool.or_eq_false_iff, decide_eq_false_iff_not]
        omega
      simp only [hd, Bool.false_and, Bool.and_false]
    refine ⟨hy, ?_, ?_⟩
    · intro f q h
      have := (run_YearNum h).1
      rw [hy] at this
      cases this
    · intro f q h
      rcases run_Year h with h' | h' | h'
      · rw [hy] at h'
        cases h'
      · rw [h1] at h'
        have : c1 = '['.toNat := Option.some.inj h'
        have e0 : '['.toNat = 91 := rfl
        have e9 : '9'.toNat = 57 := rfl
        omega
      · rw [h1] at h'
        have : c1 = '('.toNat := Option.some.inj h'
        have e0 : '('.toNat = 40 := rfl
        have e9 : '0'.toNat = 48 := rfl
        omega

/-- Instance of claim C35: at the start of `1758` rule `YearNum` matches, and at
the start of `1650` it does not. -/
theorem YearNum_matches_iff_witness :
    (Engine.new "1758").reset.state.position ≤ (Engine.new "1758").Buffer.length ∧
    yearNumAt (Engine.new "1758").reset.buffer 0 = true ∧
    (∃ f q, run (Engine.new "1758").reset.buffer f (.call .ruleYearNum)
      (Engine.new "1758").reset.state = .done (true, q)) ∧
    yearNumAt (Engine.new "1650").reset.buffer 0 = false ∧
    (¬ ∃ f q, run (Engine.new "1650").reset.buffer f (.call .ruleYearNum)
      (Engine.new "1650").reset.state = .done (true, q)) :=
  ⟨by decide, by decide,
    (YearNum_matches_iff (reset_isBuffer (Engine.new "1758")) (Engine.new "1758").reset.state
      (by decide)).1.2 (by decide),
    by decide,
    fun h => absurd
      ((YearNum_matches_iff (reset_isBuffer (Engine.new "1650")) (Engine.new "1650").reset.state
        (by decide)).1.1 h)
      (by decide)⟩

/-! ### Token lists laid out as trees -/

theorem Nested.le {ok : token32 → Prop} {lo hi : Nat} {l : List token32}
    (h : Nested ok lo hi l) : lo ≤ hi := by
  induction h with
  | nil h => exact h
  | node r _ _ he _ ih₁ ih₂ => omega

theorem Nested.mono_right {ok : token32 → Prop} {lo hi hi' : Nat} {l : List token32}
    (h : Nested ok lo hi l) (hh : hi ≤ hi') : Nested ok lo hi' l := by
  cases h with
  | nil h => exact .nil (by omega)
  | node r h₁ h₂ he hok => exact .node r h₁ h₂ (by omega) hok

theorem Nested.concat {ok : token32 → Prop} {b c : Nat} {l₂ : List token32}
    (h₂ : Nested ok b c l₂) :
    ∀ {a : Nat} {l₁ : List token32}, Nested ok a b l₁ → Nested ok a c (l₁ ++ l₂) := by
  induction h₂ with
  | nil h =>
    intro a l₁ h₁
    rw [List.append_nil]
    exact h₁.mono_right h
  | node r _ hin he hok ih₁ _ =>
    intro a l₁ h₁
    have := Nested.node r (ih₁ h₁) hin he hok
    simp only [List.append_assoc] at this ⊢
    exact this

theorem Nested.bounds {ok : token32 → Prop} {lo hi : Nat} {l : List token32}
    (h : Nested ok lo hi l) :
    ∀ t ∈ l, lo ≤ t.begin ∧ t.begin ≤ t.«end» ∧ t.«end» ≤ hi := by
  induction h with
  | nil h => intro t ht; cases ht
  | node r h₁ h₂ he _ ih₁ ih₂ =>
    intro t ht
    have hle₁ := h₁.le
    have hle₂ := h₂.le
    rcases List.mem_append.1 ht with ht | ht
    · rcases List.mem_append.1 ht with ht | ht
      · have := ih₁ t ht
        omega
      · have := ih₂ t ht
        omega
    · rw [List.mem_singleton.1 ht]
      simp only
      omega

theorem Nested.ok_of_mem {ok : token32 → Prop} {lo hi : Nat} {l : List token32}
    (h : Nested ok lo hi l) : ∀ t ∈ l, ok t := by
  induction h with
  | nil h => intro t ht; cases ht
  | node r _ _ _ hok ih₁ ih₂ =>
    intro t ht
    rcases List.mem_append.1 ht with ht | ht
    · rcases List.mem_append.1 ht with ht | ht
      · exact ih₁ t ht
      · exact ih₂ t ht
    · rw [List.mem_singleton.1 ht]
      exact hok

/-- Of two tokens of such a list the earlier one lies inside the span of the
later one or ends at or before its beginning. -/
theorem Nested.inside_or_before {ok : token32 → Prop} {lo hi : Nat} {l : List token32}
    (h : Nested ok lo hi l) :
    l.Pairwise (fun t t' =>
      (t'.begin ≤ t.begin ∧ t.«end» ≤ t'.«end») ∨ t.«end» ≤ t'.begin) := by
  induction h with
  | nil h => exact List.Pairwise.nil
  | node r h₁ h₂ he _ ih₁ ih₂ =>
    refine List.pairwise_append.2 ⟨List.pairwise_append.2 ⟨ih₁, ih₂, ?_⟩,
      List.pairwise_singleton _ _, ?_⟩
    · intro t ht t' ht'
      have := h₁.bounds t ht
      have := h₂.bounds t' ht'
      exact Or.inr (by omega)
    · intro t ht t' ht'
      rw [List.mem_singleton.1 ht']
      simp only
      rcases List.mem_append.1 ht with ht | ht
      · have := h₁.bounds t ht
        exact Or.inr (by omega)
      · have := h₂.bounds t ht
        exact Or.inl (by omega)

/-! ### The tokens of a match -/

theorem RunSeg.unchanged {buf : List Nat} {S : pegRule → Bool} {e : Expr} {p q : State}
    (ht : q.tree = p.tree) (hi : q.tokenIndex = p.tokenIndex)
    (hp : p.position ≤ q.position) : RunSeg buf S e p q :=
  ⟨[], by rw [ht, hi, List.append_nil], .nil hp, fun _ t ht => by cases ht⟩

theorem RunSeg.restored {buf : List Nat} {S : pegRule → Bool} {e : Expr} {p p' : State}
    (hf : tokens32.Trim p'.tree p.tokenIndex = tokens32.Trim p.tree p.tokenIndex) :
    RunSeg buf S e p (p'.restore p) :=
  ⟨[], by rw [State.restore_tree, State.restore_tokenIndex, List.append_nil]; exact hf,
    .nil (by rw [State.restore_position]), fun _ t ht => by cases ht⟩

theorem RunSeg.of_calls {buf : List Nat} {S : pegRule → Bool} {a e : Expr} {p q : State}
    (h : RunSeg buf S a p q) (hc : ∀ r ∈ a.calls, r ∈ e.calls) : RunSeg buf S e p q := by
  obtain ⟨seg, h1, h2, h3⟩ := h
  exact ⟨seg, h1, h2, fun hS => h3 (fun r hr => hS r (hc r hr))⟩

theorem RunSeg.trans {buf : List Nat} {S : pegRule → Bool} {a b e : Expr} {p p₁ q : State}
    (h₁ : RunSeg buf S a p p₁) (h₂ : RunSeg buf S b p₁ q)
    (ha : ∀ r ∈ a.calls, r ∈ e.calls) (hb : ∀ r ∈ b.calls, r ∈ e.calls) :
    RunSeg buf S e p q := by
  obtain ⟨s₁, h11, h12, h13⟩ := h₁
  obtain ⟨s₂, h21, h22, h23⟩ := h₂
  refine ⟨s₁ ++ s₂, by rw [h21, h11, List.append_assoc], h22.concat h12, ?_⟩
  intro hS t ht
  rcases List.mem_append.1 ht with ht | ht
  · exact h13 (fun r hr => hS r (ha r hr)) t ht
  · exact h23 (fun r hr => hS r (hb r hr)) t ht

theorem RunSeg.of_restore {buf : List Nat} {S : pegRule → Bool} {b e : Expr}
    {p p' q : State}
    (hf : tokens32.Trim p'.tree p.tokenIndex = tokens32.Trim p.tree p.tokenIndex)
    (h : RunSeg buf S b (p'.restore p) q) (hb : ∀ r ∈ b.calls, r ∈ e.calls) :
    RunSeg buf S e p q := by
  obtain ⟨seg, h1, h2, h3⟩ := h
  rw [State.restore_tree, State.restore_tokenIndex, hf] at h1
  rw [State.restore_position] at h2
  exact ⟨seg, h1, h2, fun hS => h3 (fun r hr => hS r (hb r hr))⟩

/-- The tokens that a match adds: see `RunSeg`.  `S` is any set of rules closed
under calls. -/
theorem run_nested (buf : List Nat) (S : pegRule → Bool)
    (hS : ∀ r body, S r = true → rules r = some body → ∀ r' ∈ body.calls, S r' = true) :
    ∀ (f : Nat) (e : Expr) (p q : State),
      run buf f e p = .done (true, q) → RunSeg buf S e p q := by
  intro f
  induction f with
  | zero => intro e p q h; cases h
  | succ f ih =>
    intro e p q h
    cases e with
    | dot =>
      obtain ⟨x, -, hb, hq⟩ := run_dot_done h
      rw [if_pos (of_decide_eq_true hb.symm)] at hq
      subst hq
      exact RunSeg.unchanged (State.advance_tree p) (State.advance_tokenIndex p)
        (by rw [State.advance_position]; omega)
    | char c =>
      obtain ⟨x, -, hb, hq⟩ := run_char_done h
      rw [if_pos (of_decide_eq_true hb.symm)] at hq
      subst hq
      exact RunSeg.unchanged (State.advance_tree p) (State.advance_tokenIndex p)
        (by rw [State.advance_position]; omega)
    | range l u =>
      obtain ⟨x, -, hb, hq⟩ := run_range_done h
      rw [if_pos (of_decide_eq_true hb.symm)] at hq
      subst hq
      exact RunSeg.unchanged (State.advance_tree p) (State.advance_tokenIndex p)
        (by rw [State.advance_position]; omega)
    | action =>
      rw [run_action] at h
      cases h
      exact RunSeg.unchanged rfl rfl (Nat.le_refl _)
    | call r =>
      have horig := h
      rw [run_call] at h
      cases hr : rules r with
      | none => rw [hr] at h; cases h
      | some body =>
        rw [hr] at h
        simp only at h
        cases hbody : run buf f body p with
        | fault => rw [hbody] at h; cases h
        | timeout => rw [hbody] at h; cases h
        | done x =>
          obtain ⟨b₁, p₁⟩ := x
          rw [hbody] at h
          cases b₁ with
          | false => cases h
          | true =>
            cases h
            obtain ⟨seg, h1, h2, h3⟩ := ih body p p₁ hbody
            refine ⟨seg ++ [⟨r, p.position, p₁.position⟩], ?_, ?_, ?_⟩
            · rw [State.add_tree, State.add_tokenIndex, tokens32.Trim_Add_succ, h1,
                List.append_assoc]
            · have hn := @Nested.node (Matched buf) p.position p.position p₁.position
                p₁.position r [] seg
                (Nested.nil (Nat.le_refl p.position)) h2 (Nat.le_refl _)
                ⟨f + 1, p, p₁.add r p.position, horig, rfl, State.add_position _ _ _⟩
              rw [List.nil_append] at hn
              rw [State.add_position]
              exact hn
            · intro hc t ht
              have hSr : S r = true := hc r (List.mem_singleton_self r)
              rcases List.mem_append.1 ht with ht | ht
              · exact h3 (hS r body hSr hr) t ht
              · rw [List.mem_singleton.1 ht]
                exact hSr
    | seq a b =>
      obtain ⟨f', p₁, hf, ha, hb⟩ := run_seq_true h
      cases hf
      exact (ih a p p₁ ha).trans (ih b p₁ q hb)
        (fun r hr => List.mem_append_left _ hr) (fun r hr => List.mem_append_right _ hr)
    | alt a b =>
      obtain ⟨f', hf, hab⟩ := run_alt_true h
      cases hf
      rcases hab with ha | ⟨p', ha, hb⟩
      · exact (ih a p q ha).of_calls (fun r hr => List.mem_append_left _ hr)
      · exact RunSeg.of_restore (run_inv buf f a p false p' ha).1 (ih b _ q hb)
          (fun r hr => List.mem_append_right _ hr)
    | peekFor e =>
      obtain ⟨f', p', hf, he, hq⟩ := run_peekFor_true h
      cases hf
      subst hq
      exact RunSeg.restored (run_inv buf f e p true p' he).1
    | peekNot e =>
      obtain ⟨f', p', hf, he, hq⟩ := run_peekNot_done h
      cases hf
      simp only [if_true] at hq
      subst hq
      exact RunSeg.restored (run_inv buf f e p false p' he).1
    | query e =>
      obtain ⟨-, f', hf, he⟩ := run_query_inv h
      cases hf
      rcases he with he | ⟨p', he, hq⟩
      · exact (ih e p q he).of_calls (fun r hr => hr)
      · subst hq
        exact RunSeg.restored (run_inv buf f e p false p' he).1
    | star e =>
      rw [run_star] at h
      cases he : run buf f e p with
      | fault => rw [he] at h; cases h
      | timeout => rw [he] at h; cases h
      | done x =>
        obtain ⟨b₁, p₁⟩ := x
        rw [he] at h
        cases b₁ with
        | true =>
          exact (ih e p p₁ he).trans (ih (.star e) p₁ q h) (fun r hr => hr) (fun r hr => hr)
        | false =>
          cases h
          exact RunSeg.restored (run_inv buf f e p false p₁ he).1
    | plus e =>
      obtain ⟨f', p₁, hf, he, hs⟩ := run_plus_true h
      cases hf
      exact (ih e p p₁ he).trans (ih (.star e) p₁ q hs) (fun r hr => hr) (fun r hr => hr)

/-! ### The syntax tree -/

theorem tokens32.AST.pop_all (P : token32 → Prop) (token : token32) :
    ∀ (stack : List (token32 × node32 × node32)) (up : node32),
      (∀ t ∈ up.tokens, P t) →
      (∀ x ∈ stack, P x.1 ∧ x.2.2 = .nil ∧ ∀ t ∈ x.2.1.tokens, P t) →
      (∀ t ∈ (tokens32.AST.pop token up stack).1.tokens, P t) ∧
      (∀ x ∈ (tokens32.AST.pop token up stack).2,
        P x.1 ∧ x.2.2 = .nil ∧ ∀ t ∈ x.2.1.tokens, P t) ∧
      ((∀ x ∈ stack, x.1.begin ≥ token.begin ∧ x.1.«end» ≤ token.«end») →
        (tokens32.AST.pop token up stack).2 = []) := by
  intro stack
  induction stack with
  | nil => intro up hup _; exact ⟨hup, fun x hx => (by cases hx), fun _ => rfl⟩
  | cons x down ih =>
    intro up hup hst
    obtain ⟨t, u, n⟩ := x
    have hx := hst (t, u, n) (List.mem_cons_self _ _)
    have hdown : ∀ y ∈ down, P y.1 ∧ y.2.2 = .nil ∧ ∀ t ∈ y.2.1.tokens, P t :=
      fun y hy => hst y (List.mem_cons_of_mem _ hy)
    by_cases hc : t.begin ≥ token.begin ∧ t.«end» ≤ token.«end»
    · have hpop : tokens32.AST.pop token up ((t, u, n) :: down) =
          tokens32.AST.pop token (.node t u up) down := by
        show (if t.begin ≥ token.begin ∧ t.«end» ≤ token.«end» then
          tokens32.AST.pop token (.node t u up) down else (up, (t, u, n) :: down)) = _
        rw [if_pos hc]
      rw [hpop]
      have hup' : ∀ t' ∈ (node32.node t u up).tokens, P t' := by
        intro t' ht'
        rcases List.mem_cons.1 ht' with ht' | ht'
        · rw [ht']; exact hx.1
        · rcases List.mem_append.1 ht' with ht' | ht'
          · exact hx.2.2 t' ht'
          · exact hup t' ht'
      obtain ⟨h1, h2, h3⟩ := ih (.node t u up) hup' hdown
      exact ⟨h1, h2, fun hall => h3 (fun y hy => hall y (List.mem_cons_of_mem _ hy))⟩
    · have hpop : tokens32.AST.pop token up ((t, u, n) :: down) = (up, (t, u, n) :: down) := by
        show (if t.begin ≥ token.begin ∧ t.«end» ≤ token.«end» then
          tokens32.AST.pop token (.node t u up) down else (up, (t, u, n) :: down)) = _
        rw [if_neg hc]
      rw [hpop]
      exact ⟨hup, hst, fun hall => absurd (hall (t, u, n) (List.mem_cons_self _ _)) hc⟩

theorem tokens32.AST.push_of_ne (stack : List (token32 × node32 × node32)) (token : token32)
    (h : token.begin ≠ token.«end») :
    tokens32.AST.push stack token =
      (token, (tokens32.AST.pop token .nil stack).1, .nil) ::
        (tokens32.AST.pop token .nil stack).2 := by
  unfold tokens32.AST.push
  rw [if_neg h]

theorem tokens32.AST.push_all (P : token32 → Prop) (token : token32)
    (stack : List (token32 × node32 × node32))
    (hst : ∀ x ∈ stack, P x.1 ∧ x.2.2 = .nil ∧ ∀ t ∈ x.2.1.tokens, P t)
    (ht : token.begin ≠ token.«end» → P token) :
    ∀ x ∈ tokens32.AST.push stack token, P x.1 ∧ x.2.2 = .nil ∧ ∀ t ∈ x.2.1.tokens, P t := by
  by_cases he : token.begin = token.«end»
  · unfold tokens32.AST.push
    rw [if_pos he]
    exact hst
  · rw [tokens32.AST.push_of_ne stack token he]
    obtain ⟨h1, h2, -⟩ := tokens32.AST.pop_all P token stack .nil (fun t ht => by cases ht) hst
    intro x hx
    rcases List.mem_cons.1 hx with hx | hx
    · rw [hx]
      exact ⟨ht he, rfl, h1⟩
    · exact h2 x hx

theorem tokens32.AST.foldl_all (P : token32 → Prop) (l : List token32) :
    ∀ (stack : List (token32 × node32 × node32)),
      (∀ x ∈ stack, P x.1 ∧ x.2.2 = .nil ∧ ∀ t ∈ x.2.1.tokens, P t) →
      (∀ t ∈ l, t.begin ≠ t.«end» → P t) →
      ∀ x ∈ l.foldl tokens32.AST.push stack,
        P x.1 ∧ x.2.2 = .nil ∧ ∀ t ∈ x.2.1.tokens, P t := by
  induction l with
  | nil => intro stack hst _; exact hst
  | cons t l ih =>
    intro stack hst hl
    rw [List.foldl_cons]
    exact ih _ (tokens32.AST.push_all P t stack hst (hl t (List.mem_cons_self _ _)))
      (fun t' ht' => hl t' (List.mem_cons_of_mem _ ht'))

/-- The syntax tree of a token list that ends with a non-empty token over 0 to
`n`, when no token ends after `n`: the root is the node of the last token, no
node stands beside it, and every node of the tree is the node of a non-empty token
of the list. -/
theorem tokens32.AST_root (front : List token32) (r : pegRule) (n : Nat) (hn : 0 < n)
    (hb : ∀ t ∈ front, t.«end» ≤ n) :
    ∃ up, tokens32.AST (front ++ [(token32.mk r 0 n)]) = .node (token32.mk r 0 n) up .nil ∧
      ∀ t ∈ (tokens32.AST (front ++ [(token32.mk r 0 n)])).tokens,
        t ∈ front ++ [(token32.mk r 0 n)] ∧ t.begin ≠ t.«end» := by
  have hst := tokens32.AST.foldl_all
    (fun t => t ∈ front ++ [(token32.mk r 0 n)] ∧ t.begin ≠ t.«end») front []
    (fun x hx => by cases hx) (fun t ht hne => ⟨List.mem_append_left _ ht, hne⟩)
  have hne : (token32.mk r 0 n).begin ≠ (token32.mk r 0 n).«end» := by
    show (0 : Nat) ≠ n
    omega
  obtain ⟨h1, -, h3⟩ := tokens32.AST.pop_all
    (fun t => t ∈ front ++ [(token32.mk r 0 n)] ∧ t.begin ≠ t.«end») (token32.mk r 0 n)
    (front.foldl tokens32.AST.push []) .nil (fun t ht => by cases ht) hst
  have hempty := h3 (fun x hx => by
    have hmem := (hst x hx).1.1
    rcases List.mem_append.1 hmem with hmem | hmem
    · exact ⟨Nat.zero_le _, hb _ hmem⟩
    · rw [List.mem_singleton.1 hmem]
      exact ⟨Nat.le_refl _, Nat.le_refl _⟩)
  have hfold : (front ++ [(token32.mk r 0 n)]).foldl tokens32.AST.push [] =
      [((token32.mk r 0 n), (tokens32.AST.pop (token32.mk r 0 n) .nil (front.foldl tokens32.AST.push [])).1,
        .nil)] := by
    rw [List.foldl_append, List.foldl_cons, List.foldl_nil,
      tokens32.AST.push_of_ne _ _ hne, hempty]
  have hast : tokens32.AST (front ++ [(token32.mk r 0 n)]) =
      .node (token32.mk r 0 n)
        (tokens32.AST.pop (token32.mk r 0 n) .nil (front.foldl tokens32.AST.push [])).1 .nil := by
    unfold tokens32.AST
    rw [hfold]
  refine ⟨_, hast, ?_⟩
  rw [hast]
  intro t ht
  rcases List.mem_cons.1 ht with ht | ht
  · rw [ht]
    exact ⟨List.mem_append_right _ (List.mem_singleton_self _), hne⟩
  · rcases List.mem_append.1 ht with ht | ht
    · exact h1 t ht
    · cases ht

theorem tokens32.Trim_zero (t : List token32) : tokens32.Trim t 0 = [] :=
  List.length_eq_zero.1 (tokens32.Trim_length t 0)

/-! ### Approximate names -/

theorem run_star_dot_end {buf : List Nat} :
    ∀ (f : Nat) (p q : State) (b : Bool), run buf f (.star .dot) p = .done (b, q) →
      buf.get? q.position = some endSymbol := by
  intro f
  induction f with
  | zero => intro p q b h; cases h
  | succ f ih =>
    intro p q b h
    rw [run_star] at h
    cases hres : run buf f .dot p with
    | done x =>
      obtain ⟨be, p'⟩ := x
      rw [hres] at h
      cases be with
      | true => exact ih p' q b h
      | false =>
        simp only [Outcome.done.injEq, Prod.mk.injEq] at h
        obtain ⟨-, hq⟩ := h
        subst hq
        obtain ⟨x, hx, hbx, -⟩ := run_dot_done hres
        rw [State.restore_position, hx]
        have : ¬ x ≠ endSymbol := of_decide_eq_false hbx.symm
        rw [not_not.1 this]
    | fault => rw [hres] at h; cases h
    | timeout => rw [hres] at h; cases h

/-- A match of rule `NameApprox` ends at the sentinel. -/
theorem run_NameApprox {buf : List Nat} {f : Nat} {p q : State}
    (h : run buf f (.call .ruleNameApprox) p = .done (true, q)) :
    buf.get? q.position = some endSymbol := by
  obtain ⟨f1, p1, -, h1, hq⟩ := run_call_true
    (rfl : rules .ruleNameApprox = some (.seq (.call .ruleGenusWord)
      (.seq (.query (.seq (.call .rule_) (.call .ruleSpeciesEpithet)))
        (.seq (.call .rule_) (.seq (.call .ruleApproximation)
          (.call .ruleApproxNameIgnored)))))) h
  obtain ⟨f2, s1, -, -, h2⟩ := run_seq_true h1
  obtain ⟨f3, s2, -, -, h3⟩ := run_seq_true h2
  obtain ⟨f4, s3, -, -, h4⟩ := run_seq_true h3
  obtain ⟨f5, s4, -, -, h5⟩ := run_seq_true h4
  obtain ⟨f6, s5, -, h6, hp1⟩ := run_call_true
    (rfl : rules .ruleApproxNameIgnored = some (.star .dot)) h5
  rw [hq, State.add_position, hp1, State.add_position]
  exact run_star_dot_end f6 s4 s5 true h6

theorem isTailRule_closed (r : pegRule) (body : Expr) (hS : isTailRule r = true)
    (hr : rules r = some body) : ∀ r' ∈ body.calls, isTailRule r' = true := by
  cases r <;> first
    | exact absurd hS (by decide)
    | (cases hr; decide)

/-- Evaluated: the tokens of an approximate name in `Aus sp. xyz`. -/
theorem tokens_Aus_sp_xyz :
    (runTokens (Engine.new "Aus sp. xyz").reset.buffer 150 (.call .ruleSciName) 0
        []).tokens.map (fun ts => ts.filter isApproxRule) =
      some [⟨.ruleApproximation, 4, 7⟩, ⟨.ruleApproxNameIgnored, 7, 11⟩,
        ⟨.ruleNameApprox, 0, 11⟩, ⟨.ruleName, 0, 11⟩, ⟨.ruleTail, 11, 11⟩,
        ⟨.ruleSciName, 0, 11⟩] := by
  decide!

/-- Claim C33.  Whenever rule `NameApprox` matches it consumes the input to its
end: a match ends at the sentinel, the rune after the last rune of the input,
since rule `ApproxNameIgnored` takes every rune that follows the approximation
marker.  So when `Parse` succeeds with a `NameApprox` token among its tokens, that
token ends at the end of the input and the `Tail` token, the last token before
`SciName`, is empty. -/
theorem NameApprox_consumes_input (p : Engine) (fuel : Nat) (q : Engine)
    (h : p.reset.Parse fuel [] = .done (none, q))
    (ht : ∃ t ∈ q.tokens32, t.pegRule = .ruleNameApprox) :
    (∀ f st st', run p.reset.buffer f (.call .ruleNameApprox) st = .done (true, st') →
      st'.position = p.Buffer.length) ∧
    (∀ t ∈ q.tokens32, t.pegRule = .ruleNameApprox → t.«end» = p.Buffer.length) ∧
    (∃ front, q.tokens32 = front ++
      [⟨.ruleTail, p.Buffer.length, p.Buffer.length⟩,
        ⟨.ruleSciName, 0, p.Buffer.length⟩]) := by
  have hb := reset_isBuffer p
  have hend : ∀ f st st', run p.reset.buffer f (.call .ruleNameApprox) st = .done (true, st') →
      st'.position = p.Buffer.length :=
    fun f st st' hrun => hb.eq_of_get_end (run_NameApprox hrun)
  obtain ⟨st, hrun, hq⟩ := Parse_eq_done_none h
  have hq32 : q.tokens32 = tokens32.Trim st.tree st.tokenIndex := by rw [hq]
  -- the four parts of `SciName`
  obtain ⟨f1, t1, -, hbody, hst⟩ := run_call_true rules_SciName hrun
  obtain ⟨f2, s₁, -, hsp, hrest⟩ := run_seq_true hbody
  obtain ⟨f3, s₂, -, hname, hrest⟩ := run_seq_true hrest
  obtain ⟨f4, s₃, -, htail, hnot⟩ := run_seq_true hrest
  obtain ⟨hs3end, ht1⟩ := run_peekNot_dot_true hnot
  subst ht1
  have hs3 : t1.position = p.Buffer.length := hb.eq_of_get_end hs3end
  obtain ⟨g1, q₀, -, -, hq₀⟩ := run_call_true rules_Tail htail
  -- the tokens of each part
  obtain ⟨seg₁, hseg₁, hn₁, -⟩ := run_nested p.reset.buffer (fun _ => true)
    (fun _ _ _ _ _ _ => rfl) _ _ _ _ hsp
  obtain ⟨seg₂, hseg₂, hn₂, -⟩ := run_nested p.reset.buffer (fun _ => true)
    (fun _ _ _ _ _ _ => rfl) _ _ _ _ hname
  obtain ⟨seg₃, hseg₃, hn₃, hS₃⟩ := run_nested p.reset.buffer isTailRule
    isTailRule_closed _ _ _ _ htail
  rw [(reset_state p).2, tokens32.Trim_zero, List.nil_append] at hseg₁
  have hlist : q.tokens32 = seg₁ ++ seg₂ ++ seg₃ ++
      [⟨.ruleSciName, 0, p.Buffer.length⟩] := by
    rw [hq32, hst, State.add_tree, State.add_tokenIndex, tokens32.Trim_Add_succ, hseg₃,
      hseg₂, hseg₁, hs3]
    rfl
  have hmatched : Nested (Matched p.reset.buffer) 0 s₂.position (seg₁ ++ seg₂) := by
    have := hn₂.concat hn₁
    rw [(reset_state p).1] at this
    exact this
  have hs2le : s₂.position ≤ p.Buffer.length := by
    have := hn₃.le
    omega
  -- a `NameApprox` token is a token of the first two parts
  have hparts : ∀ t ∈ q.tokens32, t.pegRule = .ruleNameApprox →
      t ∈ seg₁ ++ seg₂ ∧ t.«end» = p.Buffer.length := by
    intro t hmem hrule
    rw [hlist] at hmem
    rcases List.mem_append.1 hmem with hmem | hmem
    · rcases List.mem_append.1 hmem with hmem | hmem
      · obtain ⟨f, a, b, hab, -, hbe⟩ := hmatched.ok_of_mem t hmem
        rw [hrule] at hab
        exact ⟨hmem, by rw [← hbe]; exact hend f a b hab⟩
      · have := hS₃ (fun r hr => by
          rw [List.mem_singleton.1 hr]; rfl) t hmem
        rw [hrule] at this
        cases this
    · rw [List.mem_singleton.1 hmem] at hrule
      cases hrule
  obtain ⟨t, htmem, htrule⟩ := ht
  obtain ⟨htseg, htend⟩ := hparts t htmem htrule
  have hs2 : s₂.position = p.Buffer.length := by
    have := (hmatched.bounds t htseg).2.2
    omega
  refine ⟨hend, fun t hmem hrule => (hparts t hmem hrule).2, ?_⟩
  refine ⟨tokens32.Trim q₀.tree q₀.tokenIndex, ?_⟩
  rw [hq32, hst, State.add_tree, State.add_tokenIndex, tokens32.Trim_Add_succ, hq₀,
    State.add_tree, State.add_tokenIndex, tokens32.Trim_Add_succ, State.add_position,
    List.append_assoc]
  have hq₀p : q₀.position = p.Buffer.length := by
    rw [← hs3, hq₀, State.add_position]
  rw [hq₀p, hs2, (reset_state p).1]
  rfl

/-- Instance of claim C33: `Aus sp. xyz` parses as an approximate name; the
`NameApprox` token spans the 11 runes and the `Tail` token is empty. -/
theorem NameApprox_consumes_input_witness :
    ∃ q, (Engine.new "Aus sp. xyz").reset.Parse 150 [] = .done (none, q) ∧
      ⟨.ruleNameApprox, 0, 11⟩ ∈ q.tokens32 ∧
      (∃ front, q.tokens32 = front ++ [⟨.ruleTail, 11, 11⟩, ⟨.ruleSciName, 0, 11⟩]) :=
  Exists.elim (Parse_of_filter tokens_Aus_sp_xyz)
    (fun q hq => ⟨q, hq.1, mem_of_filter_eq hq.2.1 (by decide),
      (NameApprox_consumes_input (Engine.new "Aus sp. xyz") 150 q hq.1
        ⟨⟨.ruleNameApprox, 0, 11⟩, mem_of_filter_eq hq.2.1 (by decide), rfl⟩).2.2⟩)

/-! ### The syntax tree holds every token that is not empty -/

theorem node32.mem_postorder (n : node32) (t : token32) : t ∈ n.postorder ↔ t ∈ n.tokens := by
  induction n with
  | nil => exact Iff.rfl
  | node token up next ihu ihn =>
    show t ∈ up.postorder ++ token :: next.postorder ↔ t ∈ token :: (up.tokens ++ next.tokens)
    rw [List.mem_append, List.mem_cons, List.mem_cons, List.mem_append, ihu, ihn]
    constructor
    · rintro (h | h | h)
      · exact Or.inr (Or.inl h)
      · exact Or.inl h
      · exact Or.inr (Or.inr h)
    · rintro (h | h | h)
      · exact Or.inr (Or.inl h)
      · exact Or.inl h
      · exact Or.inr (Or.inr h)

/-- The inner loop of `AST` moves nodes from the stack under the new node and
keeps their tokens in order. -/
theorem tokens32.AST.pop_postorder (token : token32) :
    ∀ (stack : List (token32 × node32 × node32)) (up : node32),
      (∀ x ∈ stack, x.2.2 = .nil) →
      tokens32.AST.stackTokens (tokens32.AST.pop token up stack).2 ++
          (tokens32.AST.pop token up stack).1.postorder =
        tokens32.AST.stackTokens stack ++ up.postorder := by
  intro stack
  induction stack with
  | nil => intro up _; rfl
  | cons x down ih =>
    intro up hst
    obtain ⟨t, u, n⟩ := x
    have hn : n = .nil := hst (t, u, n) (List.mem_cons_self _ _)
    subst hn
    by_cases hc : t.begin ≥ token.begin ∧ t.«end» ≤ token.«end»
    · have hpop : tokens32.AST.pop token up ((t, u, .nil) :: down) =
          tokens32.AST.pop token (.node t u up) down := by
        show (if t.begin ≥ token.begin ∧ t.«end» ≤ token.«end» then
          tokens32.AST.pop token (.node t u up) down else (up, (t, u, .nil) :: down)) = _
        rw [if_pos hc]
      rw [hpop, ih (.node t u up) (fun y hy => hst y (List.mem_cons_of_mem _ hy))]
      show tokens32.AST.stackTokens down ++ (u.postorder ++ t :: up.postorder) =
        (tokens32.AST.stackTokens down ++ (u.postorder ++ t :: [])) ++ up.postorder
      simp only [List.append_assoc, List.cons_append, List.nil_append]
    · have hpop : tokens32.AST.pop token up ((t, u, .nil) :: down) =
          (up, (t, u, .nil) :: down) := by
        show (if t.begin ≥ token.begin ∧ t.«end» ≤ token.«end» then
          tokens32.AST.pop token (.node t u up) down else (up, (t, u, .nil) :: down)) = _
        rw [if_neg hc]
      rw [hpop]

/-- The body of the loop of `AST` adds the token to the tokens of the stack when
it is not empty, and nothing otherwise. -/
theorem tokens32.AST.push_postorder (stack : List (token32 × node32 × node32))
    (token : token32) (hst : ∀ x ∈ stack, x.2.2 = .nil) :
    tokens32.AST.stackTokens (tokens32.AST.push stack token) =
      tokens32.AST.stackTokens stack ++
        [token].filter (fun t => decide (t.begin ≠ t.«end»)) := by
  by_cases he : token.begin = token.«end»
  · have h1 : tokens32.AST.push stack token = stack := by
      unfold tokens32.AST.push
      rw [if_pos he]
    have h2 : [token].filter (fun t => decide (t.begin ≠ t.«end»)) = [] := by
      simp [he]
    rw [h1, h2, List.append_nil]
  · have h2 : [token].filter (fun t => decide (t.begin ≠ t.«end»)) = [token] := by
      simp [he]
    rw [tokens32.AST.push_of_ne stack token he, h2]
    have h3 := tokens32.AST.pop_postorder token stack .nil hst
    show tokens32.AST.stackTokens (tokens32.AST.pop token .nil stack).2 ++
      ((tokens32.AST.pop token .nil stack).1.postorder ++ token :: []) = _
    rw [← List.append_assoc, h3]
    show (tokens32.AST.stackTokens stack ++ []) ++ [token] = _
    rw [List.append_nil]

/-- The loop of `AST` leaves on the stack nodes that hold, in the order of the
list, every token of the list that is not empty. -/
theorem tokens32.AST.foldl_postorder (l : List token32) :
    ∀ (stack : List (token32 × node32 × node32)), (∀ x ∈ stack, x.2.2 = .nil) →
      tokens32.AST.stackTokens (l.foldl tokens32.AST.push stack) =
        tokens32.AST.stackTokens stack ++ l.filter (fun t => decide (t.begin ≠ t.«end»)) := by
  induction l with
  | nil => intro stack _; simp
  | cons t l ih =>
    intro stack hst
    have hnil : ∀ x ∈ tokens32.AST.push stack t, x.2.2 = .nil := fun x hx =>
      (tokens32.AST.push_all (fun _ => True) t stack
        (fun y hy => ⟨trivial, hst y hy, fun _ _ => trivial⟩) (fun _ => trivial) x hx).2.1
    rw [List.foldl_cons, ih _ hnil, tokens32.AST.push_postorder stack t hst,
      List.append_assoc, ← List.filter_append]
    rfl

/-- The inner loop of `AST` puts under the new node only nodes inside its span. -/
theorem tokens32.AST.pop_inside (token : token32) :
    ∀ (stack : List (token32 × node32 × node32)) (up : node32),
      up.Inside → (∀ t ∈ up.tokens, token.begin ≤ t.begin ∧ t.«end» ≤ token.«end») →
      (∀ x ∈ stack, (node32.node x.1 x.2.1 x.2.2).Inside) →
      (tokens32.AST.pop token up stack).1.Inside ∧
      (∀ t ∈ (tokens32.AST.pop token up stack).1.tokens,
        token.begin ≤ t.begin ∧ t.«end» ≤ token.«end») ∧
      (∀ x ∈ (tokens32.AST.pop token up stack).2, (node32.node x.1 x.2.1 x.2.2).Inside) := by
  intro stack
  induction stack with
  | nil => intro up hup hin _; exact ⟨hup, hin, fun x hx => (by cases hx)⟩
  | cons x down ih =>
    intro up hup hin hst
    obtain ⟨t, u, n⟩ := x
    have hx : (node32.node t u n).Inside := hst (t, u, n) (List.mem_cons_self _ _)
    by_cases hc : t.begin ≥ token.begin ∧ t.«end» ≤ token.«end»
    · have hpop : tokens32.AST.pop token up ((t, u, n) :: down) =
          tokens32.AST.pop token (.node t u up) down := by
        show (if t.begin ≥ token.begin ∧ t.«end» ≤ token.«end» then
          tokens32.AST.pop token (.node t u up) down else (up, (t, u, n) :: down)) = _
        rw [if_pos hc]
      rw [hpop]
      refine ih (.node t u up) ⟨hx.1, hx.2.1, hup⟩ ?_
        (fun y hy => hst y (List.mem_cons_of_mem _ hy))
      intro t' ht'
      rcases List.mem_cons.1 ht' with ht' | ht'
      · rw [ht']; exact ⟨hc.1, hc.2⟩
      · rcases List.mem_append.1 ht' with ht' | ht'
        · have := hx.1 t' ht'
          exact ⟨Nat.le_trans hc.1 this.1, Nat.le_trans this.2 hc.2⟩
        · exact hin t' ht'
    · have hpop : tokens32.AST.pop token up ((t, u, n) :: down) = (up, (t, u, n) :: down) := by
        show (if t.begin ≥ token.begin ∧ t.«end» ≤ token.«end» then
          tokens32.AST.pop token (.node t u up) down else (up, (t, u, n) :: down)) = _
        rw [if_neg hc]
      rw [hpop]
      exact ⟨hup, hin, hst⟩

theorem tokens32.AST.push_inside (token : token32) (stack : List (token32 × node32 × node32))
    (hst : ∀ x ∈ stack, (node32.node x.1 x.2.1 x.2.2).Inside) :
    ∀ x ∈ tokens32.AST.push stack token, (node32.node x.1 x.2.1 x.2.2).Inside := by
  by_cases he : token.begin = token.«end»
  · unfold tokens32.AST.push
    rw [if_pos he]
    exact hst
  · rw [tokens32.AST.push_of_ne stack token he]
    obtain ⟨h1, h2, h3⟩ := tokens32.AST.pop_inside token stack .nil trivial
      (fun t ht => by cases ht) hst
    intro x hx
    rcases List.mem_cons.1 hx with hx | hx
    · rw [hx]
      exact ⟨h2, h1, trivial⟩
    · exact h3 x hx

/-- In the nodes that the loop of `AST` leaves on the stack, the span of every
node holds the spans of the nodes below it. -/
theorem tokens32.AST.foldl_inside (l : List token32) :
    ∀ (stack : List (token32 × node32 × node32)),
      (∀ x ∈ stack, (node32.node x.1 x.2.1 x.2.2).Inside) →
      ∀ x ∈ l.foldl tokens32.AST.push stack, (node32.node x.1 x.2.1 x.2.2).Inside := by
  induction l with
  | nil => intro stack hst; exact hst
  | cons t l ih =>
    intro stack hst
    rw [List.foldl_cons]
    exact ih _ (tokens32.AST.push_inside t stack hst)

/-- The stack at the end of the loop of `AST`, for a token list that ends with a
non-empty token over 0 to `n` when no token ends after `n`: the node of the last
token alone. -/
theorem tokens32.AST.foldl_root (front : List token32) (r : pegRule) (n : Nat) (hn : 0 < n)
    (hb : ∀ t ∈ front, t.«end» ≤ n) :
    ∃ up, (front ++ [(token32.mk r 0 n)]).foldl tokens32.AST.push [] =
      [((token32.mk r 0 n), up, .nil)] := by
  have hst := tokens32.AST.foldl_all
    (fun t => t ∈ front ++ [(token32.mk r 0 n)] ∧ t.begin ≠ t.«end») front []
    (fun x hx => by cases hx) (fun t ht hne => ⟨List.mem_append_left _ ht, hne⟩)
  have hne : (token32.mk r 0 n).begin ≠ (token32.mk r 0 n).«end» := by
    show (0 : Nat) ≠ n
    omega
  obtain ⟨-, -, h3⟩ := tokens32.AST.pop_all
    (fun t => t ∈ front ++ [(token32.mk r 0 n)] ∧ t.begin ≠ t.«end») (token32.mk r 0 n)
    (front.foldl tokens32.AST.push []) .nil (fun t ht => by cases ht) hst
  have hempty := h3 (fun x hx => by
    have hmem := (hst x hx).1.1
    rcases List.mem_append.1 hmem with hmem | hmem
    · exact ⟨Nat.zero_le _, hb _ hmem⟩
    · rw [List.mem_singleton.1 hmem]
      exact ⟨Nat.le_refl _, Nat.le_refl _⟩)
  refine ⟨(tokens32.AST.pop (token32.mk r 0 n) .nil (front.foldl tokens32.AST.push [])).1, ?_⟩
  rw [List.foldl_append, List.foldl_cons, List.foldl_nil,
    tokens32.AST.push_of_ne _ _ hne, hempty]

/-- The syntax tree of a token list whose loop leaves one node on the stack: the
tree holds every token of the list that is not empty, once and in the order of the
list, and the span of every node holds the spans of the nodes below it. -/
theorem tokens32.AST_of_foldl (l : List token32) (t : token32) (up : node32)
    (h : l.foldl tokens32.AST.push [] = [(t, up, .nil)]) :
    tokens32.AST l = .node t up .nil ∧
    (tokens32.AST l).postorder = l.filter (fun t => decide (t.begin ≠ t.«end»)) ∧
    (tokens32.AST l).Inside := by
  have hast : tokens32.AST l = .node t up .nil := by
    unfold tokens32.AST
    rw [h]
  have hpost := tokens32.AST.foldl_postorder l [] (fun x hx => by cases hx)
  have hin := tokens32.AST.foldl_inside l [] (fun x hx => by cases hx)
  rw [h] at hpost hin
  refine ⟨hast, ?_, ?_⟩
  · rw [hast]
    have h1 : tokens32.AST.stackTokens [(t, up, node32.nil)] =
        (node32.node t up .nil).postorder := List.nil_append _
    rw [← h1, hpost]
    rfl
  · rw [hast]
    exact hin (t, up, .nil) (List.mem_singleton_self _)

/-- Claim C32.  When `Parse` (root rule `SciName`) succeeds on an input of `n`
runes, the trimmed token list is laid out as trees between 0 and `n`: every token
has `begin ≤ end ≤ n` and records a match of its rule over its span, and of two
tokens the earlier one lies inside the span of the later one or ends at or before
its beginning.  `AST` then returns a single root: the node of the token `SciName`
over 0 to `n`, with no node beside it; every node of the tree is the node of a
token of the list that is not empty (`begin < end`); every token of the list that
is not empty is a node of the tree, the nodes taken below before their node and
before the nodes beside it being the non-empty tokens in the order of the list;
and the span of every node holds the spans of the nodes below it. -/
theorem Parse_tokens_nested (p : Engine) (fuel : Nat) (q : Engine)
    (h : p.reset.Parse fuel [] = .done (none, q)) :
    Nested (Matched p.reset.buffer) 0 p.Buffer.length q.tokens32 ∧
    (∀ t ∈ q.tokens32, t.begin ≤ t.«end» ∧ t.«end» ≤ p.Buffer.length) ∧
    q.tokens32.Pairwise (fun t t' =>
      (t'.begin ≤ t.begin ∧ t.«end» ≤ t'.«end») ∨ t.«end» ≤ t'.begin) ∧
    (∃ up, tokens32.AST q.tokens32 = .node ⟨.ruleSciName, 0, p.Buffer.length⟩ up .nil) ∧
    (∀ t ∈ (tokens32.AST q.tokens32).tokens, t ∈ q.tokens32 ∧ t.begin < t.«end») ∧
    (∀ t ∈ q.tokens32, t.begin ≠ t.«end» → t ∈ (tokens32.AST q.tokens32).tokens) ∧
    (tokens32.AST q.tokens32).postorder =
      q.tokens32.filter (fun t => decide (t.begin ≠ t.«end»)) ∧
    (tokens32.AST q.tokens32).Inside := by
  have hb := reset_isBuffer p
  obtain ⟨st, hrun, hq⟩ := Parse_eq_done_none h
  obtain ⟨f', s₁, s₂, q₀, c, -, hname, hc, hcc, hq₀, hlt, heq, hst⟩ := run_SciName_inv hb hrun
  have htok := tokens_of_SciName q₀ s₂.position p.Buffer.length p.reset.state rfl hq₀
  rw [← hst] at htok
  have hpos : st.position = p.Buffer.length := by
    rw [hst]
    simp only [State.add_position]
    exact hq₀
  obtain ⟨seg, hseg, hnest, -⟩ := run_nested p.reset.buffer (fun _ => true)
    (fun _ _ _ _ _ _ => rfl) fuel (.call .ruleSciName) p.reset.state st hrun
  rw [(reset_state p).2, tokens32.Trim_zero, List.nil_append] at hseg
  rw [(reset_state p).1, hpos, ← hseg] at hnest
  have hq32 : q.tokens32 = tokens32.Trim st.tree st.tokenIndex := by rw [hq]
  rw [hq32]
  have hbounds := hnest.bounds
  have hn : 0 < p.Buffer.length := by
    have h1 := run_consumes p.reset.buffer f' (.call .ruleName) s₁ s₂ hname rfl
    by_cases hsp : c = 32 ∨ c = 44
    · have := hlt hsp
      omega
    · have := heq hsp
      omega
  have hfront : ∀ t ∈ tokens32.Trim q₀.tree q₀.tokenIndex ++
      [⟨.ruleTail, s₂.position, p.Buffer.length⟩], t.«end» ≤ p.Buffer.length := by
    intro t ht
    refine (hbounds t ?_).2.2
    rw [htok]
    rcases List.mem_append.1 ht with ht | ht
    · exact List.mem_append_left _ ht
    · rw [List.mem_singleton.1 ht]
      exact List.mem_append_right _ (List.mem_cons_self _ _)
  have hlist : tokens32.Trim st.tree st.tokenIndex =
      (tokens32.Trim q₀.tree q₀.tokenIndex ++ [⟨.ruleTail, s₂.position, p.Buffer.length⟩]) ++
        [⟨.ruleSciName, 0, p.Buffer.length⟩] := by
    rw [htok, List.append_assoc]
    rfl
  obtain ⟨up, hfold⟩ := tokens32.AST.foldl_root _ .ruleSciName p.Buffer.length hn hfront
  rw [← hlist] at hfold
  obtain ⟨hroot, hpost, hin⟩ := tokens32.AST_of_foldl _ _ _ hfold
  refine ⟨hnest, fun t ht => (hbounds t ht).2, hnest.inside_or_before, ⟨up, hroot⟩, ?_, ?_,
    hpost, hin⟩
  · intro t ht
    have hmem : t ∈ (tokens32.Trim st.tree st.tokenIndex).filter
        (fun t => decide (t.begin ≠ t.«end»)) := by
      rw [← hpost]
      exact (node32.mem_postorder _ t).2 ht
    obtain ⟨hmem, hne⟩ := List.mem_filter.1 hmem
    have := (hbounds t hmem).2.1
    have hne := of_decide_eq_true hne
    exact ⟨hmem, by omega⟩
  · intro t ht hne
    refine (node32.mem_postorder _ t).1 ?_
    rw [hpost]
    exact List.mem_filter.2 ⟨ht, decide_eq_true hne⟩

/-- Instance of claim C32: `Pomatomus` parses; the root of its syntax tree is the
node of `SciName` over the 9 runes, with no node beside it, and the tree holds the
non-empty tokens of the list in their order. -/
theorem Parse_tokens_nested_witness :
    ∃ q, (Engine.new "Pomatomus").reset.Parse 100 [] = .done (none, q) ∧
      (∃ up, tokens32.AST q.tokens32 = .node ⟨.ruleSciName, 0, 9⟩ up .nil) ∧
      (∀ t ∈ q.tokens32, t.begin ≤ t.«end» ∧ t.«end» ≤ 9) ∧
      (∀ t ∈ (tokens32.AST q.tokens32).tokens, t ∈ q.tokens32 ∧ t.begin < t.«end») ∧
      (tokens32.AST q.tokens32).postorder =
        q.tokens32.filter (fun t => decide (t.begin ≠ t.«end»)) ∧
      (tokens32.AST q.tokens32).Inside :=
  Exists.elim
    (Outcome.exists_of_isParsed (r := (Engine.new "Pomatomus").reset.Parse 100 [])
      (by decide!))
    (fun q hq =>
      ⟨q, hq, (Parse_tokens_nested (Engine.new "Pomatomus") 100 q hq).2.2.2.1,
        (Parse_tokens_nested (Engine.new "Pomatomus") 100 q hq).2.1,
        (Parse_tokens_nested (Engine.new "Pomatomus") 100 q hq).2.2.2.2.1,
        (Parse_tokens_nested (Engine.new "Pomatomus") 100 q hq).2.2.2.2.2.2.1,
        (Parse_tokens_nested (Engine.new "Pomatomus") 100 q hq).2.2.2.2.2.2.2⟩)

/-! ### What follows a rank marker: the markers with a period -/

theorem matchesAt_snoc {buf : List Nat} {pos : Nat} {l : List Nat} {c : Nat}
    (h : matchesAt buf pos l = true) (hc : buf.get? (pos + l.length) = some c) :
    matchesAt buf pos (l ++ [c]) = true := by
  rw [matchesAt_append, h, Bool.true_and]
  show (buf.get? (pos + l.length) == some c && true) = true
  rw [hc]
  simp

/-- A marker among the literals `ls` followed by `(&SpaceCharEOI / '.')`: the next
rune is a space or the sentinel, or the runes matched are one of the literals and
a period. -/
theorem run_marker_period {buf : List Nat} {f : Nat} {a : Expr} {p q : State}
    {ls : List (List Nat)}
    (h : run buf f (.seq a (.alt (.peekFor (.call .ruleSpaceCharEOI)) (.char 46))) p =
      .done (true, q)) (hl : a.literals = some ls) :
    (buf.get? q.position = some ' '.toNat ∨ buf.get? q.position = some endSymbol) ∨
      ∃ l ∈ ls, matchesAt buf p.position (l ++ [46]) = true ∧
        q.position = p.position + (l ++ [46]).length := by
  obtain ⟨f1, p1, -, h1, h2⟩ := run_seq_true h
  obtain ⟨l, hmem, hm, hp⟩ := (run_literals a ls hl _ _ _ _ h1).1 rfl
  rcases run_rank_end h2 with ⟨hq, hn⟩ | ⟨hq, hd⟩
  · left
    rw [hq]
    exact hn
  · right
    refine ⟨l, hmem, matchesAt_snoc hm ?_, ?_⟩
    · rw [← hp]
      exact hd
    · rw [hq, hp, List.length_append]
      rfl

theorem run_RankForma {buf : List Nat} {f : Nat} {p q : State}
    (h : run buf f (.call .ruleRankForma) p = .done (true, q)) :
    RankEnd buf p.position q.position := by
  obtain ⟨f1, p1, -, h1, hq⟩ := run_call_true
    (rfl : rules .ruleRankForma =
      some (.seq _ (.alt (.peekFor (.call .ruleSpaceCharEOI)) (.char 46)))) h
  rw [hq, State.add_position]
  rcases run_marker_period h1 rfl with h2 | ⟨l, hmem, hm, hp⟩
  · exact Or.inl h2
  · have hin : ∀ l ∈ ["forma", "fma", "form", "fo", "f"].map runesOf,
        l ++ [46] ∈ periodRankMarkers := by decide
    exact Or.inr ⟨l ++ [46], hin l hmem, hm, hp⟩

theorem run_RankSsp {buf : List Nat} {f : Nat} {p q : State}
    (h : run buf f (.call .ruleRankSsp) p = .done (true, q)) :
    RankEnd buf p.position q.position := by
  obtain ⟨f1, p1, -, h1, hq⟩ := run_call_true
    (rfl : rules .ruleRankSsp =
      some (.seq _ (.alt (.peekFor (.call .ruleSpaceCharEOI)) (.char 46)))) h
  rw [hq, State.add_position]
  rcases run_marker_period h1 rfl with h2 | ⟨l, hmem, hm, hp⟩
  · exact Or.inl h2
  · have hin : ∀ l ∈ ["ssp", "subsp"].map runesOf, l ++ [46] ∈ periodRankMarkers := by decide
    exact Or.inr ⟨l ++ [46], hin l hmem, hm, hp⟩

/-- Rule `RankOther` ends in `&SpaceCharEOI`: the rune after its marker is a space
or the sentinel, also after a marker that ends in a period. -/
theorem run_RankOther {buf : List Nat} {f : Nat} {p q : State}
    (h : run buf f (.call .ruleRankOther) p = .done (true, q)) :
    buf.get? q.position = some ' '.toNat ∨ buf.get? q.position = some endSymbol := by
  obtain ⟨f1, p1, -, h1, hq⟩ := run_call_true
    (rfl : rules .ruleRankOther = some (.seq _ (.peekFor (.call .ruleSpaceCharEOI)))) h
  rw [hq, State.add_position]
  exact run_marker_peek h1

/-- Rule `RankOtherUncommon` ends in `&SpaceCharEOI`. -/
theorem run_RankOtherUncommon {buf : List Nat} {f : Nat} {p q : State}
    (h : run buf f (.call .ruleRankOtherUncommon) p = .done (true, q)) :
    buf.get? q.position = some ' '.toNat ∨ buf.get? q.position = some endSymbol := by
  obtain ⟨f1, p1, -, h1, hq⟩ := run_call_true
    (rfl : rules .ruleRankOtherUncommon =
      some (.seq _ (.peekFor (.call .ruleSpaceCharEOI)))) h
  rw [hq, State.add_position]
  exact run_marker_peek h1

/-- Rule `RankVar`: its alternatives `variety` and `[var.]` end without a
look-ahead; `nvar.` ends in its period; `var` ends in `(&SpaceCharEOI / '.')`. -/
theorem run_RankVar {buf : List Nat} {f : Nat} {p q : State}
    (h : run buf f (.call .ruleRankVar) p = .done (true, q)) :
    (matchesAt buf p.position (runesOf "variety") = true ∧ q.position = p.position + 7) ∨
    (matchesAt buf p.position (runesOf "[var.]") = true ∧ q.position = p.position + 6) ∨
    RankEnd buf p.position q.position := by
  obtain ⟨f1, p1, -, h1, hq⟩ := run_call_true
    (rfl : rules .ruleRankVar =
      some (.alt _ (.alt _ (.alt _ (.seq (.char 118) (.seq (.char 97) (.seq (.char 114)
        (.alt (.peekFor (.call .ruleSpaceCharEOI)) (.char 46))))))))) h
  rw [hq, State.add_position]
  obtain ⟨f2, -, h2⟩ := run_alt_true h1
  rcases h2 with h2 | ⟨p2, -, h2⟩
  · have hlit := fun hl => run_literal _ (runesOf "variety") hl _ _ _ _ h2
    obtain ⟨hm, hp⟩ := hlit rfl
    exact Or.inl ⟨hm.symm, hp rfl⟩
  obtain ⟨f3, -, h3⟩ := run_alt_true h2
  rcases h3 with h3 | ⟨p3, -, h3⟩
  · have hlit := fun hl => run_literal _ (runesOf "[var.]") hl _ _ _ _ h3
    obtain ⟨hm, hp⟩ := hlit rfl
    rw [State.restore_position] at hm hp
    exact Or.inr (Or.inl ⟨hm.symm, hp rfl⟩)
  obtain ⟨f4, -, h4⟩ := run_alt_true h3
  rcases h4 with h4 | ⟨p4, -, h4⟩
  · have hlit := fun hl => run_literal _ (runesOf "nvar.") hl _ _ _ _ h4
    obtain ⟨hm, hp⟩ := hlit rfl
    rw [State.restore_position, State.restore_position] at hm hp
    exact Or.inr (Or.inr (Or.inr ⟨runesOf "nvar.", by decide, hm.symm, hp rfl⟩))
  · obtain ⟨f5, s1, -, h5, h6⟩ := run_seq_true h4
    obtain ⟨f6, s2, -, h7, h8⟩ := run_seq_true h6
    obtain ⟨f7, s3, -, h9, h10⟩ := run_seq_true h8
    have hv := fun hl => run_literal _ [118] hl _ _ _ _ h5
    obtain ⟨hv1, hv2⟩ := hv rfl
    have ha := fun hl => run_literal _ [97] hl _ _ _ _ h7
    obtain ⟨ha1, ha2⟩ := ha rfl
    have hr := fun hl => run_literal _ [114] hl _ _ _ _ h9
    obtain ⟨hr1, hr2⟩ := hr rfl
    have hs1 := hv2 rfl
    have hs2 := ha2 rfl
    have hs3 := hr2 rfl
    simp only [State.restore_position, List.length_singleton] at hv1 hs1
    rw [hs1] at ha1 hs2
    simp only [List.length_singleton] at ha1 hs2
    rw [hs2] at hr1 hs3
    simp only [List.length_singleton] at hr1 hs3
    have hvar : matchesAt buf p.position (runesOf "var") = true := by
      have e : runesOf "var" = [118] ++ ([97] ++ [114]) := rfl
      rw [e]
      simp only [matchesAt_append, List.length_singleton, ← hv1, ← ha1, ← hr1, Bool.and_self]
    rcases run_rank_end h10 with ⟨hq', hn⟩ | ⟨hq', hd⟩
    · refine Or.inr (Or.inr (Or.inl ?_))
      rw [hq']
      exact hn
    · refine Or.inr (Or.inr (Or.inr ⟨runesOf "var.", by decide, ?_, ?_⟩))
      · have := matchesAt_snoc (c := 46) hvar (by
          rw [hs3] at hd
          exact hd)
        exact this
      · rw [hq', hs3]
        rfl

/-- Evaluated: rule `Rank` matches the 6 runes of `[var.]` in `[var.]alba`. -/
theorem run_Rank_bracket_var_alba :
    (run (runesOf "[var.]alba" ++ [endSymbol]) 30 (.call .ruleRank)
        ⟨token32.zero, 0, 0, []⟩).matched.map (fun q => q.position) = some 6 := by
  decide!

/-- Evaluated: rule `Rank` matches each marker of `periodRankMarkers` when the
letters `alba` follow its period directly. -/
theorem run_Rank_period_markers :
    periodRankMarkers.all (fun l =>
      (run (l ++ runesOf "alba" ++ [endSymbol]) 60 (.call .ruleRank)
          ⟨token32.zero, 0, 0, []⟩).matched.map (fun q => q.position) == some l.length &&
        (l ++ runesOf "alba" ++ [endSymbol]).get? l.length == some 'a'.toNat) = true := by
  decide!

/-- Claim C23 fails as stated: in `Aus bus var.alba` rule `Rank` matches `var.`
(runes 8 to 12) and the next rune is the letter `a`; in `Aus bus varietyalba` it
matches `variety` (runes 8 to 15) and the next rune is the letter `a`; at the
beginning of `[var.]alba` it matches `[var.]` before the letter `a`; and it matches
each of the markers of `periodRankMarkers` before the letter `a`. -/
theorem Rank_followed_by_letter :
    (∃ q, (Engine.new "Aus bus var.alba").reset.Parse 150 [] = .done (none, q) ∧
      ⟨.ruleRank, 8, 12⟩ ∈ q.tokens32 ∧ slice q.buffer 8 12 = runesOf "var." ∧
      q.buffer.get? 12 = some 'a'.toNat) ∧
    (∃ q, (Engine.new "Aus bus varietyalba").reset.Parse 150 [] = .done (none, q) ∧
      ⟨.ruleRank, 8, 15⟩ ∈ q.tokens32 ∧ slice q.buffer 8 15 = runesOf "variety" ∧
      q.buffer.get? 15 = some 'a'.toNat) ∧
    (∃ q, run (runesOf "[var.]alba" ++ [endSymbol]) 30 (.call .ruleRank)
        ⟨token32.zero, 0, 0, []⟩ = .done (true, q) ∧ q.position = 6 ∧
      (runesOf "[var.]alba" ++ [endSymbol]).get? 6 = some 'a'.toNat) ∧
    (∀ l ∈ periodRankMarkers, ∃ q, run (l ++ runesOf "alba" ++ [endSymbol]) 60
        (.call .ruleRank) ⟨token32.zero, 0, 0, []⟩ = .done (true, q) ∧
      q.position = l.length ∧
      (l ++ runesOf "alba" ++ [endSymbol]).get? l.length = some 'a'.toNat) :=
  ⟨Exists.elim (Parse_of_filter tokens_Aus_bus_var_alba)
      (fun q hq => ⟨q, hq.1, mem_of_filter_eq hq.2.1 (by decide), hq.2.2.symm ▸ (by decide),
        hq.2.2.symm ▸ (by decide)⟩),
    Exists.elim (Parse_of_filter tokens_Aus_bus_varietyalba)
      (fun q hq => ⟨q, hq.1, mem_of_filter_eq hq.2.1 (by decide), hq.2.2.symm ▸ (by decide),
        hq.2.2.symm ▸ (by decide)⟩),
    Exists.elim (Outcome.matched_map run_Rank_bracket_var_alba)
      (fun q hq => ⟨q, hq.1, hq.2, by decide⟩),
    fun l hl =>
      have h := List.all_eq_true.1 run_Rank_period_markers l hl
      have h2 := Bool.and_eq_true_iff.1 h
      Exists.elim (Outcome.matched_map (beq_iff_eq.1 h2.1))
        (fun q hq => ⟨q, hq.1, hq.2, beq_iff_eq.1 h2.2⟩)⟩

/-- Claim C23, amended.  Whenever rule `Rank` matches, on any buffer, from
position `p` to position `q`, and the runes at `p` are neither `variety` nor
`[var.]` (the two alternatives of `RankVar` that end without a look-ahead): the
rune at `q` is a space or the sentinel (the end of input), or the runes matched
are one of `forma.`, `fma.`, `form.`, `fo.`, `f.`, `ssp.`, `subsp.`, `var.` and
`nvar.`, whose period ends the marker.  After every other marker, those of
`RankOther` and `RankOtherUncommon` that end in a period included, a space or the
end of input follows. -/
theorem Rank_followed (buf : List Nat) (f : Nat) (p q : State)
    (h : run buf f (.call .ruleRank) p = .done (true, q))
    (hv : matchesAt buf p.position (runesOf "variety") = false)
    (hb : matchesAt buf p.position (runesOf "[var.]") = false) :
    (buf.get? q.position = some ' '.toNat ∨ buf.get? q.position = some endSymbol) ∨
    ∃ l ∈ periodRankMarkers, matchesAt buf p.position l = true ∧
      q.position = p.position + l.length := by
  show RankEnd buf p.position q.position
  obtain ⟨f1, p1, -, h1, hq⟩ := run_call_true
    (rfl : rules .ruleRank = some (.alt (.call .ruleRankForma) (.alt (.call .ruleRankVar)
      (.alt (.call .ruleRankSsp) (.alt (.call .ruleRankOther)
        (.call .ruleRankOtherUncommon)))))) h
  rw [hq, State.add_position]
  obtain ⟨f2, -, h2⟩ := run_alt_true h1
  rcases h2 with h2 | ⟨p2, -, h2⟩
  · exact run_RankForma h2
  obtain ⟨f3, -, h3⟩ := run_alt_true h2
  rcases h3 with h3 | ⟨p3, -, h3⟩
  · have := run_RankVar h3
    rw [State.restore_position] at this
    rcases this with ⟨hm, -⟩ | ⟨hm, -⟩ | this
    · rw [hv] at hm
      cases hm
    · rw [hb] at hm
      cases hm
    · exact this
  obtain ⟨f4, -, h4⟩ := run_alt_true h3
  rcases h4 with h4 | ⟨p4, -, h4⟩
  · have := run_RankSsp h4
    rw [State.restore_position] at this
    exact this
  obtain ⟨f5, -, h5⟩ := run_alt_true h4
  rcases h5 with h5 | ⟨p5, -, h5⟩
  · exact Or.inl (run_RankOther h5)
  · exact Or.inl (run_RankOtherUncommon h5)

/-- Instance of the amended claim C23: in `var. alba` rule `Rank` matches `var.`,
one of the markers with a period, and a space follows. -/
theorem Rank_followed_witness :
    ∃ q, run (runesOf "var. alba" ++ [endSymbol]) 30 (.call .ruleRank)
        ⟨token32.zero, 0, 0, []⟩ = .done (true, q) ∧ q.position = 4 ∧
      (((runesOf "var. alba" ++ [endSymbol]).get? q.position = some ' '.toNat ∨
        (runesOf "var. alba" ++ [endSymbol]).get? q.position = some endSymbol) ∨
      ∃ l ∈ periodRankMarkers, matchesAt (runesOf "var. alba" ++ [endSymbol]) 0 l = true ∧
        q.position = 0 + l.length) :=
  Exists.elim (Outcome.matched_map run_Rank_var_alba)
    (fun q hq => ⟨q, hq.1, hq.2,
      Rank_followed (runesOf "var. alba" ++ [endSymbol]) 30 ⟨token32.zero, 0, 0, []⟩ q hq.1
        (by decide) (by decide)⟩)

/-! ### The stemmed canonical form: the test of the repository -/

/-- Claim C14 fails as stated: the test of the repository expects
`Leptochloopsis uirgat` for `Leptochloöpsis virgata`, so a function that returns
what the test expects does not keep the first token verbatim; and the function of
the specification, which keeps it, does not pass the test, whatever the stemmer of
a word is. -/
theorem StemCanonical_genus_not_verbatim :
    ("Leptochloöpsis virgata", "Leptochloopsis uirgat") ∈ StemCanonicalTestData ∧
    (∀ f : String → String, f "Leptochloöpsis virgata" = "Leptochloopsis uirgat" →
      (spaceTokens (f "Leptochloöpsis virgata")).head? ≠
        (spaceTokens "Leptochloöpsis virgata").head?) ∧
    (∀ Stem : String → String, ¬ PassesStemCanonicalTest (stemmer.StemCanonical Stem)) := by
  refine ⟨by decide, ?_, ?_⟩
  · intro f hf
    rw [hf]
    decide
  · intro Stem hf
    have h1 := hf ("Leptochloöpsis virgata", "Leptochloopsis uirgat") (by decide)
    exact Leptochloopsis_ne (Stem "virgata") h1

/-- Claim C14, amended.  For every parsed name, whatever function `StemCanonical`
is, the canonical record of the node and of the output holds as `Stemmed` the
result of `StemCanonical` on its `Simple`, the simple canonical of the name
data. -/
theorem Canonical_stemmed {W M H S B : Type} [LinearOrder M]
    [Inhabited H] [Inhabited S] [Inhabited B]
    (StemCanonical : String → String) (NewQualityWarning : W → parsed.QualityWarning M)
    (sn : scientificNameNode W H S B) (withDetails : Bool) (nameData : name)
    (h : sn.nameData = some nameData) :
    sn.Canonical StemCanonical =
      some { Stemmed := StemCanonical nameData.canonical.Value
             Simple := nameData.canonical.Value
             Full := nameData.canonical.ValueRanked } ∧
    (sn.ToOutput StemCanonical NewQualityWarning withDetails).Canonical =
      sn.Canonical StemCanonical ∧
    ∃ c, (sn.ToOutput StemCanonical NewQualityWarning withDetails).Canonical = some c ∧
      c.Simple = nameData.canonical.Value ∧ c.Stemmed = StemCanonical c.Simple := by
  have hc : sn.Canonical StemCanonical =
      some { Stemmed := StemCanonical nameData.canonical.Value
             Simple := nameData.canonical.Value
             Full := nameData.canonical.ValueRanked } := by
    unfold scientificNameNode.Canonical
    rw [h]
  have ho : (sn.ToOutput StemCanonical NewQualityWarning withDetails).Canonical =
      sn.Canonical StemCanonical := by
    cases withDetails <;> simp [scientificNameNode.ToOutput, hc]
  refine ⟨hc, ho, _, ho.trans hc, rfl, rfl⟩

/-! ### The stemmer -/

namespace stemmer

/-- One step of `longestSuffix` keeps what it holds right. -/
theorem LongestAmong.snoc (w : List Char) (P : List (List Char)) (best : Option (List Char))
    (s : List Char) :
    LongestAmong w P best →
    LongestAmong w (P ++ [s])
      (if s.isSuffixOf w &&
          (match best with
           | some b => decide (b.length < s.length)
           | none => true) then some s
      else best) := by
  intro h
  cases best with
  | none =>
    show LongestAmong w (P ++ [s]) (if (s.isSuffixOf w && true) = true then some s else none)
    cases hs : s.isSuffixOf w with
    | false =>
      show ∀ s' ∈ P ++ [s], s'.isSuffixOf w = false
      intro s' hs'
      rcases List.mem_append.1 hs' with hs' | hs'
      · exact h s' hs'
      · rw [List.mem_singleton.1 hs']
        exact hs
    | true =>
      refine ⟨List.mem_append_right _ (List.mem_singleton_self _), hs, ?_⟩
      intro s' hs' hsuf
      rcases List.mem_append.1 hs' with hs' | hs'
      · have := h s' hs'
        rw [this] at hsuf
        cases hsuf
      · rw [List.mem_singleton.1 hs']
  | some b =>
    obtain ⟨hb, hbs, hbl⟩ := h
    show LongestAmong w (P ++ [s])
      (if (s.isSuffixOf w && decide (b.length < s.length)) = true then some s else some b)
    by_cases hc : (s.isSuffixOf w && decide (b.length < s.length)) = true
    · rw [if_pos hc]
      rw [Bool.and_eq_true, decide_eq_true_eq] at hc
      refine ⟨List.mem_append_right _ (List.mem_singleton_self _), hc.1, ?_⟩
      intro s' hs' hsuf
      rcases List.mem_append.1 hs' with hs' | hs'
      · have := hbl s' hs' hsuf
        omega
      · rw [List.mem_singleton.1 hs']
    · rw [if_neg hc]
      refine ⟨List.mem_append_left _ hb, hbs, ?_⟩
      intro s' hs' hsuf
      rcases List.mem_append.1 hs' with hs' | hs'
      · exact hbl s' hs' hsuf
      · rw [List.mem_singleton.1 hs'] at hsuf ⊢
        rw [Bool.and_eq_true, decide_eq_true_eq] at hc
        by_contra hlt
        exact hc ⟨hsuf, by omega⟩

theorem LongestAmong.of_foldl (w : List Char) (L : List (List Char)) :
    ∀ (P : List (List Char)) (best : Option (List Char)), LongestAmong w P best →
      LongestAmong w (P ++ L)
        (L.foldl
          (fun best s =>
            if s.isSuffixOf w &&
                (match best with
                 | some b => decide (b.length < s.length)
                 | none => true) then some s
            else best)
          best) := by
  induction L with
  | nil =>
    intro P best h
    rw [List.append_nil]
    exact h
  | cons s L ih =>
    intro P best h
    rw [List.foldl_cons]
    have := ih (P ++ [s]) _ (LongestAmong.snoc w P best s h)
    rw [List.append_assoc] at this
    exact this

/-- Function `longestSuffix` gives none when the word ends in no suffix of the
table, and otherwise a suffix of the table that the word ends in and that is as
long as any other such. -/
theorem longestSuffix_spec (w : List Char) : LongestAmong w suffixes (longestSuffix w) :=
  LongestAmong.of_foldl w suffixes [] none (fun s hs => by cases hs)

theorem isSuffixOf_eq_of_length {a b w : List Char} (ha : a.isSuffixOf w = true)
    (hb : b.isSuffixOf w = true) (h : a.length = b.length) : a = b := by
  rw [List.isSuffixOf_iff_suffix] at ha hb
  exact (List.suffix_of_suffix_length_le ha hb (Nat.le_of_eq h)).eq_of_length h

theorem longestSuffix_eq_some {w s : List Char} (hs : s ∈ suffixes)
    (hsuf : s.isSuffixOf w = true)
    (hlong : ∀ s' ∈ suffixes, s'.isSuffixOf w = true → s'.length ≤ s.length) :
    longestSuffix w = some s := by
  have h := longestSuffix_spec w
  cases hl : longestSuffix w with
  | none =>
    rw [hl] at h
    have := h s hs
    rw [this] at hsuf
    cases hsuf
  | some b =>
    rw [hl] at h
    obtain ⟨hb, hbs, hbl⟩ := h
    rw [isSuffixOf_eq_of_length hbs hsuf (Nat.le_antisymm (hlong b hb hbs) (hbl s hs hsuf))]

theorem take_append_suffix {b w : List Char} (h : b.isSuffixOf w = true) :
    w.take (w.length - b.length) ++ b = w := by
  rw [List.isSuffixOf_iff_suffix] at h
  obtain ⟨t, rfl⟩ := h
  rw [List.length_append, Nat.add_sub_cancel, List.take_left' rfl]

theorem isSuffixOf_append (u s : List Char) : s.isSuffixOf (u ++ s) = true := by
  rw [List.isSuffixOf_iff_suffix]
  exact List.suffix_append _ _

/-- A word that ends in `que` ends in `e` and in no other suffix of the table. -/
theorem suffix_que_ends {s u : List Char} (h : s.isSuffixOf (u ++ "que".toList) = true)
    (hlen : 2 ≤ s.length) : s.reverse.take 2 = ['e', 'u'] := by
  rw [List.isSuffixOf_iff_suffix] at h
  have hp : s.reverse <+: (u ++ "que".toList).reverse := List.reverse_prefix.2 h
  obtain ⟨t, ht⟩ := hp
  have h2 := congrArg (List.take 2) ht
  rw [List.take_append_of_le_length (by rw [List.length_reverse]; exact hlen),
    List.reverse_append] at h2
  exact h2

theorem longestSuffix_que (u : List Char) :
    longestSuffix (u ++ "que".toList) = some "e".toList := by
  have e : u ++ "que".toList = (u ++ "qu".toList) ++ "e".toList := by
    rw [List.append_assoc]
    rfl
  refine longestSuffix_eq_some (by decide) ?_ ?_
  · rw [e]
    exact isSuffixOf_append _ _
  · intro s hs hsuf
    by_contra hlen
    have htab : ∀ s ∈ suffixes, 2 ≤ s.length → s.reverse.take 2 ≠ ['e', 'u'] := by decide
    exact htab s hs (by
      have : ("e".toList).length = 1 := rfl
      omega) (suffix_que_ends hsuf (by
      have : ("e".toList).length = 1 := rfl
      omega))

/-- Rule 2 on a word that ends in `que`: the suffix `e` is replaced. -/
theorem removeSuffix_que (replacement : List Char → List Char) (u : List Char) :
    removeSuffix replacement (u ++ "que".toList) =
      u ++ "qu".toList ++ replacement "e".toList := by
  unfold removeSuffix
  rw [longestSuffix_que]
  show (u ++ "que".toList).take ((u ++ "que".toList).length - 1) ++ _ = _
  have e : u ++ "que".toList = (u ++ "qu".toList) ++ "e".toList := by
    rw [List.append_assoc]
    rfl
  rw [e, List.length_append]
  show ((u ++ "qu".toList) ++ "e".toList).take ((u ++ "qu".toList).length + 1 - 1) ++ _ = _
  rw [Nat.add_sub_cancel, List.take_left' rfl]

theorem isSuffixOf_que (u : List Char) : "que".toList.isSuffixOf (u ++ "que".toList) = true :=
  isSuffixOf_append u _

theorem take_que (u : List Char) :
    (u ++ "que".toList).take ((u ++ "que".toList).length - 3) = u := by
  have h : (u ++ "que".toList).length - 3 = u.length := by
    rw [List.length_append]
    show u.length + 3 - 3 = u.length
    omega
  rw [h, List.take_left' rfl]

/-- Rule 3 on a word that ends in `que`. -/
theorem removeQue_que (more : List (List Char)) (u : List Char) :
    removeQue more (u ++ "que".toList) =
      if u ++ "que".toList ∈ queExceptions ++ more then u ++ "que".toList else u := by
  unfold removeQue
  by_cases h : u ++ "que".toList ∈ queExceptions ++ more
  · have hn : ¬ ("que".toList.isSuffixOf (u ++ "que".toList) = true ∧
        u ++ "que".toList ∉ queExceptions ++ more) := fun hc => hc.2 h
    rw [if_neg hn, if_pos h]
  · rw [if_pos ⟨isSuffixOf_que u, h⟩, if_neg h, take_que]

/-- The rules 2 to 4 on a word that ends in `que`, when the table keeps the suffix
`e`: rule 2 leaves the word as it is, rule 3 removes `que` unless the word is an
exception, and rule 4 gives the word back when fewer than 3 runes are left. -/
theorem stemRunes_que (replacement : List Char → List Char) (more : List (List Char))
    (u : List Char) (he : replacement "e".toList = "e".toList) :
    stemRunes replacement more (u ++ "que".toList) =
      if u ++ "que".toList ∈ queExceptions ++ more then u ++ "que".toList
      else if u.length < 3 then u ++ "que".toList
      else u := by
  have e : u ++ "qu".toList ++ "e".toList = u ++ "que".toList := by
    rw [List.append_assoc]
    rfl
  unfold stemRunes
  simp only [removeSuffix_que, he, e, removeQue_que]
  by_cases h : u ++ "que".toList ∈ queExceptions ++ more
  · simp only [h, if_true]
    split_ifs <;> rfl
  · simp only [h, if_false]

/-- In the order of the rules of the specification, the first assertion of the
test of the repository (`somethingque` gives `something`) holds exactly when the
table keeps the suffix `e` and `somethingque` is no exception. -/
theorem Stem_somethingque_iff (replacement : List Char → List Char)
    (more : List (List Char)) :
    (Stem replacement more "somethingque").Stem = "something" ↔
      replacement "e".toList = "e".toList ∧ "somethingque".toList ∉ more := by
  have hlat : latinize "somethingque".toList = "something".toList ++ "que".toList := by decide
  have hst : (Stem replacement more "somethingque").Stem =
      String.mk (stemRunes replacement more ("something".toList ++ "que".toList)) := by
    show String.mk (stemRunes replacement more (latinize "somethingque".toList)) = _
    rw [hlat]
  constructor
  · intro h
    rw [hst] at h
    have h1 : stemRunes replacement more ("something".toList ++ "que".toList) =
        "something".toList := congrArg String.data h
    unfold stemRunes at h1
    simp only [removeSuffix_que] at h1
    split_ifs at h1 with hlen
    · exact absurd h1 (by decide)
    · unfold removeQue at h1
      split_ifs at h1 with hc
      · have h2 : ("something".toList ++ "qu".toList ++ replacement "e".toList).take
            (("something".toList ++ "qu".toList ++ replacement "e".toList).length - 3) ++
            "que".toList = "something".toList ++ "qu".toList ++ replacement "e".toList :=
          take_append_suffix hc.1
        rw [h1] at h2
        have h3 : "something".toList ++ "qu".toList ++ ("e".toList) =
            "something".toList ++ "qu".toList ++ replacement "e".toList := h2
        have h4 := (List.append_cancel_left h3).symm
        refine ⟨h4, ?_⟩
        intro hm
        refine hc.2 (List.mem_append_right _ ?_)
        rw [h4]
        exact hm
      · have h2 := congrArg List.length h1
        simp only [List.length_append] at h2
        have h5 : "something".toList.length = 9 := rfl
        have h6 : "qu".toList.length = 2 := rfl
        omega
  · rintro ⟨he, hm⟩
    rw [hst, stemRunes_que replacement more _ he, if_neg, if_neg (by decide)]
    · rfl
    · intro hc
      rcases List.mem_append.1 hc with hc | hc
      · revert hc
        decide
      · exact hm hc

end stemmer

/-- Instance of the amended claim C14: with the function of the specification and
the modelled stemmer as `StemCanonical`, the canonical record of `Betula alba` is
`Betula alb`, `Betula alba`, `Betula alba`. -/
theorem Canonical_stemmed_witness :
    ({ parsedNode with nameData := some (.speciesNode betulaAlba) } :
        scientificNameNode TestWarning (Option String) (Option String)
          (Option String)).Canonical
      (stemmer.StemCanonical (fun w => (stemmer.Stem stemmer.plainReplacement [] w).Stem)) =
      some { Stemmed := "Betula alb", Simple := "Betula alba", Full := "Betula alba" } :=
  ((Canonical_stemmed
    (stemmer.StemCanonical (fun w => (stemmer.Stem stemmer.plainReplacement [] w).Stem))
    TestWarning.NewQualityWarning
    { parsedNode with nameData := some (.speciesNode betulaAlba) } false
    (.speciesNode betulaAlba) rfl).1).trans (by decide)

end Gnparser
